import Mathlib

/-!
# qmake project model evaluator (`qmakeparsernodes.cpp`)

A shallow embedding of the `QmakePriFile` / `QmakeProFile` / `QmakeEvalResult`
family of `src/plugins/qmakeprojectmanager/qmakeparsernodes.cpp`, followed by
theorems about it.

Conventions of the embedding:

* `QSet<T>` is a list read as a set: `insert` appends an element that is not
  yet a member, `subtract` filters. The theorems about sets hold for every
  listing of their elements.
* `QMap<FileType, X>` is a total function `FileType → X`; an absent key and
  a key bound to the default value are not told apart, as with `value()` and
  `operator[]`, the only accessors the code uses.
* Heap objects are addressed by `NodeId`; the heap is a total function from
  addresses to objects and `next` is the first address never handed out.
-/

namespace Qmake

/-! ## Basic types -/

/-- A file path (`Utils::FilePath`), kept as its path string. -/
abbrev FilePath := String

/-- Modelled from the spec: the file-type categories of `ProjectExplorer::FileType`
(declared in `projectexplorer/projectnodes.h`), "Header, Source, Resource, Form,
StateChart, Project, QML, Unknown". -/
inductive FileType where
  | Unknown | Header | Source | Form | StateChart | Resource | QML | Project
  deriving DecidableEq, Repr

/-- The values `static_cast<FileType>(i)` of the loops
`for (int i = 0; i < static_cast<int>(FileType::FileTypeSize); ++i)`, in the
order of the enumerators in `projectexplorer/projectnodes.h`, which starts with
`Unknown = 0`. A theorem that depends on this order says so. -/
def FileType.all : List FileType :=
  [.Unknown, .Header, .Source, .Form, .StateChart, .Resource, .QML, .Project]

/-- Modelled from the spec: `FileOrigin`, "origin ∈ {ExactParse, CumulativeParse}". -/
inductive FileOrigin where
  | ExactParse | CumulativeParse
  deriving DecidableEq, Repr

/-- `SourceFile = QPair<FilePath, FileOrigin>`. -/
abbrev SourceFile := FilePath × FileOrigin

/-- `QSet<T>`, as a list read as a set. -/
abbrev QSet (α : Type) := List α

/-- `SourceFiles = QSet<SourceFile>`. -/
abbrev SourceFiles := QSet SourceFile

/-- `QSet::insert`. -/
def QSet.insert {α : Type} [DecidableEq α] (s : QSet α) (a : α) : QSet α :=
  if a ∈ s then s else s ++ [a]

/-- `QSet::subtract` / `operator-`. -/
def QSet.subtract {α : Type} [DecidableEq α] (s t : QSet α) : QSet α :=
  s.filter fun a => decide (a ∉ t)

/-- `QSet::unite` / `operator+=`. -/
def QSet.unite {α : Type} [DecidableEq α] (s t : QSet α) : QSet α :=
  t.foldl QSet.insert s

/-- Modelled from the spec: `FilePath::endsWith` (`utils/filepath.h`), the
suffix test behind "keeps only `.qml`-suffixed paths". -/
def FilePath.endsWith (p : FilePath) (s : String) : Bool :=
  s.data.isSuffixOf p.data

/-- Address of a `QmakePriFile` object. -/
abbrev NodeId := Nat

/-- Modelled from the spec: `ProjectType`, "Application/StaticLib/SharedLib/
Script/Aux/SubDirs/Invalid". -/
inductive ProjectType where
  | Invalid | ApplicationTemplate | StaticLibraryTemplate | SharedLibraryTemplate
  | ScriptTemplate | AuxTemplate | SubDirsTemplate
  deriving DecidableEq, Repr

/-- `class QmakePriFileEvalResult`. -/
structure QmakePriFileEvalResult where
  folders : QSet FilePath := []
  recursiveEnumerateFiles : QSet FilePath := []
  foundFilesExact : FileType → QSet FilePath := fun _ => []
  foundFilesCumulative : FileType → QSet FilePath := fun _ => []

/-- Calls made on the build-system coordinator (`QmakeBuildSystem`), which the
core consumes and does not implement; the embedding records them in order. -/
inductive BuildSystemCall where
  | unwatchFolders (folders : List String) (owner : NodeId)
  | watchFolders (folders : List String) (owner : NodeId)
  | proFileParseError (msg : String) (file : FilePath)
  | destroyProFileReader (reader : Nat)
  | createProFileReader (owner : NodeId)
  | incrementPendingEvaluateFutures
  | decrementPendingEvaluateFutures
  | asyncEvaluate (owner : NodeId)
  deriving DecidableEq, Repr

/-- `ProFileEvaluator::SourceFile`. -/
structure EvaluatorSourceFile where
  fileName : String
  proFileId : Int
  deriving DecidableEq, Repr

/-- `InstallsItem`. -/
structure InstallsItem where
  path : String
  files : List EvaluatorSourceFile
  active : Bool
  executable : Bool
  deriving DecidableEq, Repr

/-- `InstallsList`. -/
structure InstallsList where
  targetPath : String := ""
  items : List InstallsItem := []
  deriving DecidableEq, Repr

/-- `TargetInformation`. -/
structure TargetInformation where
  valid : Bool := false
  target : String := ""
  destDir : FilePath := ""
  buildDir : FilePath := ""
  buildTarget : String := ""
  deriving DecidableEq, Repr

/-- Modelled from the spec: the `Variable` keys of the resolved values of a
`QmakeProFile`, "Variable → ordered string list, e.g. Defines, IncludePath";
one constructor per key that `evaluate` assigns. -/
inductive Variable where
  | Defines | IncludePath | CppFlags | CFlags | ExactSource | CumulativeSource
  | ExactResource | CumulativeResource | UiDir | HeaderExtension | CppExtension | MocDir
  | PkgConfig | PrecompiledHeader | LibDirectories | Config | Qt | QmlImportPath
  | QmlDesignerImportPath | Makefile | ObjectExt | ObjectsDir | Version | TargetExt
  | TargetVersionExt | StaticLibExtension | ShLibExtension | AndroidAbi | AndroidAbis
  | AndroidDeploySettingsFile | AndroidPackageSourceDir | AndroidExtraLibs
  | AndroidApplicationArgs | AppmanPackageDir | AppmanManifest | IsoIcons
  | QmakeProjectName | QmakeCc | QmakeCxx | IosDeploymentTarget
  deriving DecidableEq, Repr

/-- One `QmakePriFile` object; for an object whose dynamic type is
`QmakeProFile` (`isProFile`), the members of the derived class as well. -/
structure QmakePriFile where
  isProFile : Bool := false
  m_filePath : FilePath := ""
  m_parent : Option NodeId := none
  m_children : List NodeId := []
  m_buildSystem : Bool := false
  m_qmakeProFile : Option NodeId := none
  m_files : FileType → SourceFiles := fun _ => []
  m_recursiveEnumerateFiles : QSet FilePath := []
  m_watchedFolders : QSet String := []
  m_includedInExactParse : Bool := true
  m_validParse : Bool := false
  m_parseInProgress : Bool := false
  m_projectType : ProjectType := .Invalid
  m_readerExact : Option Nat := none
  m_readerCumulative : Option Nat := none
  m_parseFutureWatcher : Bool := false
  m_varValues : List (Variable × List String) := []
  m_qmakeTargetInformation : TargetInformation := {}
  m_installsList : InstallsList := {}
  m_subProjectsNotToDeploy : List FilePath := []
  m_displayName : String := ""
  m_featureRoots : List String := []
  deleted : Bool := false

/-! ## `QmakePriFile`: file buckets -/

/-- `QmakePriFile::filterFilesProVariables`. -/
def filterFilesProVariables (fileType : FileType) (files : QSet FilePath) : QSet FilePath :=
  if fileType ≠ .QML ∧ fileType ≠ .Unknown then files
  else if fileType = .QML then
    files.foldl (fun result file => if file.endsWith ".qml" then QSet.insert result file else result) []
  else
    files.foldl (fun result file => if !file.endsWith ".qml" then QSet.insert result file else result) []

/-- `QmakePriFile::filterFilesRecursiveEnumerata`. -/
def filterFilesRecursiveEnumerata (fileType : FileType) (files : QSet FilePath) : QSet FilePath :=
  if fileType ≠ .QML ∧ fileType ≠ .Unknown then []
  else if fileType = .QML then
    files.foldl (fun result file => if file.endsWith ".qml" then QSet.insert result file else result) []
  else
    files.foldl (fun result file => if !file.endsWith ".qml" then QSet.insert result file else result) []

/-- `QmakePriFile::watchFolders`. -/
def QmakePriFile.watchFolders (this : NodeId) (self : QmakePriFile) (folders : QSet FilePath) :
    QmakePriFile × List BuildSystemCall :=
  let folderStrings : QSet String := folders.foldl QSet.insert []
  let toUnwatch := QSet.subtract self.m_watchedFolders folderStrings
  let toWatch := QSet.subtract folderStrings self.m_watchedFolders
  let calls :=
    if self.m_buildSystem then
      [BuildSystemCall.unwatchFolders toUnwatch this, BuildSystemCall.watchFolders toWatch this]
    else []
  ({ self with m_watchedFolders := folderStrings }, calls)

/-- The body of the per-type loop of `QmakePriFile::update`: the new contents
of `m_files[type]`. -/
def updateFiles (exactFps cumulativeFps : QSet FilePath) : SourceFiles :=
  let files : SourceFiles := []
  let files := exactFps.foldl (fun files exactFp => QSet.insert files (exactFp, .ExactParse)) files
  cumulativeFps.foldl
    (fun files cumulativeFp =>
      if !exactFps.contains cumulativeFp then QSet.insert files (cumulativeFp, .CumulativeParse)
      else files)
    files

/-- `QmakePriFile::update`. -/
def QmakePriFile.update (this : NodeId) (self : QmakePriFile) (result : QmakePriFileEvalResult) :
    QmakePriFile × List BuildSystemCall :=
  let self := { self with m_recursiveEnumerateFiles := result.recursiveEnumerateFiles }
  let (self, calls) := self.watchFolders this result.folders
  let self := FileType.all.foldl
    (fun (self : QmakePriFile) type =>
      { self with
        m_files := Function.update self.m_files type
          (updateFiles (result.foundFilesExact type) (result.foundFilesCumulative type)) })
    self
  (self, calls)

/-- `QmakePriFile::knowsFile`. -/
def QmakePriFile.knowsFile (self : QmakePriFile) (filePath : FilePath) : Bool :=
  self.m_recursiveEnumerateFiles.contains filePath

/-- Body of the loop `for (const FilePath &fp : add)` of `QmakePriFile::folderChanged`. -/
def folderChangedAdd (currentFiles : SourceFiles) (fp : FilePath) : SourceFiles :=
  if !currentFiles.any (fun sf => sf.1 == fp) then QSet.insert currentFiles (fp, .ExactParse)
  else currentFiles

/-- Body of the loop `for (const FilePath &fp : remove)` of `QmakePriFile::folderChanged`:
`std::find_if` for an entry of that path, erased when found. -/
def folderChangedRemove (currentFiles : SourceFiles) (fp : FilePath) : SourceFiles :=
  match currentFiles.find? (fun sf => sf.1 == fp) with
  | some it => currentFiles.erase it
  | none => currentFiles

/-- The body of the per-type loop of `QmakePriFile::folderChanged`, on
`currentFiles = m_files[type]`. -/
def folderChangedFiles (currentFiles : SourceFiles) (add remove : QSet FilePath) : SourceFiles :=
  if !add.isEmpty || !remove.isEmpty then
    let currentFiles := add.foldl folderChangedAdd currentFiles
    remove.foldl folderChangedRemove currentFiles
  else currentFiles

/-- `QmakePriFile::folderChanged`. `isChildOf file folder` stands for
`file.isChildOf(FilePath::fromString(folder))` of `utils/filepath.h`. -/
def QmakePriFile.folderChanged (isChildOf : FilePath → String → Bool) (self : QmakePriFile)
    (changedFolder : String) (newFiles : QSet FilePath) : Bool × QmakePriFile :=
  let addedFiles := QSet.subtract newFiles self.m_recursiveEnumerateFiles
  let removedFiles := (QSet.subtract self.m_recursiveEnumerateFiles newFiles).filter
    fun file => isChildOf file changedFolder
  if addedFiles.isEmpty && removedFiles.isEmpty then (false, self)
  else
    let self := { self with m_recursiveEnumerateFiles := newFiles }
    let self := FileType.all.foldl
      (fun (self : QmakePriFile) type =>
        let add := filterFilesRecursiveEnumerata type addedFiles
        let remove := filterFilesRecursiveEnumerata type removedFiles
        { self with
          m_files := Function.update self.m_files type
            (folderChangedFiles (self.m_files type) add remove) })
      self
    (true, self)

/-- No path has two entries in the bucket. -/
def UniquePaths (files : SourceFiles) : Prop := (files.map Prod.fst).Nodup

/-- Modelled from the spec: `FilePath::isChildOf` (`utils/filepath.h`), the test
behind "files under `folder`": the folder is a proper prefix of the path that
ends in `/` or is followed by `/` in the path. -/
def FilePath.isChildOf (p : FilePath) (s : String) : Bool :=
  if s.data.isEmpty then false
  else if !s.data.isPrefixOf p.data then false
  else if p.data.length ≤ s.data.length then false
  else if ['/'].isSuffixOf s.data then true
  else p.data.get? s.data.length == some '/'

/-- Bucket invariant of a node: no path has two entries in a bucket, the QML
bucket holds only `.qml` paths and the Unknown bucket none. -/
def BucketsConsistent (self : QmakePriFile) : Prop :=
  (∀ type, UniquePaths (self.m_files type)) ∧
  (∀ sf ∈ self.m_files .QML, sf.1.endsWith ".qml" = true) ∧
  (∀ sf ∈ self.m_files .Unknown, sf.1.endsWith ".qml" = false)

/-- A node that knows the enumerated file `d/a.qml`, used in examples. -/
def exampleNode : QmakePriFile :=
  { m_filePath := "p.pri"
    m_recursiveEnumerateFiles := ["d/a.qml"]
    m_files := fun type => if type = .QML then [("d/a.qml", .ExactParse)] else [] }

/-! ## The evaluator adapter and the file system (external collaborators) -/

/-- A `ProFile *` handle of the evaluator: the address of the object, its file
id (`id()`) and its file name (`fileName()`). -/
structure ProFile where
  ptr : Nat
  id : Int
  fileName : String
  deriving DecidableEq, Repr

/-- `ProFileEvaluator::TemplateType`. -/
inductive TemplateType where
  | TT_Unknown | TT_Application | TT_StaticLibrary | TT_SharedLibrary | TT_Script | TT_Aux
  | TT_Subdirs
  deriving DecidableEq, Repr

/-- Modelled from the spec: the evaluator adapter boundary (`QtSupport::ProFileReader`),
"accept, values, absoluteFileValues, fixifiedValues, includeFiles, templateType,
propertyValue". A reader is given by what its queries return; `handled` of
`absoluteFileValues` is threaded through, and the wildcard directories it
reports are returned. -/
structure ProFileReader where
  parsedProFile : Option ProFile := none
  accept : Bool := false
  values : String → List String := fun _ => []
  contains : String → Bool := fun _ => false
  value : String → String := fun _ => ""
  propertyValue : String → String := fun _ => ""
  templateType : TemplateType := .TT_Unknown
  includeFiles : List (ProFile × List ProFile) := []
  absoluteFileValues : String → String → List String → List String →
    List EvaluatorSourceFile × List String × List String := fun _ _ _ handled => ([], handled, [])
  absolutePathValues : String → String → List String := fun _ _ => []
  fixifiedValues : String → String → String → Bool → List EvaluatorSourceFile :=
    fun _ _ _ _ => []
  featureRoots : List String := []

/-- `QMakeGlobals` together with `QMakeVfs`: the device root, and the reader that
`new QtSupport::ProFileReader(qmakeGlobals, qmakeVfs)` becomes once its output
directory, cumulative flag, extra variables and extra configs are set. -/
structure QMakeGlobals where
  device_root : String := ""
  newReader : String → Bool → List (String × List String) → List String → ProFileReader :=
    fun _ _ _ _ => {}

/-- The file-system queries the code makes through `QFileInfo`, `QFile`, `QDir` and
`IoUtils`. -/
structure FileSystem where
  fileExists : String → Bool := fun _ => false
  isDir : String → Bool := fun _ => false
  isAbsolute : String → Bool := fun _ => true
  cleanPath : String → String := fun p => p
  fileName : String → String := fun p => p
  baseName : String → String := fun p => p
  recursiveEnumerate : String → QSet FilePath := fun _ => []
  fromUserInput : String → FilePath := fun p => p

/-- `class QmakeEvalInput`. -/
structure QmakeEvalInput where
  projectDir : String := ""
  projectFilePath : FilePath := ""
  buildDirectory : FilePath := ""
  sysroot : FilePath := ""
  readerExact : ProFileReader := {}
  readerCumulative : ProFileReader := {}
  qmakeGlobals : QMakeGlobals := {}
  parentFilePaths : QSet FilePath := []
  includedInExcactParse : Bool := true

/-- `QMap<FilePath, V>`: the entries in ascending key order. -/
abbrev QMap (V : Type) := List (FilePath × V)

/-- `QMap::find` / `QMap::value`. -/
def QMap.find {V : Type} (m : QMap V) (key : FilePath) : Option V :=
  (List.find? (fun kv => kv.1 == key) m).map Prod.snd

/-- Lexicographic comparison of two character sequences. -/
def lessThanChars : List Char → List Char → Bool
  | [], [] => false
  | [], _ :: _ => true
  | _ :: _, [] => false
  | x :: xs, y :: ys =>
    if x.toNat < y.toNat then true
    else if y.toNat < x.toNat then false
    else lessThanChars xs ys

/-- The order on `FilePath` by which a `QMap` keeps its keys, taken as the
lexicographic order of the path strings. -/
def FilePath.lessThan (a b : FilePath) : Bool := lessThanChars a.data b.data

/-- `QMap::insert`: replaces the value of a key that is present, otherwise adds
the entry in key order. -/
def QMap.insert {V : Type} : QMap V → FilePath → V → QMap V
  | [], key, v => [(key, v)]
  | (k, w) :: rest, key, v =>
    if key = k then (k, v) :: rest
    else if FilePath.lessThan key k then (key, v) :: (k, w) :: rest
    else (k, w) :: QMap.insert rest key v

/-- `QMap::values`. -/
def QMap.values {V : Type} (m : QMap V) : List V := m.map Prod.snd

/-- `class QmakeIncludedPriFile`; the children are held by their index in the
list of all tree nodes of the evaluation (the root has index 0). -/
structure QmakeIncludedPriFile where
  proFile : Option ProFile := none
  name : FilePath := ""
  result : QmakePriFileEvalResult := {}
  children : QMap Nat := []

/-- `QmakeEvalResult::EvalResultState`. -/
inductive EvalResultState where
  | EvalAbort | EvalFail | EvalPartial | EvalOk
  deriving DecidableEq, Repr

/-- `class QmakeEvalResult`. The tree rooted at the member `includedFiles` is the
list `includedFiles` of all its nodes, the root being entry 0; `QHash<Variable,
QStringList>` is the list of its bindings. -/
structure QmakeEvalResult where
  state : EvalResultState := .EvalAbort
  projectType : ProjectType := .Invalid
  subProjectsNotToDeploy : List String := []
  exactSubdirs : QSet FilePath := []
  includedFiles : List QmakeIncludedPriFile := [{}]
  targetInformation : TargetInformation := {}
  installsList : InstallsList := {}
  newVarValues : List (Variable × List String) := []
  errors : List String := []
  directoriesWithWildcards : QSet String := []
  directChildren : List NodeId := []
  priFiles : List (NodeId × QmakePriFileEvalResult) := []
  proFiles : List NodeId := []

/-- The heap of `QmakePriFile` objects. -/
structure Heap where
  objs : NodeId → QmakePriFile := fun _ => {}
  next : NodeId := 0

/-- The expression `new T(...)`: the object is placed at the first unused address. -/
def Heap.alloc (h : Heap) (o : QmakePriFile) : NodeId × Heap :=
  (h.next, { objs := Function.update h.objs h.next o, next := h.next + 1 })

/-- Assignment to members of the object at `n`. -/
def Heap.modify (h : Heap) (n : NodeId) (f : QmakePriFile → QmakePriFile) : Heap :=
  { h with objs := Function.update h.objs n (f (h.objs n)) }

/-! ## `QmakeProFile::evaluate`: helpers -/

/-- `QStringList::removeDuplicates` and `Utils::filteredUnique`: the first
occurrence of every element, in order. -/
def removeDuplicates {α : Type} [DecidableEq α] (l : List α) : List α :=
  l.foldl QSet.insert []

/-- `proFileTemplateTypeToProjectType`. -/
def proFileTemplateTypeToProjectType : TemplateType → ProjectType
  | .TT_Unknown => .ApplicationTemplate
  | .TT_Application => .ApplicationTemplate
  | .TT_StaticLibrary => .StaticLibraryTemplate
  | .TT_SharedLibrary => .SharedLibraryTemplate
  | .TT_Script => .ScriptTemplate
  | .TT_Aux => .AuxTemplate
  | .TT_Subdirs => .SubDirsTemplate

/-- `QmakePriFile::baseVPaths`. -/
def baseVPaths (reader : Option ProFileReader) (projectDir buildDir : String) : List String :=
  match reader with
  | none => []
  | some reader =>
    removeDuplicates (reader.absolutePathValues "VPATH" projectDir ++ [projectDir] ++ [buildDir])

/-- `QmakePriFile::fullVPaths`. -/
def fullVPaths (baseVPaths : List String) (reader : Option ProFileReader)
    (qmakeVariable projectDir : String) : List String :=
  match reader with
  | none => []
  | some reader =>
    removeDuplicates (reader.absolutePathValues ("VPATH_" ++ qmakeVariable) projectDir ++ baseVPaths)

/-- `fileListForVar`. -/
def fileListForVar (sourceFiles : List (String × List EvaluatorSourceFile)) (varName : String) :
    List String :=
  ((sourceFiles.lookup varName).getD []).map fun sf => sf.fileName

/-- Assignment through a pointer into the included-file tree. -/
def treeModify (tree : List QmakeIncludedPriFile) (i : Nat)
    (f : QmakeIncludedPriFile → QmakeIncludedPriFile) : List QmakeIncludedPriFile :=
  match tree[i]? with
  | some node => tree.set i (f node)
  | none => tree

/-- The tree node a `QmakeIncludedPriFile *` points to. -/
def treeNode (tree : List QmakeIncludedPriFile) (i : Nat) : QmakeIncludedPriFile :=
  tree.getD i {}

/-- `extractSources`. `proToResult` binds a file id to the tree node whose
`result` it points to, newest binding first; the fallback is the root (node 0).
`fromUserInput` is `FilePath::fromUserInput`. -/
def extractSources (fromUserInput : String → FilePath) (device : String)
    (proToResult : List (Int × Nat)) (tree : List QmakeIncludedPriFile)
    (sourceFiles : List EvaluatorSourceFile) (type : FileType) (cumulative : Bool) :
    List QmakeIncludedPriFile :=
  sourceFiles.foldl
    (fun tree source =>
      let result := (proToResult.lookup source.proFileId).getD 0
      treeModify tree result fun node =>
        let file := fromUserInput (device ++ source.fileName)
        if cumulative then
          { node with result := { node.result with
              foundFilesCumulative := Function.update node.result.foundFilesCumulative type
                (QSet.insert (node.result.foundFilesCumulative type) file) } }
        else
          { node with result := { node.result with
              foundFilesExact := Function.update node.result.foundFilesExact type
                (QSet.insert (node.result.foundFilesExact type) file) } })
    tree

/-- `extractInstalls`. -/
def extractInstalls (fromUserInput : String → FilePath) (device : String)
    (proToResult : List (Int × Nat)) (tree : List QmakeIncludedPriFile)
    (installList : InstallsList) : List QmakeIncludedPriFile :=
  installList.items.foldl
    (fun tree item =>
      item.files.foldl
        (fun tree source =>
          let result := (proToResult.lookup source.proFileId).getD 0
          treeModify tree result fun node =>
            { node with result := { node.result with
                folders := QSet.insert node.result.folders
                  (fromUserInput (device ++ source.fileName)) } })
        tree)
    tree

/-- `QmakePriFile::processValues`. -/
def processValues (fs : FileSystem) (result : QmakePriFileEvalResult) : QmakePriFileEvalResult :=
  -- Remove non existing items and non folders
  let result := result.folders.foldl
    (fun (result : QmakePriFileEvalResult) it =>
      if fs.fileExists it then
        if fs.isDir it then
          { result with
            recursiveEnumerateFiles :=
              QSet.unite result.recursiveEnumerateFiles (fs.recursiveEnumerate it) }
        else
          { result with
            recursiveEnumerateFiles := QSet.insert result.recursiveEnumerateFiles it
            folders := result.folders.erase it }
      else
        { result with folders := result.folders.erase it })
    result
  FileType.all.foldl
    (fun (result : QmakePriFileEvalResult) type =>
      let result := { result with
        recursiveEnumerateFiles :=
          QSet.subtract result.recursiveEnumerateFiles (result.foundFilesExact type) }
      let newFilePaths := QSet.unite (filterFilesProVariables type (result.foundFilesExact type))
        (filterFilesRecursiveEnumerata type result.recursiveEnumerateFiles)
      let result := { result with
        foundFilesExact := Function.update result.foundFilesExact type newFilePaths }
      let result := { result with
        recursiveEnumerateFiles :=
          QSet.subtract result.recursiveEnumerateFiles (result.foundFilesCumulative type) }
      let newFilePaths :=
        QSet.unite (filterFilesProVariables type (result.foundFilesCumulative type))
          (filterFilesRecursiveEnumerata type result.recursiveEnumerateFiles)
      { result with
        foundFilesCumulative := Function.update result.foundFilesCumulative type newFilePaths })
    result

/-- `QmakePriFile::varNames`. -/
def varNames (type : FileType) (readerExact : ProFileReader) : List String :=
  match type with
  | .Header => ["HEADERS", "OBJECTIVE_HEADERS", "PRECOMPILED_HEADER"]
  | .Source =>
    (readerExact.values "QMAKE_EXTRA_COMPILERS").foldl
      (fun vars var =>
        (readerExact.values (var ++ ".input")).foldl
          (fun vars input =>
            if input ≠ "FORMS" ∧ input ≠ "STATECHARTS" ∧ input ≠ "RESOURCES" ∧ input ≠ "SOURCES"
                ∧ input ≠ "HEADERS" ∧ input ≠ "OBJECTIVE_HEADERS"
                ∧ input ≠ "PRECOMPILED_HEADER" then
              vars ++ [input]
            else vars)
          vars)
      ["SOURCES"]
  | .Resource => ["RESOURCES"]
  | .Form => ["FORMS"]
  | .StateChart => ["STATECHARTS"]
  | .Project => ["SUBDIRS"]
  | .QML => ["OTHER_FILES", "DISTFILES"]
  | .Unknown => ["DISTFILES", "ICON", "OTHER_FILES", "QMAKE_INFO_PLIST", "TRANSLATIONS"]

/-- `evaluateOne`. The result is the returned flag and the value of
`*buildPassReader` afterwards. -/
def evaluateOne (input : QmakeEvalInput) (reader : ProFileReader) (cumulative : Bool)
    (buildPassReader : Option ProFileReader) : Bool × Option ProFileReader :=
  if !reader.accept then (false, buildPassReader)
  else
    match reader.values "BUILDS" with
    | [] => (true, some reader)
    | build :: _ =>
      let basecfgs := reader.values (build ++ ".CONFIG") ++ [build] ++ ["build_pass"] ++ ["qtc_run"]
      let buildname := reader.values (build ++ ".name")
      let basevars :=
        [("BUILD_PASS", [build]), ("BUILD_NAME", if buildname.isEmpty then [build] else buildname)]
      let bpReader := input.qmakeGlobals.newReader input.buildDirectory cumulative basevars basecfgs
      if bpReader.accept then (true, some bpReader)
      else (true, buildPassReader)

/-- `QmakeProFile::uiDirPath`. -/
def uiDirPath (fs : FileSystem) (reader : ProFileReader) (buildDir : FilePath) : String :=
  let path := reader.value "UI_DIR"
  if !fs.isAbsolute path then fs.cleanPath (buildDir ++ "/" ++ path) else path

/-- `QmakeProFile::mocDirPath`. -/
def mocDirPath (fs : FileSystem) (reader : ProFileReader) (buildDir : FilePath) : String :=
  let path := reader.value "MOC_DIR"
  if !fs.isAbsolute path then fs.cleanPath (buildDir ++ "/" ++ path) else path

/-- `QmakeProFile::sysrootify` (case-sensitive host). -/
def sysrootify (fs : FileSystem) (path sysroot baseDir outputDir : String) : String :=
  if sysroot.isEmpty || sysroot.isPrefixOf path || baseDir.isPrefixOf path
      || outputDir.isPrefixOf path then path
  else
    let sysrooted := fs.cleanPath (sysroot ++ path)
    if !fs.fileExists sysrooted then path else sysrooted

/-- `QmakeProFile::includePaths`. -/
def includePaths (fs : FileSystem) (reader : ProFileReader) (sysroot buildDir : FilePath)
    (projectDir : String) : List String :=
  let (paths, _) := (reader.values "QMAKE_CXXFLAGS").foldl
    (fun (acc : List String × Bool) cxxflags =>
      let (paths, nextIsAnIncludePath) := acc
      if nextIsAnIncludePath then (paths ++ [cxxflags], false)
      else if "-I".isPrefixOf cxxflags then (paths ++ [cxxflags.drop 2], false)
      else if "-isystem".isPrefixOf cxxflags then (paths, true)
      else (paths, false))
    (([] : List String), false)
  let mocDir := mocDirPath fs reader buildDir
  let uiDir := uiDirPath fs reader buildDir
  let (paths, tryUnfixified) :=
    (reader.fixifiedValues "INCLUDEPATH" projectDir buildDir false).foldl
      (fun (acc : List String × Bool) el =>
        let (paths, tryUnfixified) := acc
        let sysrootifiedPath := sysrootify fs el.fileName sysroot projectDir buildDir
        if fs.isAbsolute sysrootifiedPath
            && (fs.fileExists sysrootifiedPath || sysrootifiedPath == mocDir
              || sysrootifiedPath == uiDir) then
          (paths ++ [sysrootifiedPath], tryUnfixified)
        else (paths, true))
      (paths, false)
  let paths :=
    if tryUnfixified then
      (reader.values "INCLUDEPATH").foldl
        (fun (paths : List String) p =>
          let sysrootifiedPath := sysrootify fs (fs.cleanPath p) sysroot projectDir buildDir
          if fs.isAbsolute sysrootifiedPath && fs.fileExists sysrootifiedPath then
            paths ++ [sysrootifiedPath]
          else paths)
        paths
    else paths
  removeDuplicates paths

/-- `QmakeProFile::libDirectories`. -/
def libDirectories (reader : ProFileReader) : List String :=
  (reader.values "LIBS").foldl
    (fun result str => if "-L".isPrefixOf str then result ++ [str.drop 2] else result) []

/-- `QmakeProFile::subDirsPaths`. The two output parameters are `none` for a
null pointer; the result is the returned paths and the two lists afterwards. -/
def subDirsPaths (fs : FileSystem) (reader : ProFileReader) (projectDir : String)
    (subProjectsNotToDeploy : Option (List String)) (errors : Option (List String)) :
    List FilePath × Option (List String) × Option (List String) :=
  let (subProjectPaths, subProjectsNotToDeploy, errors) :=
    (reader.values "SUBDIRS").foldl
      (fun (acc : List FilePath × Option (List String) × Option (List String)) subDirVar =>
        let (subProjectPaths, subProjectsNotToDeploy, errors) := acc
        let subDirKey := subDirVar ++ ".subdir"
        let subDirFileKey := subDirVar ++ ".file"
        let realDir :=
          if reader.contains subDirKey then reader.value subDirKey
          else if reader.contains subDirFileKey then reader.value subDirFileKey
          else subDirVar
        let realDir := if !fs.isAbsolute realDir then projectDir ++ "/" ++ realDir else realDir
        let realFile :=
          if fs.isDir realDir then realDir ++ "/" ++ fs.fileName realDir ++ ".pro" else realDir
        if fs.fileExists realFile then
          let realFile := fs.cleanPath realFile
          let subProjectsNotToDeploy :=
            match subProjectsNotToDeploy with
            | some l =>
              if !l.contains realFile
                  && (reader.values (subDirVar ++ ".CONFIG")).contains "no_default_target" then
                some (l ++ [realFile])
              else some l
            | none => none
          (subProjectPaths ++ [realFile], subProjectsNotToDeploy, errors)
        else
          let errors := errors.map fun l =>
            l ++ ["Could not find .pro file for subdirectory \"" ++ subDirVar ++ "\" in \""
              ++ realDir ++ "\"."]
          (subProjectPaths, subProjectsNotToDeploy, errors))
      (([] : List FilePath), subProjectsNotToDeploy, errors)
  (removeDuplicates subProjectPaths, subProjectsNotToDeploy, errors)

/-- `QmakeProFile::targetInformation` (the static overload). -/
def targetInformation (fs : FileSystem) (reader readerBuildPass : Option ProFileReader)
    (buildDir projectFilePath : FilePath) : TargetInformation :=
  match reader, readerBuildPass with
  | some reader, some readerBuildPass =>
    let result : TargetInformation := {}
    let result :=
      match reader.values "BUILDS" with
      | build :: _ => { result with buildTarget := reader.value (build ++ ".target") }
      | [] => result
    let result := { result with buildDir := buildDir }
    let result :=
      if readerBuildPass.contains "DESTDIR" then
        { result with destDir := readerBuildPass.value "DESTDIR" }
      else result
    let result := { result with target := readerBuildPass.value "TARGET" }
    let result :=
      if result.target.isEmpty then { result with target := fs.baseName projectFilePath }
      else result
    { result with valid := true }
  | _, _ => {}

/-- The body of the loop over the items in `QmakeProFile::installsList`. -/
def installsListItem (reader : ProFileReader) (projectDir buildDir : String)
    (valuesOfVars : List (String × String)) (result : InstallsList) (item : String) :
    InstallsList :=
  let config := reader.values (item ++ ".CONFIG")
  let active := !config.contains "no_default_install"
  let executable := config.contains "executable"
  let pathVar := item ++ ".path"
  let itemPaths := reader.values pathVar
  match itemPaths.getLast? with
  | none => result
  | some itemPath =>
    let itemPath :=
      match valuesOfVars.find? (fun pair => !(pair.1 == pair.2 || !pair.1.isPrefixOf itemPath)) with
      | some pair => pair.2 ++ itemPath.drop pair.1.length
      | none => itemPath
    if item = "target" then
      if active then { result with targetPath := itemPath } else result
    else
      let itemFiles := reader.fixifiedValues (item ++ ".files") projectDir buildDir true
      { result with items := result.items ++ [⟨itemPath, itemFiles, active, executable⟩] }

/-- `QmakeProFile::installsList` (the static overload). -/
def installsList (reader : Option ProFileReader) (projectDir buildDir : String) : InstallsList :=
  match reader with
  | none => {}
  | some reader =>
    let itemList := reader.values "INSTALLS"
    if itemList.isEmpty then {}
    else
      let valuesOfVars := ["QT_INSTALL_PREFIX", "QT_INSTALL_EXAMPLES"].map fun name =>
        (reader.propertyValue name, reader.propertyValue (name ++ "/dev"))
      itemList.foldl (installsListItem reader projectDir buildDir valuesOfVars) {}

/-! ## `QmakeProFile::evaluate`: the included-file tree -/

/-- The included-file tree under construction together with `proToResult`. -/
structure IncludeTreeState where
  tree : List QmakeIncludedPriFile
  proToResult : List (Int × Nat) := []

/-- `new QmakeIncludedPriFile` for a sub-directory project, inserted into the
children of the root: always in the exact pass, and when the name is not yet
a key (`onlyIfAbsent`) in the cumulative pass. -/
def addSubDir (onlyIfAbsent : Bool) (tree : List QmakeIncludedPriFile) (subDirName : FilePath) :
    List QmakeIncludedPriFile :=
  if onlyIfAbsent && ((treeNode tree 0).children.find subDirName).isSome then tree
  else
    let subDir := tree.length
    let tree := tree ++ [{ proFile := none, name := subDirName }]
    treeModify tree 0 fun root => { root with children := root.children.insert subDirName subDir }

/-- The body of `for (ProFile *child : children)` in the loops that convert
`ProFileReader::includeFiles` to the tree. -/
def addIncludedChild (current : Nat) (st : IncludeTreeState) (child : ProFile) :
    IncludeTreeState :=
  let childName : FilePath := child.fileName
  match (treeNode st.tree current).children.find childName with
  | some _ => st
  | none =>
    let childTree := st.tree.length
    let tree := st.tree ++ [{ proFile := some child, name := childName }]
    let tree := treeModify tree current fun node =>
      { node with children := node.children.insert childName childTree }
    { tree := tree, proToResult := (child.id, childTree) :: st.proToResult }

/-- The loop `while (!toBuild.isEmpty())` that converts `ProFileReader::includeFiles`
to the tree; one unit of fuel per iteration, `none` when the fuel runs out
before the list is empty. -/
def buildIncludedFiles (includeFiles : List (ProFile × List ProFile)) :
    Nat → List Nat → IncludeTreeState → Option IncludeTreeState
  | _, [], st => some st
  | 0, _ :: _, _ => none
  | fuel + 1, current :: toBuild, st =>
    match (treeNode st.tree current).proFile with
    | none => buildIncludedFiles includeFiles fuel toBuild st
    | some proFile =>
      let children := (includeFiles.lookup proFile).getD []
      let st := children.foldl (addIncludedChild current) st
      buildIncludedFiles includeFiles fuel (toBuild ++ (treeNode st.tree current).children.values) st

/-- The loop `while (!toExtract.isEmpty())` that applies `processValues` to the
result of every tree node. -/
def processIncludedFiles (fs : FileSystem) :
    Nat → List Nat → List QmakeIncludedPriFile → Option (List QmakeIncludedPriFile)
  | _, [], tree => some tree
  | 0, _ :: _, _ => none
  | fuel + 1, current :: toExtract, tree =>
    let tree := treeModify tree current fun node =>
      { node with result := processValues fs node.result }
    processIncludedFiles fs fuel (toExtract ++ (treeNode tree current).children.values) tree

/-! ## `QmakeProFile::evaluate`: the child nodes -/

/-- `QmakePriFile::setParent`. -/
def QmakePriFile.setParent (h : Heap) (this p : NodeId) : Heap :=
  if (h.objs this).m_parent.isSome then h
  else h.modify this fun o => { o with m_parent := some p }

/-- `QmakePriFile::addChild`. -/
def QmakePriFile.addChild (h : Heap) (this pf : NodeId) : Heap :=
  if (h.objs this).m_children.contains pf then h
  else if (h.objs pf).m_parent.isSome then h
  else
    let h := h.modify this fun o => { o with m_children := o.m_children ++ [pf] }
    QmakePriFile.setParent h pf this

/-- The loop `for (const QmakePriFile *n = pn; n && !loop; n = n->parent())` of
the loop prevention, started with the current value of `loop`. -/
def parentChainLoop (h : Heap) (name : FilePath) : Nat → Option NodeId → Bool → Option Bool
  | _, none, loop => some loop
  | _, some _, true => some true
  | 0, some _, false => none
  | fuel + 1, some n, false =>
    parentChainLoop h name fuel (h.objs n).m_parent ((h.objs n).m_filePath == name)

/-- The variables of the loop `while (!toCompare.isEmpty())`. -/
structure ChildNodesState where
  heap : Heap
  directChildren : List NodeId := []
  priFiles : List (NodeId × QmakePriFileEvalResult) := []
  proFiles : List NodeId := []
  toCompare : List (Option NodeId × Nat) := []

/-- The body of `for (QmakeIncludedPriFile *priFile : tree->children)`. -/
def createChildNode (fuel : Nat) (input : QmakeEvalInput) (state : EvalResultState)
    (exactSubdirs : QSet FilePath) (tree : List QmakeIncludedPriFile) (pn : Option NodeId)
    (st : ChildNodesState) (priFile : Nat) : Option ChildNodesState :=
  let name := (treeNode tree priFile).name
  match parentChainLoop st.heap name fuel pn (input.parentFilePaths.contains name) with
  | none => none
  | some true => some st
  | some false =>
    match (treeNode tree priFile).proFile with
    | some _ =>
      let (qmakePriFileNode, heap) := st.heap.alloc { m_filePath := name }
      let heap := match pn with
        | some pn => QmakePriFile.addChild heap pn qmakePriFileNode
        | none => heap
      let directChildren := match pn with
        | some _ => st.directChildren
        | none => st.directChildren ++ [qmakePriFileNode]
      let heap := heap.modify qmakePriFileNode fun o =>
        { o with m_includedInExactParse := input.includedInExcactParse && state == .EvalOk }
      some { heap := heap
             directChildren := directChildren
             priFiles := st.priFiles ++ [(qmakePriFileNode, (treeNode tree priFile).result)]
             proFiles := st.proFiles
             toCompare := st.toCompare ++ [(some qmakePriFileNode, priFile)] }
    | none =>
      let (qmakeProFileNode, heap) := st.heap.alloc { isProFile := true, m_filePath := name }
      let heap := match pn with
        | some pn => QmakePriFile.addChild heap pn qmakeProFileNode
        | none => heap
      let directChildren := match pn with
        | some _ => st.directChildren
        | none => st.directChildren ++ [qmakeProFileNode]
      let heap := heap.modify qmakeProFileNode fun o =>
        { o with m_includedInExactParse :=
            input.includedInExcactParse && exactSubdirs.contains o.m_filePath }
      let heap := heap.modify qmakeProFileNode fun o => { o with m_parseInProgress := true }
      some { heap := heap
             directChildren := directChildren
             priFiles := st.priFiles
             proFiles := st.proFiles ++ [qmakeProFileNode]
             toCompare := st.toCompare }

/-- The loop `while (!toCompare.isEmpty())` that creates the child nodes; one
unit of `fuel` per iteration, and `chainFuel` for each walk up a parent chain. -/
def createChildNodes (chainFuel : Nat) (input : QmakeEvalInput) (state : EvalResultState)
    (exactSubdirs : QSet FilePath) (tree : List QmakeIncludedPriFile) :
    Nat → ChildNodesState → Option ChildNodesState
  | fuel, st =>
    match st.toCompare with
    | [] => some st
    | (pn, treeIdx) :: rest =>
      match fuel with
      | 0 => none
      | fuel + 1 =>
        match (treeNode tree treeIdx).children.values.foldlM
            (createChildNode chainFuel input state exactSubdirs tree pn)
            { st with toCompare := rest } with
        | none => none
        | some st => createChildNodes chainFuel input state exactSubdirs tree fuel st

/-! ## `QmakeProFile::evaluate` -/

/-- The variables written by the loop over the file types and their qmake
variables in `evaluate`. -/
structure ExtractState where
  tree : List QmakeIncludedPriFile
  directoriesWithWildcards : QSet String := []
  exactSourceFiles : List (String × List EvaluatorSourceFile) := []
  cumulativeSourceFiles : List (String × List EvaluatorSourceFile) := []

/-- The body of `for (const QString &qmakeVariable : qmakeVariables)` in `evaluate`. -/
def extractVariable (fs : FileSystem) (input : QmakeEvalInput) (state : EvalResultState)
    (exactReader cumulativeReader : ProFileReader) (baseVPathsExact baseVPathsCumulative : List String)
    (proToResult : List (Int × Nat)) (type : FileType) (st : ExtractState)
    (qmakeVariable : String) : ExtractState :=
  let device := input.qmakeGlobals.device_root
  let handled : List String := []
  let (st, handled) :=
    if state = .EvalOk then
      let vPathsExact := fullVPaths baseVPathsExact (some exactReader) qmakeVariable input.projectDir
      let (sourceFiles, handled, wildcards) :=
        exactReader.absoluteFileValues qmakeVariable input.projectDir vPathsExact handled
      ({ st with
          directoriesWithWildcards := QSet.unite st.directoriesWithWildcards wildcards
          exactSourceFiles := (qmakeVariable, sourceFiles) :: st.exactSourceFiles
          tree := extractSources fs.fromUserInput device proToResult st.tree sourceFiles type false },
        handled)
    else (st, handled)
  let vPathsCumulative :=
    fullVPaths baseVPathsCumulative (some cumulativeReader) qmakeVariable input.projectDir
  let (sourceFiles, _, wildcards) :=
    cumulativeReader.absoluteFileValues qmakeVariable input.projectDir vPathsCumulative handled
  { st with
    directoriesWithWildcards := QSet.unite st.directoriesWithWildcards wildcards
    cumulativeSourceFiles := (qmakeVariable, sourceFiles) :: st.cumulativeSourceFiles
    tree := extractSources fs.fromUserInput device proToResult st.tree sourceFiles type true }

/-- The assignments to `result->newVarValues` in `evaluate`. -/
def newVarValues (fs : FileSystem) (input : QmakeEvalInput) (exactReader : ProFileReader)
    (exactSourceFiles cumulativeSourceFiles : List (String × List EvaluatorSourceFile)) :
    List (Variable × List String) :=
  [ (.Defines, exactReader.values "DEFINES"),
    (.IncludePath,
      includePaths fs exactReader input.sysroot input.buildDirectory input.projectDir),
    (.CppFlags, exactReader.values "QMAKE_CXXFLAGS"),
    (.CFlags, exactReader.values "QMAKE_CFLAGS"),
    (.ExactSource,
      fileListForVar exactSourceFiles "SOURCES" ++ fileListForVar exactSourceFiles "HEADERS"
        ++ fileListForVar exactSourceFiles "OBJECTIVE_HEADERS"),
    (.CumulativeSource,
      fileListForVar cumulativeSourceFiles "SOURCES"
        ++ fileListForVar cumulativeSourceFiles "HEADERS"
        ++ fileListForVar cumulativeSourceFiles "OBJECTIVE_HEADERS"),
    (.UiDir, [uiDirPath fs exactReader input.buildDirectory]),
    (.HeaderExtension, [exactReader.value "QMAKE_EXT_H"]),
    (.CppExtension, [exactReader.value "QMAKE_EXT_CPP"]),
    (.MocDir, [mocDirPath fs exactReader input.buildDirectory]),
    (.ExactResource, fileListForVar exactSourceFiles "RESOURCES"),
    (.CumulativeResource, fileListForVar cumulativeSourceFiles "RESOURCES"),
    (.PkgConfig, exactReader.values "PKGCONFIG"),
    (.PrecompiledHeader,
      (exactReader.fixifiedValues "PRECOMPILED_HEADER" input.projectDir input.buildDirectory
        false).map fun sf => sf.fileName),
    (.LibDirectories, libDirectories exactReader),
    (.Config, exactReader.values "CONFIG"),
    (.QmlImportPath, exactReader.absolutePathValues "QML_IMPORT_PATH" input.projectDir),
    (.QmlDesignerImportPath,
      exactReader.absolutePathValues "QML_DESIGNER_IMPORT_PATH" input.projectDir),
    (.Makefile, exactReader.values "MAKEFILE"),
    (.Qt, exactReader.values "QT"),
    (.ObjectExt, exactReader.values "QMAKE_EXT_OBJ"),
    (.ObjectsDir, exactReader.values "OBJECTS_DIR"),
    (.Version, exactReader.values "VERSION"),
    (.TargetExt, exactReader.values "TARGET_EXT"),
    (.TargetVersionExt, exactReader.values "TARGET_VERSION_EXT"),
    (.StaticLibExtension, exactReader.values "QMAKE_EXTENSION_STATICLIB"),
    (.ShLibExtension, exactReader.values "QMAKE_EXTENSION_SHLIB"),
    (.AndroidAbi, exactReader.values "ANDROID_TARGET_ARCH"),
    (.AndroidDeploySettingsFile, exactReader.values "ANDROID_DEPLOYMENT_SETTINGS_FILE"),
    (.AndroidPackageSourceDir, exactReader.values "ANDROID_PACKAGE_SOURCE_DIR"),
    (.AndroidAbis, exactReader.values "ANDROID_ABIS"),
    (.AndroidApplicationArgs, exactReader.values "ANDROID_APPLICATION_ARGUMENTS"),
    (.AndroidExtraLibs, exactReader.values "ANDROID_EXTRA_LIBS"),
    (.IosDeploymentTarget, exactReader.values "QMAKE_IOS_DEPLOYMENT_TARGET"),
    (.AppmanPackageDir, exactReader.values "AM_PACKAGE_DIR"),
    (.AppmanManifest, exactReader.values "AM_MANIFEST"),
    (.IsoIcons, exactReader.values "ISO_ICONS"),
    (.QmakeProjectName, exactReader.values "QMAKE_PROJECT_NAME"),
    (.QmakeCc, exactReader.values "QMAKE_CC"),
    (.QmakeCxx, exactReader.values "QMAKE_CXX") ]

/-- The first statements of `QmakeProFile::evaluate`: the parsed root file, the
two `evaluateOne` passes with the build-pass readers they leave, and the state. -/
def evaluateState (input : QmakeEvalInput) :
    EvalResultState × Option ProFileReader × Option ProFileReader :=
  match input.readerExact.parsedProFile with
  | some _ =>
    let (exactOk, exactBuildPassReader) := evaluateOne input input.readerExact false none
    let (cumulOk, cumulativeBuildPassReader) := evaluateOne input input.readerCumulative true none
    (if exactOk then .EvalOk else if cumulOk then .EvalPartial else .EvalFail,
      exactBuildPassReader, cumulativeBuildPassReader)
  | none => (.EvalFail, none, none)

/-- The part of `QmakeProFile::evaluate` that builds the included-file tree: the
sub-directories and `includeFiles` of the exact reader when the state is
`EvalOk`, then those of the cumulative reader. -/
def evaluateIncludedFiles (fuel : Nat) (fs : FileSystem) (input : QmakeEvalInput)
    (result : QmakeEvalResult) : Option (QmakeEvalResult × IncludeTreeState) :=
  let tree := treeModify result.includedFiles 0 fun root =>
    { root with proFile := input.readerExact.parsedProFile, name := input.projectFilePath }
  let result := { result with
    projectType := proFileTemplateTypeToProjectType
      (if result.state = .EvalOk then input.readerExact else input.readerCumulative).templateType }
  let exactPass : Option (QmakeEvalResult × IncludeTreeState) :=
    if result.state = .EvalOk then
      let (result, tree) :=
        if result.projectType = .SubDirsTemplate then
          let (subDirs, subProjectsNotToDeploy, errors) :=
            subDirsPaths fs input.readerExact input.projectDir
              (some result.subProjectsNotToDeploy) (some [])
          ({ result with
              subProjectsNotToDeploy := subProjectsNotToDeploy.getD []
              errors := result.errors ++ errors.getD []
              exactSubdirs := removeDuplicates subDirs },
            subDirs.foldl (addSubDir false) tree)
        else (result, tree)
      (buildIncludedFiles input.readerExact.includeFiles fuel [0] { tree := tree }).map
        fun st => (result, st)
    else some (result, { tree := tree })
  exactPass.bind fun (result, st) =>
    let tree :=
      if result.projectType = .SubDirsTemplate then
        (subDirsPaths fs input.readerCumulative input.projectDir none none).1.foldl
          (addSubDir true) st.tree
      else st.tree
    (buildIncludedFiles input.readerCumulative.includeFiles fuel [0] { st with tree := tree }).map
      fun st => (result, st)

/-- The part of `QmakeProFile::evaluate` between the tree construction and
`processValues`: the source files of every file type, the install list, the
target information and the variable values. -/
def evaluateValues (fs : FileSystem) (input : QmakeEvalInput)
    (exactBuildPassReader cumulativeBuildPassReader : Option ProFileReader)
    (result : QmakeEvalResult) (st : IncludeTreeState) :
    QmakeEvalResult × List QmakeIncludedPriFile :=
  let exactReader := exactBuildPassReader.getD input.readerExact
  let cumulativeReader := cumulativeBuildPassReader.getD input.readerCumulative
  let baseVPathsExact := baseVPaths (some exactReader) input.projectDir input.buildDirectory
  let baseVPathsCumulative :=
    baseVPaths (some cumulativeReader) input.projectDir input.buildDirectory
  let ex := FileType.all.foldl
    (fun (ex : ExtractState) type =>
      (varNames type exactReader).foldl
        (extractVariable fs input result.state exactReader cumulativeReader baseVPathsExact
          baseVPathsCumulative st.proToResult type)
        ex)
    { tree := st.tree, directoriesWithWildcards := result.directoriesWithWildcards }
  let result := { result with
    directoriesWithWildcards := ex.directoriesWithWildcards
    installsList := installsList exactBuildPassReader input.projectDir input.buildDirectory }
  let tree := extractInstalls fs.fromUserInput input.qmakeGlobals.device_root st.proToResult
    ex.tree result.installsList
  let result :=
    if result.state = .EvalOk then
      { result with
        targetInformation := targetInformation fs (some input.readerExact) exactBuildPassReader
          input.buildDirectory input.projectFilePath
        newVarValues := newVarValues fs input exactReader ex.exactSourceFiles
          ex.cumulativeSourceFiles }
    else result
  (result, tree)

/-- The last part of `QmakeProFile::evaluate`: `processValues` on every tree node,
then the child nodes. -/
def evaluateChildNodes (fuel : Nat) (fs : FileSystem) (heap : Heap) (input : QmakeEvalInput)
    (result : QmakeEvalResult) (tree : List QmakeIncludedPriFile) :
    Option (Heap × QmakeEvalResult) :=
  (if result.state = .EvalOk ∨ result.state = .EvalPartial then
      processIncludedFiles fs fuel [0] tree
    else some tree).bind fun tree =>
  (createChildNodes fuel input result.state result.exactSubdirs tree fuel
      { heap := heap, toCompare := [(none, 0)] }).map fun cs =>
    (cs.heap,
      { result with
        includedFiles := tree
        directChildren := cs.directChildren
        priFiles := cs.priFiles
        proFiles := cs.proFiles })

/-- `QmakeProFile::evaluate`. The new nodes are allocated on `heap`; `fuel` bounds
the iterations of each of the `while` loops, and the result is `none` when one
of them does not come to its end within `fuel` iterations. -/
def QmakeProFile.evaluate (fuel : Nat) (fs : FileSystem) (heap : Heap) (input : QmakeEvalInput) :
    Option (Heap × QmakeEvalResult) :=
  let result : QmakeEvalResult := {}
  let result := { result with state := (evaluateState input).1 }
  if result.state = .EvalFail then some (heap, result)
  else
    (evaluateIncludedFiles fuel fs input result).bind fun (result, st) =>
      let (result, tree) :=
        evaluateValues fs input (evaluateState input).2.1 (evaluateState input).2.2 result st
      evaluateChildNodes fuel fs heap input result tree

/-! ## Example inputs -/

/-- The root project file `a.pro` of the examples. -/
def exampleRoot : ProFile := ⟨1, 1, "a.pro"⟩

/-- A reader that accepts `a.pro` and reports the given include files. -/
def exampleReader (includeFiles : List (ProFile × List ProFile)) : ProFileReader :=
  { parsedProFile := some exampleRoot, accept := true, includeFiles := includeFiles }

/-- An evaluation input for `a.pro`, evaluated on its own (no parent node), in
which `a.pro` includes `b.pri` and `c.pri`, `b.pri` includes `c.pri`, and `c.pri`
includes `b.pri`. -/
def exampleInput : QmakeEvalInput :=
  let b : ProFile := ⟨2, 2, "b.pri"⟩
  let c : ProFile := ⟨3, 3, "c.pri"⟩
  let includeFiles := [(exampleRoot, [b, c]), (b, [c]), (c, [⟨4, 2, "b.pri"⟩])]
  { projectFilePath := "a.pro"
    readerExact := exampleReader includeFiles
    readerCumulative := exampleReader includeFiles
    parentFilePaths := ["a.pro"] }

/-- An evaluation input whose include-file map has a cycle: `a.pro` includes
`b.pri` and `b.pri` includes `a.pro`. -/
def cyclicInput : QmakeEvalInput :=
  let b : ProFile := ⟨2, 2, "b.pri"⟩
  let includeFiles := [(exampleRoot, [b]), (b, [exampleRoot])]
  { projectFilePath := "a.pro"
    readerExact := exampleReader includeFiles
    readerCumulative := exampleReader includeFiles
    parentFilePaths := ["a.pro"] }

/-- An evaluation input in which no file is included from inside its own
inclusion chain, and yet the include-file map has a cycle: `a.pro` includes
`b.pri` and `c.pri`, `b.pri` includes `c.pri`, and `c.pri` includes `b.pri`. -/
def diamondInput : QmakeEvalInput :=
  let b : ProFile := ⟨2, 2, "b.pri"⟩
  let c : ProFile := ⟨3, 3, "c.pri"⟩
  let includeFiles := [(exampleRoot, [b, c]), (b, [c]), (c, [b])]
  { projectFilePath := "a.pro"
    readerExact := exampleReader includeFiles
    readerCumulative := exampleReader includeFiles
    parentFilePaths := ["a.pro"] }

/-- `a` is a strict ancestor of `c`: it is reached from `c` by following the
`m_parent` pointers. -/
inductive IsAncestor (h : Heap) : NodeId → NodeId → Prop where
  | parent {a c : NodeId} : (h.objs c).m_parent = some a → IsAncestor h a c
  | step {a p c : NodeId} : (h.objs c).m_parent = some p → IsAncestor h a p → IsAncestor h a c

/-- A node without its tree links: the parent pointer and the child list are
reset. -/
def QmakePriFile.sansLinks (o : QmakePriFile) : QmakePriFile :=
  { o with m_parent := none, m_children := [] }

/-- The node that `evaluate` makes for an entry of the included-file tree, as
it is before it is linked: `new QmakePriFile(priFile->name)` with its
`setIncludedInExactParse` for an included file, `new QmakeProFile(priFile->name)`
with its `setIncludedInExactParse` and `setParseInProgress(true)` for a
sub-project. -/
def newChildNode (input : QmakeEvalInput) (state : EvalResultState)
    (exactSubdirs : QSet FilePath) (priFile : QmakeIncludedPriFile) : QmakePriFile :=
  match priFile.proFile with
  | some _ =>
    { m_filePath := priFile.name
      m_includedInExactParse := input.includedInExcactParse && state == .EvalOk }
  | none =>
    { isProFile := true
      m_filePath := priFile.name
      m_includedInExactParse := input.includedInExcactParse && exactSubdirs.contains priFile.name
      m_parseInProgress := true }

/-- Invariant of the loop that creates the child nodes. `before` is the heap
at the start of the evaluation, `base` the first address handed out by this
evaluation and `origin` gives, for each created node, the tree entry it was
created for. -/
structure ChildNodesInv (before : Heap) (base : NodeId) (input : QmakeEvalInput)
    (state : EvalResultState) (exactSubdirs : QSet FilePath)
    (tree : List QmakeIncludedPriFile) (origin : NodeId → Nat) (st : ChildNodesState) : Prop where
  base_le : base ≤ st.heap.next
  old : ∀ x, x < base → st.heap.objs x = before.objs x
  unallocated : ∀ x, st.heap.next ≤ x → st.heap.objs x = before.objs x
  direct : ∀ c, c ∈ st.directChildren ↔
    base ≤ c ∧ c < st.heap.next ∧ (st.heap.objs c).m_parent = none
  directNodup : st.directChildren.Nodup
  proFiles : ∀ p, p ∈ st.proFiles ↔
    base ≤ p ∧ p < st.heap.next ∧ (st.heap.objs p).isProFile = true
  node : ∀ c, base ≤ c → c < st.heap.next →
    (st.heap.objs c).sansLinks = newChildNode input state exactSubdirs (treeNode tree (origin c))
  links : ∀ c, base ≤ c → c < st.heap.next →
    ∀ x, x ∈ (st.heap.objs c).m_children ↔
      base ≤ x ∧ x < st.heap.next ∧ (st.heap.objs x).m_parent = some c
  notParent : ∀ c, base ≤ c → c < st.heap.next →
    (st.heap.objs c).m_filePath ∉ input.parentFilePaths
  name : ∀ c, base ≤ c → c < st.heap.next →
    (st.heap.objs c).m_filePath = (treeNode tree (origin c)).name
  children : ∀ c, base ≤ c → c < st.heap.next →
    ∀ x ∈ (st.heap.objs c).m_children, x < st.heap.next
  parent : ∀ c, base ≤ c → c < st.heap.next →
    match (st.heap.objs c).m_parent with
    | none => origin c ∈ (treeNode tree 0).children.values
    | some p => base ≤ p ∧ p < c ∧ origin c ∈ (treeNode tree (origin p)).children.values
  ancestors : ∀ c, base ≤ c → c < st.heap.next →
    ∀ a, IsAncestor st.heap a c → (st.heap.objs a).m_filePath ≠ (st.heap.objs c).m_filePath
  queue : ∀ pn t, (pn, t) ∈ st.toCompare →
    match pn with
    | none => t = 0
    | some n => base ≤ n ∧ n < st.heap.next ∧ origin n = t

/-- What the creation of one child node does to the heap: `after` is `before`
with a new node at the first unused address, which is `obj` but for its
links, whose parent pointer is `pn` and which has no children; of the nodes
that existed, the node `pn` has the new node appended to its child list and
the others are as before. -/
structure CreatedNode (before after : Heap) (pn : Option NodeId) (obj : QmakePriFile) : Prop where
  next : after.next = before.next + 1
  path_old : ∀ x, x ≠ before.next → (after.objs x).m_filePath = (before.objs x).m_filePath
  parent_old : ∀ x, x ≠ before.next → (after.objs x).m_parent = (before.objs x).m_parent
  children_old : ∀ x, x ≠ before.next → ∀ y ∈ (after.objs x).m_children,
    y ∈ (before.objs x).m_children ∨ y = before.next
  obj_new : (after.objs before.next).sansLinks = obj
  parent_new : (after.objs before.next).m_parent = pn
  children_new : (after.objs before.next).m_children = []
  unchanged : ∀ x, x ≠ before.next → pn ≠ some x → after.objs x = before.objs x
  pn_lt : ∀ n, pn = some n → n < before.next
  pn_obj : ∀ n, pn = some n →
    after.objs n =
      { before.objs n with m_children := (before.objs n).m_children ++ [before.next] }

/-! ## `QmakeProFile::applyEvaluate` -/

/-- Modelled from the spec: the build coordinator boundary (`QmakeBuildSystem`),
"asyncUpdateState() -> {Running, ShuttingDown}; wasEvaluateCanceled() -> bool".
The calls received are recorded in `calls`; `nextReader` numbers the readers
handed out by `createProFileReader`. -/
structure QmakeBuildSystem where
  shuttingDown : Bool := false
  wasEvaluateCanceled : Bool := false
  calls : List BuildSystemCall := []
  nextReader : Nat := 0

/-- The mutable state that `applyEvaluate` works on: the node heap and the
build system. -/
structure World where
  heap : Heap := {}
  buildSystem : QmakeBuildSystem := {}

/-- A call on the build system. -/
def World.call (w : World) (c : BuildSystemCall) : World :=
  { w with buildSystem := { w.buildSystem with calls := w.buildSystem.calls ++ [c] } }

/-- Assignment to members of the object at `n`. -/
def World.modify (w : World) (n : NodeId) (f : QmakePriFile → QmakePriFile) : World :=
  { w with heap := w.heap.modify n f }

/-- `QmakeProFile::cleanupProFileReaders`. -/
def QmakeProFile.cleanupProFileReaders (w : World) (this : NodeId) : World :=
  let w := match (w.heap.objs this).m_readerExact with
    | some reader => w.call (.destroyProFileReader reader)
    | none => w
  let w := match (w.heap.objs this).m_readerCumulative with
    | some reader => w.call (.destroyProFileReader reader)
    | none => w
  w.modify this fun o => { o with m_readerExact := none, m_readerCumulative := none }

/-- `QmakeProFile::cleanupFutureWatcher`. -/
def QmakeProFile.cleanupFutureWatcher (w : World) (this : NodeId) : World :=
  if !(w.heap.objs this).m_parseFutureWatcher then w
  else
    let w := w.modify this fun o => { o with m_parseFutureWatcher := false }
    w.call .decrementPendingEvaluateFutures

/-- `QmakeProFile::setupFutureWatcher`. -/
def QmakeProFile.setupFutureWatcher (w : World) (this : NodeId) : World :=
  if (w.heap.objs this).m_parseFutureWatcher then w
  else
    let w := w.modify this fun o => { o with m_parseFutureWatcher := true }
    w.call .incrementPendingEvaluateFutures

/-- `QmakeProFile::setupReader`. -/
def QmakeProFile.setupReader (w : World) (this : NodeId) : World :=
  let exact := w.buildSystem.nextReader
  let w := (w.call (.createProFileReader this)).call (.createProFileReader this)
  let w := { w with buildSystem := { w.buildSystem with nextReader := exact + 2 } }
  w.modify this fun o => { o with m_readerExact := some exact, m_readerCumulative := some (exact + 1) }

/-- `QmakeProFile::asyncUpdate`; the evaluation itself is started on a worker
and is recorded as the call `asyncEvaluate`. -/
def QmakeProFile.asyncUpdate (w : World) (this : NodeId) : World :=
  let w := QmakeProFile.cleanupFutureWatcher w this
  let w := QmakeProFile.setupFutureWatcher w this
  let w := QmakeProFile.setupReader w this
  w.call (.asyncEvaluate this)

/-- `QmakePriFile::finishInitialization`; `buildSystem` tells whether the
pointer passed is non-null. -/
def QmakePriFile.finishInitialization (w : World) (this : NodeId) (buildSystem : Bool)
    (qmakeProFile : NodeId) : World :=
  if !buildSystem then w
  else w.modify this fun o => { o with m_buildSystem := true, m_qmakeProFile := some qmakeProFile }

/-- `QmakePriFile::update` on the object at `this`. -/
def QmakePriFile.updateAt (w : World) (this : NodeId) (result : QmakePriFileEvalResult) : World :=
  let (o, calls) := (w.heap.objs this).update this result
  { heap := w.heap.modify this fun _ => o
    buildSystem := { w.buildSystem with calls := w.buildSystem.calls ++ calls } }

/-- `QmakePriFile::watchFolders` on the object at `this`. -/
def QmakePriFile.watchFoldersAt (w : World) (this : NodeId) (folders : QSet FilePath) : World :=
  let (o, calls) := (w.heap.objs this).watchFolders this folders
  { heap := w.heap.modify this fun _ => o
    buildSystem := { w.buildSystem with calls := w.buildSystem.calls ++ calls } }

/-- `QmakeProFile::setParseInProgress`. -/
def QmakeProFile.setParseInProgress (h : Heap) (this : NodeId) (b : Bool) : Heap :=
  h.modify this fun o => { o with m_parseInProgress := b }

/-- `QmakeProFile::setParseInProgressRecursive`; one unit of fuel per level of
the recursion, `none` when the fuel runs out. -/
def QmakeProFile.setParseInProgressRecursive (b : Bool) : Nat → Heap → NodeId → Option Heap
  | 0, _, _ => none
  | fuel + 1, h, this =>
    let h := QmakeProFile.setParseInProgress h this b
    (h.objs this).m_children.foldlM
      (fun h c =>
        if (h.objs c).isProFile then QmakeProFile.setParseInProgressRecursive b fuel h c
        else some h)
      h

/-- `QmakeProFile::setValidParseRecursive`; one unit of fuel per level of the
recursion, `none` when the fuel runs out. -/
def QmakeProFile.setValidParseRecursive (b : Bool) : Nat → Heap → NodeId → Option Heap
  | 0, _, _ => none
  | fuel + 1, h, this =>
    let h := h.modify this fun o => { o with m_validParse := b }
    (h.objs this).m_children.foldlM
      (fun h c =>
        if (h.objs c).isProFile then QmakeProFile.setValidParseRecursive b fuel h c
        else some h)
      h

/-- The expression `delete node`: the destructor `~QmakeProFile` when the node is
a `QmakeProFile`, then `~QmakePriFile`, which deletes the children; the object
is marked `deleted` at the end. One unit of fuel per level of the recursion. -/
def deleteNode : Nat → World → NodeId → Option World
  | 0, _, _ => none
  | fuel + 1, w, node =>
    let w :=
      if (w.heap.objs node).isProFile then
        QmakeProFile.cleanupProFileReaders (QmakeProFile.cleanupFutureWatcher w node) node
      else w
    let w := QmakePriFile.watchFoldersAt w node []
    ((w.heap.objs node).m_children.foldlM (fun w c => deleteNode fuel w c) w).map fun w =>
      w.modify node fun o => { o with deleted := true }

/-- `QmakePriFile::makeEmpty`. -/
def QmakePriFile.makeEmpty (fuel : Nat) (w : World) (this : NodeId) : Option World :=
  ((w.heap.objs this).m_children.foldlM (fun w c => deleteNode fuel w c) w).map fun w =>
    w.modify this fun o => { o with m_children := [] }

/-- `QmakeProFile::singleVariableValue`. -/
def QmakeProFile.singleVariableValue (self : QmakePriFile) (var : Variable) : String :=
  ((self.m_varValues.lookup var).getD []).headD ""

/-- The branch `result->state == EvalFail || wasEvaluateCanceled()` of
`QmakeProFile::applyEvaluate`. -/
def applyEvaluateFailed (fuel : Nat) (w : World) (this : NodeId) (result : QmakeEvalResult) :
    Option World :=
  let w := w.modify this fun o => { o with m_validParse := false }
  let w := QmakeProFile.cleanupProFileReaders w this
  (QmakeProFile.setValidParseRecursive false fuel w.heap this).bind fun h =>
  (QmakeProFile.setParseInProgressRecursive false fuel h this).bind fun h =>
    let w := { w with heap := h }
    if result.state = .EvalFail then
      let filePath := (w.heap.objs this).m_filePath
      let w := w.call
        (.proFileParseError ("Error while parsing file " ++ filePath ++ ". Giving up.") filePath)
      if (w.heap.objs this).m_projectType = .Invalid then some w
      else
        (QmakePriFile.makeEmpty fuel w this).map fun w =>
          w.modify this fun o => { o with m_projectType := .Invalid }
    else some w

/-- The statements of `QmakeProFile::applyEvaluate` under `if (result->projectType
!= m_projectType)`. -/
def applyEvaluateProjectType (fuel : Nat) (w : World) (this : NodeId)
    (result : QmakeEvalResult) : Option World :=
  if result.projectType ≠ (w.heap.objs this).m_projectType then
    ((w.heap.objs this).m_children.foldlM
      (fun (h : Heap) c =>
        if (h.objs c).isProFile then
          (QmakeProFile.setValidParseRecursive false fuel h c).bind fun h =>
            QmakeProFile.setParseInProgressRecursive false fuel h c
        else some h)
      w.heap).bind fun h =>
    (QmakePriFile.makeEmpty fuel { w with heap := h } this).map fun w =>
      w.modify this fun o => { o with m_projectType := result.projectType }
  else some w

/-- The statements of `QmakeProFile::applyEvaluate` that link the new children
and bring the file sets to the nodes ("Add/Remove pri files, sub projects"). -/
def applyEvaluateChildren (w : World) (this : NodeId) (result : QmakeEvalResult) : World :=
  let heap := result.directChildren.foldl (fun h toAdd => QmakePriFile.addChild h this toAdd) w.heap
  let w := { w with heap := heap }
  let w := result.priFiles.foldl
    (fun w priFiles =>
      let w := QmakePriFile.finishInitialization w priFiles.1 (w.heap.objs this).m_buildSystem this
      QmakePriFile.updateAt w priFiles.1 priFiles.2)
    w
  let w := result.proFiles.foldl
    (fun w proFile =>
      let w := QmakePriFile.finishInitialization w proFile (w.heap.objs this).m_buildSystem proFile
      QmakeProFile.asyncUpdate w proFile)
    w
  QmakePriFile.updateAt w this (treeNode result.includedFiles 0).result

/-- The statements of `QmakeProFile::applyEvaluate` from `m_validParse = ...` to
the end. The wildcard watcher and the extra compilers are not part of the
embedded node; `featureRoots` is `m_readerExact->featureRoots()`. -/
def applyEvaluateValues (featureRoots : List String) (w : World) (this : NodeId)
    (result : QmakeEvalResult) : World :=
  let w := w.modify this fun o => { o with m_validParse := result.state == .EvalOk }
  let w :=
    if (w.heap.objs this).m_validParse then
      let w := w.modify this fun o =>
        { o with
          m_qmakeTargetInformation := result.targetInformation
          m_subProjectsNotToDeploy := result.subProjectsNotToDeploy
          m_installsList := result.installsList
          m_varValues := if o.m_varValues ≠ result.newVarValues then result.newVarValues
            else o.m_varValues }
      w.modify this fun o =>
        { o with
          m_displayName := QmakeProFile.singleVariableValue o .QmakeProjectName
          m_featureRoots := featureRoots }
    else w
  let w := { w with heap := QmakeProFile.setParseInProgress w.heap this false }
  QmakeProFile.cleanupProFileReaders w this

/-- `QmakeProFile::applyEvaluate`. The result is the state afterwards and the
evaluation result as the call leaves it; `none` stands for a call through a
null `m_buildSystem` and for a recursion that the fuel does not cover. -/
def QmakeProFile.applyEvaluate (fuel : Nat) (featureRoots : List String) (w : World)
    (this : NodeId) (result : QmakeEvalResult) : Option (World × QmakeEvalResult) :=
  if (w.heap.objs this).m_readerExact.isNone then some (w, result)
  else if !(w.heap.objs this).m_buildSystem then none
  else if w.buildSystem.shuttingDown then
    some (QmakeProFile.cleanupProFileReaders w this, result)
  else
    let w := result.errors.foldl
      (fun w error => w.call (.proFileParseError error (w.heap.objs this).m_filePath)) w
    if result.state = .EvalFail ∨ w.buildSystem.wasEvaluateCanceled = true then
      (applyEvaluateFailed fuel w this result).map fun w => (w, result)
    else
      (applyEvaluateProjectType fuel w this result).bind fun w =>
      (QmakePriFile.makeEmpty fuel w this).map fun w =>
        let w := applyEvaluateChildren w this result
        (applyEvaluateValues featureRoots w this result, { result with directChildren := [] })

/-! ## Tree shape of the live nodes -/

/-- `d` is a descendant of `n`: it is reached from `n` through the child lists. -/
inductive IsDescendant (h : Heap) : NodeId → NodeId → Prop where
  | child {n d : NodeId} : d ∈ (h.objs n).m_children → IsDescendant h n d
  | step {n c d : NodeId} : c ∈ (h.objs n).m_children → IsDescendant h c d → IsDescendant h n d

/-- `d` is `n` or is reached from `n` through children that are `QmakeProFile`s:
the nodes that the recursive setters visit. -/
inductive ProReach (h : Heap) : NodeId → NodeId → Prop where
  | refl (n : NodeId) : ProReach h n n
  | step {n c d : NodeId} : c ∈ (h.objs n).m_children → (h.objs c).isProFile = true →
      ProReach h c d → ProReach h n d

/-- The subtree below `n` has fewer than `depth` levels under `n`. -/
def SubtreeWithin (h : Heap) : Nat → NodeId → Prop
  | 0, _ => False
  | depth + 1, n => ∀ c ∈ (h.objs n).m_children, SubtreeWithin h depth c

/-- The common shape of `setValidParseRecursive` and `setParseInProgressRecursive`:
assign to the node, then recurse into the children that are `QmakeProFile`s. -/
def setRecursive (f : QmakePriFile → QmakePriFile) : Nat → Heap → NodeId → Option Heap
  | 0, _, _ => none
  | fuel + 1, h, this =>
    let h := h.modify this f
    (h.objs this).m_children.foldlM
      (fun h c => if (h.objs c).isProFile then setRecursive f fuel h c else some h)
      h

/-- The member `field` does not depend on the members that the destructors
write: the readers, the future watcher, the watched folders and the `deleted`
mark. -/
def IgnoresTeardown {β : Type} (field : QmakePriFile → β) : Prop :=
  ∀ (o : QmakePriFile) (readerExact readerCumulative : Option Nat) (watcher : Bool)
    (watched : QSet String) (deleted : Bool),
    field { o with
      m_readerExact := readerExact, m_readerCumulative := readerCumulative,
      m_parseFutureWatcher := watcher, m_watchedFolders := watched, deleted := deleted } =
    field o

/-- Below `this`, a node that is not a `QmakeProFile` has no `QmakeProFile` child:
sub-projects hang only under sub-projects. -/
def NoProFileBelowPriFile (h : Heap) (this : NodeId) : Prop :=
  ∀ n c, IsDescendant h this n → c ∈ (h.objs n).m_children →
    (h.objs c).isProFile = true → (h.objs n).isProFile = true

/-- A project node `a.pro` with one sub-project `sub/sub.pro`, whose last
evaluation is being applied: the readers are set up. -/
def exampleWorld : World :=
  { heap :=
      { objs := fun n =>
          if n = 0 then
            { isProFile := true, m_filePath := "a.pro", m_children := [1], m_buildSystem := true,
              m_projectType := .SubDirsTemplate, m_validParse := true, m_parseInProgress := true,
              m_readerExact := some 0, m_readerCumulative := some 1 }
          else if n = 1 then
            { isProFile := true, m_filePath := "sub/sub.pro", m_parent := some 0,
              m_buildSystem := true, m_projectType := .ApplicationTemplate,
              m_validParse := true, m_parseInProgress := true }
          else {}
        next := 2 }
    buildSystem := { nextReader := 2 } }

/-- The tree links of a node: its parent pointer and its child list. -/
def QmakePriFile.links (o : QmakePriFile) : Option NodeId × List NodeId :=
  (o.m_parent, o.m_children)

/-- The evaluation result applied in the example: `a.pro` now includes `b.pri`,
for which `evaluate` has created the node at address 2. -/
def exampleResult : QmakeEvalResult :=
  { state := .EvalOk
    projectType := .ApplicationTemplate
    directChildren := [2]
    priFiles := [(2, {})] }

/-- The world `exampleWorld` with the node that `evaluate` created for `b.pri`. -/
def exampleWorldEvaluated : World :=
  { exampleWorld with
    heap := (exampleWorld.heap.alloc { m_filePath := "b.pri" }).2 }

/-! ## `QmakeProFile::subDirsPaths`: what one `SUBDIRS` entry resolves to -/

/-- The path that the `SUBDIRS` entry `subDirVar` names: the value of its
`.subdir` or `.file` override key, or the entry itself, made absolute against
the project directory. -/
def subDirRealDir (fs : FileSystem) (reader : ProFileReader) (projectDir subDirVar : String) :
    String :=
  let realDir :=
    if reader.contains (subDirVar ++ ".subdir") then reader.value (subDirVar ++ ".subdir")
    else if reader.contains (subDirVar ++ ".file") then reader.value (subDirVar ++ ".file")
    else subDirVar
  if !fs.isAbsolute realDir then projectDir ++ "/" ++ realDir else realDir

/-- The project file that the `SUBDIRS` entry `subDirVar` resolves to. -/
def subDirRealFile (fs : FileSystem) (reader : ProFileReader) (projectDir subDirVar : String) :
    String :=
  let realDir := subDirRealDir fs reader projectDir subDirVar
  if fs.isDir realDir then realDir ++ "/" ++ fs.fileName realDir ++ ".pro" else realDir

/-- The resolved file of the entry exists. -/
def subDirExists (fs : FileSystem) (reader : ProFileReader) (projectDir subDirVar : String) :
    Bool :=
  fs.fileExists (subDirRealFile fs reader projectDir subDirVar)

/-- The error reported for an entry whose resolved file does not exist. -/
def subDirError (fs : FileSystem) (reader : ProFileReader) (projectDir subDirVar : String) :
    String :=
  "Could not find .pro file for subdirectory \"" ++ subDirVar ++ "\" in \""
    ++ subDirRealDir fs reader projectDir subDirVar ++ "\"."

/-- The elements of a list in the order of their first occurrence, each once. -/
def firstOccurrences {α : Type} [DecidableEq α] : List α → List α
  | [] => []
  | a :: l => a :: (firstOccurrences l).filter fun b => decide (b ≠ a)

/-- A reader that differs from `reader` in the value of `SUBDIRS` only. -/
def ProFileReader.withSubDirs (reader : ProFileReader) (subDirs : List String) : ProFileReader :=
  { reader with values := fun name => if name = "SUBDIRS" then subDirs else reader.values name }

/-- The body of the loop of `subDirsPaths` in terms of what the entry resolves
to. -/
def subDirsPathsStep (fs : FileSystem) (reader : ProFileReader) (projectDir : String)
    (acc : List FilePath × Option (List String) × Option (List String)) (subDirVar : String) :
    List FilePath × Option (List String) × Option (List String) :=
  if subDirExists fs reader projectDir subDirVar then
    let realFile := fs.cleanPath (subDirRealFile fs reader projectDir subDirVar)
    (acc.1 ++ [realFile],
      (match acc.2.1 with
        | some l =>
          if !l.contains realFile
              && (reader.values (subDirVar ++ ".CONFIG")).contains "no_default_target" then
            some (l ++ [realFile])
          else some l
        | none => none),
      acc.2.2)
  else
    (acc.1, acc.2.1, acc.2.2.map fun l => l ++ [subDirError fs reader projectDir subDirVar])

/-! ## `extractSources`: where a source file goes -/

/-- The tree node whose result `extractSources` picks for a source file: the
one that `proToResult` binds the owner id to, the root when it binds none. -/
def extractTarget (proToResult : List (Int × Nat)) (source : EvaluatorSourceFile) : Nat :=
  (proToResult.lookup source.proFileId).getD 0

/-- The found-file sets of one mode: `foundFilesCumulative` or `foundFilesExact`. -/
def QmakePriFileEvalResult.foundFiles (r : QmakePriFileEvalResult) (cumulative : Bool) :
    FileType → QSet FilePath :=
  if cumulative then r.foundFilesCumulative else r.foundFilesExact

/-- The assignment that `extractSources` makes to the picked result. -/
def extractSourcesInsert (file : FilePath) (type : FileType) (cumulative : Bool)
    (node : QmakeIncludedPriFile) : QmakeIncludedPriFile :=
  if cumulative then
    { node with result := { node.result with
        foundFilesCumulative := Function.update node.result.foundFilesCumulative type
          (QSet.insert (node.result.foundFilesCumulative type) file) } }
  else
    { node with result := { node.result with
        foundFilesExact := Function.update node.result.foundFilesExact type
          (QSet.insert (node.result.foundFilesExact type) file) } }

/-! ## `QmakePriFile::processValues`: the two loops -/

/-- The body of the loop `while (it != result.folders.end())` of `processValues`. -/
def processValuesFolder (fs : FileSystem) (result : QmakePriFileEvalResult) (it : FilePath) :
    QmakePriFileEvalResult :=
  if fs.fileExists it then
    if fs.isDir it then
      { result with
        recursiveEnumerateFiles :=
          QSet.unite result.recursiveEnumerateFiles (fs.recursiveEnumerate it) }
    else
      { result with
        recursiveEnumerateFiles := QSet.insert result.recursiveEnumerateFiles it
        folders := result.folders.erase it }
  else
    { result with folders := result.folders.erase it }

/-- The body of the loop over the file types of `processValues`: the exact and
then the cumulative found-file set of the type. -/
def processValuesType (result : QmakePriFileEvalResult) (type : FileType) :
    QmakePriFileEvalResult :=
  let result := { result with
    recursiveEnumerateFiles :=
      QSet.subtract result.recursiveEnumerateFiles (result.foundFilesExact type) }
  let newFilePaths := QSet.unite (filterFilesProVariables type (result.foundFilesExact type))
    (filterFilesRecursiveEnumerata type result.recursiveEnumerateFiles)
  let result := { result with
    foundFilesExact := Function.update result.foundFilesExact type newFilePaths }
  let result := { result with
    recursiveEnumerateFiles :=
      QSet.subtract result.recursiveEnumerateFiles (result.foundFilesCumulative type) }
  let newFilePaths :=
    QSet.unite (filterFilesProVariables type (result.foundFilesCumulative type))
      (filterFilesRecursiveEnumerata type result.recursiveEnumerateFiles)
  { result with
    foundFilesCumulative := Function.update result.foundFilesCumulative type newFilePaths }

/-- The loop over the file types of `processValues`, for the types in the
order `types`. -/
def processValuesTypes (types : List FileType) (result : QmakePriFileEvalResult) :
    QmakePriFileEvalResult :=
  types.foldl processValuesType result

/-! ## Example: a listed source file inside a declared folder -/

/-- A file system with the directory `src` that holds `src/main.cpp` and
`src/Main.qml`. -/
def sourcesFileSystem : FileSystem :=
  { fileExists := fun p => p == "src"
    isDir := fun p => p == "src"
    recursiveEnumerate := fun p => if p == "src" then ["src/main.cpp", "src/Main.qml"] else [] }

/-- The found files of a project file with `SOURCES = src/main.cpp`,
`TRANSLATIONS = src/Main.qml` and the declared folder `src`. -/
def sourcesResult : QmakePriFileEvalResult :=
  { folders := ["src"]
    foundFilesExact := fun type =>
      if type = .Source then ["src/main.cpp"]
      else if type = .Unknown then ["src/Main.qml"]
      else []
    foundFilesCumulative := fun type =>
      if type = .Source then ["src/main.cpp"]
      else if type = .Unknown then ["src/Main.qml"]
      else [] }

/-- The file types in the order in which the data model of the specification
lists the buckets. -/
def FileType.listed : List FileType :=
  [.Header, .Source, .Resource, .Form, .StateChart, .Project, .QML, .Unknown]

/-! ## Example: two handles for one included file -/

/-- The include map of a reader in which `a.pro` includes `b.pri` through two
handles with different file ids. -/
def duplicateIncludes : List (ProFile × List ProFile) :=
  [(exampleRoot, [⟨2, 2, "b.pri"⟩, ⟨3, 3, "b.pri"⟩])]

/-! ## Example: an include found by the cumulative pass only -/

/-- An evaluation input for `a.pro` whose exact pass succeeds and reports no
included file, while the cumulative pass reports that `a.pro` includes `b.pri`. -/
def cumulativeOnlyInput : QmakeEvalInput :=
  { projectFilePath := "a.pro"
    readerExact := exampleReader []
    readerCumulative := exampleReader [(exampleRoot, [⟨2, 2, "b.pri"⟩])]
    parentFilePaths := ["a.pro"] }

/-! ## Members that linking and tearing down leave alone -/

/-- The member `field` does not depend on the members that are written when a
node is linked, initialised, updated from its found files or torn down: the
links, the build system and project-file pointers, the file sets, the watched
folders, the readers, the future watcher and the `deleted` mark. -/
def IgnoresLinking {β : Type} (field : QmakePriFile → β) : Prop :=
  ∀ (o : QmakePriFile) (parent : Option NodeId) (children : List NodeId) (buildSystem : Bool)
    (qmakeProFile : Option NodeId) (files : FileType → SourceFiles) (enumerated : QSet FilePath)
    (watched : QSet String) (readerExact readerCumulative : Option Nat) (watcher : Bool)
    (deleted : Bool),
    field { o with
      m_parent := parent, m_children := children, m_buildSystem := buildSystem,
      m_qmakeProFile := qmakeProFile, m_files := files,
      m_recursiveEnumerateFiles := enumerated, m_watchedFolders := watched,
      m_readerExact := readerExact, m_readerCumulative := readerCumulative,
      m_parseFutureWatcher := watcher, deleted := deleted } =
    field o

/-- The values that `applyEvaluate` copies from a result whose state is
`EvalOk`: the variable values, the target information, the install list, the
sub-projects not to deploy and the display name. -/
def QmakePriFile.evaluatedValues (o : QmakePriFile) :
    List (Variable × List String) × TargetInformation × InstallsList × List FilePath × String :=
  (o.m_varValues, o.m_qmakeTargetInformation, o.m_installsList, o.m_subProjectsNotToDeploy,
    o.m_displayName)

/-- The parse-in-progress flag of a node together with its dynamic type. -/
def QmakePriFile.progressOfKind (o : QmakePriFile) : Bool × Bool :=
  (o.m_parseInProgress, o.isProFile)

/-! ## Example: a project with one sub-directory -/

/-- A file system in which the directory `sub` holds the project file
`sub/sub.pro`. -/
def subdirsFileSystem : FileSystem :=
  { fileExists := fun p => p == "sub/sub.pro"
    isDir := fun p => p == "sub" }

/-- A reader that accepts `a.pro` with `TEMPLATE = subdirs` and `SUBDIRS = sub`. -/
def subdirsReader : ProFileReader :=
  { parsedProFile := some exampleRoot
    accept := true
    templateType := .TT_Subdirs
    values := fun name => if name = "SUBDIRS" then ["sub"] else [] }

/-- An evaluation input for `a.pro` with `TEMPLATE = subdirs` and `SUBDIRS = sub`. -/
def subdirsInput : QmakeEvalInput :=
  { projectFilePath := "a.pro"
    readerExact := subdirsReader
    readerCumulative := subdirsReader
    parentFilePaths := ["a.pro"] }

/-! ## `QmakePriFile::varNameForAdding` and `varNamesForRemoving` -/

/-- The MIME type names that `varNameForAdding` compares with: constants of
`ProjectExplorer::Constants`, `CppEditor::Constants` and
`QmakeProjectManager::Constants`, declared outside this file. -/
structure MimeTypeConstants where
  CPP_HEADER_MIMETYPE : String
  C_HEADER_MIMETYPE : String
  CPP_SOURCE_MIMETYPE : String
  OBJECTIVE_CPP_SOURCE_MIMETYPE : String
  C_SOURCE_MIMETYPE : String
  RESOURCE_MIMETYPE : String
  FORM_MIMETYPE : String
  QML_MIMETYPE : String
  QMLUI_MIMETYPE : String
  SCXML_MIMETYPE : String
  PROFILE_MIMETYPE : String

/-- `QmakePriFile::varNameForAdding`. -/
def varNameForAdding (constants : MimeTypeConstants) (mimeType : String) : String :=
  if mimeType = constants.CPP_HEADER_MIMETYPE ∨ mimeType = constants.C_HEADER_MIMETYPE then
    "HEADERS"
  else if mimeType = constants.CPP_SOURCE_MIMETYPE
      ∨ mimeType = constants.OBJECTIVE_CPP_SOURCE_MIMETYPE
      ∨ mimeType = constants.C_SOURCE_MIMETYPE then
    "SOURCES"
  else if mimeType = constants.RESOURCE_MIMETYPE then "RESOURCES"
  else if mimeType = constants.FORM_MIMETYPE then "FORMS"
  else if mimeType = constants.QML_MIMETYPE ∨ mimeType = constants.QMLUI_MIMETYPE then
    "DISTFILES"
  else if mimeType = constants.SCXML_MIMETYPE then "STATECHARTS"
  else if mimeType = constants.PROFILE_MIMETYPE then "SUBDIRS"
  else "DISTFILES"

/-- `QmakePriFile::varNamesForRemoving`. -/
def varNamesForRemoving : List String :=
  ["HEADERS", "OBJECTIVE_HEADERS", "PRECOMPILED_HEADER", "SOURCES", "OBJECTIVE_SOURCES",
    "RESOURCES", "FORMS", "OTHER_FILES", "SUBDIRS", "DISTFILES", "ICON", "QMAKE_INFO_PLIST",
    "STATECHARTS"]

/-- Consistency of the cached recursive-enumeration set with the buckets: every
cached path has an entry in the QML bucket if it ends in `.qml`, and in the
Unknown bucket otherwise. -/
def CacheConsistent (self : QmakePriFile) : Prop :=
  ∀ x ∈ self.m_recursiveEnumerateFiles,
    ∃ o, (x, o) ∈ self.m_files (if x.endsWith ".qml" then FileType.QML else FileType.Unknown)

/-! ## Example: `INSTALLS` items without a path and with two paths -/

/-- A reader that accepts `a.pro` with `INSTALLS = docs extra data`, where no
`docs.path` is set, `extra.path` has the two values `/a` and `/b`, and
`data.path` is `/opt/data`. -/
def installsReader : ProFileReader :=
  { parsedProFile := some exampleRoot
    accept := true
    values := fun name =>
      if name = "INSTALLS" then ["docs", "extra", "data"]
      else if name = "extra.path" then ["/a", "/b"]
      else if name = "data.path" then ["/opt/data"]
      else [] }

/-- An evaluation input for `a.pro` read by `installsReader`. -/
def installsInput : QmakeEvalInput :=
  { projectFilePath := "a.pro"
    readerExact := installsReader
    readerCumulative := installsReader
    parentFilePaths := ["a.pro"] }

/-- The path under which `installsList` records an item whose last `.path` value
is `itemPath`: a leading install prefix is replaced by its `/dev` variant. -/
def installsItemPath (valuesOfVars : List (String × String)) (itemPath : String) : String :=
  match valuesOfVars.find? (fun pair => !(pair.1 == pair.2 || !pair.1.isPrefixOf itemPath)) with
  | some pair => pair.2 ++ itemPath.drop pair.1.length
  | none => itemPath

/-- The entry that `installsList` appends for the item `item`, if any: none for
the item `target` and for an item without a `.path` value. -/
def installsListEntry (reader : ProFileReader) (projectDir buildDir : String)
    (valuesOfVars : List (String × String)) (item : String) : Option InstallsItem :=
  if item = "target" then none
  else
    (reader.values (item ++ ".path")).getLast?.map fun itemPath =>
      ⟨installsItemPath valuesOfVars itemPath,
        reader.fixifiedValues (item ++ ".files") projectDir buildDir true,
        !(reader.values (item ++ ".CONFIG")).contains "no_default_install",
        (reader.values (item ++ ".CONFIG")).contains "executable"⟩

/-! ## Example: a build pass that is not accepted, and a failing exact pass -/

/-- A reader that accepts `a.pro` with the given `BUILDS` values and
`TARGET = app`. -/
def buildsReader (builds : List String) : ProFileReader :=
  { parsedProFile := some exampleRoot
    accept := true
    values := fun name => if name = "BUILDS" then builds else []
    contains := fun name => name == "TARGET"
    value := fun name => if name = "TARGET" then "app" else "" }

/-- An evaluation input for `a.pro` read by `buildsReader builds`; the readers
that its `qmakeGlobals` make for a build pass accept no file. -/
def buildsInput (builds : List String) : QmakeEvalInput :=
  { projectFilePath := "a.pro"
    readerExact := buildsReader builds
    readerCumulative := buildsReader builds
    parentFilePaths := ["a.pro"] }

/-- A reader for `a.pro` with `INSTALLS = docs`, `docs.path = /opt/docs` and
`docs.files = /src/doc`, which accepts the file or not. -/
def docsReader (accept : Bool) : ProFileReader :=
  { parsedProFile := some exampleRoot
    accept := accept
    values := fun name =>
      if name = "INSTALLS" then ["docs"]
      else if name = "docs.path" then ["/opt/docs"]
      else []
    fixifiedValues := fun name _ _ _ => if name = "docs.files" then [⟨"/src/doc", 1⟩] else [] }

/-- An evaluation input for `a.pro` whose exact pass fails and whose cumulative
pass succeeds. -/
def partialInput : QmakeEvalInput :=
  { projectFilePath := "a.pro"
    readerExact := docsReader false
    readerCumulative := docsReader true
    parentFilePaths := ["a.pro"] }

/-- A file system with the directory `/src/doc`. -/
def docsFileSystem : FileSystem :=
  { fileExists := fun p => p == "/src/doc"
    isDir := fun p => p == "/src/doc" }

/-! ## Shape of the included-file tree -/

/-- The part of a tree entry that decides which node is made for it and below
which: the file handle and the children. -/
def QmakeIncludedPriFile.shape (node : QmakeIncludedPriFile) : Option ProFile × QMap Nat :=
  (node.proFile, node.children)

/-- Shape of the included-file tree of an evaluation: the children of an entry
are entries other than the root, and an entry without a file handle (a
sub-directory project) is a child of the root only. -/
structure IncludeTreeInv (tree : List QmakeIncludedPriFile) : Prop where
  nonempty : 0 < tree.length
  child_pos : ∀ i j, j ∈ (treeNode tree i).children.values → 0 < j
  child_lt : ∀ i j, j ∈ (treeNode tree i).children.values → j < tree.length
  subdir_top : ∀ i j, j ∈ (treeNode tree i).children.values →
    (treeNode tree j).proFile = none → i = 0

/-! ## Size of the included-file tree -/

/-- Order of the included-file tree: the children of an entry come after it in
the list of entries. -/
structure IncludeTreeOrdered (tree : List QmakeIncludedPriFile) : Prop where
  nonempty : 0 < tree.length
  child : ∀ i j, j ∈ (treeNode tree i).children.values → i < j ∧ j < tree.length

/-- The number of iterations that a breadth-first loop over a tree spends on the
entry `i` and on the entries below it, down to `depth` levels; `children` gives
the children of an entry. -/
def bfsSteps (children : Nat → List Nat) : Nat → Nat → Nat
  | 0, _ => 1
  | depth + 1, i => 1 + ((children i).map (bfsSteps children depth)).sum

/-- The include-file map `includeFiles` has no loop: `rank` puts every file
above the files that it includes. -/
def IncludesRanked (rank : ProFile → Nat) (includeFiles : List (ProFile × List ProFile)) : Prop :=
  ∀ p cs, includeFiles.lookup p = some cs → ∀ c ∈ cs, rank c < rank p

/-- The level of a tree entry under `rank`: 0 for the entry of a sub-directory
project, which has no file handle, and one more than the rank of its file
otherwise. -/
def QmakeIncludedPriFile.level (rank : ProFile → Nat) (node : QmakeIncludedPriFile) : Nat :=
  match node.proFile with
  | none => 0
  | some p => rank p + 1

/-- The included-file tree follows `rank`: it is ordered, and the children of an
entry with a file handle are of a lower level. -/
structure IncludeTreeLeveled (rank : ProFile → Nat) (tree : List QmakeIncludedPriFile) :
    Prop where
  ordered : IncludeTreeOrdered tree
  child : ∀ i p, (treeNode tree i).proFile = some p →
    ∀ j ∈ (treeNode tree i).children.values, (treeNode tree j).level rank ≤ rank p

/-! # Theorems -/

/-! ## Sets as lists: membership and multiplicity -/

theorem QSet.mem_insert {α : Type} [DecidableEq α] (s : QSet α) (a b : α) :
    b ∈ QSet.insert s a ↔ b ∈ s ∨ b = a := by
  unfold QSet.insert
  split
  · constructor
    · intro h; exact Or.inl h
    · rintro (h | h)
      · exact h
      · subst h; assumption
  · simp

theorem QSet.nodup_insert {α : Type} [DecidableEq α] (s : QSet α) (a : α) (h : s.Nodup) :
    (QSet.insert s a).Nodup := by
  unfold QSet.insert
  split
  · exact h
  · rename_i hn
    exact List.Nodup.append h (List.nodup_singleton a) (by simpa using hn)

/-- Membership in a loop that inserts `g b` for the elements `b` that pass `c`. -/
theorem QSet.mem_foldl_insert {α β : Type} [DecidableEq α] (c : β → Bool) (g : β → α)
    (l : List β) (s : QSet α) (a : α) :
    a ∈ l.foldl (fun s b => if c b then QSet.insert s (g b) else s) s ↔
      a ∈ s ∨ ∃ b ∈ l, c b = true ∧ g b = a := by
  induction l generalizing s with
  | nil => simp
  | cons x xs ih =>
    rw [List.foldl_cons, ih]
    by_cases hc : c x = true
    · simp only [hc, if_true, QSet.mem_insert, List.mem_cons, exists_eq_or_imp, true_and]
      constructor
      · rintro ((h | h) | h)
        · exact Or.inl h
        · exact Or.inr (Or.inl h.symm)
        · exact Or.inr (Or.inr h)
      · rintro (h | h | h)
        · exact Or.inl (Or.inl h)
        · exact Or.inl (Or.inr h.symm)
        · exact Or.inr h
    · simp [hc]

theorem QSet.nodup_foldl_insert {α β : Type} [DecidableEq α] (c : β → Bool) (g : β → α)
    (l : List β) (s : QSet α) (h : s.Nodup) :
    (l.foldl (fun s b => if c b then QSet.insert s (g b) else s) s).Nodup := by
  induction l generalizing s with
  | nil => simpa using h
  | cons x xs ih =>
    rw [List.foldl_cons]
    apply ih
    split
    · exact QSet.nodup_insert s _ h
    · exact h

theorem QSet.mem_subtract {α : Type} [DecidableEq α] (s t : QSet α) (a : α) :
    a ∈ QSet.subtract s t ↔ a ∈ s ∧ a ∉ t := by
  simp [QSet.subtract]


/-! ## `QmakePriFile::update` -/

theorem mem_updateFiles (exactFps cumulativeFps : QSet FilePath) (sf : SourceFile) :
    sf ∈ updateFiles exactFps cumulativeFps ↔
      (sf.2 = .ExactParse ∧ sf.1 ∈ exactFps) ∨
      (sf.2 = .CumulativeParse ∧ sf.1 ∈ cumulativeFps ∧ sf.1 ∉ exactFps) := by
  obtain ⟨p, o⟩ := sf
  have h1 := QSet.mem_foldl_insert (fun _ : FilePath => true)
    (fun exactFp : FilePath => ((exactFp, FileOrigin.ExactParse) : SourceFile))
  have h2 := QSet.mem_foldl_insert (fun cumulativeFp : FilePath => !exactFps.contains cumulativeFp)
    (fun cumulativeFp : FilePath => ((cumulativeFp, FileOrigin.CumulativeParse) : SourceFile))
  simp only [if_true] at h1
  unfold updateFiles
  simp only [h2, h1]
  cases o <;> simp

theorem nodup_updateFiles (exactFps cumulativeFps : QSet FilePath) :
    (updateFiles exactFps cumulativeFps).Nodup := by
  have h1 := QSet.nodup_foldl_insert (fun _ : FilePath => true)
    (fun exactFp : FilePath => ((exactFp, FileOrigin.ExactParse) : SourceFile)) exactFps []
    List.nodup_nil
  simp only [if_true] at h1
  exact QSet.nodup_foldl_insert (fun cumulativeFp : FilePath => !exactFps.contains cumulativeFp)
    (fun cumulativeFp : FilePath => ((cumulativeFp, FileOrigin.CumulativeParse) : SourceFile))
    cumulativeFps _ h1

/-- After `update`, every bucket is the merge computed by the loop body. -/
theorem update_m_files (this : NodeId) (self : QmakePriFile) (result : QmakePriFileEvalResult)
    (type : FileType) :
    (self.update this result).1.m_files type =
      updateFiles (result.foundFilesExact type) (result.foundFilesCumulative type) := by
  cases type <;> simp [QmakePriFile.update, FileType.all, Function.update]

theorem List.eq_singleton_of_nodup {α : Type} {l : List α} {a : α} (hn : l.Nodup)
    (hall : ∀ x ∈ l, x = a) (hmem : a ∈ l) : l = [a] := by
  match l, hn, hall, hmem with
  | [x], _, hall, _ => rw [hall x (List.mem_singleton_self x)]
  | x :: y :: t, hn, hall, _ =>
    have hx := hall x (List.mem_cons_self _ _)
    have hy := hall y (List.mem_cons_of_mem _ (List.mem_cons_self _ _))
    have : x ≠ y := by
      intro h
      rw [List.nodup_cons] at hn
      exact hn.1 (h ▸ List.mem_cons_self _ _)
    exact absurd (hx.trans hy.symm) this

/-- C2: `QmakePriFile::update` merges the exact and cumulative found-file sets of
each file type with exact precedence. For every file type and path `p`, the
bucket afterwards holds `(p, ExactParse)` iff `p` is in `foundFilesExact[type]`,
holds `(p, CumulativeParse)` iff `p` is in `foundFilesCumulative[type]` and not
in `foundFilesExact[type]` (the two origins are all an entry can have, so the
bucket holds nothing else), and a path in both sets is recorded exactly once,
with origin `ExactParse`. -/
theorem update_merges_with_exact_precedence (this : NodeId) (self : QmakePriFile)
    (result : QmakePriFileEvalResult) (type : FileType) (p : FilePath) :
    (((p, FileOrigin.ExactParse) ∈ (self.update this result).1.m_files type ↔
        p ∈ result.foundFilesExact type) ∧
     ((p, FileOrigin.CumulativeParse) ∈ (self.update this result).1.m_files type ↔
        p ∈ result.foundFilesCumulative type ∧ p ∉ result.foundFilesExact type)) ∧
    (p ∈ result.foundFilesExact type → p ∈ result.foundFilesCumulative type →
      ((self.update this result).1.m_files type).filter (fun sf => decide (sf.1 = p)) =
        [(p, FileOrigin.ExactParse)]) := by
  rw [update_m_files]
  refine ⟨⟨by simp [mem_updateFiles], by simp [mem_updateFiles]⟩, ?_⟩
  intro he _
  apply List.eq_singleton_of_nodup
  · exact (nodup_updateFiles _ _).filter _
  · rintro ⟨q, o⟩ hx
    simp only [List.mem_filter, decide_eq_true_eq, mem_updateFiles] at hx
    obtain ⟨hm, rfl⟩ := hx
    rcases hm with ⟨ho, _⟩ | ⟨_, _, hne⟩
    · rw [ho]
    · exact absurd he hne
  · simp [List.mem_filter, mem_updateFiles, he]

/-! ## `QmakePriFile::folderChanged` -/

/-- After a `folderChanged` that found a difference, every bucket is the loop
body applied to the old bucket. -/
theorem folderChanged_m_files (isChildOf : FilePath → String → Bool) (self : QmakePriFile)
    (changedFolder : String) (newFiles : QSet FilePath) (type : FileType)
    (h : (self.folderChanged isChildOf changedFolder newFiles).1 = true) :
    (self.folderChanged isChildOf changedFolder newFiles).2.m_files type =
      folderChangedFiles (self.m_files type)
        (filterFilesRecursiveEnumerata type
          (QSet.subtract newFiles self.m_recursiveEnumerateFiles))
        (filterFilesRecursiveEnumerata type
          ((QSet.subtract self.m_recursiveEnumerateFiles newFiles).filter
            fun file => isChildOf file changedFolder)) := by
  by_cases hc : ((QSet.subtract newFiles self.m_recursiveEnumerateFiles).isEmpty &&
      ((QSet.subtract self.m_recursiveEnumerateFiles newFiles).filter
        fun file => isChildOf file changedFolder).isEmpty) = true
  · simp [QmakePriFile.folderChanged, hc] at h
  · cases type <;> simp [QmakePriFile.folderChanged, hc, FileType.all, Function.update]

theorem mem_filterFilesRecursiveEnumerata (type : FileType) (files : QSet FilePath)
    (p : FilePath) :
    p ∈ filterFilesRecursiveEnumerata type files ↔
      p ∈ files ∧ ((type = .QML ∧ p.endsWith ".qml" = true) ∨
        (type = .Unknown ∧ p.endsWith ".qml" = false)) := by
  have h1 := QSet.mem_foldl_insert (fun file : FilePath => file.endsWith ".qml")
    (fun file : FilePath => file) files [] p
  have h2 := QSet.mem_foldl_insert (fun file : FilePath => !file.endsWith ".qml")
    (fun file : FilePath => file) files [] p
  simp at h1 h2
  unfold filterFilesRecursiveEnumerata
  cases type <;> simp [h1, h2]

theorem mem_foldl_folderChangedAdd (add : QSet FilePath) (cur : SourceFiles) (sf : SourceFile) :
    sf ∈ add.foldl folderChangedAdd cur ↔
      sf ∈ cur ∨ (sf.2 = .ExactParse ∧ sf.1 ∈ add ∧ ∀ sf' ∈ cur, sf'.1 ≠ sf.1) := by
  induction add generalizing cur with
  | nil => simp
  | cons x xs ih =>
    rw [List.foldl_cons, ih]
    unfold folderChangedAdd
    by_cases hx : cur.any (fun sf => sf.1 == x) = true
    · simp only [hx, Bool.not_true, Bool.false_eq_true, if_false, List.mem_cons]
      constructor
      · rintro (h | ⟨h1, h2, h3⟩)
        · exact Or.inl h
        · exact Or.inr ⟨h1, Or.inr h2, h3⟩
      · rintro (h | ⟨h1, h2 | h2, h3⟩)
        · exact Or.inl h
        · exfalso
          simp only [List.any_eq_true, beq_iff_eq] at hx
          obtain ⟨sf', hm, he⟩ := hx
          exact h3 sf' hm (he.trans h2.symm)
        · exact Or.inr ⟨h1, h2, h3⟩
    · have hx' : ∀ sf' ∈ cur, sf'.1 ≠ x := by
        intro sf' hm he
        exact hx (by simp only [List.any_eq_true, beq_iff_eq]; exact ⟨sf', hm, he⟩)
      simp only [hx, Bool.not_false, if_true, QSet.mem_insert, List.mem_cons]
      constructor
      · rintro ((h | h) | ⟨h1, h2, h3⟩)
        · exact Or.inl h
        · subst h; exact Or.inr ⟨rfl, Or.inl rfl, hx'⟩
        · exact Or.inr ⟨h1, Or.inr h2, fun sf' hm => h3 sf' (Or.inl hm)⟩
      · rintro (h | ⟨h1, h2, h3⟩)
        · exact Or.inl (Or.inl h)
        · by_cases hsx : sf.1 = x
          · exact Or.inl (Or.inr (Prod.ext hsx h1))
          · refine Or.inr ⟨h1, h2.resolve_left hsx, ?_⟩
            rintro sf' (hm | hm)
            · exact h3 sf' hm
            · subst hm
              exact fun he => hsx he.symm

theorem mem_of_mem_folderChangedRemove {cur : SourceFiles} {fp : FilePath} {sf : SourceFile}
    (h : sf ∈ folderChangedRemove cur fp) : sf ∈ cur := by
  unfold folderChangedRemove at h
  split at h
  · exact List.mem_of_mem_erase h
  · exact h

theorem mem_folderChangedRemove_of_ne {cur : SourceFiles} {fp : FilePath} {sf : SourceFile}
    (h : sf ∈ cur) (hne : sf.1 ≠ fp) : sf ∈ folderChangedRemove cur fp := by
  unfold folderChangedRemove
  split
  · rename_i it hit
    have hp := List.find?_some hit
    simp only [beq_iff_eq] at hp
    have : sf ≠ it := fun he => hne (he ▸ hp)
    exact (List.mem_erase_of_ne this).2 h
  · exact h

theorem uniquePaths_folderChangedRemove {cur : SourceFiles} (fp : FilePath)
    (h : UniquePaths cur) : UniquePaths (folderChangedRemove cur fp) := by
  unfold folderChangedRemove
  split
  · exact List.Nodup.sublist ((List.erase_sublist _ _).map Prod.fst) h
  · exact h

theorem not_mem_folderChangedRemove {cur : SourceFiles} (fp : FilePath)
    (h : UniquePaths cur) : ∀ sf ∈ folderChangedRemove cur fp, sf.1 ≠ fp := by
  intro sf hsf he
  unfold folderChangedRemove at hsf
  split at hsf
  · rename_i it hit
    have hp := List.find?_some hit
    simp only [beq_iff_eq] at hp
    have hitm : it ∈ cur := List.mem_of_find?_eq_some hit
    have hsfm : sf ∈ cur := List.mem_of_mem_erase hsf
    have heq : sf = it := List.inj_on_of_nodup_map h hsfm hitm (he.trans hp.symm)
    subst heq
    exact (List.Nodup.not_mem_erase (List.Nodup.of_map _ h)) hsf
  · rename_i hnone
    have := List.find?_eq_none.1 hnone sf hsf
    simp only [beq_iff_eq] at this
    exact this he

theorem mem_of_mem_foldl_folderChangedRemove (remove : QSet FilePath) {cur : SourceFiles}
    {sf : SourceFile} (h : sf ∈ remove.foldl folderChangedRemove cur) : sf ∈ cur := by
  induction remove generalizing cur with
  | nil => exact h
  | cons x xs ih => exact mem_of_mem_folderChangedRemove (ih h)

theorem mem_foldl_folderChangedRemove_of_not_mem (remove : QSet FilePath) {cur : SourceFiles}
    {sf : SourceFile} (h : sf ∈ cur) (hne : sf.1 ∉ remove) :
    sf ∈ remove.foldl folderChangedRemove cur := by
  induction remove generalizing cur with
  | nil => exact h
  | cons x xs ih =>
    rw [List.mem_cons, not_or] at hne
    exact ih (mem_folderChangedRemove_of_ne h hne.1) hne.2

theorem uniquePaths_foldl_folderChangedRemove (remove : QSet FilePath) {cur : SourceFiles}
    (h : UniquePaths cur) : UniquePaths (remove.foldl folderChangedRemove cur) := by
  induction remove generalizing cur with
  | nil => exact h
  | cons x xs ih => exact ih (uniquePaths_folderChangedRemove x h)

theorem not_mem_foldl_folderChangedRemove (remove : QSet FilePath) {cur : SourceFiles}
    (h : UniquePaths cur) {p : FilePath} (hp : p ∈ remove) :
    ∀ sf ∈ remove.foldl folderChangedRemove cur, sf.1 ≠ p := by
  induction remove generalizing cur with
  | nil => simp at hp
  | cons x xs ih =>
    intro sf hsf
    rw [List.foldl_cons] at hsf
    rcases List.mem_cons.1 hp with rfl | hp'
    · exact not_mem_folderChangedRemove p h sf (mem_of_mem_foldl_folderChangedRemove xs hsf)
    · exact ih (uniquePaths_folderChangedRemove x h) hp' sf hsf

theorem uniquePaths_foldl_folderChangedAdd (add : QSet FilePath) {cur : SourceFiles}
    (h : UniquePaths cur) : UniquePaths (add.foldl folderChangedAdd cur) := by
  induction add generalizing cur with
  | nil => exact h
  | cons x xs ih =>
    apply ih
    unfold folderChangedAdd
    by_cases hx : cur.any (fun sf => sf.1 == x) = true
    · simpa [hx] using h
    · have hx' : x ∉ cur.map Prod.fst := by
        intro hm
        obtain ⟨sf', hm', he⟩ := List.mem_map.1 hm
        exact hx (by simp only [List.any_eq_true, beq_iff_eq]; exact ⟨sf', hm', he⟩)
      have hni : ((x, FileOrigin.ExactParse) : SourceFile) ∉ cur :=
        fun hm => hx' (List.mem_map.2 ⟨_, hm, rfl⟩)
      simp only [hx, Bool.not_false, if_true, QSet.insert, hni, if_false, UniquePaths,
        List.map_append, List.map_cons, List.map_nil]
      exact List.Nodup.append h (List.nodup_singleton x) (by simpa using hx')

theorem folderChanged_fst (isChildOf : FilePath → String → Bool) (self : QmakePriFile)
    (changedFolder : String) (newFiles : QSet FilePath) :
    (self.folderChanged isChildOf changedFolder newFiles).1 =
      !((QSet.subtract newFiles self.m_recursiveEnumerateFiles).isEmpty &&
        ((QSet.subtract self.m_recursiveEnumerateFiles newFiles).filter
          fun file => isChildOf file changedFolder).isEmpty) := by
  unfold QmakePriFile.folderChanged
  by_cases hc : ((QSet.subtract newFiles self.m_recursiveEnumerateFiles).isEmpty &&
      ((QSet.subtract self.m_recursiveEnumerateFiles newFiles).filter
        fun file => isChildOf file changedFolder).isEmpty) = true
  · simp [hc]
  · simp only [hc]
    simp

theorem List.isEmpty_eq_false_of_mem {α : Type} {l : List α} {a : α} (h : a ∈ l) :
    l.isEmpty = false := by
  cases l with
  | nil => simp at h
  | cons _ _ => rfl

/-- C6: `QmakePriFile::folderChanged` is a no-op on an unchanged file set. Whenever
every path of `newFiles` is already in the cached recursive-enumeration set and
every cached path under the changed folder is in `newFiles`, the call returns
`false` and leaves the whole node (every bucket and the cached set) as it was. -/
theorem folderChanged_unchanged_is_noop (isChildOf : FilePath → String → Bool)
    (self : QmakePriFile) (changedFolder : String) (newFiles : QSet FilePath)
    (hadded : ∀ p ∈ newFiles, p ∈ self.m_recursiveEnumerateFiles)
    (hremoved : ∀ p ∈ self.m_recursiveEnumerateFiles,
      isChildOf p changedFolder = true → p ∈ newFiles) :
    self.folderChanged isChildOf changedFolder newFiles = (false, self) := by
  have h1 : QSet.subtract newFiles self.m_recursiveEnumerateFiles = [] := by
    apply List.eq_nil_iff_forall_not_mem.2
    intro p hp
    rw [QSet.mem_subtract] at hp
    exact hp.2 (hadded p hp.1)
  have h2 : ((QSet.subtract self.m_recursiveEnumerateFiles newFiles).filter
      fun file => isChildOf file changedFolder) = [] := by
    apply List.eq_nil_iff_forall_not_mem.2
    intro p hp
    rw [List.mem_filter, QSet.mem_subtract] at hp
    exact hp.1.2 (hremoved p hp.1.1 hp.2)
  simp [QmakePriFile.folderChanged, h1, h2]

/-- Witness for C6: the cached set and the new set are both `{d/a.qml}`. -/
theorem folderChanged_unchanged_is_noop_witness :
    (∀ p ∈ ["d/a.qml"], p ∈ exampleNode.m_recursiveEnumerateFiles) ∧
    (∀ p ∈ exampleNode.m_recursiveEnumerateFiles,
      FilePath.isChildOf p "d" = true → p ∈ ["d/a.qml"]) ∧
    exampleNode.folderChanged FilePath.isChildOf "d" ["d/a.qml"] = (false, exampleNode) :=
  ⟨fun _ hp => hp, fun _ hp _ => hp,
    folderChanged_unchanged_is_noop FilePath.isChildOf exampleNode "d" ["d/a.qml"]
      (fun _ hp => hp) (fun _ hp _ => hp)⟩

theorem mem_folderChangedFiles_of_mem {cur : SourceFiles} {add remove : QSet FilePath}
    {sf : SourceFile} (h : sf ∈ cur) (hne : sf.1 ∉ remove) :
    sf ∈ folderChangedFiles cur add remove := by
  unfold folderChangedFiles
  split
  · exact mem_foldl_folderChangedRemove_of_not_mem remove
      ((mem_foldl_folderChangedAdd add cur sf).2 (Or.inl h)) hne
  · exact h

theorem mem_folderChangedFiles_elim {cur : SourceFiles} {add remove : QSet FilePath}
    {sf : SourceFile} (h : sf ∈ folderChangedFiles cur add remove) :
    sf ∈ cur ∨ (sf.2 = .ExactParse ∧ sf.1 ∈ add ∧ ∀ sf' ∈ cur, sf'.1 ≠ sf.1) := by
  unfold folderChangedFiles at h
  split at h
  · exact (mem_foldl_folderChangedAdd add cur sf).1 (mem_of_mem_foldl_folderChangedRemove remove h)
  · exact Or.inl h

theorem uniquePaths_folderChangedFiles {cur : SourceFiles} (add remove : QSet FilePath)
    (h : UniquePaths cur) : UniquePaths (folderChangedFiles cur add remove) := by
  unfold folderChangedFiles
  split
  · exact uniquePaths_foldl_folderChangedRemove remove (uniquePaths_foldl_folderChangedAdd add h)
  · exact h

/-- C7: for every node state and every call `folderChanged(folder, newFiles)` in
which `newFiles` contains a path `p` ending in `.qml` that is not in the cached
set: the call returns `true`; afterwards the QML bucket has an entry for `p`,
with origin `ExactParse` if `p` had no entry there before; and every entry for
`p` in the bucket of another file type was already there before the call. -/
theorem folderChanged_added_qml_only_in_qml_bucket (isChildOf : FilePath → String → Bool)
    (self : QmakePriFile) (changedFolder : String) (newFiles : QSet FilePath) (p : FilePath)
    (hnew : p ∈ newFiles) (hqml : p.endsWith ".qml" = true)
    (hcached : p ∉ self.m_recursiveEnumerateFiles) :
    (self.folderChanged isChildOf changedFolder newFiles).1 = true ∧
    (∃ origin, (p, origin) ∈
      (self.folderChanged isChildOf changedFolder newFiles).2.m_files .QML) ∧
    ((∀ origin, (p, origin) ∉ self.m_files .QML) → (p, FileOrigin.ExactParse) ∈
      (self.folderChanged isChildOf changedFolder newFiles).2.m_files .QML) ∧
    (∀ type origin, type ≠ .QML →
      (p, origin) ∈ (self.folderChanged isChildOf changedFolder newFiles).2.m_files type →
      (p, origin) ∈ self.m_files type) := by
  have hadded : p ∈ QSet.subtract newFiles self.m_recursiveEnumerateFiles :=
    (QSet.mem_subtract _ _ _).2 ⟨hnew, hcached⟩
  have hret : (self.folderChanged isChildOf changedFolder newFiles).1 = true := by
    rw [folderChanged_fst, List.isEmpty_eq_false_of_mem hadded]
    rfl
  have hnotrem : ∀ type, p ∉ filterFilesRecursiveEnumerata type
      ((QSet.subtract self.m_recursiveEnumerateFiles newFiles).filter
        fun file => isChildOf file changedFolder) := by
    intro type hm
    rw [mem_filterFilesRecursiveEnumerata, List.mem_filter, QSet.mem_subtract] at hm
    exact hm.1.1.2 hnew
  have haddQml : p ∈ filterFilesRecursiveEnumerata .QML
      (QSet.subtract newFiles self.m_recursiveEnumerateFiles) :=
    (mem_filterFilesRecursiveEnumerata _ _ _).2 ⟨hadded, Or.inl ⟨rfl, hqml⟩⟩
  have hexact : (∀ origin, (p, origin) ∉ self.m_files .QML) → (p, FileOrigin.ExactParse) ∈
      (self.folderChanged isChildOf changedFolder newFiles).2.m_files .QML := by
    intro hno
    rw [folderChanged_m_files _ _ _ _ _ hret]
    unfold folderChangedFiles
    rw [List.isEmpty_eq_false_of_mem haddQml]
    simp only [Bool.not_false, Bool.true_or, if_true]
    apply mem_foldl_folderChangedRemove_of_not_mem _ _ (hnotrem .QML)
    refine (mem_foldl_folderChangedAdd _ _ _).2 (Or.inr ⟨rfl, haddQml, ?_⟩)
    rintro ⟨q, o⟩ hm he
    simp only at he
    subst he
    exact hno o hm
  refine ⟨hret, ?_, hexact, ?_⟩
  · by_cases hex : ∃ origin, (p, origin) ∈ self.m_files .QML
    · obtain ⟨origin, hm⟩ := hex
      refine ⟨origin, ?_⟩
      rw [folderChanged_m_files _ _ _ _ _ hret]
      exact mem_folderChangedFiles_of_mem hm (hnotrem .QML)
    · exact ⟨_, hexact (fun origin hm => hex ⟨origin, hm⟩)⟩
  · intro type origin hne hm
    rw [folderChanged_m_files _ _ _ _ _ hret] at hm
    rcases mem_folderChangedFiles_elim hm with h | ⟨_, h, _⟩
    · exact h
    · rw [mem_filterFilesRecursiveEnumerata] at h
      rcases h.2 with ⟨ht, _⟩ | ⟨_, hf⟩
      · exact absurd ht hne
      · simp only at hf
        rw [hqml] at hf
        exact absurd hf (by decide)

/-- Witness for C7: `d/b.qml` appears next to the known `d/a.qml`. -/
theorem folderChanged_added_qml_only_in_qml_bucket_witness :
    ("d/b.qml" ∈ ["d/a.qml", "d/b.qml"] ∧ FilePath.endsWith "d/b.qml" ".qml" = true ∧
      "d/b.qml" ∉ exampleNode.m_recursiveEnumerateFiles) ∧
    (exampleNode.folderChanged FilePath.isChildOf "d" ["d/a.qml", "d/b.qml"]).1 = true ∧
    (∃ origin, ("d/b.qml", origin) ∈
      (exampleNode.folderChanged FilePath.isChildOf "d" ["d/a.qml", "d/b.qml"]).2.m_files .QML) ∧
    ((∀ origin, ("d/b.qml", origin) ∉ exampleNode.m_files .QML) →
      ("d/b.qml", FileOrigin.ExactParse) ∈
        (exampleNode.folderChanged FilePath.isChildOf "d" ["d/a.qml", "d/b.qml"]).2.m_files .QML) ∧
    (∀ type origin, type ≠ .QML →
      ("d/b.qml", origin) ∈
        (exampleNode.folderChanged FilePath.isChildOf "d" ["d/a.qml", "d/b.qml"]).2.m_files type →
      ("d/b.qml", origin) ∈ exampleNode.m_files type) :=
  ⟨⟨by decide, by decide, by decide⟩,
    folderChanged_added_qml_only_in_qml_bucket FilePath.isChildOf exampleNode "d"
      ["d/a.qml", "d/b.qml"] "d/b.qml" (by decide) (by decide) (by decide)⟩

/-- C8: `folderChanged` removes only within the changed folder. In a call
`folderChanged(folder, newFiles)` that returns `true`: (a) an entry that a
bucket loses has a path that was in the cached recursive-enumeration set, is
absent from `newFiles` and is a child of `folder`; (b) on a node whose buckets
are consistent, every such path has no entry in the QML and Unknown buckets
afterwards; (c) an entry whose path is cached, missing from `newFiles` and not
under `folder` stays in its bucket. -/
theorem folderChanged_removes_only_within_folder (isChildOf : FilePath → String → Bool)
    (self : QmakePriFile) (changedFolder : String) (newFiles : QSet FilePath)
    (hret : (self.folderChanged isChildOf changedFolder newFiles).1 = true) :
    (∀ type sf, sf ∈ self.m_files type →
      sf ∉ (self.folderChanged isChildOf changedFolder newFiles).2.m_files type →
      sf.1 ∈ self.m_recursiveEnumerateFiles ∧ sf.1 ∉ newFiles ∧
        isChildOf sf.1 changedFolder = true) ∧
    (BucketsConsistent self → ∀ q, q ∈ self.m_recursiveEnumerateFiles → q ∉ newFiles →
      isChildOf q changedFolder = true → ∀ origin,
        (q, origin) ∉ (self.folderChanged isChildOf changedFolder newFiles).2.m_files .QML ∧
        (q, origin) ∉ (self.folderChanged isChildOf changedFolder newFiles).2.m_files .Unknown) ∧
    (∀ q, q ∈ self.m_recursiveEnumerateFiles → q ∉ newFiles →
      isChildOf q changedFolder = false → ∀ type sf, sf.1 = q → sf ∈ self.m_files type →
        sf ∈ (self.folderChanged isChildOf changedFolder newFiles).2.m_files type) := by
  refine ⟨?_, ?_, ?_⟩
  · intro type sf hm hnm
    rw [folderChanged_m_files _ _ _ _ _ hret] at hnm
    by_cases hr : sf.1 ∈ filterFilesRecursiveEnumerata type
        ((QSet.subtract self.m_recursiveEnumerateFiles newFiles).filter
          fun file => isChildOf file changedFolder)
    · rw [mem_filterFilesRecursiveEnumerata, List.mem_filter, QSet.mem_subtract] at hr
      exact ⟨hr.1.1.1, hr.1.1.2, hr.1.2⟩
    · exact absurd (mem_folderChangedFiles_of_mem hm hr) hnm
  · intro hinv q hq hnq hchild origin
    have hremoved : q ∈ (QSet.subtract self.m_recursiveEnumerateFiles newFiles).filter
        fun file => isChildOf file changedFolder := by
      rw [List.mem_filter, QSet.mem_subtract]
      exact ⟨⟨hq, hnq⟩, hchild⟩
    have hnotadd : ∀ type, q ∉ filterFilesRecursiveEnumerata type
        (QSet.subtract newFiles self.m_recursiveEnumerateFiles) := by
      intro type hm
      rw [mem_filterFilesRecursiveEnumerata, QSet.mem_subtract] at hm
      exact hm.1.2 hq
    -- in the bucket whose predicate `q` passes, the entry is erased
    have herased : ∀ type, q ∈ filterFilesRecursiveEnumerata type
        ((QSet.subtract self.m_recursiveEnumerateFiles newFiles).filter
          fun file => isChildOf file changedFolder) →
        (q, origin) ∉ (self.folderChanged isChildOf changedFolder newFiles).2.m_files type := by
      intro type hrem hm
      rw [folderChanged_m_files _ _ _ _ _ hret] at hm
      unfold folderChangedFiles at hm
      rw [List.isEmpty_eq_false_of_mem hrem] at hm
      simp only [Bool.not_false, Bool.or_true, if_true] at hm
      exact not_mem_foldl_folderChangedRemove _
        (uniquePaths_foldl_folderChangedAdd _ (hinv.1 type)) hrem _ hm rfl
    -- in the other bucket there was no entry and none is added
    have habsent : ∀ type, (∀ sf ∈ self.m_files type, sf.1 ≠ q) →
        (q, origin) ∉ (self.folderChanged isChildOf changedFolder newFiles).2.m_files type := by
      intro type hno hm
      rw [folderChanged_m_files _ _ _ _ _ hret] at hm
      rcases mem_folderChangedFiles_elim hm with h | ⟨_, h, _⟩
      · exact hno _ h rfl
      · exact hnotadd type h
    cases hqml : q.endsWith ".qml"
    · refine ⟨habsent .QML ?_, herased .Unknown ?_⟩
      · intro sf hsf he
        have := hinv.2.1 sf hsf
        rw [he, hqml] at this
        exact absurd this (by decide)
      · exact (mem_filterFilesRecursiveEnumerata _ _ _).2 ⟨hremoved, Or.inr ⟨rfl, hqml⟩⟩
    · refine ⟨herased .QML ?_, habsent .Unknown ?_⟩
      · exact (mem_filterFilesRecursiveEnumerata _ _ _).2 ⟨hremoved, Or.inl ⟨rfl, hqml⟩⟩
      · intro sf hsf he
        have := hinv.2.2 sf hsf
        rw [he, hqml] at this
        exact absurd this (by decide)
  · intro q hq hnq hchild type sf he hm
    rw [folderChanged_m_files _ _ _ _ _ hret]
    apply mem_folderChangedFiles_of_mem hm
    intro hr
    rw [mem_filterFilesRecursiveEnumerata, List.mem_filter, he] at hr
    rw [hchild] at hr
    exact absurd hr.1.2 (by decide)

theorem bucketsConsistent_exampleNode : BucketsConsistent exampleNode := by
  refine ⟨?_, ?_, ?_⟩
  · intro type
    cases type <;> (unfold UniquePaths; decide)
  · decide
  · decide

/-- Witness for C8: the known file `d/a.qml` disappears from the folder `d`. -/
theorem folderChanged_removes_only_within_folder_witness :
    (exampleNode.folderChanged FilePath.isChildOf "d" []).1 = true ∧
    BucketsConsistent exampleNode ∧
    ∀ origin,
      ("d/a.qml", origin) ∉ (exampleNode.folderChanged FilePath.isChildOf "d" []).2.m_files .QML ∧
      ("d/a.qml", origin) ∉
        (exampleNode.folderChanged FilePath.isChildOf "d" []).2.m_files .Unknown :=
  ⟨by decide, bucketsConsistent_exampleNode,
    (folderChanged_removes_only_within_folder FilePath.isChildOf exampleNode "d" []
      (by decide)).2.1 bucketsConsistent_exampleNode "d/a.qml" (by decide) (by decide)
      (by decide)⟩

/-! ## `QmakeProFile::evaluate`: the state of the result -/

theorem evaluateOne_fst (input : QmakeEvalInput) (reader : ProFileReader) (cumulative : Bool)
    (buildPassReader : Option ProFileReader) :
    (evaluateOne input reader cumulative buildPassReader).1 = reader.accept := by
  unfold evaluateOne
  cases hacc : reader.accept
  · simp
  · simp only [Bool.not_true, Bool.false_eq_true, if_false]
    split
    · rfl
    · split <;> split <;> rfl

theorem evaluateIncludedFiles_state {fuel : Nat} {fs : FileSystem} {input : QmakeEvalInput}
    {result result' : QmakeEvalResult} {st : IncludeTreeState}
    (h : evaluateIncludedFiles fuel fs input result = some (result', st)) :
    result'.state = result.state := by
  unfold evaluateIncludedFiles at h
  simp only [Option.bind_eq_some, Option.map_eq_some', Prod.exists, Prod.mk.injEq] at h
  obtain ⟨r1, st1, h1, st2, _, hr, _⟩ := h
  subst hr
  split at h1
  · simp only [Option.map_eq_some', Prod.mk.injEq] at h1
    obtain ⟨_, _, h2, _⟩ := h1
    rw [← h2]
    split <;> rfl
  · simp only [Option.some.injEq, Prod.mk.injEq] at h1
    rw [← h1.1]

theorem evaluateValues_state (fs : FileSystem) (input : QmakeEvalInput)
    (exactBuildPassReader cumulativeBuildPassReader : Option ProFileReader)
    (result : QmakeEvalResult) (st : IncludeTreeState) :
    (evaluateValues fs input exactBuildPassReader cumulativeBuildPassReader result st).1.state =
      result.state := by
  unfold evaluateValues
  simp only
  split <;> rfl

theorem evaluateChildNodes_state {fuel : Nat} {fs : FileSystem} {heap heap' : Heap}
    {input : QmakeEvalInput} {result result' : QmakeEvalResult}
    {tree : List QmakeIncludedPriFile}
    (h : evaluateChildNodes fuel fs heap input result tree = some (heap', result')) :
    result'.state = result.state := by
  unfold evaluateChildNodes at h
  simp only [Option.bind_eq_some, Option.map_eq_some', Prod.mk.injEq] at h
  obtain ⟨_, _, _, _, _, hr⟩ := h
  rw [← hr]

theorem evaluateState_fst (input : QmakeEvalInput) :
    (evaluateState input).1 =
      match input.readerExact.parsedProFile with
      | some _ =>
        if input.readerExact.accept then .EvalOk
        else if input.readerCumulative.accept then .EvalPartial else .EvalFail
      | none => .EvalFail := by
  unfold evaluateState
  split
  · have h1 := evaluateOne_fst input input.readerExact false none
    have h2 := evaluateOne_fst input input.readerCumulative true none
    simp only [← h1, ← h2]
  · rfl

/-- When the state is `EvalFail`, `evaluate` returns at once, whatever the fuel:
the heap is untouched and the result is the freshly constructed one. -/
theorem evaluate_of_evalFail (fuel : Nat) (fs : FileSystem) (heap : Heap) (input : QmakeEvalInput)
    (h : (evaluateState input).1 = .EvalFail) :
    QmakeProFile.evaluate fuel fs heap input = some (heap, { state := .EvalFail }) := by
  unfold QmakeProFile.evaluate
  simp [h]

theorem evaluate_state {fuel : Nat} {fs : FileSystem} {heap heap' : Heap}
    {input : QmakeEvalInput} {result : QmakeEvalResult}
    (h : QmakeProFile.evaluate fuel fs heap input = some (heap', result)) :
    result.state = (evaluateState input).1 := by
  by_cases hf : (evaluateState input).1 = .EvalFail
  · rw [evaluate_of_evalFail fuel fs heap input hf] at h
    simp only [Option.some.injEq, Prod.mk.injEq] at h
    rw [← h.2, hf]
  · unfold QmakeProFile.evaluate at h
    simp only [hf, if_false, Option.bind_eq_some, Prod.exists] at h
    obtain ⟨r1, st, h1, h2⟩ := h
    rw [evaluateChildNodes_state h2, evaluateValues_state, evaluateIncludedFiles_state h1]

/-- C9: an `EvalFail` result of `QmakeProFile::evaluate` carries no structural
information: no direct children, no pri or pro files, an included-file tree
that is the root alone without children, no exact sub-directories, no variable
values, no install items, no wildcard directories and no errors; and no node
was created on the heap. -/
theorem evaluate_evalFail_result_is_empty (fuel : Nat) (fs : FileSystem) (heap heap' : Heap)
    (input : QmakeEvalInput) (result : QmakeEvalResult)
    (h : QmakeProFile.evaluate fuel fs heap input = some (heap', result))
    (hfail : result.state = .EvalFail) :
    result.directChildren = [] ∧ result.priFiles = [] ∧ result.proFiles = [] ∧
    result.includedFiles.length = 1 ∧ (∀ node ∈ result.includedFiles, node.children = []) ∧
    result.exactSubdirs = [] ∧ result.newVarValues = [] ∧ result.installsList.items = [] ∧
    result.directoriesWithWildcards = [] ∧ result.errors = [] ∧ heap'.next = heap.next := by
  have hs := evaluate_state h
  rw [hfail] at hs
  rw [evaluate_of_evalFail fuel fs heap input hs.symm] at h
  simp only [Option.some.injEq, Prod.mk.injEq] at h
  obtain ⟨rfl, rfl⟩ := h
  simp

/-- Witness for C9: a root file that cannot be parsed. -/
theorem evaluate_evalFail_result_is_empty_witness :
    ∃ heap' result, QmakeProFile.evaluate 0 {} {} {} = some (heap', result) ∧
      result.state = .EvalFail ∧ result.directChildren = [] ∧ result.newVarValues = [] := by
  have h := evaluate_of_evalFail 0 {} {} {} rfl
  have hc := evaluate_evalFail_result_is_empty 0 {} {} {} {} _ h rfl
  exact ⟨_, _, h, rfl, hc.1, hc.2.2.2.2.2.2.1⟩

/-! ## The included-file tree -/

theorem treeNode_append_length (tree : List QmakeIncludedPriFile) (node : QmakeIncludedPriFile) :
    treeNode (tree ++ [node]) tree.length = node := by
  simp [treeNode, List.getD]

theorem treeNode_append_of_lt (tree : List QmakeIncludedPriFile) (node : QmakeIncludedPriFile)
    {i : Nat} (h : i < tree.length) : treeNode (tree ++ [node]) i = treeNode tree i := by
  simp [treeNode, List.getD, List.getElem?_append_left h]

theorem length_treeModify (tree : List QmakeIncludedPriFile) (i : Nat)
    (f : QmakeIncludedPriFile → QmakeIncludedPriFile) :
    (treeModify tree i f).length = tree.length := by
  unfold treeModify
  split <;> simp

theorem treeNode_treeModify_of_ne (tree : List QmakeIncludedPriFile) {i j : Nat}
    (f : QmakeIncludedPriFile → QmakeIncludedPriFile) (h : i ≠ j) :
    treeNode (treeModify tree i f) j = treeNode tree j := by
  unfold treeModify
  split
  · simp [treeNode, List.getD, List.getElem?_set_ne h]
  · rfl

theorem treeNode_treeModify_self (tree : List QmakeIncludedPriFile) {i : Nat}
    (f : QmakeIncludedPriFile → QmakeIncludedPriFile) (h : i < tree.length) :
    treeNode (treeModify tree i f) i = f (treeNode tree i) := by
  unfold treeModify
  have : tree[i]? = some tree[i] := List.getElem?_eq_getElem h
  simp [treeNode, List.getD, this, h]

/-- One step of the conversion loop on a node without children whose file
includes exactly one file: the only new work item is a fresh node for that
file, again without children, and no other node changes. -/
theorem addIncludedChild_of_leaf (st : IncludeTreeState) (k : Nat) (child : ProFile)
    (hk : k < st.tree.length) (hleaf : (treeNode st.tree k).children = []) :
    (treeNode (addIncludedChild k st child).tree k).children.values = [st.tree.length] ∧
    (addIncludedChild k st child).tree.length = st.tree.length + 1 ∧
    (treeNode (addIncludedChild k st child).tree st.tree.length).children = [] ∧
    (treeNode (addIncludedChild k st child).tree st.tree.length).proFile = some child ∧
    ∀ j, j < st.tree.length → j ≠ k →
      treeNode (addIncludedChild k st child).tree j = treeNode st.tree j := by
  have hne : k ≠ st.tree.length := Nat.ne_of_lt hk
  have hk' : k < (st.tree ++ [({ proFile := some child, name := child.fileName } :
      QmakeIncludedPriFile)]).length := by
    rw [List.length_append]; exact Nat.lt_add_right _ hk
  unfold addIncludedChild
  simp only [hleaf, QMap.find, List.find?_nil, Option.map_none']
  refine ⟨?_, ?_, ?_, ?_, ?_⟩
  · rw [treeNode_treeModify_self _ _ hk', treeNode_append_of_lt _ _ hk, hleaf]
    rfl
  · rw [length_treeModify, List.length_append]
    rfl
  · rw [treeNode_treeModify_of_ne _ _ hne, treeNode_append_length]
  · rw [treeNode_treeModify_of_ne _ _ hne, treeNode_append_length]
  · intro j hj hjk
    rw [treeNode_treeModify_of_ne _ _ (Ne.symm hjk), treeNode_append_of_lt _ _ hj]

/-- Where two files include each other, the conversion loop never empties its
work list: from a non-empty work list of distinct childless nodes for the two
files, no amount of fuel is enough. -/
theorem buildIncludedFiles_diverges (includeFiles : List (ProFile × List ProFile))
    (a b : ProFile) (ha : (includeFiles.lookup a).getD [] = [b])
    (hb : (includeFiles.lookup b).getD [] = [a]) (fuel : Nat) :
    ∀ (toBuild : List Nat) (st : IncludeTreeState), toBuild ≠ [] → toBuild.Nodup →
      (∀ k ∈ toBuild, k < st.tree.length ∧ (treeNode st.tree k).children = [] ∧
        ((treeNode st.tree k).proFile = some a ∨ (treeNode st.tree k).proFile = some b)) →
      buildIncludedFiles includeFiles fuel toBuild st = none := by
  induction fuel with
  | zero =>
    intro toBuild st hne _ _
    cases toBuild with
    | nil => exact absurd rfl hne
    | cons _ _ => rfl
  | succ fuel ih =>
    intro toBuild st hne hnd hall
    cases toBuild with
    | nil => exact absurd rfl hne
    | cons k rest =>
      obtain ⟨hk, hleaf, hpro⟩ := hall k (List.mem_cons_self _ _)
      have hkrest : k ∉ rest := (List.nodup_cons.1 hnd).1
      -- the state after the iteration, for the one file `child` that is included
      have hnext : ∀ child, child = a ∨ child = b →
          buildIncludedFiles includeFiles fuel (rest ++ [st.tree.length])
            (addIncludedChild k st child) = none := by
        intro child hchild
        have hstep := addIncludedChild_of_leaf st k child hk hleaf
        apply ih
        · simp
        · refine List.Nodup.append (List.nodup_cons.1 hnd).2 (List.nodup_singleton _) ?_
          intro j hj hj'
          rw [List.mem_singleton] at hj'
          exact absurd (hall j (List.mem_cons_of_mem _ hj)).1 (by omega)
        · intro j hj
          rcases List.mem_append.1 hj with hj | hj
          · obtain ⟨hjlt, hjleaf, hjpro⟩ := hall j (List.mem_cons_of_mem _ hj)
            have hjk : j ≠ k := fun h => hkrest (h ▸ hj)
            rw [hstep.2.2.2.2 j hjlt hjk, hstep.2.1]
            exact ⟨by omega, hjleaf, hjpro⟩
          · rw [List.mem_singleton] at hj
            subst hj
            rw [hstep.2.1, hstep.2.2.1, hstep.2.2.2.1]
            refine ⟨by omega, rfl, ?_⟩
            rcases hchild with h | h
            · exact Or.inl (by rw [h])
            · exact Or.inr (by rw [h])
      unfold buildIncludedFiles
      rcases hpro with hpro | hpro
      · simp only [hpro, ha, List.foldl_cons, List.foldl_nil]
        rw [(addIncludedChild_of_leaf st k b hk hleaf).1]
        exact hnext b (Or.inr rfl)
      · simp only [hpro, hb, List.foldl_cons, List.foldl_nil]
        rw [(addIncludedChild_of_leaf st k a hk hleaf).1]
        exact hnext a (Or.inl rfl)

theorem evaluate_none_of_exact_loop (fuel : Nat) (fs : FileSystem) (heap : Heap)
    (input : QmakeEvalInput) (hstate : (evaluateState input).1 = .EvalOk)
    (htype : proFileTemplateTypeToProjectType input.readerExact.templateType ≠ .SubDirsTemplate)
    (hloop : buildIncludedFiles input.readerExact.includeFiles fuel [0]
      { tree := [{ proFile := input.readerExact.parsedProFile,
                   name := input.projectFilePath }] } = none) :
    QmakeProFile.evaluate fuel fs heap input = none := by
  have htree : evaluateIncludedFiles fuel fs input { state := .EvalOk } = none := by
    unfold evaluateIncludedFiles
    have hm : treeModify ({ state := .EvalOk } : QmakeEvalResult).includedFiles 0 (fun root =>
        { root with proFile := input.readerExact.parsedProFile,
                    name := input.projectFilePath }) =
        [{ proFile := input.readerExact.parsedProFile, name := input.projectFilePath }] := by
      rfl
    simp [hm, hloop, htype]
  unfold QmakeProFile.evaluate
  simp [hstate, htree]

/-- C5 (the code diverges from the claim): on the include-file map of the claim,
in which `a.pro` includes `b.pri` and `b.pri` includes `a.pro`, the loop that
builds the included-file tree does not come to an end, so `evaluate` returns
no result, whatever the number of iterations allowed; the same holds when
`a.pro` includes `b.pri` and `c.pri`, which include each other. -/
theorem evaluate_cyclic_includes_never_returns (fuel : Nat) (fs : FileSystem) (heap : Heap) :
    QmakeProFile.evaluate fuel fs heap cyclicInput = none ∧
    QmakeProFile.evaluate fuel fs heap diamondInput = none := by
  constructor
  · apply evaluate_none_of_exact_loop fuel fs heap cyclicInput (by decide) (by decide)
    exact buildIncludedFiles_diverges cyclicInput.readerExact.includeFiles
      exampleRoot ⟨2, 2, "b.pri"⟩ (by decide) (by decide) fuel [0] _ (by simp) (by simp)
      (by decide)
  · apply evaluate_none_of_exact_loop fuel fs heap diamondInput (by decide) (by decide)
    cases fuel with
    | zero => rfl
    | succ fuel =>
      exact buildIncludedFiles_diverges diamondInput.readerExact.includeFiles
        ⟨2, 2, "b.pri"⟩ ⟨3, 3, "c.pri"⟩ (by decide) (by decide) fuel [1, 2]
        { tree := [{ proFile := some exampleRoot, name := "a.pro",
                     children := [("b.pri", 1), ("c.pri", 2)] },
                   { proFile := some ⟨2, 2, "b.pri"⟩, name := "b.pri" },
                   { proFile := some ⟨3, 3, "c.pri"⟩, name := "c.pri" }],
          proToResult := [(3, 2), (2, 1)] }
        (by simp) (by decide) (by decide)

/-! ## Heap operations: what they leave alone -/

theorem Heap.modify_objs_of_ne (h : Heap) {n x : NodeId} (f : QmakePriFile → QmakePriFile)
    (hne : x ≠ n) : (h.modify n f).objs x = h.objs x := by
  simp [Heap.modify, Function.update, hne]

theorem Heap.modify_objs_self (h : Heap) (n : NodeId) (f : QmakePriFile → QmakePriFile) :
    (h.modify n f).objs n = f (h.objs n) := by
  simp [Heap.modify]

theorem Heap.modify_next (h : Heap) (n : NodeId) (f : QmakePriFile → QmakePriFile) :
    (h.modify n f).next = h.next := rfl

/-- A member of every object that the function `f` leaves alone is left alone
by `modify`. -/
theorem Heap.modify_field {β : Type} (h : Heap) (n : NodeId) (f : QmakePriFile → QmakePriFile)
    (field : QmakePriFile → β) (hf : ∀ o, field (f o) = field o) (x : NodeId) :
    field ((h.modify n f).objs x) = field (h.objs x) := by
  by_cases hx : x = n
  · subst hx; rw [Heap.modify_objs_self, hf]
  · rw [Heap.modify_objs_of_ne h f hx]

theorem setParent_filePath (h : Heap) (this p x : NodeId) :
    ((QmakePriFile.setParent h this p).objs x).m_filePath = (h.objs x).m_filePath := by
  unfold QmakePriFile.setParent
  split
  · rfl
  · refine Heap.modify_field h this _ (fun o => o.m_filePath) ?_ x
    intro o; rfl

theorem setParent_next (h : Heap) (this p : NodeId) :
    (QmakePriFile.setParent h this p).next = h.next := by
  unfold QmakePriFile.setParent
  split <;> rfl

theorem setParent_parent_of_ne (h : Heap) (this p : NodeId) {x : NodeId} (hx : x ≠ this) :
    ((QmakePriFile.setParent h this p).objs x).m_parent = (h.objs x).m_parent := by
  unfold QmakePriFile.setParent
  split
  · rfl
  · rw [Heap.modify_objs_of_ne _ _ hx]

theorem addChild_filePath (h : Heap) (this pf x : NodeId) :
    ((QmakePriFile.addChild h this pf).objs x).m_filePath = (h.objs x).m_filePath := by
  unfold QmakePriFile.addChild
  split
  · rfl
  · split
    · rfl
    · show ((QmakePriFile.setParent _ pf this).objs x).m_filePath = _
      rw [setParent_filePath]
      refine Heap.modify_field h this _ (fun o => o.m_filePath) ?_ x
      intro o; rfl

theorem addChild_next (h : Heap) (this pf : NodeId) :
    (QmakePriFile.addChild h this pf).next = h.next := by
  unfold QmakePriFile.addChild
  split
  · rfl
  · split
    · rfl
    · show (QmakePriFile.setParent _ pf this).next = _
      rw [setParent_next]
      rfl

theorem addChild_parent_of_ne (h : Heap) (this pf : NodeId) {x : NodeId} (hx : x ≠ pf) :
    ((QmakePriFile.addChild h this pf).objs x).m_parent = (h.objs x).m_parent := by
  unfold QmakePriFile.addChild
  split
  · rfl
  · split
    · rfl
    · show ((QmakePriFile.setParent _ pf this).objs x).m_parent = _
      rw [setParent_parent_of_ne _ _ _ hx]
      refine Heap.modify_field h this _ (fun o => o.m_parent) ?_ x
      intro o; rfl

/-- `addChild` on a child without a parent that is not yet among the children:
the child is appended and its parent pointer set. -/
theorem addChild_of_fresh (h : Heap) (this pf : NodeId) (hne : this ≠ pf)
    (hnot : pf ∉ (h.objs this).m_children) (hpar : (h.objs pf).m_parent = none) :
    ((QmakePriFile.addChild h this pf).objs pf).m_parent = some this ∧
    ((QmakePriFile.addChild h this pf).objs this).m_children =
      (h.objs this).m_children ++ [pf] ∧
    ∀ x, x ≠ this → ((QmakePriFile.addChild h this pf).objs x).m_children =
      (h.objs x).m_children := by
  have hc : (h.objs this).m_children.contains pf = false := by
    simpa using hnot
  have hp' : ((h.modify this fun o => { o with m_children := o.m_children ++ [pf] }).objs
      pf).m_parent = none := by
    rw [Heap.modify_objs_of_ne _ _ (Ne.symm hne)]; exact hpar
  unfold QmakePriFile.addChild QmakePriFile.setParent
  simp only [hc, hpar, hp', Option.isSome_none, Bool.false_eq_true, if_false]
  refine ⟨?_, ?_, ?_⟩
  · rw [Heap.modify_objs_self]
  · rw [Heap.modify_objs_of_ne _ _ hne, Heap.modify_objs_self]
  · intro x hx
    refine (Heap.modify_field _ pf _ (fun o => o.m_children) ?_ x).trans ?_
    · intro o; rfl
    · rw [Heap.modify_objs_of_ne _ _ hx]

/-! ## `QmakeProFile::evaluate`: loop prevention -/

/-- When the walk up the parent chain ends with `loop == false`, `loop` was
`false` at the start and no node of the chain has the path `name`. -/
theorem parentChainLoop_false (h : Heap) (name : FilePath) (fuel : Nat) :
    ∀ (start : Option NodeId) (loop : Bool),
      parentChainLoop h name fuel start loop = some false →
      loop = false ∧ ∀ a, (start = some a ∨ ∃ n, start = some n ∧ IsAncestor h a n) →
        (h.objs a).m_filePath ≠ name := by
  induction fuel with
  | zero =>
    intro start loop hw
    cases start with
    | none =>
      simp only [parentChainLoop, Option.some.injEq] at hw
      exact ⟨hw, by rintro a (h1 | ⟨n, h1, _⟩) <;> cases h1⟩
    | some n => cases loop <;> simp [parentChainLoop] at hw
  | succ fuel ih =>
    intro start loop hw
    cases start with
    | none =>
      simp only [parentChainLoop, Option.some.injEq] at hw
      exact ⟨hw, by rintro a (h1 | ⟨n, h1, _⟩) <;> cases h1⟩
    | some n =>
      cases loop with
      | true => simp [parentChainLoop] at hw
      | false =>
        simp only [parentChainLoop] at hw
        obtain ⟨hn, hrest⟩ := ih _ _ hw
        refine ⟨rfl, ?_⟩
        rintro a (h1 | ⟨m, h1, h2⟩)
        · cases h1
          simpa using hn
        · cases h1
          cases h2 with
          | parent hp => exact hrest a (Or.inl hp)
          | step hp hanc => exact hrest a (Or.inr ⟨_, hp, hanc⟩)

/-- Ancestors of a created node are created nodes with a smaller address. -/
theorem ChildNodesInv.ancestor_lt {before : Heap} {base : NodeId} {input : QmakeEvalInput}
    {state : EvalResultState} {exactSubdirs : QSet FilePath}
    {tree : List QmakeIncludedPriFile} {origin : NodeId → Nat} {st : ChildNodesState}
    (inv : ChildNodesInv before base input state exactSubdirs tree origin st) {a c : NodeId}
    (hanc : IsAncestor st.heap a c) (hc : base ≤ c) (hlt : c < st.heap.next) :
    base ≤ a ∧ a < c := by
  induction hanc with
  | parent hp =>
    have := inv.parent _ hc hlt
    simp only [hp] at this
    exact ⟨this.1, this.2.1⟩
  | step hp _ ih =>
    have := inv.parent _ hc hlt
    simp only [hp] at this
    obtain ⟨h1, h2, _⟩ := this
    have h3 := ih h1 (Nat.lt_trans h2 hlt)
    exact ⟨h3.1, Nat.lt_trans h3.2 h2⟩

/-- Ancestry among the nodes below `bound` depends only on their parent pointers. -/
theorem IsAncestor.of_agree {h h' : Heap} {bound : NodeId}
    (hagree : ∀ x, x < bound → (h'.objs x).m_parent = (h.objs x).m_parent)
    (hsmall : ∀ x p, x < bound → (h.objs x).m_parent = some p → p < x)
    {a c : NodeId} (hanc : IsAncestor h' a c) (hc : c < bound) : IsAncestor h a c := by
  induction hanc with
  | parent hp =>
    rw [hagree _ hc] at hp
    exact IsAncestor.parent hp
  | step hp _ ih =>
    rw [hagree _ hc] at hp
    exact IsAncestor.step hp (ih (Nat.lt_trans (hsmall _ _ hc hp) hc))

theorem CreatedNode.path_new {before after : Heap} {pn : Option NodeId} {obj : QmakePriFile}
    (cn : CreatedNode before after pn obj) :
    (after.objs before.next).m_filePath = obj.m_filePath := by
  have h := congrArg QmakePriFile.m_filePath cn.obj_new
  exact h

/-- Apart from the links, the nodes that existed are as before. -/
theorem CreatedNode.sansLinks_old {before after : Heap} {pn : Option NodeId} {obj : QmakePriFile}
    (cn : CreatedNode before after pn obj) (x : NodeId) (hx : x ≠ before.next) :
    (after.objs x).sansLinks = (before.objs x).sansLinks := by
  by_cases hpn : pn = some x
  · rw [cn.pn_obj x hpn]
    rfl
  · rw [cn.unchanged x hx hpn]

theorem CreatedNode.modify {before after : Heap} {pn : Option NodeId} {obj : QmakePriFile}
    (cn : CreatedNode before after pn obj) (f : QmakePriFile → QmakePriFile)
    (hpath : ∀ o, (f o).m_filePath = o.m_filePath) (hparent : ∀ o, (f o).m_parent = o.m_parent)
    (hchildren : ∀ o, (f o).m_children = o.m_children)
    (hobj : ∀ o, (f o).sansLinks = f o.sansLinks) :
    CreatedNode before (after.modify before.next f) pn (f obj) where
  next := cn.next
  path_old x hx := (Heap.modify_field after _ f (fun o => o.m_filePath) hpath x).trans
    (cn.path_old x hx)
  parent_old x hx := (Heap.modify_field after _ f (fun o => o.m_parent) hparent x).trans
    (cn.parent_old x hx)
  children_old x hx y hy := by
    rw [Heap.modify_field after _ f (fun o => o.m_children) hchildren x] at hy
    exact cn.children_old x hx y hy
  obj_new := by
    rw [Heap.modify_objs_self, hobj, cn.obj_new]
  parent_new := (Heap.modify_field after _ f (fun o => o.m_parent) hparent _).trans cn.parent_new
  children_new :=
    (Heap.modify_field after _ f (fun o => o.m_children) hchildren _).trans cn.children_new
  unchanged x hx hpn := by
    rw [Heap.modify_objs_of_ne _ _ hx]
    exact cn.unchanged x hx hpn
  pn_lt := cn.pn_lt
  pn_obj n hn := by
    rw [Heap.modify_objs_of_ne _ _ (Nat.ne_of_lt (cn.pn_lt n hn))]
    exact cn.pn_obj n hn

theorem addChild_objs_of_ne (h : Heap) (this pf : NodeId) {x : NodeId} (h1 : x ≠ this)
    (h2 : x ≠ pf) : (QmakePriFile.addChild h this pf).objs x = h.objs x := by
  unfold QmakePriFile.addChild QmakePriFile.setParent
  split
  · rfl
  · split
    · rfl
    · simp only
      split
      · rw [Heap.modify_objs_of_ne _ _ h1]
      · rw [Heap.modify_objs_of_ne _ _ h2, Heap.modify_objs_of_ne _ _ h1]

/-- `addChild` writes links only. -/
theorem addChild_sansLinks (h : Heap) (this pf x : NodeId) :
    ((QmakePriFile.addChild h this pf).objs x).sansLinks = (h.objs x).sansLinks := by
  unfold QmakePriFile.addChild QmakePriFile.setParent
  split
  · rfl
  · split
    · rfl
    · simp only
      split
      · refine Heap.modify_field _ this _ QmakePriFile.sansLinks ?_ x
        intro o; rfl
      · refine (Heap.modify_field _ pf _ QmakePriFile.sansLinks ?_ x).trans ?_
        · intro o; rfl
        refine Heap.modify_field _ this _ QmakePriFile.sansLinks ?_ x
        intro o; rfl

/-- `addChild` of a parentless node that is not yet a child: the parent is as
before but for the node appended to its child list. -/
theorem addChild_parent_obj (h : Heap) (this pf : NodeId) (hne : this ≠ pf)
    (hnot : pf ∉ (h.objs this).m_children) (hpar : (h.objs pf).m_parent = none) :
    (QmakePriFile.addChild h this pf).objs this =
      { h.objs this with m_children := (h.objs this).m_children ++ [pf] } := by
  have hc : (h.objs this).m_children.contains pf = false := by
    simpa using hnot
  have hp' : ((h.modify this fun o => { o with m_children := o.m_children ++ [pf] }).objs
      pf).m_parent = none := by
    rw [Heap.modify_objs_of_ne _ _ (Ne.symm hne)]; exact hpar
  unfold QmakePriFile.addChild QmakePriFile.setParent
  simp only [hc, hpar, hp', Option.isSome_none, Bool.false_eq_true, if_false]
  rw [Heap.modify_objs_of_ne _ _ hne, Heap.modify_objs_self]

theorem newChildNode_filePath (input : QmakeEvalInput) (state : EvalResultState)
    (exactSubdirs : QSet FilePath) (priFile : QmakeIncludedPriFile) :
    (newChildNode input state exactSubdirs priFile).m_filePath = priFile.name := by
  unfold newChildNode
  split <;> rfl

theorem newChildNode_isProFile (input : QmakeEvalInput) (state : EvalResultState)
    (exactSubdirs : QSet FilePath) (priFile : QmakeIncludedPriFile) :
    (newChildNode input state exactSubdirs priFile).isProFile = priFile.proFile.isNone := by
  unfold newChildNode
  split <;> rename_i h <;> rw [h] <;> rfl

/-- `new` without `addChild` creates a node in the sense of `CreatedNode`. -/
theorem CreatedNode.alloc (h : Heap) (fresh : QmakePriFile)
    (hparent : fresh.m_parent = none) (hchildren : fresh.m_children = []) :
    CreatedNode h (h.alloc fresh).2 none fresh := by
  have hself : (h.alloc fresh).2.objs h.next = fresh := by simp [Heap.alloc]
  have hother : ∀ x, x ≠ h.next → (h.alloc fresh).2.objs x = h.objs x := by
    intro x hx; simp [Heap.alloc, Function.update, hx]
  exact
    { next := rfl
      path_old := fun x hx => by rw [hother x hx]
      parent_old := fun x hx => by rw [hother x hx]
      children_old := fun x hx y hy => by rw [hother x hx] at hy; exact Or.inl hy
      obj_new := by
        rw [hself]
        unfold QmakePriFile.sansLinks
        rw [← hparent, ← hchildren]
      parent_new := by rw [hself, hparent]
      children_new := by rw [hself, hchildren]
      unchanged := fun x hx _ => hother x hx
      pn_lt := fun n hn => by cases hn
      pn_obj := fun n hn => by cases hn }

/-- `new` followed by `pn->addChild(node)` creates a node in the sense of
`CreatedNode`, provided `pn` is an existing node whose children all exist. -/
theorem CreatedNode.alloc_addChild (h : Heap) (n : NodeId) (fresh : QmakePriFile)
    (hparent : fresh.m_parent = none) (hchildren : fresh.m_children = [])
    (hn : n < h.next) (hnc : ∀ x ∈ (h.objs n).m_children, x < h.next) :
    CreatedNode h (QmakePriFile.addChild (h.alloc fresh).2 n (h.alloc fresh).1) (some n)
      fresh := by
  have hself : (h.alloc fresh).2.objs h.next = fresh := by simp [Heap.alloc]
  have hother : ∀ x, x ≠ h.next → (h.alloc fresh).2.objs x = h.objs x := by
    intro x hx; simp [Heap.alloc, Function.update, hx]
  have hne : n ≠ h.next := Nat.ne_of_lt hn
  have hfresh := addChild_of_fresh (h.alloc fresh).2 n h.next hne
    (by rw [hother n hne]; intro hm; exact absurd (hnc _ hm) (Nat.lt_irrefl _))
    (by rw [hself, hparent])
  exact
    { next := by
        show (QmakePriFile.addChild (h.alloc fresh).2 n h.next).next = _
        rw [addChild_next]; rfl
      path_old := fun x hx => by
        show ((QmakePriFile.addChild (h.alloc fresh).2 n h.next).objs x).m_filePath = _
        rw [addChild_filePath, hother x hx]
      parent_old := fun x hx => by
        show ((QmakePriFile.addChild (h.alloc fresh).2 n h.next).objs x).m_parent = _
        rw [addChild_parent_of_ne _ _ _ hx, hother x hx]
      children_old := fun x hx y hy => by
        change y ∈ ((QmakePriFile.addChild (h.alloc fresh).2 n h.next).objs x).m_children at hy
        by_cases hxn : x = n
        · subst hxn
          rw [hfresh.2.1, hother x hx, List.mem_append, List.mem_singleton] at hy
          exact hy
        · rw [hfresh.2.2 x hxn, hother x hx] at hy
          exact Or.inl hy
      obj_new := by
        show ((QmakePriFile.addChild (h.alloc fresh).2 n h.next).objs h.next).sansLinks = _
        rw [addChild_sansLinks, hself]
        unfold QmakePriFile.sansLinks
        rw [← hparent, ← hchildren]
      parent_new := hfresh.1
      children_new := by
        show ((QmakePriFile.addChild (h.alloc fresh).2 n h.next).objs h.next).m_children = _
        rw [hfresh.2.2 _ (Ne.symm hne), hself, hchildren]
      unchanged := fun x hx hpn => by
        show (QmakePriFile.addChild (h.alloc fresh).2 n h.next).objs x = _
        rw [addChild_objs_of_ne _ _ _ (fun e => hpn (by rw [e])) hx, hother x hx]
      pn_lt := fun m hm => by cases hm; exact hn
      pn_obj := fun m hm => by
        cases hm
        show (QmakePriFile.addChild (h.alloc fresh).2 n h.next).objs n = _
        rw [addChild_parent_obj _ _ _ hne
          (by rw [hother n hne]; intro hm; exact absurd (hnc _ hm) (Nat.lt_irrefl _))
          (by rw [hself, hparent]), hother n hne] }

/-- What one pass through the body of the loop over `tree->children` does: the
entry is skipped and the state is unchanged, or the loop check found neither
`parentFilePaths` nor the parent chain to hold the name, and one node was
created for it. -/
theorem createChildNode_spec {chainFuel : Nat} {input : QmakeEvalInput}
    {state : EvalResultState} {exactSubdirs : QSet FilePath}
    {tree : List QmakeIncludedPriFile} {pn : Option NodeId} {st st' : ChildNodesState}
    {priFile : Nat}
    (hpn : ∀ n, pn = some n →
      n < st.heap.next ∧ ∀ x ∈ (st.heap.objs n).m_children, x < st.heap.next)
    (h : createChildNode chainFuel input state exactSubdirs tree pn st priFile = some st') :
    st' = st ∨
    ((treeNode tree priFile).name ∉ input.parentFilePaths ∧
      (∀ a, (pn = some a ∨ ∃ n, pn = some n ∧ IsAncestor st.heap a n) →
        (st.heap.objs a).m_filePath ≠ (treeNode tree priFile).name) ∧
      CreatedNode st.heap st'.heap pn
        (newChildNode input state exactSubdirs (treeNode tree priFile)) ∧
      (st'.toCompare = st.toCompare ∨
        st'.toCompare = st.toCompare ++ [(some st.heap.next, priFile)]) ∧
      st'.directChildren =
        (if pn.isSome then st.directChildren else st.directChildren ++ [st.heap.next]) ∧
      st'.proFiles =
        (if (treeNode tree priFile).proFile.isSome then st.proFiles
          else st.proFiles ++ [st.heap.next])) := by
  unfold createChildNode at h
  simp only at h
  split at h
  · cases h
  · simp only [Option.some.injEq] at h
    exact Or.inl h.symm
  · rename_i hwalk
    obtain ⟨hcontains, hchain⟩ := parentChainLoop_false _ _ _ _ _ hwalk
    have hnot : (treeNode tree priFile).name ∉ input.parentFilePaths := by
      simpa using hcontains
    right
    refine ⟨hnot, hchain, ?_⟩
    cases pn with
    | none =>
      split at h
      · rename_i hpro
        simp only [Option.some.injEq] at h
        subst h
        refine ⟨?_, Or.inr rfl, rfl, by rw [hpro]; rfl⟩
        dsimp only
        unfold newChildNode
        rw [hpro]
        exact CreatedNode.modify
          (CreatedNode.alloc st.heap { m_filePath := (treeNode tree priFile).name } rfl rfl)
          (fun o => { o with
            m_includedInExactParse := input.includedInExcactParse && state == .EvalOk })
          (fun _ => rfl) (fun _ => rfl) (fun _ => rfl) (fun _ => rfl)
      · rename_i hpro
        simp only [Option.some.injEq] at h
        subst h
        refine ⟨?_, Or.inl rfl, rfl, by rw [hpro]; rfl⟩
        dsimp only
        unfold newChildNode
        rw [hpro]
        exact CreatedNode.modify
          (CreatedNode.modify
            (CreatedNode.alloc st.heap
              { isProFile := true, m_filePath := (treeNode tree priFile).name } rfl rfl)
            (fun o => { o with
              m_includedInExactParse :=
                input.includedInExcactParse && exactSubdirs.contains o.m_filePath })
            (fun _ => rfl) (fun _ => rfl) (fun _ => rfl) (fun _ => rfl))
          (fun o => { o with m_parseInProgress := true })
          (fun _ => rfl) (fun _ => rfl) (fun _ => rfl) (fun _ => rfl)
    | some n =>
      obtain ⟨hn, hnc⟩ := hpn n rfl
      split at h
      · rename_i hpro
        simp only [Option.some.injEq] at h
        subst h
        refine ⟨?_, Or.inr rfl, rfl, by rw [hpro]; rfl⟩
        dsimp only
        unfold newChildNode
        rw [hpro]
        exact CreatedNode.modify
          (CreatedNode.alloc_addChild st.heap n
            { m_filePath := (treeNode tree priFile).name } rfl rfl hn hnc)
          (fun o => { o with
            m_includedInExactParse := input.includedInExcactParse && state == .EvalOk })
          (fun _ => rfl) (fun _ => rfl) (fun _ => rfl) (fun _ => rfl)
      · rename_i hpro
        simp only [Option.some.injEq] at h
        subst h
        refine ⟨?_, Or.inl rfl, rfl, by rw [hpro]; rfl⟩
        dsimp only
        unfold newChildNode
        rw [hpro]
        exact CreatedNode.modify
          (CreatedNode.modify
            (CreatedNode.alloc_addChild st.heap n
              { isProFile := true, m_filePath := (treeNode tree priFile).name } rfl rfl hn hnc)
            (fun o => { o with
              m_includedInExactParse :=
                input.includedInExcactParse && exactSubdirs.contains o.m_filePath })
            (fun _ => rfl) (fun _ => rfl) (fun _ => rfl) (fun _ => rfl))
          (fun o => { o with m_parseInProgress := true })
          (fun _ => rfl) (fun _ => rfl) (fun _ => rfl) (fun _ => rfl)

/-- Creating one node for the tree entry `t` keeps the invariant of the loop,
with `t` recorded as the origin of the new node. -/
theorem ChildNodesInv.createdNode {before : Heap} {base : NodeId} {input : QmakeEvalInput}
    {state : EvalResultState} {exactSubdirs : QSet FilePath}
    {tree : List QmakeIncludedPriFile} {origin : NodeId → Nat} {st st' : ChildNodesState}
    (inv : ChildNodesInv before base input state exactSubdirs tree origin st) {pn : Option NodeId} {t : Nat}
    (cn : CreatedNode st.heap st'.heap pn
      (newChildNode input state exactSubdirs (treeNode tree t)))
    (hnot : (treeNode tree t).name ∉ input.parentFilePaths)
    (hchain : ∀ a, (pn = some a ∨ ∃ n, pn = some n ∧ IsAncestor st.heap a n) →
      (st.heap.objs a).m_filePath ≠ (treeNode tree t).name)
    (hpn : match pn with
      | none => t ∈ (treeNode tree 0).children.values
      | some n => base ≤ n ∧ n < st.heap.next ∧ t ∈ (treeNode tree (origin n)).children.values)
    (hq : st'.toCompare = st.toCompare ∨
      st'.toCompare = st.toCompare ++ [(some st.heap.next, t)])
    (hdirect : st'.directChildren =
      (if pn.isSome then st.directChildren else st.directChildren ++ [st.heap.next]))
    (hpro : st'.proFiles =
      (if (treeNode tree t).proFile.isSome then st.proFiles else st.proFiles ++ [st.heap.next])) :
    ChildNodesInv before base input state exactSubdirs tree (Function.update origin st.heap.next t) st' := by
  have horigin : ∀ x, x < st.heap.next → Function.update origin st.heap.next t x = origin x :=
    fun x hx => Function.update_noteq (Nat.ne_of_lt hx) _ _
  have hsmall : ∀ x p, base ≤ x → x < st.heap.next → (st.heap.objs x).m_parent = some p →
      base ≤ p ∧ p < x ∧ origin x ∈ (treeNode tree (origin p)).children.values := by
    intro x p hb hx hp
    have := inv.parent x hb hx
    simpa only [hp] using this
  -- ancestry among the old nodes is as before
  have hold : ∀ a x, base ≤ x → x < st.heap.next → IsAncestor st'.heap a x →
      IsAncestor st.heap a x := by
    intro a x hb hx hanc
    induction hanc with
    | parent hp =>
      rw [cn.parent_old _ (Nat.ne_of_lt hx)] at hp
      exact IsAncestor.parent hp
    | step hp _ ih =>
      rw [cn.parent_old _ (Nat.ne_of_lt hx)] at hp
      obtain ⟨h1, h2, _⟩ := hsmall _ _ hb hx hp
      exact IsAncestor.step hp (ih h1 (Nat.lt_trans h2 hx))
  have hdirectOld : ∀ c ∈ st.directChildren,
      base ≤ c ∧ c < st'.heap.next ∧ (st'.heap.objs c).m_parent = none := by
    intro c hc
    obtain ⟨h1, h2, h3⟩ := (inv.direct c).1 hc
    rw [cn.next, cn.parent_old _ (Nat.ne_of_lt h2)]
    exact ⟨h1, Nat.lt_succ_of_lt h2, h3⟩
  have hpnlt : ∀ n, pn = some n → base ≤ n ∧ n < st.heap.next := by
    intro n hn
    subst hn
    simp only at hpn
    exact ⟨hpn.1, hpn.2.1⟩
  -- the child lists of the old nodes
  have hchildrenOld : ∀ c, c < st.heap.next → ∀ x, x ∈ (st'.heap.objs c).m_children ↔
      x ∈ (st.heap.objs c).m_children ∨ (x = st.heap.next ∧ pn = some c) := by
    intro c hc x
    by_cases hpc : pn = some c
    · rw [cn.pn_obj c hpc]
      simp only [List.mem_append, List.mem_singleton, hpc, and_true]
    · rw [cn.unchanged c (Nat.ne_of_lt hc) hpc]
      simp only [hpc, and_false, or_false]
  refine ⟨?_, ?_, ?_, ?_, ?_, ?_, ?_, ?_, ?_, ?_, ?_, ?_, ?_, ?_⟩
  · rw [cn.next]; exact Nat.le_succ_of_le inv.base_le
  · intro x hx
    rw [cn.unchanged x (Nat.ne_of_lt (Nat.lt_of_lt_of_le hx inv.base_le)) ?_]
    · exact inv.old x hx
    · intro e
      exact Nat.not_le_of_lt hx (hpnlt x e).1
  · intro x hx
    rw [cn.next] at hx
    rw [cn.unchanged x (Nat.ne_of_gt (Nat.lt_of_succ_le hx)) ?_]
    · exact inv.unallocated x (Nat.le_of_succ_le hx)
    · intro e
      exact Nat.lt_irrefl _ (Nat.lt_trans (Nat.lt_of_succ_le hx) (hpnlt x e).2)
  · intro c
    constructor
    · intro hc
      rw [hdirect] at hc
      cases pn with
      | some n => exact hdirectOld c hc
      | none =>
        simp only [Option.isSome_none, Bool.false_eq_true, if_false, List.mem_append,
          List.mem_singleton] at hc
        rcases hc with hc | hc
        · exact hdirectOld c hc
        · subst hc
          rw [cn.next]
          exact ⟨inv.base_le, Nat.lt_succ_self _, cn.parent_new⟩
    · rintro ⟨hb, hc, hp⟩
      rw [cn.next] at hc
      rw [hdirect]
      rcases Nat.lt_succ_iff_lt_or_eq.1 hc with hlt | heq
      · rw [cn.parent_old _ (Nat.ne_of_lt hlt)] at hp
        have hmem := (inv.direct c).2 ⟨hb, hlt, hp⟩
        split
        · exact hmem
        · exact List.mem_append_left _ hmem
      · subst heq
        rw [cn.parent_new] at hp
        subst hp
        simp
  · rw [hdirect]
    cases pn with
    | some n => exact inv.directNodup
    | none =>
      simp only [Option.isSome_none, Bool.false_eq_true, if_false]
      refine List.Nodup.append inv.directNodup (List.nodup_singleton _) ?_
      intro c hc hc'
      rw [List.mem_singleton] at hc'
      subst hc'
      exact Nat.lt_irrefl _ ((inv.direct _).1 hc).2.1
  · intro p
    have hold1 : p ∈ st.proFiles → base ≤ p ∧ p < st'.heap.next ∧
        (st'.heap.objs p).isProFile = true := by
      intro hp
      obtain ⟨h1, h2, h3⟩ := (inv.proFiles p).1 hp
      rw [cn.next]
      refine ⟨h1, Nat.lt_succ_of_lt h2, ?_⟩
      rw [← h3]
      have h := congrArg QmakePriFile.isProFile (cn.sansLinks_old p (Nat.ne_of_lt h2))
      exact h
    have hnew : (st'.heap.objs st.heap.next).isProFile = (treeNode tree t).proFile.isNone := by
      have h := congrArg QmakePriFile.isProFile cn.obj_new
      exact h.trans (newChildNode_isProFile _ _ _ _)
    constructor
    · intro hp
      rw [hpro] at hp
      split at hp
      · exact hold1 hp
      · rename_i hsome
        rcases List.mem_append.1 hp with hp | hp
        · exact hold1 hp
        · rw [List.mem_singleton.1 hp, cn.next, hnew]
          refine ⟨inv.base_le, Nat.lt_succ_self _, ?_⟩
          cases hpf : (treeNode tree t).proFile with
          | none => rfl
          | some _ => rw [hpf] at hsome; exact absurd rfl hsome
    · rintro ⟨hb, hc, hp⟩
      rw [cn.next] at hc
      rw [hpro]
      rcases Nat.lt_succ_iff_lt_or_eq.1 hc with hlt | heq
      · have hp' : (st.heap.objs p).isProFile = true := by
          rw [← hp]
          have h := congrArg QmakePriFile.isProFile (cn.sansLinks_old p (Nat.ne_of_lt hlt))
          exact h.symm
        have hmem := (inv.proFiles p).2 ⟨hb, hlt, hp'⟩
        split
        · exact hmem
        · exact List.mem_append_left _ hmem
      · subst heq
        rw [hnew] at hp
        cases hpf : (treeNode tree t).proFile with
        | none => simp
        | some _ => rw [hpf] at hp; cases hp
  · intro c hb hc
    rw [cn.next] at hc
    rcases Nat.lt_succ_iff_lt_or_eq.1 hc with hlt | heq
    · rw [cn.sansLinks_old c (Nat.ne_of_lt hlt), horigin c hlt]
      exact inv.node c hb hlt
    · subst heq
      rw [cn.obj_new, Function.update_same]
  · intro c hb hc x
    rw [cn.next] at hc ⊢
    rcases Nat.lt_succ_iff_lt_or_eq.1 hc with hlt | heq
    · rw [hchildrenOld c hlt x]
      constructor
      · rintro (hx | ⟨hx, hpc⟩)
        · obtain ⟨h1, h2, h3⟩ := (inv.links c hb hlt x).1 hx
          exact ⟨h1, Nat.lt_succ_of_lt h2, by rw [cn.parent_old _ (Nat.ne_of_lt h2)]; exact h3⟩
        · subst hx
          exact ⟨inv.base_le, Nat.lt_succ_self _, by rw [cn.parent_new]; exact hpc⟩
      · rintro ⟨h1, h2, h3⟩
        rcases Nat.lt_succ_iff_lt_or_eq.1 h2 with hxlt | hxeq
        · rw [cn.parent_old _ (Nat.ne_of_lt hxlt)] at h3
          exact Or.inl ((inv.links c hb hlt x).2 ⟨h1, hxlt, h3⟩)
        · subst hxeq
          rw [cn.parent_new] at h3
          exact Or.inr ⟨rfl, h3⟩
    · subst heq
      rw [cn.children_new]
      constructor
      · intro hx; cases hx
      · rintro ⟨h1, h2, h3⟩
        exfalso
        rcases Nat.lt_succ_iff_lt_or_eq.1 h2 with hxlt | hxeq
        · rw [cn.parent_old _ (Nat.ne_of_lt hxlt)] at h3
          obtain ⟨_, h5, _⟩ := hsmall _ _ h1 hxlt h3
          exact Nat.lt_irrefl _ (Nat.lt_trans h5 hxlt)
        · subst hxeq
          rw [cn.parent_new] at h3
          exact Nat.lt_irrefl _ (hpnlt _ h3).2
  · intro c hb hc
    rw [cn.next] at hc
    rcases Nat.lt_succ_iff_lt_or_eq.1 hc with hlt | heq
    · rw [cn.path_old _ (Nat.ne_of_lt hlt)]; exact inv.notParent c hb hlt
    · subst heq; rw [cn.path_new, newChildNode_filePath]; exact hnot
  · intro c hb hc
    rw [cn.next] at hc
    rcases Nat.lt_succ_iff_lt_or_eq.1 hc with hlt | heq
    · rw [cn.path_old _ (Nat.ne_of_lt hlt), horigin c hlt]; exact inv.name c hb hlt
    · subst heq; rw [cn.path_new, newChildNode_filePath, Function.update_same]
  · intro c hb hc x hx
    rw [cn.next] at hc ⊢
    rcases Nat.lt_succ_iff_lt_or_eq.1 hc with hlt | heq
    · rcases cn.children_old _ (Nat.ne_of_lt hlt) x hx with h | h
      · exact Nat.lt_succ_of_lt (inv.children c hb hlt x h)
      · rw [h]; exact Nat.lt_succ_self _
    · subst heq; rw [cn.children_new] at hx; cases hx
  · intro c hb hc
    rw [cn.next] at hc
    rcases Nat.lt_succ_iff_lt_or_eq.1 hc with hlt | heq
    · rw [cn.parent_old _ (Nat.ne_of_lt hlt), horigin c hlt]
      cases hp : (st.heap.objs c).m_parent with
      | none =>
        have := inv.parent c hb hlt
        simpa only [hp] using this
      | some p =>
        obtain ⟨h1, h2, h3⟩ := hsmall _ _ hb hlt hp
        simp only
        rw [horigin p (Nat.lt_trans h2 hlt)]
        exact ⟨h1, h2, h3⟩
    · subst heq
      rw [cn.parent_new, Function.update_same]
      cases pn with
      | none => exact hpn
      | some n =>
        simp only at hpn ⊢
        rw [horigin n hpn.2.1]
        exact hpn
  · intro c hb hc a hanc
    rw [cn.next] at hc
    rcases Nat.lt_succ_iff_lt_or_eq.1 hc with hlt | heq
    · have hanc0 := hold a c hb hlt hanc
      have halt := inv.ancestor_lt hanc0 hb hlt
      rw [cn.path_old _ (Nat.ne_of_lt hlt), cn.path_old _ (Nat.ne_of_lt (Nat.lt_trans halt.2 hlt))]
      exact inv.ancestors c hb hlt a hanc0
    · subst heq
      rw [cn.path_new, newChildNode_filePath]
      cases hanc with
      | parent hp =>
        rw [cn.parent_new] at hp
        subst hp
        simp only at hpn
        rw [cn.path_old _ (Nat.ne_of_lt hpn.2.1)]
        exact hchain a (Or.inl rfl)
      | step hp hanc' =>
        rw [cn.parent_new] at hp
        subst hp
        simp only at hpn
        have hanc0 := hold a _ hpn.1 hpn.2.1 hanc'
        have halt := inv.ancestor_lt hanc0 hpn.1 hpn.2.1
        rw [cn.path_old _ (Nat.ne_of_lt (Nat.lt_trans halt.2 hpn.2.1))]
        exact hchain a (Or.inr ⟨_, rfl, hanc0⟩)
  · intro qn qt hmem
    have hmem' : (qn, qt) ∈ st.toCompare ∨ (qn, qt) = (some st.heap.next, t) := by
      rcases hq with h | h
      · rw [h] at hmem; exact Or.inl hmem
      · rw [h, List.mem_append, List.mem_singleton] at hmem; exact hmem
    rcases hmem' with h | h
    · have := inv.queue qn qt h
      cases qn with
      | none => exact this
      | some n =>
        simp only at this ⊢
        rw [cn.next, horigin n this.2.1]
        exact ⟨this.1, Nat.lt_succ_of_lt this.2.1, this.2.2⟩
    · cases h
      simp only
      rw [cn.next, Function.update_same]
      exact ⟨inv.base_le, Nat.lt_succ_self _, rfl⟩

theorem ChildNodesInv.of_toCompare {before : Heap} {base : NodeId} {input : QmakeEvalInput}
    {state : EvalResultState} {exactSubdirs : QSet FilePath}
    {tree : List QmakeIncludedPriFile} {origin : NodeId → Nat} {st : ChildNodesState}
    (inv : ChildNodesInv before base input state exactSubdirs tree origin st) (toCompare : List (Option NodeId × Nat))
    (hsub : ∀ e ∈ toCompare, e ∈ st.toCompare) :
    ChildNodesInv before base input state exactSubdirs tree origin { st with toCompare := toCompare } :=
  { base_le := inv.base_le
    old := inv.old
    unallocated := inv.unallocated
    direct := inv.direct
    directNodup := inv.directNodup
    proFiles := inv.proFiles
    node := inv.node
    links := inv.links
    notParent := inv.notParent
    name := inv.name
    children := inv.children
    parent := inv.parent
    ancestors := inv.ancestors
    queue := fun pn t h => inv.queue pn t (hsub _ h) }

/-- The loop over the children of one tree entry keeps the invariant. -/
theorem foldlM_createChildNode_inv {chainFuel : Nat} {input : QmakeEvalInput}
    {state : EvalResultState} {exactSubdirs : QSet FilePath}
    {tree : List QmakeIncludedPriFile} {before : Heap} {base : NodeId} {pn : Option NodeId} {treeIdx : Nat}
    (l : List Nat) (hl : ∀ t ∈ l, t ∈ (treeNode tree treeIdx).children.values) :
    ∀ (st st' : ChildNodesState) (origin : NodeId → Nat),
      ChildNodesInv before base input state exactSubdirs tree origin st →
      (match pn with
        | none => treeIdx = 0
        | some n => base ≤ n ∧ n < st.heap.next ∧ origin n = treeIdx) →
      l.foldlM (createChildNode chainFuel input state exactSubdirs tree pn) st = some st' →
      ∃ origin', ChildNodesInv before base input state exactSubdirs tree origin' st' := by
  induction l with
  | nil =>
    intro st st' origin inv _ h
    simp only [List.foldlM_nil, pure, Option.some.injEq] at h
    exact ⟨origin, h ▸ inv⟩
  | cons t rest ih =>
    intro st st' origin inv hpn h
    simp only [List.foldlM_cons, bind, Option.bind_eq_some] at h
    obtain ⟨st1, h1, h2⟩ := h
    have hl' : ∀ t ∈ rest, t ∈ (treeNode tree treeIdx).children.values :=
      fun t ht => hl t (List.mem_cons_of_mem _ ht)
    have ht := hl t (List.mem_cons_self _ _)
    have hpn' : ∀ n, pn = some n →
        n < st.heap.next ∧ ∀ x ∈ (st.heap.objs n).m_children, x < st.heap.next := by
      intro n hn
      subst hn
      simp only at hpn
      exact ⟨hpn.2.1, inv.children n hpn.1 hpn.2.1⟩
    rcases createChildNode_spec hpn' h1 with heq | ⟨hnot, hchain, cn, hq, hdirect, hpro⟩
    · subst heq
      exact ih hl' _ _ origin inv hpn h2
    · have inv1 := inv.createdNode cn hnot hchain
        (by
          cases pn with
          | none => simp only at hpn ⊢; rw [← hpn]; exact ht
          | some n => simp only at hpn ⊢; rw [hpn.2.2]; exact ⟨hpn.1, hpn.2.1, ht⟩)
        hq hdirect hpro
      refine ih hl' _ _ _ inv1 ?_ h2
      cases pn with
      | none => exact hpn
      | some n =>
        simp only at hpn ⊢
        rw [cn.next, Function.update_noteq (Nat.ne_of_lt hpn.2.1)]
        exact ⟨hpn.1, Nat.lt_succ_of_lt hpn.2.1, hpn.2.2⟩

/-- The loop `while (!toCompare.isEmpty())` keeps the invariant. -/
theorem createChildNodes_inv {chainFuel : Nat} {input : QmakeEvalInput}
    {state : EvalResultState} {exactSubdirs : QSet FilePath}
    {tree : List QmakeIncludedPriFile} {before : Heap} {base : NodeId} (fuel : Nat) :
    ∀ (st st' : ChildNodesState) (origin : NodeId → Nat),
      ChildNodesInv before base input state exactSubdirs tree origin st →
      createChildNodes chainFuel input state exactSubdirs tree fuel st = some st' →
      ∃ origin', ChildNodesInv before base input state exactSubdirs tree origin' st' := by
  induction fuel with
  | zero =>
    intro st st' origin inv h
    unfold createChildNodes at h
    split at h
    · simp only [Option.some.injEq] at h
      exact ⟨origin, h ▸ inv⟩
    · cases h
  | succ fuel ih =>
    intro st st' origin inv h
    unfold createChildNodes at h
    split at h
    · simp only [Option.some.injEq] at h
      exact ⟨origin, h ▸ inv⟩
    · rename_i pn treeIdx rest hq
      simp only at h
      split at h
      · cases h
      · rename_i st1 hfold
        have hentry := inv.queue pn treeIdx (by rw [hq]; exact List.mem_cons_self _ _)
        have inv0 := inv.of_toCompare rest
          (by intro e he; rw [hq]; exact List.mem_cons_of_mem _ he)
        obtain ⟨origin1, inv1⟩ := foldlM_createChildNode_inv
          (treeNode tree treeIdx).children.values (fun _ ht => ht) _ _ origin inv0 hentry hfold
        exact ih _ _ origin1 inv1 h

/-- The invariant holds when the loop starts. -/
theorem ChildNodesInv.init (heap : Heap) (input : QmakeEvalInput) (state : EvalResultState)
    (exactSubdirs : QSet FilePath) (tree : List QmakeIncludedPriFile) :
    ChildNodesInv heap heap.next input state exactSubdirs tree (fun _ => 0)
      { heap := heap, toCompare := [(none, 0)] } :=
  { base_le := Nat.le_refl _
    old := fun _ _ => rfl
    unallocated := fun _ _ => rfl
    direct := fun c =>
      ⟨fun hc => absurd hc (List.not_mem_nil c), fun h => absurd h.1 (Nat.not_le_of_lt h.2.1)⟩
    directNodup := List.nodup_nil
    proFiles := fun p =>
      ⟨fun hp => absurd hp (List.not_mem_nil p), fun h => absurd h.1 (Nat.not_le_of_lt h.2.1)⟩
    node := fun c h1 h2 => absurd h1 (Nat.not_le_of_lt h2)
    links := fun c h1 h2 => absurd h1 (Nat.not_le_of_lt h2)
    notParent := fun c h1 h2 => absurd h1 (Nat.not_le_of_lt h2)
    name := fun c h1 h2 => absurd h1 (Nat.not_le_of_lt h2)
    children := fun c h1 h2 => absurd h1 (Nat.not_le_of_lt h2)
    parent := fun c h1 h2 => absurd h1 (Nat.not_le_of_lt h2)
    ancestors := fun c h1 h2 => absurd h1 (Nat.not_le_of_lt h2)
    queue := fun pn t hm => by
      rw [List.mem_singleton] at hm
      cases hm
      rfl }

/-- Every result of `evaluate` is the early `EvalFail` return, or comes out of
the loop that creates the child nodes, run on the final included-file tree
from the given heap. -/
theorem evaluate_createChildNodes {fuel : Nat} {fs : FileSystem} {heap heap' : Heap}
    {input : QmakeEvalInput} {result : QmakeEvalResult}
    (h : QmakeProFile.evaluate fuel fs heap input = some (heap', result)) :
    heap' = heap ∨
    ∃ cs, createChildNodes fuel input result.state result.exactSubdirs result.includedFiles fuel
        { heap := heap, toCompare := [(none, 0)] } = some cs ∧
      heap' = cs.heap ∧ result.directChildren = cs.directChildren ∧
      result.priFiles = cs.priFiles ∧ result.proFiles = cs.proFiles := by
  by_cases hf : (evaluateState input).1 = .EvalFail
  · rw [evaluate_of_evalFail fuel fs heap input hf] at h
    simp only [Option.some.injEq, Prod.mk.injEq] at h
    exact Or.inl h.1.symm
  · right
    unfold QmakeProFile.evaluate at h
    simp only [hf, if_false, Option.bind_eq_some, Prod.exists] at h
    obtain ⟨r1, st, _, h2⟩ := h
    unfold evaluateChildNodes at h2
    simp only [Option.bind_eq_some, Option.map_eq_some', Prod.mk.injEq] at h2
    obtain ⟨tree, _, cs, hcs, hheap, hres⟩ := h2
    subst hres
    exact ⟨cs, hcs, hheap.symm, rfl, rfl, rfl⟩

/-- The direct children handed over by `evaluate` are pairwise distinct nodes
created by this evaluation and have no parent; the nodes that existed before
the evaluation are left as they were. -/
theorem evaluate_directChildren_fresh {fuel : Nat} {fs : FileSystem} {heap heap' : Heap}
    {input : QmakeEvalInput} {result : QmakeEvalResult}
    (h : QmakeProFile.evaluate fuel fs heap input = some (heap', result)) :
    result.directChildren.Nodup ∧
    (∀ c ∈ result.directChildren,
      heap.next ≤ c ∧ c < heap'.next ∧ (heap'.objs c).m_parent = none) ∧
    (∀ x, x < heap.next → heap'.objs x = heap.objs x) := by
  by_cases hf : (evaluateState input).1 = .EvalFail
  · rw [evaluate_of_evalFail fuel fs heap input hf] at h
    simp only [Option.some.injEq, Prod.mk.injEq] at h
    obtain ⟨h1, h2⟩ := h
    subst h1 h2
    refine ⟨List.nodup_nil, fun c hc => ?_, fun _ _ => rfl⟩
    exact absurd hc (List.not_mem_nil c)
  · unfold QmakeProFile.evaluate at h
    simp only [hf, if_false, Option.bind_eq_some, Prod.exists] at h
    obtain ⟨r1, st, _, h2⟩ := h
    unfold evaluateChildNodes at h2
    simp only [Option.bind_eq_some, Option.map_eq_some', Prod.mk.injEq] at h2
    obtain ⟨tree, _, cs, hcs, hheap, hres⟩ := h2
    subst hres hheap
    obtain ⟨origin, inv⟩ := createChildNodes_inv fuel _ _ _
      (ChildNodesInv.init heap input _ _ tree) hcs
    exact ⟨inv.directNodup, fun c hc => (inv.direct c).1 hc, inv.old⟩

/-- C4: loop exclusion. In every result of `QmakeProFile::evaluate`, for every
node `c` created by the evaluation (at any depth, PriFile or ProFile): its file
path is not in `input.parentFilePaths`; each of its ancestors (by parent
pointers) is a node created by this evaluation with a different file path; and
the created nodes mirror the included-file tree along unbroken chains: with
`origin c` the tree entry `c` was created for, the path of `c` is the name of
that entry, and the entry is a child of the root entry when `c` has no parent
and a child of the entry of its parent otherwise. An entry that fails the loop
check has no node, hence nothing below it has one either. -/
theorem evaluate_loop_exclusion (fuel : Nat) (fs : FileSystem) (heap heap' : Heap)
    (input : QmakeEvalInput) (result : QmakeEvalResult)
    (h : QmakeProFile.evaluate fuel fs heap input = some (heap', result)) :
    ∃ origin : NodeId → Nat, ∀ c, heap.next ≤ c → c < heap'.next →
      (heap'.objs c).m_filePath ∉ input.parentFilePaths ∧
      (∀ a, IsAncestor heap' a c →
        (heap.next ≤ a ∧ a < c) ∧ (heap'.objs a).m_filePath ≠ (heap'.objs c).m_filePath) ∧
      (heap'.objs c).m_filePath = (treeNode result.includedFiles (origin c)).name ∧
      (match (heap'.objs c).m_parent with
        | none => origin c ∈ (treeNode result.includedFiles 0).children.values
        | some p => heap.next ≤ p ∧ p < c ∧
          origin c ∈ (treeNode result.includedFiles (origin p)).children.values) := by
  rcases evaluate_createChildNodes h with heq | ⟨cs, hcs, hheap, _⟩
  · subst heq
    exact ⟨fun _ => 0, fun c h1 h2 => absurd h1 (Nat.not_le_of_lt h2)⟩
  · subst hheap
    obtain ⟨origin, inv⟩ := createChildNodes_inv fuel _ _ _
      (ChildNodesInv.init heap input _ _ result.includedFiles) hcs
    refine ⟨origin, fun c h1 h2 => ⟨inv.notParent c h1 h2, ?_, inv.name c h1 h2,
      inv.parent c h1 h2⟩⟩
    intro a hanc
    exact ⟨inv.ancestor_lt hanc h1 h2, inv.ancestors c h1 h2 a hanc⟩

/-- Witness for C4: in the example `a.pro` includes `b.pri` and `c.pri`, `b.pri`
includes `c.pri`, and `c.pri` includes `b.pri`; four nodes are created and the
entry for `b.pri` below `c.pri` below `b.pri` is skipped. -/
theorem evaluate_loop_exclusion_witness :
    ∃ heap' result, QmakeProFile.evaluate 10 {} {} exampleInput = some (heap', result) ∧
      heap'.next = 4 ∧ result.includedFiles.length = 6 ∧
      ∃ origin : NodeId → Nat, ∀ c, 0 ≤ c → c < heap'.next →
        (heap'.objs c).m_filePath ∉ exampleInput.parentFilePaths ∧
        (∀ a, IsAncestor heap' a c →
          (0 ≤ a ∧ a < c) ∧ (heap'.objs a).m_filePath ≠ (heap'.objs c).m_filePath) ∧
        (heap'.objs c).m_filePath = (treeNode result.includedFiles (origin c)).name ∧
        (match (heap'.objs c).m_parent with
          | none => origin c ∈ (treeNode result.includedFiles 0).children.values
          | some p => 0 ≤ p ∧ p < c ∧
            origin c ∈ (treeNode result.includedFiles (origin p)).children.values) := by
  have hsome : ((QmakeProFile.evaluate 10 {} {} exampleInput).map
      fun hr => (hr.1.next, hr.2.includedFiles.length)) = some (4, 6) := by decide
  obtain ⟨⟨heap', result⟩, h, hv⟩ := Option.map_eq_some'.1 hsome
  simp only [Prod.mk.injEq] at hv
  exact ⟨heap', result, h, hv.1, hv.2,
    evaluate_loop_exclusion 10 {} {} heap' exampleInput result h⟩

/-! ## The recursive setters -/

theorem setValidParseRecursive_eq (b : Bool) (fuel : Nat) (h : Heap) (this : NodeId) :
    QmakeProFile.setValidParseRecursive b fuel h this =
      setRecursive (fun o => { o with m_validParse := b }) fuel h this := by
  induction fuel generalizing h this with
  | zero => rfl
  | succ fuel ih =>
    unfold QmakeProFile.setValidParseRecursive setRecursive
    simp only [ih]

theorem setParseInProgressRecursive_eq (b : Bool) (fuel : Nat) (h : Heap) (this : NodeId) :
    QmakeProFile.setParseInProgressRecursive b fuel h this =
      setRecursive (fun o => { o with m_parseInProgress := b }) fuel h this := by
  induction fuel generalizing h this with
  | zero => rfl
  | succ fuel ih =>
    unfold QmakeProFile.setParseInProgressRecursive setRecursive
    simp only [ih, QmakeProFile.setParseInProgress]

/-- A member that the assignment `f` leaves alone is left alone, on every
node, by the recursive setter. -/
theorem setRecursive_field {β : Type} (f : QmakePriFile → QmakePriFile)
    (field : QmakePriFile → β) (hf : ∀ o, field (f o) = field o) (fuel : Nat) :
    ∀ (h h' : Heap) (this : NodeId), setRecursive f fuel h this = some h' →
      ∀ x, field (h'.objs x) = field (h.objs x) := by
  induction fuel with
  | zero => intro h h' this hs; cases hs
  | succ fuel ih =>
    intro h h' this hs x
    unfold setRecursive at hs
    simp only at hs
    have hfold : ∀ (cs : List NodeId) (h1 h2 : Heap),
        cs.foldlM (fun h c => if (h.objs c).isProFile then setRecursive f fuel h c else some h)
          h1 = some h2 → field (h2.objs x) = field (h1.objs x) := by
      intro cs
      induction cs with
      | nil =>
        intro h1 h2 hh
        simp only [List.foldlM_nil, pure, Option.some.injEq] at hh
        rw [hh]
      | cons c cs ihc =>
        intro h1 h2 hh
        simp only [List.foldlM_cons, bind, Option.bind_eq_some] at hh
        obtain ⟨h3, hstep, hrest⟩ := hh
        rw [ihc _ _ hrest]
        split at hstep
        · exact ih _ _ _ hstep x
        · simp only [Option.some.injEq] at hstep
          rw [hstep]
    rw [hfold _ _ _ hs]
    exact Heap.modify_field h this f field hf x

theorem ProReach.of_links {h h' : Heap}
    (hc : ∀ x, (h'.objs x).m_children = (h.objs x).m_children)
    (hp : ∀ x, (h'.objs x).isProFile = (h.objs x).isProFile) {n d : NodeId}
    (hr : ProReach h n d) : ProReach h' n d := by
  induction hr with
  | refl n => exact ProReach.refl n
  | step hmem hpro _ ih => exact ProReach.step (by rw [hc]; exact hmem) (by rw [hp]; exact hpro) ih

theorem SubtreeWithin.of_children {h h' : Heap}
    (hc : ∀ x, (h'.objs x).m_children = (h.objs x).m_children) :
    ∀ (depth : Nat) (n : NodeId), SubtreeWithin h depth n → SubtreeWithin h' depth n := by
  intro depth
  induction depth with
  | zero => intro n hs; exact hs
  | succ depth ih =>
    intro n hs c hmem
    rw [hc] at hmem
    exact ih c (hs c hmem)

theorem SubtreeWithin.mono {h : Heap} :
    ∀ (depth : Nat) (n : NodeId), SubtreeWithin h depth n → SubtreeWithin h (depth + 1) n := by
  intro depth
  induction depth with
  | zero => intro n hs; exact absurd hs id
  | succ depth ih =>
    intro n hs c hmem
    exact ih c (hs c hmem)

/-- Every node is, after the recursive setter, as before or assigned to. -/
theorem setRecursive_unchanged_or (f : QmakePriFile → QmakePriFile) (P : QmakePriFile → Prop)
    (hP : ∀ o, P (f o)) (fuel : Nat) :
    ∀ (h h' : Heap) (this : NodeId), setRecursive f fuel h this = some h' →
      ∀ x, h'.objs x = h.objs x ∨ P (h'.objs x) := by
  induction fuel with
  | zero => intro h h' this hs; cases hs
  | succ fuel ih =>
    intro h h' this hs x
    unfold setRecursive at hs
    simp only at hs
    have hfold : ∀ (cs : List NodeId) (h1 h2 : Heap),
        cs.foldlM (fun h c => if (h.objs c).isProFile then setRecursive f fuel h c else some h)
          h1 = some h2 → h2.objs x = h1.objs x ∨ P (h2.objs x) := by
      intro cs
      induction cs with
      | nil =>
        intro h1 h2 hh
        simp only [List.foldlM_nil, pure, Option.some.injEq] at hh
        exact Or.inl (by rw [hh])
      | cons c cs ihc =>
        intro h1 h2 hh
        simp only [List.foldlM_cons, bind, Option.bind_eq_some] at hh
        obtain ⟨h3, hstep, hrest⟩ := hh
        have h31 : h3.objs x = h1.objs x ∨ P (h3.objs x) := by
          split at hstep
          · exact ih _ _ _ hstep x
          · simp only [Option.some.injEq] at hstep
            exact Or.inl (by rw [hstep])
        rcases ihc _ _ hrest with h23 | h23
        · rw [h23]; exact h31
        · exact Or.inr h23
    rcases hfold _ _ _ hs with h2 | h2
    · by_cases hx : x = this
      · right; rw [h2, hx, Heap.modify_objs_self]; exact hP _
      · left; rw [h2, Heap.modify_objs_of_ne _ _ hx]
    · exact Or.inr h2

/-- The recursive setter assigns to the node and to every node reached from it
through `QmakeProFile` children. -/
theorem setRecursive_reach (f : QmakePriFile → QmakePriFile) (P : QmakePriFile → Prop)
    (hP : ∀ o, P (f o)) (hchildren : ∀ o, (f o).m_children = o.m_children)
    (hpro : ∀ o, (f o).isProFile = o.isProFile) (fuel : Nat) :
    ∀ (h h' : Heap) (this : NodeId), setRecursive f fuel h this = some h' →
      ∀ d, ProReach h this d → P (h'.objs d) := by
  induction fuel with
  | zero => intro h h' this hs; cases hs
  | succ fuel ih =>
    intro h h' this hs d hreach
    have hs' := hs
    unfold setRecursive at hs
    simp only at hs
    -- the loop over the children, started from a heap with the links of `h`
    have hfold : ∀ (cs : List NodeId) (h1 h2 : Heap),
        (∀ x, (h1.objs x).m_children = (h.objs x).m_children) →
        (∀ x, (h1.objs x).isProFile = (h.objs x).isProFile) →
        cs.foldlM (fun h c => if (h.objs c).isProFile then setRecursive f fuel h c else some h)
          h1 = some h2 →
        (∀ x, P (h1.objs x) → P (h2.objs x)) ∧
        ∀ c ∈ cs, (h.objs c).isProFile = true → ∀ d, ProReach h c d → P (h2.objs d) := by
      intro cs
      induction cs with
      | nil =>
        intro h1 h2 _ _ hh
        simp only [List.foldlM_nil, pure, Option.some.injEq] at hh
        subst hh
        exact ⟨fun _ hx => hx, fun c hc => by cases hc⟩
      | cons c cs ihc =>
        intro h1 h2 hc1 hp1 hh
        simp only [List.foldlM_cons, bind, Option.bind_eq_some] at hh
        obtain ⟨h3, hstep, hrest⟩ := hh
        have hkeep13 : ∀ x, P (h1.objs x) → P (h3.objs x) := by
          intro x hx
          split at hstep
          · rcases setRecursive_unchanged_or f P hP fuel _ _ _ hstep x with h | h
            · rw [h]; exact hx
            · exact h
          · simp only [Option.some.injEq] at hstep
            rw [← hstep]; exact hx
        have hc3 : ∀ x, (h3.objs x).m_children = (h.objs x).m_children := by
          intro x
          split at hstep
          · rw [setRecursive_field f (fun o => o.m_children) hchildren fuel _ _ _ hstep x, hc1]
          · simp only [Option.some.injEq] at hstep
            rw [← hstep, hc1]
        have hp3 : ∀ x, (h3.objs x).isProFile = (h.objs x).isProFile := by
          intro x
          split at hstep
          · rw [setRecursive_field f (fun o => o.isProFile) hpro fuel _ _ _ hstep x, hp1]
          · simp only [Option.some.injEq] at hstep
            rw [← hstep, hp1]
        obtain ⟨hkeep32, hrest'⟩ := ihc _ _ hc3 hp3 hrest
        refine ⟨fun x hx => hkeep32 x (hkeep13 x hx), ?_⟩
        intro c' hc' hpro' d' hreach'
        rcases List.mem_cons.1 hc' with heq | hmem
        · subst heq
          rw [if_pos (by rw [hp1]; exact hpro')] at hstep
          exact hkeep32 d' (ih _ _ _ hstep d' (ProReach.of_links
            (fun x => by rw [hc1]) (fun x => by rw [hp1]) hreach'))
        · exact hrest' c' hmem hpro' d' hreach'
    have hc1 : ∀ x, ((h.modify this f).objs x).m_children = (h.objs x).m_children :=
      Heap.modify_field h this f (fun o => o.m_children) hchildren
    have hp1 : ∀ x, ((h.modify this f).objs x).isProFile = (h.objs x).isProFile :=
      Heap.modify_field h this f (fun o => o.isProFile) hpro
    obtain ⟨hkeep, hkids⟩ := hfold _ _ _ hc1 hp1 hs
    cases hreach with
    | refl =>
      apply hkeep
      rw [Heap.modify_objs_self]
      exact hP _
    | step hmem hcpro hrest =>
      exact hkids _ (by rw [hc1]; exact hmem) hcpro d hrest

/-- The recursive setter returns when the fuel covers the depth of the subtree. -/
theorem setRecursive_isSome (f : QmakePriFile → QmakePriFile)
    (hchildren : ∀ o, (f o).m_children = o.m_children) (fuel : Nat) :
    ∀ (h : Heap) (this : NodeId), SubtreeWithin h fuel this →
      ∃ h', setRecursive f fuel h this = some h' := by
  induction fuel with
  | zero => intro h this hs; exact absurd hs id
  | succ fuel ih =>
    intro h this hs
    unfold setRecursive
    simp only
    have hfold : ∀ (cs : List NodeId) (h1 : Heap),
        (∀ x, (h1.objs x).m_children = (h.objs x).m_children) →
        (∀ c ∈ cs, SubtreeWithin h fuel c) →
        ∃ h2, cs.foldlM
          (fun h c => if (h.objs c).isProFile then setRecursive f fuel h c else some h) h1 =
            some h2 := by
      intro cs
      induction cs with
      | nil => intro h1 _ _; exact ⟨h1, rfl⟩
      | cons c cs ihc =>
        intro h1 hc1 hall
        simp only [List.foldlM_cons, bind, Option.bind_eq_some]
        by_cases hcp : (h1.objs c).isProFile = true
        · obtain ⟨h3, hstep⟩ := ih h1 c
            (SubtreeWithin.of_children (fun x => by rw [hc1]) fuel c
              (hall c (List.mem_cons_self _ _)))
          have hc3 : ∀ x, (h3.objs x).m_children = (h.objs x).m_children := fun x => by
            rw [setRecursive_field f (fun o => o.m_children) hchildren fuel _ _ _ hstep x, hc1]
          obtain ⟨h2, hrest⟩ := ihc h3 hc3 (fun c' hc' => hall c' (List.mem_cons_of_mem _ hc'))
          exact ⟨h2, h3, by rw [if_pos hcp]; exact hstep, hrest⟩
        · obtain ⟨h2, hrest⟩ := ihc h1 hc1 (fun c' hc' => hall c' (List.mem_cons_of_mem _ hc'))
          exact ⟨h2, h1, by rw [if_neg hcp], hrest⟩
    have hc1 : ∀ x, ((h.modify this f).objs x).m_children = (h.objs x).m_children :=
      Heap.modify_field h this f (fun o => o.m_children) hchildren
    exact hfold _ _ hc1 (by rw [hc1]; exact hs)

theorem setRecursive_field_of {β : Type} {f : QmakePriFile → QmakePriFile} {fuel : Nat}
    {h h' : Heap} {this : NodeId} (hs : setRecursive f fuel h this = some h')
    (field : QmakePriFile → β) (hf : ∀ o, field (f o) = field o) (x : NodeId) :
    field (h'.objs x) = field (h.objs x) :=
  setRecursive_field f field hf fuel h h' this hs x

theorem setRecursive_reach_of {f : QmakePriFile → QmakePriFile} {fuel : Nat}
    {h h' : Heap} {this : NodeId} (hs : setRecursive f fuel h this = some h')
    (P : QmakePriFile → Prop) (hP : ∀ o, P (f o))
    (hchildren : ∀ o, (f o).m_children = o.m_children)
    (hpro : ∀ o, (f o).isProFile = o.isProFile) (d : NodeId) (hd : ProReach h this d) :
    P (h'.objs d) :=
  setRecursive_reach f P hP hchildren hpro fuel h h' this hs d hd

/-! ## Deleting nodes -/

theorem World.call_heap (w : World) (c : BuildSystemCall) : (w.call c).heap = w.heap := rfl

theorem World.modify_heap (w : World) (n : NodeId) (f : QmakePriFile → QmakePriFile) :
    (w.modify n f).heap = w.heap.modify n f := rfl

theorem cleanupProFileReaders_field {β : Type} (field : QmakePriFile → β)
    (hf : IgnoresTeardown field) (w : World) (this x : NodeId) :
    field ((QmakeProFile.cleanupProFileReaders w this).heap.objs x) = field (w.heap.objs x) := by
  unfold QmakeProFile.cleanupProFileReaders
  simp only [World.modify]
  refine (Heap.modify_field _ this _ field ?_ x).trans ?_
  · intro o
    exact hf o none none o.m_parseFutureWatcher o.m_watchedFolders o.deleted
  · split <;> split <;> rfl

theorem cleanupFutureWatcher_field {β : Type} (field : QmakePriFile → β)
    (hf : IgnoresTeardown field) (w : World) (this x : NodeId) :
    field ((QmakeProFile.cleanupFutureWatcher w this).heap.objs x) = field (w.heap.objs x) := by
  unfold QmakeProFile.cleanupFutureWatcher
  split
  · rfl
  · simp only [World.call_heap, World.modify]
    refine Heap.modify_field _ this _ field ?_ x
    intro o
    exact hf o o.m_readerExact o.m_readerCumulative false o.m_watchedFolders o.deleted

theorem watchFoldersAt_field {β : Type} (field : QmakePriFile → β)
    (hf : IgnoresTeardown field) (w : World) (this x : NodeId) (folders : QSet FilePath) :
    field ((QmakePriFile.watchFoldersAt w this folders).heap.objs x) = field (w.heap.objs x) := by
  unfold QmakePriFile.watchFoldersAt QmakePriFile.watchFolders
  simp only
  by_cases hx : x = this
  · subst hx
    rw [Heap.modify_objs_self]
    exact hf _ _ _ _ _ _
  · rw [Heap.modify_objs_of_ne _ _ hx]

/-- A member that the destructors do not write is left alone, on every node,
by `delete`. -/
theorem deleteNode_field {β : Type} (field : QmakePriFile → β) (hf : IgnoresTeardown field)
    (fuel : Nat) :
    ∀ (w w' : World) (node : NodeId), deleteNode fuel w node = some w' →
      ∀ x, field (w'.heap.objs x) = field (w.heap.objs x) := by
  induction fuel with
  | zero => intro w w' node hd; cases hd
  | succ fuel ih =>
    intro w w' node hd x
    unfold deleteNode at hd
    simp only [Option.map_eq_some'] at hd
    obtain ⟨w2, hfoldeq, hw'⟩ := hd
    have hfold : ∀ (cs : List NodeId) (w1 w2 : World),
        cs.foldlM (fun w c => deleteNode fuel w c) w1 = some w2 →
        field (w2.heap.objs x) = field (w1.heap.objs x) := by
      intro cs
      induction cs with
      | nil =>
        intro w1 w2 hh
        simp only [List.foldlM_nil, pure, Option.some.injEq] at hh
        rw [hh]
      | cons c cs ihc =>
        intro w1 w2 hh
        simp only [List.foldlM_cons, bind, Option.bind_eq_some] at hh
        obtain ⟨w3, hstep, hrest⟩ := hh
        rw [ihc _ _ hrest, ih _ _ _ hstep x]
    subst hw'
    simp only [World.modify]
    refine (Heap.modify_field _ node _ field ?_ x).trans ?_
    · intro o
      exact hf o o.m_readerExact o.m_readerCumulative o.m_parseFutureWatcher o.m_watchedFolders
        true
    · rw [hfold _ _ _ hfoldeq, watchFoldersAt_field field hf]
      split
      · rw [cleanupProFileReaders_field field hf, cleanupFutureWatcher_field field hf]
      · rfl

/-- `delete` returns when the fuel covers the depth of the subtree. -/
theorem deleteNode_isSome (fuel : Nat) :
    ∀ (w : World) (node : NodeId), SubtreeWithin w.heap fuel node →
      ∃ w', deleteNode fuel w node = some w' := by
  induction fuel with
  | zero => intro w node hs; exact absurd hs id
  | succ fuel ih =>
    intro w node hs
    have hfold : ∀ (cs : List NodeId) (w1 : World),
        (∀ x, (w1.heap.objs x).m_children = (w.heap.objs x).m_children) →
        (∀ c ∈ cs, SubtreeWithin w.heap fuel c) →
        ∃ w2, cs.foldlM (fun w c => deleteNode fuel w c) w1 = some w2 := by
      intro cs
      induction cs with
      | nil => intro w1 _ _; exact ⟨w1, rfl⟩
      | cons c cs ihc =>
        intro w1 hc1 hall
        simp only [List.foldlM_cons, bind, Option.bind_eq_some]
        obtain ⟨w3, hstep⟩ := ih w1 c
          (SubtreeWithin.of_children (fun x => by rw [hc1]) fuel c
            (hall c (List.mem_cons_self _ _)))
        have hc3 : ∀ x, (w3.heap.objs x).m_children = (w.heap.objs x).m_children := fun x => by
          rw [deleteNode_field (fun o => o.m_children) (fun _ _ _ _ _ _ => rfl) fuel _ _ _ hstep x,
            hc1]
        obtain ⟨w2, hrest⟩ := ihc w3 hc3 (fun c' hc' => hall c' (List.mem_cons_of_mem _ hc'))
        exact ⟨w2, w3, hstep, hrest⟩
    unfold deleteNode
    simp only [Option.map_eq_some']
    have hc1 : ∀ x, ((QmakePriFile.watchFoldersAt
        (if (w.heap.objs node).isProFile then
          QmakeProFile.cleanupProFileReaders (QmakeProFile.cleanupFutureWatcher w node) node
        else w) node []).heap.objs x).m_children = (w.heap.objs x).m_children := by
      intro x
      rw [watchFoldersAt_field (fun o => o.m_children) (fun _ _ _ _ _ _ => rfl)]
      split
      · rw [cleanupProFileReaders_field (fun o => o.m_children) (fun _ _ _ _ _ _ => rfl),
          cleanupFutureWatcher_field (fun o => o.m_children) (fun _ _ _ _ _ _ => rfl)]
      · rfl
    obtain ⟨w2, hw2⟩ := hfold ((QmakePriFile.watchFoldersAt
        (if (w.heap.objs node).isProFile then
          QmakeProFile.cleanupProFileReaders (QmakeProFile.cleanupFutureWatcher w node) node
        else w) node []).heap.objs node).m_children _ hc1 (by rw [hc1]; exact hs)
    exact ⟨_, w2, hw2, rfl⟩

theorem makeEmpty_isSome (fuel : Nat) (w : World) (this : NodeId)
    (hs : SubtreeWithin w.heap fuel this) : ∃ w', QmakePriFile.makeEmpty fuel w this = some w' := by
  cases fuel with
  | zero => exact absurd hs id
  | succ fuel =>
    have hfold : ∀ (cs : List NodeId) (w1 : World),
        (∀ x, (w1.heap.objs x).m_children = (w.heap.objs x).m_children) →
        (∀ c ∈ cs, SubtreeWithin w.heap (fuel + 1) c) →
        ∃ w2, cs.foldlM (fun w c => deleteNode (fuel + 1) w c) w1 = some w2 := by
      intro cs
      induction cs with
      | nil => intro w1 _ _; exact ⟨w1, rfl⟩
      | cons c cs ihc =>
        intro w1 hc1 hall
        simp only [List.foldlM_cons, bind, Option.bind_eq_some]
        obtain ⟨w3, hstep⟩ := deleteNode_isSome (fuel + 1) w1 c
          (SubtreeWithin.of_children (fun x => by rw [hc1]) _ c
            (hall c (List.mem_cons_self _ _)))
        have hc3 : ∀ x, (w3.heap.objs x).m_children = (w.heap.objs x).m_children := fun x => by
          rw [deleteNode_field (fun o => o.m_children) (fun _ _ _ _ _ _ => rfl) _ _ _ _ hstep x,
            hc1]
        obtain ⟨w2, hrest⟩ := ihc w3 hc3 (fun c' hc' => hall c' (List.mem_cons_of_mem _ hc'))
        exact ⟨w2, w3, hstep, hrest⟩
    obtain ⟨w2, hw2⟩ := hfold (w.heap.objs this).m_children w (fun _ => rfl)
      (fun c hc => SubtreeWithin.mono fuel c (hs c hc))
    unfold QmakePriFile.makeEmpty
    rw [hw2]
    exact ⟨_, rfl⟩

/-- The heap between the deletions and the assignment `m_children.clear()` of
`makeEmpty`. -/
theorem makeEmpty_eq {fuel : Nat} {w w' : World} {this : NodeId}
    (h : QmakePriFile.makeEmpty fuel w this = some w') :
    ∃ w2 : World, (∀ {β : Type} (field : QmakePriFile → β), IgnoresTeardown field →
        ∀ x, field (w2.heap.objs x) = field (w.heap.objs x)) ∧
      w' = w2.modify this fun o => { o with m_children := [] } := by
  unfold QmakePriFile.makeEmpty at h
  simp only [Option.map_eq_some'] at h
  obtain ⟨w2, hfoldeq, hw'⟩ := h
  refine ⟨w2, ?_, hw'.symm⟩
  intro β field hf x
  have hfold : ∀ (cs : List NodeId) (w1 w2 : World),
      cs.foldlM (fun w c => deleteNode fuel w c) w1 = some w2 →
      field (w2.heap.objs x) = field (w1.heap.objs x) := by
    intro cs
    induction cs with
    | nil =>
      intro w1 w2 hh
      simp only [List.foldlM_nil, pure, Option.some.injEq] at hh
      rw [hh]
    | cons c cs ihc =>
      intro w1 w2 hh
      simp only [List.foldlM_cons, bind, Option.bind_eq_some] at hh
      obtain ⟨w3, hstep, hrest⟩ := hh
      rw [ihc _ _ hrest, deleteNode_field field hf _ _ _ _ hstep x]
  exact hfold _ _ _ hfoldeq

/-- A member that neither the destructors nor `m_children.clear()` write is left
alone, on every node, by `makeEmpty`. -/
theorem makeEmpty_field {β : Type} (field : QmakePriFile → β) (hf : IgnoresTeardown field)
    (hchildren : ∀ o cs, field { o with m_children := cs } = field o) {fuel : Nat} {w w' : World}
    {this : NodeId} (h : QmakePriFile.makeEmpty fuel w this = some w') (x : NodeId) :
    field (w'.heap.objs x) = field (w.heap.objs x) := by
  obtain ⟨w2, hw2, rfl⟩ := makeEmpty_eq h
  rw [World.modify_heap]
  refine (Heap.modify_field _ this _ field ?_ x).trans (hw2 field hf x)
  intro o
  exact hchildren o []

/-- After `makeEmpty` the node has no children; the child lists of the other
nodes are as before. -/
theorem makeEmpty_children {fuel : Nat} {w w' : World} {this : NodeId}
    (h : QmakePriFile.makeEmpty fuel w this = some w') :
    (w'.heap.objs this).m_children = [] ∧
    ∀ x, x ≠ this → (w'.heap.objs x).m_children = (w.heap.objs x).m_children := by
  obtain ⟨w2, hw2, rfl⟩ := makeEmpty_eq h
  refine ⟨?_, fun x hx => ?_⟩
  · rw [World.modify_heap, Heap.modify_objs_self]
  rw [World.modify_heap, Heap.modify_objs_of_ne _ _ hx]
  exact hw2 (fun o => o.m_children) (fun _ _ _ _ _ _ => rfl) x

/-! ## `QmakeProFile::applyEvaluate`: a failed evaluation -/

theorem isProFile_of_descendant {h : Heap} {c d : NodeId} (hdesc : IsDescendant h c d)
    (hd : (h.objs d).isProFile = true)
    (hinv : ∀ m x, (m = c ∨ IsDescendant h c m) → x ∈ (h.objs m).m_children →
      (h.objs x).isProFile = true → (h.objs m).isProFile = true) :
    (h.objs c).isProFile = true := by
  induction hdesc with
  | child hmem => exact hinv _ _ (Or.inl rfl) hmem hd
  | step hmem hdesc' ih =>
    have hc := ih hd (fun m x hm hx hxp => hinv m x
      (Or.inr (hm.elim (fun e => e ▸ IsDescendant.child hmem)
        (fun e => IsDescendant.step hmem e))) hx hxp)
    exact hinv _ _ (Or.inl rfl) hmem hc

/-- Where sub-projects hang only under sub-projects, every `QmakeProFile`
descendant is reached through `QmakeProFile` children. -/
theorem proReach_of_descendant {h : Heap} {n d : NodeId} (hdesc : IsDescendant h n d)
    (hd : (h.objs d).isProFile = true) (hinv : NoProFileBelowPriFile h n) :
    ProReach h n d := by
  induction hdesc with
  | child hmem => exact ProReach.step hmem hd (ProReach.refl _)
  | step hmem hdesc' ih =>
    have hinv' : ∀ m x, (m = _ ∨ IsDescendant h _ m) → x ∈ (h.objs m).m_children →
        (h.objs x).isProFile = true → (h.objs m).isProFile = true :=
      fun m x hm hx hxp => hinv m x
        (hm.elim (fun e => e ▸ IsDescendant.child hmem) (fun e => IsDescendant.step hmem e))
        hx hxp
    have hc := isProFile_of_descendant hdesc' hd hinv'
    exact ProReach.step hmem hc
      (ih hd (fun m x hm hx hxp => hinv' m x (Or.inr hm) hx hxp))

theorem applyEvaluateFailed_spec (fuel : Nat) (w : World) (this : NodeId)
    (result : QmakeEvalResult) (hstate : result.state = .EvalFail)
    (hdepth : SubtreeWithin w.heap fuel this) :
    ∃ w', applyEvaluateFailed fuel w this result = some w' ∧
      (∀ d, ProReach w.heap this d →
        (w'.heap.objs d).m_validParse = false ∧ (w'.heap.objs d).m_parseInProgress = false) ∧
      ((w.heap.objs this).m_projectType ≠ .Invalid →
        (w'.heap.objs this).m_children = [] ∧ (w'.heap.objs this).m_projectType = .Invalid) ∧
      ((w.heap.objs this).m_projectType = .Invalid →
        (w'.heap.objs this).m_children = (w.heap.objs this).m_children ∧
        (w'.heap.objs this).m_projectType = .Invalid) := by
  -- the world after `m_validParse = false; cleanupProFileReaders();`
  have hw2 : ∀ {β : Type} (field : QmakePriFile → β), IgnoresTeardown field →
      (∀ o v, field { o with m_validParse := v } = field o) → ∀ x,
      field ((QmakeProFile.cleanupProFileReaders
        (w.modify this fun o => { o with m_validParse := false }) this).heap.objs x) =
      field (w.heap.objs x) := by
    intro β field hf hv x
    rw [cleanupProFileReaders_field field hf, World.modify_heap]
    exact Heap.modify_field _ this _ field (fun o => hv o false) x
  have hchildren2 := hw2 (fun o => o.m_children) (fun _ _ _ _ _ _ => rfl) (fun _ _ => rfl)
  have hpro2 := hw2 (fun o => o.isProFile) (fun _ _ _ _ _ _ => rfl) (fun _ _ => rfl)
  have htype2 := hw2 (fun o => o.m_projectType) (fun _ _ _ _ _ _ => rfl) (fun _ _ => rfl)
  beta_reduce at hchildren2 hpro2 htype2
  -- the two recursive setters
  obtain ⟨h3, hh3⟩ := setRecursive_isSome (fun o => { o with m_validParse := false })
    (fun _ => rfl) fuel _ this (SubtreeWithin.of_children hchildren2 fuel this hdepth)
  have hchildren3 := setRecursive_field_of hh3 (fun o => o.m_children) (fun _ => rfl)
  have hpro3 := setRecursive_field_of hh3 (fun o => o.isProFile) (fun _ => rfl)
  have htype3 := setRecursive_field_of hh3 (fun o => o.m_projectType) (fun _ => rfl)
  have hvalid3 := setRecursive_reach_of hh3 (fun o => o.m_validParse = false) (fun _ => rfl)
    (fun _ => rfl) (fun _ => rfl)
  beta_reduce at hchildren3 hpro3 htype3 hvalid3
  obtain ⟨h4, hh4⟩ := setRecursive_isSome (fun o => { o with m_parseInProgress := false })
    (fun _ => rfl) fuel h3 this
    (SubtreeWithin.of_children (fun x => by rw [hchildren3, hchildren2]) fuel this hdepth)
  have hchildren4 := setRecursive_field_of hh4 (fun o => o.m_children) (fun _ => rfl)
  have htype4 := setRecursive_field_of hh4 (fun o => o.m_projectType) (fun _ => rfl)
  have hvalid4 := setRecursive_field_of hh4 (fun o => o.m_validParse) (fun _ => rfl)
  have hprogress4 := setRecursive_reach_of hh4 (fun o => o.m_parseInProgress = false)
    (fun _ => rfl) (fun _ => rfl) (fun _ => rfl)
  beta_reduce at hchildren4 htype4 hvalid4 hprogress4
  -- the flags of the visited nodes in `h4`
  have hflags4 : ∀ d, ProReach w.heap this d →
      (h4.objs d).m_validParse = false ∧ (h4.objs d).m_parseInProgress = false := by
    intro d hd
    have hd2 := ProReach.of_links (fun x => hchildren2 x) (fun x => hpro2 x) hd
    have hd3 := ProReach.of_links (fun x => hchildren3 x) (fun x => hpro3 x) hd2
    exact ⟨by rw [hvalid4]; exact hvalid3 d hd2, hprogress4 d hd3⟩
  have htype : (h4.objs this).m_projectType = (w.heap.objs this).m_projectType := by
    rw [htype4, htype3, htype2]
  have hchildren : ∀ x, (h4.objs x).m_children = (w.heap.objs x).m_children := fun x => by
    rw [hchildren4, hchildren3, hchildren2]
  unfold applyEvaluateFailed
  simp only [setValidParseRecursive_eq, setParseInProgressRecursive_eq, hh3, hh4,
    Option.some_bind, hstate, if_true, World.call_heap]
  by_cases hinvalid : (w.heap.objs this).m_projectType = .Invalid
  · rw [if_pos (by rw [htype]; exact hinvalid)]
    refine ⟨_, rfl, hflags4, fun hne => absurd hinvalid hne, fun _ => ⟨hchildren this, ?_⟩⟩
    exact htype.trans hinvalid
  · rw [if_neg (by rw [htype]; exact hinvalid)]
    obtain ⟨w6, hw6⟩ := makeEmpty_isSome fuel
      ((({ QmakeProFile.cleanupProFileReaders
          (w.modify this fun o => { o with m_validParse := false }) this with heap := h4 } :
          World).call
        (.proFileParseError ("Error while parsing file " ++ (h4.objs this).m_filePath
          ++ ". Giving up.") (h4.objs this).m_filePath))) this
      (SubtreeWithin.of_children hchildren fuel this hdepth)
    rw [hw6]
    refine ⟨_, rfl, ?_, fun _ => ⟨?_, ?_⟩, fun h => absurd h hinvalid⟩
    · intro d hd
      rw [World.modify_heap]
      have hv := Heap.modify_field w6.heap this
        (fun o => { o with m_projectType := ProjectType.Invalid }) (fun o => o.m_validParse)
        (fun _ => rfl) d
      have hp := Heap.modify_field w6.heap this
        (fun o => { o with m_projectType := ProjectType.Invalid }) (fun o => o.m_parseInProgress)
        (fun _ => rfl) d
      simp only at hv hp
      rw [hv, hp, makeEmpty_field (fun o => o.m_validParse) (fun _ _ _ _ _ _ => rfl)
        (fun _ _ => rfl) hw6 d, makeEmpty_field (fun o => o.m_parseInProgress)
        (fun _ _ _ _ _ _ => rfl) (fun _ _ => rfl) hw6 d]
      exact hflags4 d hd
    · rw [World.modify_heap, Heap.modify_objs_self]
      exact (makeEmpty_children hw6).1
    · rw [World.modify_heap, Heap.modify_objs_self]

theorem parseErrors_heap (this : NodeId) (errors : List String) (w : World) :
    (errors.foldl (fun w error => w.call (.proFileParseError error (w.heap.objs this).m_filePath))
        w).heap = w.heap ∧
    (errors.foldl (fun w error => w.call (.proFileParseError error (w.heap.objs this).m_filePath))
        w).buildSystem.wasEvaluateCanceled = w.buildSystem.wasEvaluateCanceled := by
  induction errors generalizing w with
  | nil => exact ⟨rfl, rfl⟩
  | cons e es ih =>
    rw [List.foldl_cons]
    exact ⟨(ih _).1.trans rfl, (ih _).2.trans rfl⟩

/-- C3: applying an `EvalFail` result with `QmakeProFile::applyEvaluate`, with the
readers set up and the build system not shutting down, on a node whose subtree
the recursion covers and in which sub-projects hang only under sub-projects:
the call returns, leaving the result as it was; afterwards `validParse` and
`parseInProgress` are `false` on the node and on every `QmakeProFile` descendant
it had; if the project type of the node was not `Invalid`, the node has no
children and project type `Invalid`; if it was `Invalid`, children and project
type are as before. -/
theorem applyEvaluate_evalFail (fuel : Nat) (featureRoots : List String) (w : World)
    (this : NodeId) (result : QmakeEvalResult)
    (hreader : (w.heap.objs this).m_readerExact.isSome = true)
    (hbuildSystem : (w.heap.objs this).m_buildSystem = true)
    (hrunning : w.buildSystem.shuttingDown = false)
    (hstate : result.state = .EvalFail)
    (hdepth : SubtreeWithin w.heap fuel this)
    (htree : NoProFileBelowPriFile w.heap this) :
    ∃ w', QmakeProFile.applyEvaluate fuel featureRoots w this result = some (w', result) ∧
      ((w'.heap.objs this).m_validParse = false ∧
        (w'.heap.objs this).m_parseInProgress = false) ∧
      (∀ d, IsDescendant w.heap this d → (w.heap.objs d).isProFile = true →
        (w'.heap.objs d).m_validParse = false ∧ (w'.heap.objs d).m_parseInProgress = false) ∧
      ((w.heap.objs this).m_projectType ≠ .Invalid →
        (w'.heap.objs this).m_children = [] ∧ (w'.heap.objs this).m_projectType = .Invalid) ∧
      ((w.heap.objs this).m_projectType = .Invalid →
        (w'.heap.objs this).m_children = (w.heap.objs this).m_children ∧
        (w'.heap.objs this).m_projectType = .Invalid) := by
  have herr := parseErrors_heap this result.errors w
  obtain ⟨w', hw', hflags, hne, heq⟩ := applyEvaluateFailed_spec fuel
    (result.errors.foldl
      (fun w error => w.call (.proFileParseError error (w.heap.objs this).m_filePath)) w)
    this result hstate (by rw [herr.1]; exact hdepth)
  rw [herr.1] at hflags hne heq
  refine ⟨w', ?_, hflags this (ProReach.refl _), ?_, hne, heq⟩
  · unfold QmakeProFile.applyEvaluate
    have h1 : (w.heap.objs this).m_readerExact.isNone = false := by
      cases hr : (w.heap.objs this).m_readerExact with
      | none => rw [hr] at hreader; cases hreader
      | some _ => rfl
    simp only [h1, hbuildSystem, hrunning, hstate, hw', Bool.false_eq_true, if_false,
      Bool.not_true, true_or, if_true, Option.map_some']
  · intro d hdesc hpro
    exact hflags d (proReach_of_descendant hdesc hpro htree)

theorem subtreeWithin_exampleWorld : SubtreeWithin exampleWorld.heap 2 0 := by
  intro c hc
  have hc1 : c = 1 := by simpa [exampleWorld] using hc
  subst hc1
  intro c hc
  simp [exampleWorld] at hc

theorem children_exampleWorld (n x : NodeId)
    (hx : x ∈ (exampleWorld.heap.objs n).m_children) : n = 0 ∧ x = 1 := by
  by_cases h0 : n = 0
  · subst h0
    exact ⟨rfl, by simpa [exampleWorld] using hx⟩
  · by_cases h1 : n = 1
    · subst h1; simp [exampleWorld] at hx
    · simp [exampleWorld, h0, h1] at hx

theorem noProFileBelowPriFile_exampleWorld : NoProFileBelowPriFile exampleWorld.heap 0 := by
  have hdesc : ∀ a b, IsDescendant exampleWorld.heap a b → b = 1 := by
    intro a b hab
    induction hab with
    | child hm => exact (children_exampleWorld _ _ hm).2
    | step _ _ ih => exact ih
  intro n c hn hc _
  have h1 := hdesc _ _ hn
  subst h1
  exact absurd (children_exampleWorld _ _ hc).1 (by decide)

/-- Witness for C3: the sub-directories project `a.pro` with its sub-project. -/
theorem applyEvaluate_evalFail_witness :
    ∃ w', QmakeProFile.applyEvaluate 2 [] exampleWorld 0 { state := .EvalFail } =
        some (w', { state := .EvalFail }) ∧
      ((w'.heap.objs 0).m_validParse = false ∧ (w'.heap.objs 0).m_parseInProgress = false) ∧
      ((w'.heap.objs 1).m_validParse = false ∧ (w'.heap.objs 1).m_parseInProgress = false) ∧
      (w'.heap.objs 0).m_children = [] ∧ (w'.heap.objs 0).m_projectType = .Invalid := by
  obtain ⟨w', h, h0, hd, hne, _⟩ := applyEvaluate_evalFail 2 [] exampleWorld 0
    { state := .EvalFail } rfl rfl rfl rfl subtreeWithin_exampleWorld
    noProFileBelowPriFile_exampleWorld
  exact ⟨w', h, h0, hd 1 (IsDescendant.child (by decide)) rfl, hne (by decide)⟩

/-! ## `QmakeProFile::applyEvaluate`: the new children -/

theorem update_links (this : NodeId) (self : QmakePriFile) (result : QmakePriFileEvalResult) :
    (self.update this result).1.links = self.links := by
  simp [QmakePriFile.update, QmakePriFile.watchFolders, QmakePriFile.links, FileType.all]

theorem updateAt_links (w : World) (this : NodeId) (result : QmakePriFileEvalResult)
    (x : NodeId) :
    ((QmakePriFile.updateAt w this result).heap.objs x).links = (w.heap.objs x).links := by
  unfold QmakePriFile.updateAt
  simp only
  by_cases hx : x = this
  · subst hx
    rw [Heap.modify_objs_self, update_links]
  · rw [Heap.modify_objs_of_ne _ _ hx]

/-- An assignment to members other than the links leaves the links of every
node alone. -/
theorem Heap.modify_links (h : Heap) (n : NodeId) (f : QmakePriFile → QmakePriFile)
    (x : NodeId) (hf : ∀ o, (f o).links = o.links) :
    ((h.modify n f).objs x).links = (h.objs x).links :=
  Heap.modify_field h n f QmakePriFile.links hf x

theorem finishInitialization_links (w : World) (this : NodeId) (buildSystem : Bool)
    (qmakeProFile x : NodeId) :
    ((QmakePriFile.finishInitialization w this buildSystem qmakeProFile).heap.objs x).links =
      (w.heap.objs x).links := by
  unfold QmakePriFile.finishInitialization
  split
  · rfl
  · rw [World.modify_heap]
    apply Heap.modify_links
    intro o; rfl

theorem setupFutureWatcher_links (w : World) (this x : NodeId) :
    ((QmakeProFile.setupFutureWatcher w this).heap.objs x).links = (w.heap.objs x).links := by
  unfold QmakeProFile.setupFutureWatcher
  split
  · rfl
  · rw [World.call_heap, World.modify_heap]
    apply Heap.modify_links
    intro o; rfl

theorem setupReader_links (w : World) (this x : NodeId) :
    ((QmakeProFile.setupReader w this).heap.objs x).links = (w.heap.objs x).links := by
  unfold QmakeProFile.setupReader
  simp only [World.modify_heap, World.call_heap]
  apply Heap.modify_links
  intro o; rfl

theorem asyncUpdate_links (w : World) (this x : NodeId) :
    ((QmakeProFile.asyncUpdate w this).heap.objs x).links = (w.heap.objs x).links := by
  unfold QmakeProFile.asyncUpdate
  simp only [World.call_heap]
  rw [setupReader_links, setupFutureWatcher_links]
  exact cleanupFutureWatcher_field QmakePriFile.links (fun _ _ _ _ _ _ => rfl) w this x

theorem applyEvaluateValues_links (featureRoots : List String) (w : World) (this : NodeId)
    (result : QmakeEvalResult) (x : NodeId) :
    ((applyEvaluateValues featureRoots w this result).heap.objs x).links =
      (w.heap.objs x).links := by
  unfold applyEvaluateValues
  simp only
  rw [cleanupProFileReaders_field QmakePriFile.links (fun _ _ _ _ _ _ => rfl)]
  simp only [QmakeProFile.setParseInProgress]
  refine (Heap.modify_links _ this _ x ?_).trans ?_
  · intro o; rfl
  split
  · simp only [World.modify_heap]
    refine (Heap.modify_links _ this _ x ?_).trans ?_
    · intro o; rfl
    refine (Heap.modify_links _ this _ x ?_).trans ?_
    · intro o; rfl
    apply Heap.modify_links
    intro o; rfl
  · rw [World.modify_heap]
    apply Heap.modify_links
    intro o; rfl

/-- The loop `for (QmakePriFile * const toAdd : result->directChildren) addChild(toAdd)`
on distinct parentless nodes that are not yet children: the nodes are appended
in order and their parent pointers set. -/
theorem foldl_addChild (this : NodeId) :
    ∀ (l : List NodeId) (h : Heap), l.Nodup → this ∉ l →
      (∀ c ∈ l, c ∉ (h.objs this).m_children) → (∀ c ∈ l, (h.objs c).m_parent = none) →
      ((l.foldl (fun h toAdd => QmakePriFile.addChild h this toAdd) h).objs this).m_children =
        (h.objs this).m_children ++ l ∧
      (∀ c ∈ l, ((l.foldl (fun h toAdd => QmakePriFile.addChild h this toAdd) h).objs
        c).m_parent = some this) ∧
      (∀ x, x ∉ l → ((l.foldl (fun h toAdd => QmakePriFile.addChild h this toAdd) h).objs
        x).m_parent = (h.objs x).m_parent) := by
  intro l
  induction l with
  | nil => intro h _ _ _ _; simp
  | cons c l ih =>
    intro h hnd hthis hnot hpar
    rw [List.nodup_cons] at hnd
    have hne : this ≠ c := fun e => hthis (e ▸ List.mem_cons_self _ _)
    have hfresh := addChild_of_fresh h this c hne (hnot c (List.mem_cons_self _ _))
      (hpar c (List.mem_cons_self _ _))
    obtain ⟨ih1, ih2, ih3⟩ := ih (QmakePriFile.addChild h this c) hnd.2
      (fun hm => hthis (List.mem_cons_of_mem _ hm))
      (by
        intro c' hc' hmem
        rw [hfresh.2.1, List.mem_append, List.mem_singleton] at hmem
        rcases hmem with hmem | hmem
        · exact hnot c' (List.mem_cons_of_mem _ hc') hmem
        · exact hnd.1 (hmem ▸ hc'))
      (by
        intro c' hc'
        rw [addChild_parent_of_ne h this c (fun e => hnd.1 (e ▸ hc'))]
        exact hpar c' (List.mem_cons_of_mem _ hc'))
    rw [List.foldl_cons]
    refine ⟨?_, ?_, ?_⟩
    · rw [ih1, hfresh.2.1, List.append_assoc]; rfl
    · intro c' hc'
      rcases List.mem_cons.1 hc' with heq | hmem
      · subst heq
        rw [ih3 _ hnd.1]
        exact hfresh.1
      · exact ih2 c' hmem
    · intro x hx
      rw [List.mem_cons, not_or] at hx
      rw [ih3 x hx.2, addChild_parent_of_ne h this c hx.1]

theorem foldl_links {α : Type} (step : World → α → World)
    (hstep : ∀ w a x, ((step w a).heap.objs x).links = (w.heap.objs x).links) (l : List α)
    (w : World) (x : NodeId) : ((l.foldl step w).heap.objs x).links = (w.heap.objs x).links := by
  induction l generalizing w with
  | nil => rfl
  | cons a l ih => rw [List.foldl_cons, ih, hstep]

/-- The statements of `applyEvaluate` after the loop over `directChildren` leave
the links of every node alone. -/
theorem applyEvaluateChildren_links (w : World) (this : NodeId) (result : QmakeEvalResult)
    (x : NodeId) :
    ((applyEvaluateChildren w this result).heap.objs x).links =
      ((result.directChildren.foldl (fun h toAdd => QmakePriFile.addChild h this toAdd)
        w.heap).objs x).links := by
  unfold applyEvaluateChildren
  simp only
  rw [updateAt_links]
  rw [foldl_links (fun w proFile =>
    QmakeProFile.asyncUpdate
      (QmakePriFile.finishInitialization w proFile (w.heap.objs this).m_buildSystem proFile)
      proFile)
    (fun w a x => by rw [asyncUpdate_links, finishInitialization_links])]
  rw [foldl_links (fun w (priFiles : NodeId × QmakePriFileEvalResult) =>
    QmakePriFile.updateAt
      (QmakePriFile.finishInitialization w priFiles.1 (w.heap.objs this).m_buildSystem this)
      priFiles.1 priFiles.2)
    (fun w a x => by rw [updateAt_links, finishInitialization_links])]

theorem applyEvaluateProjectType_spec (fuel : Nat) (w : World) (this : NodeId)
    (result : QmakeEvalResult) (hdepth : SubtreeWithin w.heap fuel this) :
    ∃ w1, applyEvaluateProjectType fuel w this result = some w1 ∧
      (∀ x, (w1.heap.objs x).m_parent = (w.heap.objs x).m_parent) ∧
      SubtreeWithin w1.heap fuel this := by
  unfold applyEvaluateProjectType
  split
  · cases fuel with
    | zero => exact absurd hdepth id
    | succ fuel =>
      have hfold : ∀ (cs : List NodeId) (h1 : Heap),
          (∀ x, (h1.objs x).m_children = (w.heap.objs x).m_children) →
          (∀ c ∈ cs, SubtreeWithin w.heap (fuel + 1) c) →
          ∃ h2, cs.foldlM
            (fun (h : Heap) c =>
              if (h.objs c).isProFile then
                (QmakeProFile.setValidParseRecursive false (fuel + 1) h c).bind fun h =>
                  QmakeProFile.setParseInProgressRecursive false (fuel + 1) h c
              else some h) h1 = some h2 ∧
            (∀ x, (h2.objs x).m_children = (h1.objs x).m_children) ∧
            (∀ x, (h2.objs x).m_parent = (h1.objs x).m_parent) := by
        intro cs
        induction cs with
        | nil => intro h1 _ _; exact ⟨h1, rfl, fun _ => rfl, fun _ => rfl⟩
        | cons c cs ihc =>
          intro h1 hc1 hall
          simp only [List.foldlM_cons, bind, Option.bind_eq_some]
          by_cases hcp : (h1.objs c).isProFile = true
          · obtain ⟨h3, hh3⟩ := setRecursive_isSome (fun o => { o with m_validParse := false })
              (fun _ => rfl) (fuel + 1) h1 c
              (SubtreeWithin.of_children (fun x => by rw [hc1]) _ c
                (hall c (List.mem_cons_self _ _)))
            have hc3 := setRecursive_field_of hh3 (fun o => o.m_children) (fun _ => rfl)
            have hp3 := setRecursive_field_of hh3 (fun o => o.m_parent) (fun _ => rfl)
            beta_reduce at hc3 hp3
            obtain ⟨h4, hh4⟩ := setRecursive_isSome
              (fun o => { o with m_parseInProgress := false }) (fun _ => rfl) (fuel + 1) h3 c
              (SubtreeWithin.of_children (fun x => by rw [hc3, hc1]) _ c
                (hall c (List.mem_cons_self _ _)))
            have hc4 := setRecursive_field_of hh4 (fun o => o.m_children) (fun _ => rfl)
            have hp4 := setRecursive_field_of hh4 (fun o => o.m_parent) (fun _ => rfl)
            beta_reduce at hc4 hp4
            obtain ⟨h2, hrest, hc2, hp2⟩ := ihc h4 (fun x => by rw [hc4, hc3, hc1])
              (fun c' hc' => hall c' (List.mem_cons_of_mem _ hc'))
            refine ⟨h2, ⟨h4, ?_, hrest⟩, fun x => by rw [hc2, hc4, hc3],
              fun x => by rw [hp2, hp4, hp3]⟩
            rw [if_pos hcp, setValidParseRecursive_eq, hh3, Option.some_bind,
              setParseInProgressRecursive_eq, hh4]
          · obtain ⟨h2, hrest, hc2, hp2⟩ := ihc h1 hc1
              (fun c' hc' => hall c' (List.mem_cons_of_mem _ hc'))
            exact ⟨h2, ⟨h1, by rw [if_neg hcp], hrest⟩, hc2, hp2⟩
      obtain ⟨h2, hh2, hc2, hp2⟩ := hfold (w.heap.objs this).m_children w.heap (fun _ => rfl)
        (fun c hc => SubtreeWithin.mono fuel c (hdepth c hc))
      obtain ⟨w3, hw3⟩ := makeEmpty_isSome (fuel + 1) { w with heap := h2 } this
        (SubtreeWithin.of_children hc2 _ this hdepth)
      rw [hh2, Option.some_bind, hw3, Option.map_some']
      refine ⟨_, rfl, ?_, ?_⟩
      · intro x
        rw [World.modify_heap]
        refine (Heap.modify_field _ this _ (fun o => o.m_parent) ?_ x).trans ?_
        · intro o; rfl
        · exact (makeEmpty_field (fun o => o.m_parent) (fun _ _ _ _ _ _ => rfl) (fun _ _ => rfl)
            hw3 x).trans (hp2 x)
      · intro c hc
        rw [World.modify_heap, Heap.modify_objs_self] at hc
        have := (makeEmpty_children hw3).1
        simp only at hc
        rw [this] at hc
        cases hc
  · exact ⟨w, rfl, fun _ => rfl, hdepth⟩

/-- C10: after `QmakeProFile::applyEvaluate` applies a result whose state is
`EvalOk` or `EvalPartial` (readers set up, not shutting down, not cancelled),
the children of the node are exactly the direct children of the result, in the
order of the result, each with its parent pointer set to the node; none of the
previous children remains. The direct children are fresh nodes, as `evaluate`
makes them: distinct, without parent, other than the node and not among its
children. -/
theorem applyEvaluate_children (fuel : Nat) (featureRoots : List String) (w : World)
    (this : NodeId) (result : QmakeEvalResult)
    (hreader : (w.heap.objs this).m_readerExact.isSome = true)
    (hbuildSystem : (w.heap.objs this).m_buildSystem = true)
    (hrunning : w.buildSystem.shuttingDown = false)
    (hnotCanceled : w.buildSystem.wasEvaluateCanceled = false)
    (hstate : result.state = .EvalOk ∨ result.state = .EvalPartial)
    (hdepth : SubtreeWithin w.heap fuel this)
    (hdistinct : result.directChildren.Nodup)
    (hparentless : ∀ c ∈ result.directChildren, (w.heap.objs c).m_parent = none)
    (hother : this ∉ result.directChildren)
    (hfresh : ∀ c ∈ result.directChildren, c ∉ (w.heap.objs this).m_children) :
    ∃ w' result', QmakeProFile.applyEvaluate fuel featureRoots w this result =
        some (w', result') ∧
      (w'.heap.objs this).m_children = result.directChildren ∧
      (∀ c ∈ result.directChildren, (w'.heap.objs c).m_parent = some this) ∧
      (∀ c ∈ (w.heap.objs this).m_children, c ∉ (w'.heap.objs this).m_children) := by
  have herr := parseErrors_heap this result.errors w
  obtain ⟨w1, hw1, hparent1, hdepth1⟩ := applyEvaluateProjectType_spec fuel
    (result.errors.foldl
      (fun w error => w.call (.proFileParseError error (w.heap.objs this).m_filePath)) w)
    this result (by rw [herr.1]; exact hdepth)
  obtain ⟨w2, hw2⟩ := makeEmpty_isSome fuel w1 this hdepth1
  have hparent2 : ∀ x, (w2.heap.objs x).m_parent = (w.heap.objs x).m_parent := fun x => by
    rw [makeEmpty_field (fun o => o.m_parent) (fun _ _ _ _ _ _ => rfl) (fun _ _ => rfl) hw2 x,
      hparent1, herr.1]
  have hchildren2 := (makeEmpty_children hw2).1
  obtain ⟨hadd1, hadd2, _⟩ := foldl_addChild this result.directChildren w2.heap hdistinct hother
    (by intro c _; rw [hchildren2]; exact List.not_mem_nil c)
    (by intro c hc; rw [hparent2]; exact hparentless c hc)
  have hlinks : ∀ x,
      ((applyEvaluateValues featureRoots (applyEvaluateChildren w2 this result) this
        result).heap.objs x).links =
      ((result.directChildren.foldl (fun h toAdd => QmakePriFile.addChild h this toAdd)
        w2.heap).objs x).links := fun x => by
    rw [applyEvaluateValues_links, applyEvaluateChildren_links]
  have hchildren : ((applyEvaluateValues featureRoots (applyEvaluateChildren w2 this result)
      this result).heap.objs this).m_children = result.directChildren := by
    have := congrArg Prod.snd (hlinks this)
    simp only [QmakePriFile.links] at this
    rw [this, hadd1, hchildren2, List.nil_append]
  refine ⟨_, { result with directChildren := [] }, ?_, hchildren, ?_, ?_⟩
  · unfold QmakeProFile.applyEvaluate
    have h1 : (w.heap.objs this).m_readerExact.isNone = false := by
      cases hr : (w.heap.objs this).m_readerExact with
      | none => rw [hr] at hreader; cases hreader
      | some _ => rfl
    have h2 : ¬(result.state = .EvalFail ∨
        (result.errors.foldl
          (fun w error => w.call (.proFileParseError error (w.heap.objs this).m_filePath))
          w).buildSystem.wasEvaluateCanceled = true) := by
      rw [herr.2, hnotCanceled]
      rintro (h | h)
      · rcases hstate with hs | hs <;> rw [hs] at h <;> cases h
      · cases h
    simp only [h1, hbuildSystem, hrunning, Bool.false_eq_true, if_false, Bool.not_true, h2, hw1,
      Option.some_bind, hw2, Option.map_some']
  · intro c hc
    have := congrArg Prod.fst (hlinks c)
    simp only [QmakePriFile.links] at this
    rw [this]
    exact hadd2 c hc
  · intro c hc hmem
    rw [hchildren] at hmem
    exact hfresh c hmem hc

theorem children_exampleWorldEvaluated (n x : NodeId)
    (hx : x ∈ (exampleWorldEvaluated.heap.objs n).m_children) : n = 0 ∧ x = 1 := by
  by_cases h2 : n = 2
  · subst h2
    simp [exampleWorldEvaluated, exampleWorld, Heap.alloc] at hx
  · have : exampleWorldEvaluated.heap.objs n = exampleWorld.heap.objs n := by
      simp [exampleWorldEvaluated, Heap.alloc, Function.update, exampleWorld, h2]
    rw [this] at hx
    exact children_exampleWorld n x hx

/-- Witness for C10: the result with the new child `b.pri` replaces the
sub-project of `a.pro`. -/
theorem applyEvaluate_children_witness :
    ∃ w' result', QmakeProFile.applyEvaluate 2 [] exampleWorldEvaluated 0 exampleResult =
        some (w', result') ∧
      (w'.heap.objs 0).m_children = [2] ∧ (w'.heap.objs 2).m_parent = some 0 ∧
      1 ∉ (w'.heap.objs 0).m_children := by
  obtain ⟨w', result', h, hc, hp, hold⟩ := applyEvaluate_children 2 [] exampleWorldEvaluated 0
    exampleResult rfl rfl rfl rfl (Or.inl rfl)
    (by
      intro c hc
      have hc1 := (children_exampleWorldEvaluated _ _ hc).2
      subst hc1
      intro c hc
      exact absurd (children_exampleWorldEvaluated _ _ hc).1 (by decide))
    (by decide) (by decide) (by decide) (by decide)
  exact ⟨w', result', h, hc, hp 2 (by decide), hold 1 (by decide)⟩

/-! ## `QmakePriFile::watchFolders` -/

theorem QSet.mem_foldl_insert_all {α : Type} [DecidableEq α] (l : List α) (s : QSet α) (a : α) :
    a ∈ l.foldl QSet.insert s ↔ a ∈ s ∨ a ∈ l := by
  induction l generalizing s with
  | nil => simp
  | cons x xs ih =>
    rw [List.foldl_cons, ih, QSet.mem_insert, List.mem_cons]
    constructor
    · rintro ((h | h) | h)
      · exact Or.inl h
      · exact Or.inr (Or.inl h)
      · exact Or.inr (Or.inr h)
    · rintro (h | h | h)
      · exact Or.inl (Or.inl h)
      · exact Or.inl (Or.inr h)
      · exact Or.inr h

theorem QSet.nodup_foldl_insert_all {α : Type} [DecidableEq α] (l : List α) (s : QSet α)
    (h : s.Nodup) : (l.foldl QSet.insert s).Nodup := by
  induction l generalizing s with
  | nil => exact h
  | cons x xs ih => exact ih _ (QSet.nodup_insert s x h)

/-- C13: `QmakePriFile::watchFolders(folders)` registers and unregisters only the
delta. With `old` the previously watched set, the calls on the build system
are one `unwatchFolders` with a list that holds exactly the folders of `old`
not among `folders`, followed by one `watchFolders` with a duplicate-free list
that holds exactly the folders of `folders` not in `old` (none at all when the
node has no build system); a folder in both sets is in neither list.
Afterwards the watched-folder set of the node holds exactly `folders`, and no
other member of the node is changed. -/
theorem watchFolders_registers_only_delta (this : NodeId) (self : QmakePriFile)
    (folders : QSet FilePath) :
    ∃ toUnwatch toWatch : List String,
      (self.watchFolders this folders).2 =
        (if self.m_buildSystem then
          [BuildSystemCall.unwatchFolders toUnwatch this, BuildSystemCall.watchFolders toWatch this]
        else []) ∧
      (∀ f, f ∈ toUnwatch ↔ f ∈ self.m_watchedFolders ∧ f ∉ folders) ∧
      (∀ f, f ∈ toWatch ↔ f ∈ folders ∧ f ∉ self.m_watchedFolders) ∧
      toWatch.Nodup ∧
      (∀ f, f ∈ folders → f ∈ self.m_watchedFolders → f ∉ toUnwatch ∧ f ∉ toWatch) ∧
      (∀ f, f ∈ (self.watchFolders this folders).1.m_watchedFolders ↔ f ∈ folders) ∧
      (self.watchFolders this folders).1.m_watchedFolders.Nodup ∧
      { (self.watchFolders this folders).1 with m_watchedFolders := self.m_watchedFolders } = self := by
  have hmem : ∀ f, f ∈ List.foldl QSet.insert ([] : QSet String) folders ↔ f ∈ folders := by
    intro f
    rw [QSet.mem_foldl_insert_all]
    simp
  have hnodup : (List.foldl QSet.insert ([] : QSet String) folders).Nodup :=
    QSet.nodup_foldl_insert_all folders [] List.nodup_nil
  refine ⟨QSet.subtract self.m_watchedFolders (folders.foldl QSet.insert []),
    QSet.subtract (folders.foldl QSet.insert []) self.m_watchedFolders, rfl, ?_, ?_, ?_, ?_, ?_,
    hnodup, rfl⟩
  · intro f
    rw [QSet.mem_subtract, hmem]
  · intro f
    rw [QSet.mem_subtract, hmem]
  · exact hnodup.filter _
  · intro f h1 h2
    rw [QSet.mem_subtract, QSet.mem_subtract, hmem]
    exact ⟨fun h => h.2 h1, fun h => h.2 h2⟩
  · intro f
    exact hmem f

/-! ## `QmakeProFile::subDirsPaths` -/

theorem firstOccurrences_filter {α : Type} [DecidableEq α] (q : α → Bool) (l : List α) :
    firstOccurrences (l.filter q) = (firstOccurrences l).filter q := by
  induction l with
  | nil => rfl
  | cons a l ih =>
    by_cases hq : q a = true
    · rw [List.filter_cons_of_pos hq]
      simp only [firstOccurrences]
      rw [List.filter_cons_of_pos hq, ih, List.filter_filter, List.filter_filter]
      congr 1
      apply List.filter_congr
      intro x _
      exact Bool.and_comm _ _
    · rw [List.filter_cons_of_neg hq, ih]
      simp only [firstOccurrences]
      rw [List.filter_cons_of_neg hq, List.filter_filter]
      apply List.filter_congr
      intro x _
      by_cases hx : x = a
      · subst hx
        simp [hq]
      · simp [hx]

theorem foldl_insert_eq_firstOccurrences {α : Type} [DecidableEq α] (l : List α) (acc : List α) :
    l.foldl QSet.insert acc = acc ++ firstOccurrences (l.filter fun b => decide (b ∉ acc)) := by
  induction l generalizing acc with
  | nil => simp [firstOccurrences]
  | cons a l ih =>
    rw [List.foldl_cons, ih]
    unfold QSet.insert
    by_cases ha : a ∈ acc
    · rw [if_pos ha, List.filter_cons_of_neg (by simpa using ha)]
    · rw [if_neg ha, List.filter_cons_of_pos (by simpa using ha)]
      simp only [firstOccurrences]
      rw [List.append_assoc, List.singleton_append, ← firstOccurrences_filter, List.filter_filter]
      congr 3
      apply List.filter_congr
      intro x _
      simp only [List.mem_append, List.mem_singleton, not_or, ne_eq, Bool.decide_and,
        Bool.and_comm]

theorem removeDuplicates_eq_firstOccurrences {α : Type} [DecidableEq α] (l : List α) :
    removeDuplicates l = firstOccurrences l := by
  unfold removeDuplicates
  rw [foldl_insert_eq_firstOccurrences]
  simp

theorem mem_removeDuplicates {α : Type} [DecidableEq α] (l : List α) (a : α) :
    a ∈ removeDuplicates l ↔ a ∈ l := by
  unfold removeDuplicates
  rw [QSet.mem_foldl_insert_all]
  simp

theorem nodup_removeDuplicates {α : Type} [DecidableEq α] (l : List α) :
    (removeDuplicates l).Nodup :=
  QSet.nodup_foldl_insert_all l [] List.nodup_nil

theorem subDirsPaths_eq_foldl (fs : FileSystem) (reader : ProFileReader) (projectDir : String)
    (notToDeploy errors : Option (List String)) :
    subDirsPaths fs reader projectDir notToDeploy errors =
      (removeDuplicates
          ((reader.values "SUBDIRS").foldl (subDirsPathsStep fs reader projectDir)
            ([], notToDeploy, errors)).1,
        ((reader.values "SUBDIRS").foldl (subDirsPathsStep fs reader projectDir)
            ([], notToDeploy, errors)).2) := rfl

/-- The loop of `subDirsPaths` from any values of its three variables: the
entries whose file exists append their cleaned path, the others their error. -/
theorem subDirsPaths_loop (fs : FileSystem) (reader : ProFileReader) (projectDir : String)
    (entries : List String) :
    ∀ (acc : List FilePath × Option (List String) × Option (List String)),
      (entries.foldl (subDirsPathsStep fs reader projectDir) acc).1 =
        acc.1 ++ (entries.filter (subDirExists fs reader projectDir)).map
          (fun e => fs.cleanPath (subDirRealFile fs reader projectDir e)) ∧
      (entries.foldl (subDirsPathsStep fs reader projectDir) acc).2.2 =
        acc.2.2.map fun l => l ++ (entries.filter
          (fun e => !subDirExists fs reader projectDir e)).map
            (subDirError fs reader projectDir) := by
  induction entries with
  | nil =>
    intro acc
    constructor
    · simp
    · cases h : acc.2.2 <;> simp [h]
  | cons e rest ih =>
    intro acc
    rw [List.foldl_cons]
    obtain ⟨h1, h2⟩ := ih (subDirsPathsStep fs reader projectDir acc e)
    rw [h1, h2]
    by_cases hex : subDirExists fs reader projectDir e = true
    · simp [subDirsPathsStep, hex]
    · simp only [Bool.not_eq_true] at hex
      cases hacc : acc.2.2 <;> simp [subDirsPathsStep, hex, hacc]

/-- C14: `SUBDIRS` resolution has partial-failure semantics. For every reader
(every list of `SUBDIRS` entries), `QmakeProFile::subDirsPaths` returns the
cleaned project-file paths of exactly the entries whose resolved file exists,
in the order of their first occurrence and without duplicates, and appends to
the error list (when one is passed) exactly one error for each entry whose
resolved file does not exist, in order. The path of an entry depends on that
entry alone: the returned paths are those returned when the entries with a
missing file are left out of `SUBDIRS`. -/
theorem subDirsPaths_partial_failure (fs : FileSystem) (reader : ProFileReader)
    (projectDir : String) (notToDeploy errors : Option (List String)) :
    (subDirsPaths fs reader projectDir notToDeploy errors).1 =
      firstOccurrences (((reader.values "SUBDIRS").filter (subDirExists fs reader projectDir)).map
        fun e => fs.cleanPath (subDirRealFile fs reader projectDir e)) ∧
    (subDirsPaths fs reader projectDir notToDeploy errors).1.Nodup ∧
    (∀ p, p ∈ (subDirsPaths fs reader projectDir notToDeploy errors).1 ↔
      ∃ e ∈ reader.values "SUBDIRS", subDirExists fs reader projectDir e = true ∧
        p = fs.cleanPath (subDirRealFile fs reader projectDir e)) ∧
    (subDirsPaths fs reader projectDir notToDeploy errors).2.2 =
      errors.map (fun l => l ++
        ((reader.values "SUBDIRS").filter fun e => !subDirExists fs reader projectDir e).map
          (subDirError fs reader projectDir)) ∧
    (subDirsPaths fs
        (reader.withSubDirs ((reader.values "SUBDIRS").filter (subDirExists fs reader projectDir)))
        projectDir notToDeploy errors).1 =
      (subDirsPaths fs reader projectDir notToDeploy errors).1 := by
  have hloop := subDirsPaths_loop fs reader projectDir (reader.values "SUBDIRS")
    ([], notToDeploy, errors)
  have hpaths : (subDirsPaths fs reader projectDir notToDeploy errors).1 =
      firstOccurrences (((reader.values "SUBDIRS").filter (subDirExists fs reader projectDir)).map
        fun e => fs.cleanPath (subDirRealFile fs reader projectDir e)) := by
    rw [subDirsPaths_eq_foldl]
    simp only [hloop.1, List.nil_append, removeDuplicates_eq_firstOccurrences]
  refine ⟨hpaths, ?_, ?_, ?_, ?_⟩
  · rw [subDirsPaths_eq_foldl]
    exact nodup_removeDuplicates _
  · intro p
    rw [subDirsPaths_eq_foldl]
    simp only [mem_removeDuplicates, hloop.1, List.nil_append, List.mem_map, List.mem_filter]
    constructor
    · rintro ⟨e, ⟨h1, h2⟩, h3⟩
      exact ⟨e, h1, h2, h3.symm⟩
    · rintro ⟨e, h1, h2, h3⟩
      exact ⟨e, ⟨h1, h2⟩, h3.symm⟩
  · rw [subDirsPaths_eq_foldl]
    exact hloop.2
  · have hsame : ∀ e, subDirRealFile fs (reader.withSubDirs
          ((reader.values "SUBDIRS").filter (subDirExists fs reader projectDir))) projectDir e =
        subDirRealFile fs reader projectDir e := fun e => rfl
    have hex : subDirExists fs (reader.withSubDirs
          ((reader.values "SUBDIRS").filter (subDirExists fs reader projectDir))) projectDir =
        subDirExists fs reader projectDir := rfl
    rw [hpaths]
    have hloop' := subDirsPaths_loop fs (reader.withSubDirs
      ((reader.values "SUBDIRS").filter (subDirExists fs reader projectDir))) projectDir
      ((reader.values "SUBDIRS").filter (subDirExists fs reader projectDir))
      ([], notToDeploy, errors)
    rw [subDirsPaths_eq_foldl]
    have hv : (reader.withSubDirs
        ((reader.values "SUBDIRS").filter (subDirExists fs reader projectDir))).values "SUBDIRS" =
        (reader.values "SUBDIRS").filter (subDirExists fs reader projectDir) := by
      simp [ProFileReader.withSubDirs]
    simp only [hv, hloop'.1, List.nil_append, removeDuplicates_eq_firstOccurrences, hex,
      List.filter_filter, Bool.and_self]
    rfl

/-! ## `extractSources` -/

theorem extractSources_nil (fromUserInput : String → FilePath) (device : String)
    (proToResult : List (Int × Nat)) (tree : List QmakeIncludedPriFile) (type : FileType)
    (cumulative : Bool) :
    extractSources fromUserInput device proToResult tree [] type cumulative = tree := rfl

theorem extractSources_cons (fromUserInput : String → FilePath) (device : String)
    (proToResult : List (Int × Nat)) (tree : List QmakeIncludedPriFile)
    (source : EvaluatorSourceFile) (rest : List EvaluatorSourceFile) (type : FileType)
    (cumulative : Bool) :
    extractSources fromUserInput device proToResult tree (source :: rest) type cumulative =
      extractSources fromUserInput device proToResult
        (treeModify tree (extractTarget proToResult source)
          (extractSourcesInsert (fromUserInput (device ++ source.fileName)) type cumulative))
        rest type cumulative := rfl

theorem extractSourcesInsert_frame (file : FilePath) (type : FileType) (cumulative : Bool)
    (node : QmakeIncludedPriFile) :
    (extractSourcesInsert file type cumulative node).proFile = node.proFile ∧
    (extractSourcesInsert file type cumulative node).name = node.name ∧
    (extractSourcesInsert file type cumulative node).children = node.children ∧
    (extractSourcesInsert file type cumulative node).result.folders = node.result.folders ∧
    (extractSourcesInsert file type cumulative node).result.recursiveEnumerateFiles =
      node.result.recursiveEnumerateFiles ∧
    (∀ c t, (c ≠ cumulative ∨ t ≠ type) →
      (extractSourcesInsert file type cumulative node).result.foundFiles c t =
        node.result.foundFiles c t) ∧
    (∀ p, p ∈ (extractSourcesInsert file type cumulative node).result.foundFiles cumulative type ↔
      p ∈ node.result.foundFiles cumulative type ∨ p = file) := by
  cases cumulative
  · refine ⟨rfl, rfl, rfl, rfl, rfl, ?_, ?_⟩
    · intro c t h
      cases c
      · have ht : t ≠ type := by
          rcases h with h | h
          · exact absurd rfl h
          · exact h
        simp [extractSourcesInsert, QmakePriFileEvalResult.foundFiles, Function.update, ht]
      · rfl
    · intro p
      simp [extractSourcesInsert, QmakePriFileEvalResult.foundFiles, QSet.mem_insert]
  · refine ⟨rfl, rfl, rfl, rfl, rfl, ?_, ?_⟩
    · intro c t h
      cases c
      · rfl
      · have ht : t ≠ type := by
          rcases h with h | h
          · exact absurd rfl h
          · exact h
        simp [extractSourcesInsert, QmakePriFileEvalResult.foundFiles, Function.update, ht]
    · intro p
      simp [extractSourcesInsert, QmakePriFileEvalResult.foundFiles, QSet.mem_insert]

/-- C18: `extractSources` attributes every source file to exactly one
per-include result. With every binding of `proToResult` and the fallback
pointing into the tree, for every list of evaluator source files: a path is in
the found-file set of the requested mode and type of a tree node afterwards
iff it was there before or it is the path of a source file whose owner id
`proToResult` binds to that node, or binds to nothing when the node is the
root (`extractTarget`); so every source file is inserted, and into that one
result only. The found-file sets of every other type or mode, the folders, the
enumerated files, and the shape of the tree are as before. -/
theorem extractSources_attributes_each_file_once (fromUserInput : String → FilePath)
    (device : String) (proToResult : List (Int × Nat)) (tree : List QmakeIncludedPriFile)
    (sourceFiles : List EvaluatorSourceFile) (type : FileType) (cumulative : Bool)
    (hroot : 0 < tree.length) (hbound : ∀ e ∈ proToResult, e.2 < tree.length) :
    (extractSources fromUserInput device proToResult tree sourceFiles type cumulative).length =
      tree.length ∧
    ∀ i,
      (∀ p, p ∈ (treeNode (extractSources fromUserInput device proToResult tree sourceFiles type
            cumulative) i).result.foundFiles cumulative type ↔
        p ∈ (treeNode tree i).result.foundFiles cumulative type ∨
        ∃ source ∈ sourceFiles, extractTarget proToResult source = i ∧
          p = fromUserInput (device ++ source.fileName)) ∧
      (∀ c t, (c ≠ cumulative ∨ t ≠ type) →
        (treeNode (extractSources fromUserInput device proToResult tree sourceFiles type
            cumulative) i).result.foundFiles c t = (treeNode tree i).result.foundFiles c t) ∧
      (treeNode (extractSources fromUserInput device proToResult tree sourceFiles type
          cumulative) i).result.folders = (treeNode tree i).result.folders ∧
      (treeNode (extractSources fromUserInput device proToResult tree sourceFiles type
          cumulative) i).result.recursiveEnumerateFiles =
        (treeNode tree i).result.recursiveEnumerateFiles ∧
      (treeNode (extractSources fromUserInput device proToResult tree sourceFiles type
          cumulative) i).proFile = (treeNode tree i).proFile ∧
      (treeNode (extractSources fromUserInput device proToResult tree sourceFiles type
          cumulative) i).name = (treeNode tree i).name ∧
      (treeNode (extractSources fromUserInput device proToResult tree sourceFiles type
          cumulative) i).children = (treeNode tree i).children := by
  have htarget : ∀ (source : EvaluatorSourceFile) (n : Nat), n = tree.length →
      extractTarget proToResult source < n := by
    intro source n hn
    subst hn
    unfold extractTarget
    cases hl : proToResult.lookup source.proFileId with
    | none => exact hroot
    | some k =>
      obtain ⟨l₁, l₂, hl, _⟩ := List.lookup_eq_some_iff.1 hl
      exact hbound (source.proFileId, k) (by rw [hl]; simp)
  clear hroot hbound
  induction sourceFiles generalizing tree with
  | nil =>
    rw [extractSources_nil]
    refine ⟨rfl, fun i => ⟨fun p => by simp, fun _ _ _ => rfl, rfl, rfl, rfl, rfl, rfl⟩⟩
  | cons source rest ih =>
    rw [extractSources_cons]
    have hlen := length_treeModify tree (extractTarget proToResult source)
      (extractSourcesInsert (fromUserInput (device ++ source.fileName)) type cumulative)
    obtain ⟨ihlen, ihnode⟩ := ih (treeModify tree (extractTarget proToResult source)
      (extractSourcesInsert (fromUserInput (device ++ source.fileName)) type cumulative))
      (fun s n hn => htarget s n (hn.trans hlen))
    refine ⟨ihlen.trans hlen, fun i => ?_⟩
    obtain ⟨h1, h2, h3, h4, h5, h6, h7⟩ := ihnode i
    by_cases hi : extractTarget proToResult source = i
    · have hnode := treeNode_treeModify_self tree
        (extractSourcesInsert (fromUserInput (device ++ source.fileName)) type cumulative)
        (htarget source _ rfl)
      subst hi
      obtain ⟨f1, f2, f3, f4, f5, f6, f7⟩ := extractSourcesInsert_frame
        (fromUserInput (device ++ source.fileName)) type cumulative
        (treeNode tree (extractTarget proToResult source))
      rw [hnode] at h1 h2 h3 h4 h5 h6 h7
      refine ⟨fun p => ?_, fun c t h => (h2 c t h).trans (f6 c t h), h3.trans f4, h4.trans f5,
        h5.trans f1, h6.trans f2, h7.trans f3⟩
      rw [h1, f7]
      simp only [List.mem_cons, exists_eq_or_imp, true_and]
      constructor
      · rintro ((h | h) | h)
        · exact Or.inl h
        · exact Or.inr (Or.inl h)
        · exact Or.inr (Or.inr h)
      · rintro (h | h | h)
        · exact Or.inl (Or.inl h)
        · exact Or.inl (Or.inr h)
        · exact Or.inr h
    · have hnode := treeNode_treeModify_of_ne tree
        (extractSourcesInsert (fromUserInput (device ++ source.fileName)) type cumulative) hi
      rw [hnode] at h1 h2 h3 h4 h5 h6 h7
      refine ⟨fun p => ?_, h2, h3, h4, h5, h6, h7⟩
      rw [h1]
      simp only [List.mem_cons, exists_eq_or_imp, hi, false_and, false_or]

/-- Witness for C18: with `proToResult` binding id 2 to the node of `b.pri`
(node 1), `b.cpp` (owner 2) goes to that node and `main.cpp` (owner 1, unbound)
does not. -/
theorem extractSources_attributes_each_file_once_witness :
    (∀ e ∈ [((2 : Int), 1)], e.2 < [({} : QmakeIncludedPriFile), { name := "b.pri" }].length) ∧
    ∀ p, p ∈ (treeNode (extractSources (fun s => s) "" [(2, 1)] [{}, { name := "b.pri" }]
          [⟨"main.cpp", 1⟩, ⟨"b.cpp", 2⟩] .Source false) 1).result.foundFiles false .Source ↔
      p ∈ (treeNode [{}, { name := "b.pri" }] 1).result.foundFiles false .Source ∨
      ∃ source ∈ [(⟨"main.cpp", 1⟩ : EvaluatorSourceFile), ⟨"b.cpp", 2⟩],
        extractTarget [(2, 1)] source = 1 ∧ p = (fun s => s) ("" ++ source.fileName) :=
  ⟨by decide, ((extractSources_attributes_each_file_once (fun s => s) "" [(2, 1)]
    [{}, { name := "b.pri" }] [⟨"main.cpp", 1⟩, ⟨"b.cpp", 2⟩] .Source false
    (by decide) (by decide)).2 1).1⟩

/-! ## `QmakePriFile::processValues` -/

theorem processValues_eq (fs : FileSystem) (result : QmakePriFileEvalResult) :
    processValues fs result =
      processValuesTypes FileType.all (result.folders.foldl (processValuesFolder fs) result) :=
  rfl

theorem FileType.mem_all (type : FileType) : type ∈ FileType.all := by
  cases type <;> simp [FileType.all]

theorem FileType.nodup_all : FileType.all.Nodup := by
  decide

theorem QSet.mem_unite {α : Type} [DecidableEq α] (s t : QSet α) (a : α) :
    a ∈ QSet.unite s t ↔ a ∈ s ∨ a ∈ t :=
  QSet.mem_foldl_insert_all t s a

/-- The folder loop of `processValues`, started anywhere in the list: it keeps the
entries that are directories, and enumerates them, and moves the entries that
are files to the enumerated files. -/
theorem foldl_processValuesFolder (fs : FileSystem) (l : List FilePath) :
    ∀ (kept : List FilePath) (result : QmakePriFileEvalResult),
      result.folders = kept ++ l →
      (∀ it ∈ kept, (fs.fileExists it && fs.isDir it) = true) →
      (l.foldl (processValuesFolder fs) result).folders =
        kept ++ l.filter (fun it => fs.fileExists it && fs.isDir it) ∧
      (l.foldl (processValuesFolder fs) result).foundFilesExact = result.foundFilesExact ∧
      (l.foldl (processValuesFolder fs) result).foundFilesCumulative =
        result.foundFilesCumulative ∧
      ∀ x, x ∈ (l.foldl (processValuesFolder fs) result).recursiveEnumerateFiles ↔
        x ∈ result.recursiveEnumerateFiles ∨
        ∃ it ∈ l, fs.fileExists it = true ∧
          ((fs.isDir it = true ∧ x ∈ fs.recursiveEnumerate it) ∨ (fs.isDir it = false ∧ x = it)) := by
  induction l with
  | nil =>
    intro kept result hf _
    simpa using hf
  | cons a l ih =>
    intro kept result hf hkept
    rw [List.foldl_cons]
    by_cases hgood : (fs.fileExists a && fs.isDir a) = true
    · have hex : fs.fileExists a = true := by
        rw [Bool.and_eq_true] at hgood; exact hgood.1
      have hdir : fs.isDir a = true := by
        rw [Bool.and_eq_true] at hgood; exact hgood.2
      have hstep : processValuesFolder fs result a =
          { result with recursiveEnumerateFiles :=
              QSet.unite result.recursiveEnumerateFiles (fs.recursiveEnumerate a) } := by
        simp [processValuesFolder, hex, hdir]
      obtain ⟨h1, h2, h3, h4⟩ := ih (kept ++ [a]) (processValuesFolder fs result a)
        (by rw [hstep]; simp [hf])
        (by
          intro it hit
          rcases List.mem_append.1 hit with h | h
          · exact hkept it h
          · rw [List.mem_singleton.1 h]; exact hgood)
      refine ⟨?_, ?_, ?_, ?_⟩
      · rw [h1]; simp [List.filter_cons, hex, hdir]
      · rw [h2, hstep]
      · rw [h3, hstep]
      · intro x
        rw [h4, hstep]
        simp only [QSet.mem_unite, List.mem_cons, exists_eq_or_imp, hex, hdir, true_and]
        simp only [Bool.true_eq_false, false_and, or_false]
        exact or_assoc
    · have hnotin : a ∉ kept := fun h => hgood (hkept a h)
      have herase : (kept ++ a :: l).erase a = kept ++ l := by
        rw [List.erase_append_right _ hnotin, List.erase_cons_head]
      obtain ⟨h1, h2, h3, h4⟩ := ih kept (processValuesFolder fs result a)
        (by
          unfold processValuesFolder
          split
          · split
            · rename_i hex hdir
              exact absurd (by rw [hex, hdir]; rfl) hgood
            · simp only [hf, herase]
          · simp only [hf, herase])
        hkept
      refine ⟨?_, ?_, ?_, ?_⟩
      · rw [h1]; simp only [Bool.and_eq_true] at hgood; simp [List.filter_cons, hgood]
      · rw [h2]; unfold processValuesFolder; split <;> [split; skip] <;> rfl
      · rw [h3]; unfold processValuesFolder; split <;> [split; skip] <;> rfl
      · intro x
        rw [h4]
        simp only [List.mem_cons, exists_eq_or_imp]
        by_cases hex : fs.fileExists a = true
        · have hdir : fs.isDir a = false := by
            cases hd : fs.isDir a
            · rfl
            · exact absurd (by rw [hex, hd]; rfl) hgood
          simp only [processValuesFolder, hex, hdir, if_true, Bool.false_eq_true, if_false,
            QSet.mem_insert, false_and, true_and, false_or]
          exact or_assoc
        · simp only [Bool.not_eq_true] at hex
          simp [processValuesFolder, hex]

theorem processValuesType_frame (result : QmakePriFileEvalResult) (type : FileType) :
    (processValuesType result type).folders = result.folders ∧
    (∀ t, t ≠ type →
      (processValuesType result type).foundFilesExact t = result.foundFilesExact t ∧
      (processValuesType result type).foundFilesCumulative t = result.foundFilesCumulative t) ∧
    ∀ x, x ∈ (processValuesType result type).recursiveEnumerateFiles ↔
      x ∈ result.recursiveEnumerateFiles ∧ x ∉ result.foundFilesExact type ∧
        x ∉ result.foundFilesCumulative type := by
  refine ⟨rfl, ?_, ?_⟩
  · intro t ht
    simp [processValuesType, Function.update, ht]
  · intro x
    simp only [processValuesType, QSet.mem_subtract]
    exact and_assoc

/-- The loop over the file types of `processValues`, for distinct types in any
order: the folders stay, and from the enumerated files the original found
files of those types are taken away. -/
theorem processValuesTypes_frame (types : List FileType) (hn : types.Nodup) :
    ∀ result : QmakePriFileEvalResult,
      (processValuesTypes types result).folders = result.folders ∧
      (∀ t, t ∉ types →
        (processValuesTypes types result).foundFilesExact t = result.foundFilesExact t ∧
        (processValuesTypes types result).foundFilesCumulative t =
          result.foundFilesCumulative t) ∧
      ∀ x, x ∈ (processValuesTypes types result).recursiveEnumerateFiles ↔
        x ∈ result.recursiveEnumerateFiles ∧
          ∀ t ∈ types, x ∉ result.foundFilesExact t ∧ x ∉ result.foundFilesCumulative t := by
  induction types with
  | nil =>
    intro result
    exact ⟨rfl, fun _ _ => ⟨rfl, rfl⟩, fun x => by simp [processValuesTypes]⟩
  | cons type rest ih =>
    intro result
    rw [List.nodup_cons] at hn
    obtain ⟨h1, h2, h3⟩ := ih hn.2 (processValuesType result type)
    obtain ⟨f1, f2, f3⟩ := processValuesType_frame result type
    have hunfold : processValuesTypes (type :: rest) result =
        processValuesTypes rest (processValuesType result type) := rfl
    rw [hunfold]
    refine ⟨h1.trans f1, ?_, ?_⟩
    · intro t ht
      rw [List.mem_cons, not_or] at ht
      exact ⟨(h2 t ht.2).1.trans (f2 t ht.1).1, (h2 t ht.2).2.trans (f2 t ht.1).2⟩
    · intro x
      rw [h3, f3]
      simp only [List.mem_cons, forall_eq_or_imp]
      constructor
      · rintro ⟨⟨hx, he, hc⟩, hrest⟩
        refine ⟨hx, ⟨he, hc⟩, fun t ht => ?_⟩
        have hne : t ≠ type := fun h => hn.1 (h ▸ ht)
        rw [← (f2 t hne).1, ← (f2 t hne).2]
        exact hrest t ht
      · rintro ⟨hx, ⟨he, hc⟩, hrest⟩
        refine ⟨⟨hx, he, hc⟩, fun t ht => ?_⟩
        have hne : t ≠ type := fun h => hn.1 (h ▸ ht)
        rw [(f2 t hne).1, (f2 t hne).2]
        exact hrest t ht

/-- C19: `QmakePriFile::processValues` cleans the declared folders. Afterwards
`result.folders` is exactly the original entries that exist on disk and are
directories, in their order (an entry that does not exist is dropped; the
function has no error to report). The final recursive-enumeration set holds
exactly the paths that were in it before, or were enumerated below a kept
folder, or are an original entry that exists as a plain file, and that are in
none of the original exact or cumulative found-file sets. So an original entry
that exists as a plain file is not in `folders` and is in the final
recursive-enumeration set iff it is in none of the original found-file sets. -/
theorem processValues_cleans_folders (fs : FileSystem) (result : QmakePriFileEvalResult) :
    (processValues fs result).folders =
      result.folders.filter (fun it => fs.fileExists it && fs.isDir it) ∧
    (∀ x, x ∈ (processValues fs result).recursiveEnumerateFiles ↔
      (x ∈ result.recursiveEnumerateFiles ∨
        ∃ it ∈ result.folders, fs.fileExists it = true ∧
          ((fs.isDir it = true ∧ x ∈ fs.recursiveEnumerate it) ∨
            (fs.isDir it = false ∧ x = it))) ∧
      ∀ t, x ∉ result.foundFilesExact t ∧ x ∉ result.foundFilesCumulative t) ∧
    (∀ it ∈ result.folders, fs.fileExists it = true → fs.isDir it = false →
      it ∉ (processValues fs result).folders ∧
      (it ∈ (processValues fs result).recursiveEnumerateFiles ↔
        ∀ t, it ∉ result.foundFilesExact t ∧ it ∉ result.foundFilesCumulative t)) ∧
    (∀ it ∈ result.folders, fs.fileExists it = false →
      it ∉ (processValues fs result).folders) := by
  obtain ⟨h1, h2, h3, h4⟩ := foldl_processValuesFolder fs result.folders [] result rfl
    (fun _ h => absurd h (List.not_mem_nil _))
  obtain ⟨g1, _, g3⟩ := processValuesTypes_frame FileType.all FileType.nodup_all
    (result.folders.foldl (processValuesFolder fs) result)
  have hfolders : (processValues fs result).folders =
      result.folders.filter (fun it => fs.fileExists it && fs.isDir it) := by
    rw [processValues_eq, g1, h1, List.nil_append]
  have hfiles : ∀ x, x ∈ (processValues fs result).recursiveEnumerateFiles ↔
      (x ∈ result.recursiveEnumerateFiles ∨
        ∃ it ∈ result.folders, fs.fileExists it = true ∧
          ((fs.isDir it = true ∧ x ∈ fs.recursiveEnumerate it) ∨
            (fs.isDir it = false ∧ x = it))) ∧
      ∀ t, x ∉ result.foundFilesExact t ∧ x ∉ result.foundFilesCumulative t := by
    intro x
    rw [processValues_eq, g3, h4, h2, h3]
    constructor
    · rintro ⟨hx, ht⟩
      exact ⟨hx, fun t => ht t (FileType.mem_all t)⟩
    · rintro ⟨hx, ht⟩
      exact ⟨hx, fun t _ => ht t⟩
  refine ⟨hfolders, hfiles, ?_, ?_⟩
  · intro it hit hex hdir
    constructor
    · rw [hfolders, List.mem_filter]
      simp [hex, hdir]
    · rw [hfiles]
      constructor
      · exact fun h => h.2
      · exact fun h => ⟨Or.inr ⟨it, hit, hex, Or.inr ⟨hdir, rfl⟩⟩, h⟩
  · intro it _ hex
    rw [hfolders, List.mem_filter]
    simp [hex]

/-! ## `QmakePriFile::processValues`: files counted under two types -/

/-- C20, evaluated on a project file with `SOURCES = src/main.cpp` and the
declared folder `src`, which holds `src/main.cpp`: the file is listed in the
original found-file set of `Source` and in none of `Unknown`, and after
`processValues` it is in the `Unknown` found-file sets as well, through the
folder enumeration, so that `update` shows it in the `Source` and in the
`Unknown` bucket. The `Unknown` set is filled in the first round of the loop
over the file types, before the found files of `Source` are taken out of the
enumerated files. The order of the rounds does not matter for the defect: in
the order in which the specification lists the buckets (`QML` before
`Unknown`), `src/Main.qml`, listed under `Unknown`, is added to the `QML` set. -/
theorem processValues_counts_listed_source_as_unknown :
    ("src/main.cpp" ∈ sourcesResult.foundFilesExact .Source ∧
      "src/main.cpp" ∉ sourcesResult.foundFilesExact .Unknown ∧
      "src/main.cpp" ∉ sourcesResult.foundFilesCumulative .Unknown ∧
      "src/main.cpp" ∈ sourcesFileSystem.recursiveEnumerate "src") ∧
    ("src/main.cpp" ∈ (processValues sourcesFileSystem sourcesResult).foundFilesExact .Source ∧
      "src/main.cpp" ∈ (processValues sourcesFileSystem sourcesResult).foundFilesExact .Unknown ∧
      "src/main.cpp" ∈
        (processValues sourcesFileSystem sourcesResult).foundFilesCumulative .Unknown) ∧
    (("src/main.cpp", FileOrigin.ExactParse) ∈
        (QmakePriFile.update 0 {} (processValues sourcesFileSystem sourcesResult)).1.m_files
          .Source ∧
      ("src/main.cpp", FileOrigin.ExactParse) ∈
        (QmakePriFile.update 0 {} (processValues sourcesFileSystem sourcesResult)).1.m_files
          .Unknown) ∧
    ("src/Main.qml" ∈ sourcesResult.foundFilesExact .Unknown ∧
      "src/Main.qml" ∉ sourcesResult.foundFilesExact .QML ∧
      "src/Main.qml" ∈
        (processValuesTypes FileType.listed
          (sourcesResult.folders.foldl (processValuesFolder sourcesFileSystem)
            sourcesResult)).foundFilesExact .QML) := by
  decide

/-! ## The included-file tree: a child that is already present -/

theorem QMap.find_insert_self {V : Type} (m : QMap V) (key : FilePath) (v : V) :
    (m.insert key v).find key = some v := by
  induction m with
  | nil => simp [QMap.insert, QMap.find]
  | cons kv rest ih =>
    obtain ⟨k, w⟩ := kv
    unfold QMap.insert
    by_cases h1 : key = k
    · subst h1
      simp [QMap.find]
    · rw [if_neg h1]
      by_cases h2 : FilePath.lessThan key k = true
      · rw [if_pos h2]
        simp [QMap.find]
      · rw [if_neg h2]
        have hne : ¬ k = key := fun h => h1 h.symm
        unfold QMap.find at ih ⊢
        rw [List.find?_cons_of_neg _ (by simpa using hne)]
        exact ih

/-- Counterexample to C17 as stated: `a.pro` includes `b.pri` through the
handles with ids 2 and 3. The tree gets one node for `b.pri` (node 1), and
`proToResult` binds id 2 to it and id 3 to nothing, so `extractSources` puts
the source file `b.cpp` owned by id 3 into the result of the root and not into
the result of the node of `b.pri`. -/
theorem duplicate_handle_id_is_not_bound :
    ∃ st, buildIncludedFiles duplicateIncludes 3 [0]
        { tree := [{ proFile := some exampleRoot, name := "a.pro" }] } = some st ∧
      st.tree.length = 2 ∧
      (treeNode st.tree 0).children.find "b.pri" = some 1 ∧
      st.proToResult.lookup 2 = some 1 ∧
      st.proToResult.lookup 3 = none ∧
      "b.cpp" ∈ (treeNode (extractSources (fun s => s) "" st.proToResult st.tree
        [⟨"b.cpp", 3⟩] .Source false) 0).result.foundFilesExact .Source ∧
      "b.cpp" ∉ (treeNode (extractSources (fun s => s) "" st.proToResult st.tree
        [⟨"b.cpp", 3⟩] .Source false) 1).result.foundFilesExact .Source := by
  have h : ((buildIncludedFiles duplicateIncludes 3 [0]
        { tree := [{ proFile := some exampleRoot, name := "a.pro" }] }).map fun st =>
      decide (st.tree.length = 2 ∧
        (treeNode st.tree 0).children.find "b.pri" = some 1 ∧
        st.proToResult.lookup 2 = some 1 ∧
        st.proToResult.lookup 3 = none ∧
        "b.cpp" ∈ (treeNode (extractSources (fun s => s) "" st.proToResult st.tree
          [⟨"b.cpp", 3⟩] .Source false) 0).result.foundFilesExact .Source ∧
        "b.cpp" ∉ (treeNode (extractSources (fun s => s) "" st.proToResult st.tree
          [⟨"b.cpp", 3⟩] .Source false) 1).result.foundFilesExact .Source)) = some true := by
    decide
  cases hb : buildIncludedFiles duplicateIncludes 3 [0]
      { tree := [{ proFile := some exampleRoot, name := "a.pro" }] } with
  | none => rw [hb] at h; cases h
  | some st =>
    rw [hb] at h
    simp only [Option.map_some', Option.some.injEq, decide_eq_true_eq] at h
    exact ⟨st, rfl, h⟩

/-- C17 (amended): when building the included-file tree, a child handle whose
path is already present in its parent's child map creates no second tree node
and leaves `proToResult` as it is, so that `extractSources` sends the source
files of every owner id where it sent them before: to the existing node when
the id is already bound to it, to the root when the id has no binding. A file
id is bound when its handle creates the node: a child handle whose path is not
yet present adds one tree node for it, enters it in the parent's child map
under its path and binds its id to the result of the new node. -/
theorem addIncludedChild_binds_on_creation (current : Nat) (st : IncludeTreeState)
    (child : ProFile) :
    (∀ k, (treeNode st.tree current).children.find child.fileName = some k →
      addIncludedChild current st child = st ∧
      ∀ source, extractTarget (addIncludedChild current st child).proToResult source =
        extractTarget st.proToResult source) ∧
    ((treeNode st.tree current).children.find child.fileName = none →
      current < st.tree.length →
      (addIncludedChild current st child).tree.length = st.tree.length + 1 ∧
      (treeNode (addIncludedChild current st child).tree current).children.find child.fileName =
        some st.tree.length ∧
      (treeNode (addIncludedChild current st child).tree st.tree.length).proFile = some child ∧
      (treeNode (addIncludedChild current st child).tree st.tree.length).name = child.fileName ∧
      (∀ source : EvaluatorSourceFile, source.proFileId = child.id →
        extractTarget (addIncludedChild current st child).proToResult source =
          st.tree.length)) := by
  constructor
  · intro k hk
    have : addIncludedChild current st child = st := by
      unfold addIncludedChild
      simp only [hk]
    rw [this]
    exact ⟨rfl, fun _ => rfl⟩
  · intro hnone hcur
    have hlt : current < (st.tree ++
        [({ proFile := some child, name := child.fileName } : QmakeIncludedPriFile)]).length := by
      rw [List.length_append]; exact Nat.lt_succ_of_lt hcur
    have hst : addIncludedChild current st child =
        { tree := treeModify (st.tree ++ [{ proFile := some child, name := child.fileName }])
            current fun node =>
              { node with children := node.children.insert child.fileName st.tree.length }
          proToResult := (child.id, st.tree.length) :: st.proToResult } := by
      unfold addIncludedChild
      simp only [hnone]
    rw [hst]
    refine ⟨?_, ?_, ?_, ?_, ?_⟩
    · simp only [length_treeModify, List.length_append, List.length_singleton]
    · simp only
      rw [treeNode_treeModify_self _ _ hlt]
      exact QMap.find_insert_self _ _ _
    · simp only
      rw [treeNode_treeModify_of_ne _ _ (Nat.ne_of_lt hcur), treeNode_append_length]
    · simp only
      rw [treeNode_treeModify_of_ne _ _ (Nat.ne_of_lt hcur), treeNode_append_length]
    · intro source hid
      simp [extractTarget, List.lookup, hid]

/-! ## `QmakeProFile::evaluate`: the nodes it creates -/

/-- Every result of `evaluate` comes with the invariant of the loop that creates
the child nodes, for the heap and the node lists of the result. -/
theorem evaluate_inv {fuel : Nat} {fs : FileSystem} {heap heap' : Heap}
    {input : QmakeEvalInput} {result : QmakeEvalResult}
    (h : QmakeProFile.evaluate fuel fs heap input = some (heap', result)) :
    ∃ (cs : ChildNodesState) (origin : NodeId → Nat),
      ChildNodesInv heap heap.next input result.state result.exactSubdirs result.includedFiles
        origin cs ∧
      cs.heap = heap' ∧ cs.directChildren = result.directChildren ∧
      cs.proFiles = result.proFiles ∧ cs.priFiles = result.priFiles := by
  by_cases hf : (evaluateState input).1 = .EvalFail
  · rw [evaluate_of_evalFail fuel fs heap input hf] at h
    simp only [Option.some.injEq, Prod.mk.injEq] at h
    obtain ⟨h1, h2⟩ := h
    subst h1 h2
    exact ⟨_, _, ChildNodesInv.init heap input _ _ _, rfl, rfl, rfl, rfl⟩
  · unfold QmakeProFile.evaluate at h
    simp only [hf, if_false, Option.bind_eq_some, Prod.exists] at h
    obtain ⟨r1, st, _, h2⟩ := h
    unfold evaluateChildNodes at h2
    simp only [Option.bind_eq_some, Option.map_eq_some', Prod.mk.injEq] at h2
    obtain ⟨tree, _, cs, hcs, hheap, hres⟩ := h2
    subst hres hheap
    obtain ⟨origin, inv⟩ := createChildNodes_inv fuel _ _ _
      (ChildNodesInv.init heap input _ _ tree) hcs
    exact ⟨cs, origin, inv, rfl, rfl, rfl, rfl⟩

/-- Counterexample to C15 as stated: for `a.pro` that includes `b.pri` and
`c.pri`, where `b.pri` includes `c.pri`, the node that `evaluate` creates for
`c.pri` below `b.pri` (address 2) has its parent pointer set to the node of
`b.pri` (address 0) and is in the child list of that node when `evaluate`
returns. -/
theorem evaluate_links_nested_node :
    ∃ heap' result, QmakeProFile.evaluate 10 {} {} exampleInput = some (heap', result) ∧
      (heap'.objs 0).m_filePath = "b.pri" ∧ (heap'.objs 2).m_filePath = "c.pri" ∧
      (heap'.objs 2).m_parent = some 0 ∧ 2 ∈ (heap'.objs 0).m_children := by
  have hsome : ((QmakeProFile.evaluate 10 {} {} exampleInput).map fun hr =>
      decide ((hr.1.objs 0).m_filePath = "b.pri" ∧ (hr.1.objs 2).m_filePath = "c.pri" ∧
        (hr.1.objs 2).m_parent = some 0 ∧ 2 ∈ (hr.1.objs 0).m_children)) = some true := by
    decide
  obtain ⟨⟨heap', result⟩, h, hv⟩ := Option.map_eq_some'.1 hsome
  exact ⟨heap', result, h, of_decide_eq_true hv⟩

/-- C15 (amended): of the child nodes that `QmakeProFile::evaluate` creates, the
direct children (the nodes for the entries directly below the root of the
included-file tree) are detached when `evaluate` returns: they have no parent
pointer and are in no node's child list. Every other created node is linked by
`evaluate` itself to a node created earlier in the same evaluation: its
parent pointer is set to that node, and it is in the child list of that node
and of no other. No node that existed before is changed, so no created node
is linked to the live tree. The heap is taken to hold no pointer to an
address that is not yet allocated. -/
theorem evaluate_detaches_direct_children_only (fuel : Nat) (fs : FileSystem)
    (heap heap' : Heap) (input : QmakeEvalInput) (result : QmakeEvalResult)
    (h : QmakeProFile.evaluate fuel fs heap input = some (heap', result))
    (hclosed : ∀ x, ∀ c ∈ (heap.objs x).m_children, c < heap.next) :
    (∀ c ∈ result.directChildren, heap.next ≤ c ∧ c < heap'.next ∧
      (heap'.objs c).m_parent = none ∧ ∀ x, c ∉ (heap'.objs x).m_children) ∧
    (∀ c, heap.next ≤ c → c < heap'.next → c ∉ result.directChildren →
      ∃ p, heap.next ≤ p ∧ p < c ∧ (heap'.objs c).m_parent = some p ∧
        c ∈ (heap'.objs p).m_children ∧ ∀ x, c ∈ (heap'.objs x).m_children → x = p) ∧
    (∀ x, x < heap.next → heap'.objs x = heap.objs x) := by
  obtain ⟨cs, origin, inv, hheap, hdirect, _, _⟩ := evaluate_inv h
  subst hheap
  rw [← hdirect]
  -- a created node is in the child list of created nodes only
  have hcreated : ∀ c x, heap.next ≤ c → c ∈ (cs.heap.objs x).m_children →
      heap.next ≤ x ∧ x < cs.heap.next := by
    intro c x hc hmem
    by_cases hx1 : x < heap.next
    · rw [inv.old x hx1] at hmem
      exact absurd (hclosed x c hmem) (Nat.not_lt_of_le hc)
    · by_cases hx2 : x < cs.heap.next
      · exact ⟨Nat.le_of_not_lt hx1, hx2⟩
      · rw [inv.unallocated x (Nat.le_of_not_lt hx2)] at hmem
        exact absurd (hclosed x c hmem) (Nat.not_lt_of_le hc)
  refine ⟨?_, ?_, inv.old⟩
  · intro c hc
    obtain ⟨h1, h2, h3⟩ := (inv.direct c).1 hc
    refine ⟨h1, h2, h3, ?_⟩
    intro x hmem
    obtain ⟨hx1, hx2⟩ := hcreated c x h1 hmem
    have := ((inv.links x hx1 hx2 c).1 hmem).2.2
    rw [h3] at this
    cases this
  · intro c h1 h2 hnot
    cases hp : (cs.heap.objs c).m_parent with
    | none => exact absurd ((inv.direct c).2 ⟨h1, h2, hp⟩) hnot
    | some p =>
      have hpar := inv.parent c h1 h2
      simp only [hp] at hpar
      refine ⟨p, hpar.1, hpar.2.1, rfl, ?_, ?_⟩
      · exact (inv.links p hpar.1 (Nat.lt_trans hpar.2.1 h2) c).2 ⟨h1, h2, hp⟩
      · intro x hmem
        obtain ⟨hx1, hx2⟩ := hcreated c x h1 hmem
        have := ((inv.links x hx1 hx2 c).1 hmem).2.2
        rw [hp] at this
        exact (Option.some.inj this).symm

/-- Witness for C15 (amended): the evaluation of the example on the empty heap. -/
theorem evaluate_detaches_direct_children_only_witness :
    ∃ heap' result, QmakeProFile.evaluate 10 {} {} exampleInput = some (heap', result) ∧
      result.directChildren = [0, 1] ∧
      (∀ c ∈ result.directChildren, ({} : Heap).next ≤ c ∧ c < heap'.next ∧
        (heap'.objs c).m_parent = none ∧ ∀ x, c ∉ (heap'.objs x).m_children) ∧
      (∀ c, ({} : Heap).next ≤ c → c < heap'.next → c ∉ result.directChildren →
        ∃ p, ({} : Heap).next ≤ p ∧ p < c ∧ (heap'.objs c).m_parent = some p ∧
          c ∈ (heap'.objs p).m_children ∧ ∀ x, c ∈ (heap'.objs x).m_children → x = p) ∧
      (∀ x, x < ({} : Heap).next → heap'.objs x = ({} : Heap).objs x) := by
  have hsome : ((QmakeProFile.evaluate 10 {} {} exampleInput).map
      fun hr => hr.2.directChildren) = some [0, 1] := by decide
  obtain ⟨⟨heap', result⟩, h, hv⟩ := Option.map_eq_some'.1 hsome
  exact ⟨heap', result, h, hv,
    evaluate_detaches_direct_children_only 10 {} {} heap' exampleInput result h
      (fun x c hc => absurd hc (List.not_mem_nil c))⟩

/-- Counterexample to C16 as stated: the exact pass succeeds and its include map
does not contain `b.pri`; only the include map of the cumulative reader does.
The node that `evaluate` creates for `b.pri` is flagged as included in the
exact parse. -/
theorem evaluate_flags_cumulative_only_include_as_exact :
    ∃ heap' result, QmakeProFile.evaluate 10 {} {} cumulativeOnlyInput = some (heap', result) ∧
      cumulativeOnlyInput.readerExact.includeFiles = [] ∧
      result.state = .EvalOk ∧
      (heap'.objs 0).m_filePath = "b.pri" ∧ (heap'.objs 0).isProFile = false ∧
      (heap'.objs 0).m_includedInExactParse = true := by
  have hsome : ((QmakeProFile.evaluate 10 {} {} cumulativeOnlyInput).map fun hr =>
      decide (hr.2.state = .EvalOk ∧
        (hr.1.objs 0).m_filePath = "b.pri" ∧ (hr.1.objs 0).isProFile = false ∧
        (hr.1.objs 0).m_includedInExactParse = true)) = some true := by
    decide
  obtain ⟨⟨heap', result⟩, h, hv⟩ := Option.map_eq_some'.1 hsome
  exact ⟨heap', result, h, rfl, of_decide_eq_true hv⟩

/-- C16 (amended): each child node created by `evaluate` is flagged by the
outcome of the evaluation as a whole, not by the pass that found it. A node for
an included file is flagged `includedInExactParse` iff the evaluated project
file is itself included in the exact parse and the exact pass succeeded (the
state is `EvalOk`), whichever of the two include maps contains the file; a node
for a sub-project is flagged iff the evaluated project file is included in the
exact parse and the exact `SUBDIRS` contain its path. -/
theorem evaluate_includedInExactParse (fuel : Nat) (fs : FileSystem)
    (heap heap' : Heap) (input : QmakeEvalInput) (result : QmakeEvalResult)
    (h : QmakeProFile.evaluate fuel fs heap input = some (heap', result)) :
    ∀ c, heap.next ≤ c → c < heap'.next →
      ((heap'.objs c).isProFile = false →
        (heap'.objs c).m_includedInExactParse =
          (input.includedInExcactParse && result.state == .EvalOk)) ∧
      ((heap'.objs c).isProFile = true →
        (heap'.objs c).m_includedInExactParse =
          (input.includedInExcactParse &&
            result.exactSubdirs.contains (heap'.objs c).m_filePath)) := by
  obtain ⟨cs, origin, inv, hheap, _, _, _⟩ := evaluate_inv h
  subst hheap
  intro c h1 h2
  have hnode := inv.node c h1 h2
  have hpro : (cs.heap.objs c).isProFile =
      (newChildNode input result.state result.exactSubdirs
        (treeNode result.includedFiles (origin c))).isProFile := by
    rw [← hnode]; rfl
  have hincl : (cs.heap.objs c).m_includedInExactParse =
      (newChildNode input result.state result.exactSubdirs
        (treeNode result.includedFiles (origin c))).m_includedInExactParse := by
    rw [← hnode]; rfl
  have hpath : (cs.heap.objs c).m_filePath =
      (newChildNode input result.state result.exactSubdirs
        (treeNode result.includedFiles (origin c))).m_filePath := by
    rw [← hnode]; rfl
  rw [hpro, hincl, hpath]
  unfold newChildNode
  split
  · refine ⟨fun _ => rfl, fun hc => ?_⟩
    cases hc
  · refine ⟨fun hc => ?_, fun _ => rfl⟩
    cases hc

/-- Witness for C16 (amended): the node for `b.pri`, found by the cumulative
pass only. -/
theorem evaluate_includedInExactParse_witness :
    ∃ heap' result, QmakeProFile.evaluate 10 {} {} cumulativeOnlyInput = some (heap', result) ∧
      heap'.next = 1 ∧
      ∀ c, ({} : Heap).next ≤ c → c < heap'.next →
        ((heap'.objs c).isProFile = false →
          (heap'.objs c).m_includedInExactParse =
            (cumulativeOnlyInput.includedInExcactParse && result.state == .EvalOk)) ∧
        ((heap'.objs c).isProFile = true →
          (heap'.objs c).m_includedInExactParse =
            (cumulativeOnlyInput.includedInExcactParse &&
              result.exactSubdirs.contains (heap'.objs c).m_filePath)) := by
  have hsome : ((QmakeProFile.evaluate 10 {} {} cumulativeOnlyInput).map
      fun hr => hr.1.next) = some 1 := by decide
  obtain ⟨⟨heap', result⟩, h, hv⟩ := Option.map_eq_some'.1 hsome
  exact ⟨heap', result, h, hv,
    evaluate_includedInExactParse 10 {} {} heap' cumulativeOnlyInput result h⟩

/-! ## `QmakeProFile::applyEvaluate`: the members it leaves alone -/

theorem IgnoresLinking.teardown {β : Type} {field : QmakePriFile → β}
    (hf : IgnoresLinking field) : IgnoresTeardown field :=
  fun o readerExact readerCumulative watcher watched deleted =>
    hf o o.m_parent o.m_children o.m_buildSystem o.m_qmakeProFile o.m_files
      o.m_recursiveEnumerateFiles watched readerExact readerCumulative watcher deleted

theorem IgnoresLinking.children {β : Type} {field : QmakePriFile → β}
    (hf : IgnoresLinking field) (o : QmakePriFile) (children : List NodeId) :
    field { o with m_children := children } = field o :=
  hf o o.m_parent children o.m_buildSystem o.m_qmakeProFile o.m_files
    o.m_recursiveEnumerateFiles o.m_watchedFolders o.m_readerExact o.m_readerCumulative
    o.m_parseFutureWatcher o.deleted

theorem addChild_field {β : Type} (field : QmakePriFile → β) (hf : IgnoresLinking field)
    (h : Heap) (this pf x : NodeId) :
    field ((QmakePriFile.addChild h this pf).objs x) = field (h.objs x) := by
  unfold QmakePriFile.addChild QmakePriFile.setParent
  split
  · rfl
  · split
    · rfl
    · simp only
      split
      · refine Heap.modify_field _ this _ field ?_ x
        intro o
        exact hf.children o _
      · refine (Heap.modify_field _ pf _ field ?_ x).trans ?_
        · intro o
          exact hf o (some this) o.m_children o.m_buildSystem o.m_qmakeProFile o.m_files
            o.m_recursiveEnumerateFiles o.m_watchedFolders o.m_readerExact o.m_readerCumulative
            o.m_parseFutureWatcher o.deleted
        refine Heap.modify_field _ this _ field ?_ x
        intro o
        exact hf.children o _

theorem finishInitialization_field {β : Type} (field : QmakePriFile → β)
    (hf : IgnoresLinking field) (w : World) (this : NodeId) (buildSystem : Bool)
    (qmakeProFile x : NodeId) :
    field ((QmakePriFile.finishInitialization w this buildSystem qmakeProFile).heap.objs x) =
      field (w.heap.objs x) := by
  unfold QmakePriFile.finishInitialization
  split
  · rfl
  · rw [World.modify_heap]
    refine Heap.modify_field _ this _ field ?_ x
    intro o
    exact hf o o.m_parent o.m_children true (some qmakeProFile) o.m_files
      o.m_recursiveEnumerateFiles o.m_watchedFolders o.m_readerExact o.m_readerCumulative
      o.m_parseFutureWatcher o.deleted

theorem update_eq (this : NodeId) (self : QmakePriFile) (result : QmakePriFileEvalResult) :
    ∃ files enumerated watched, (self.update this result).1 =
      { self with
        m_files := files, m_recursiveEnumerateFiles := enumerated, m_watchedFolders := watched } :=
  ⟨_, _, _, rfl⟩

theorem updateAt_field {β : Type} (field : QmakePriFile → β) (hf : IgnoresLinking field)
    (w : World) (this : NodeId) (result : QmakePriFileEvalResult) (x : NodeId) :
    field ((QmakePriFile.updateAt w this result).heap.objs x) = field (w.heap.objs x) := by
  unfold QmakePriFile.updateAt
  simp only
  by_cases hx : x = this
  · subst hx
    rw [Heap.modify_objs_self]
    obtain ⟨files, enumerated, watched, heq⟩ := update_eq x (w.heap.objs x) result
    rw [heq]
    exact hf _ _ _ _ _ files enumerated watched _ _ _ _
  · rw [Heap.modify_objs_of_ne _ _ hx]

theorem asyncUpdate_field {β : Type} (field : QmakePriFile → β) (hf : IgnoresLinking field)
    (w : World) (this x : NodeId) :
    field ((QmakeProFile.asyncUpdate w this).heap.objs x) = field (w.heap.objs x) := by
  have hsetupWatcher : ∀ w : World,
      field ((QmakeProFile.setupFutureWatcher w this).heap.objs x) = field (w.heap.objs x) := by
    intro w
    unfold QmakeProFile.setupFutureWatcher
    split
    · rfl
    · rw [World.call_heap, World.modify_heap]
      refine Heap.modify_field _ this _ field ?_ x
      intro o
      exact hf.teardown o o.m_readerExact o.m_readerCumulative true o.m_watchedFolders o.deleted
  have hsetupReader : ∀ w : World,
      field ((QmakeProFile.setupReader w this).heap.objs x) = field (w.heap.objs x) := by
    intro w
    unfold QmakeProFile.setupReader
    simp only [World.modify_heap, World.call_heap]
    refine Heap.modify_field _ this _ field ?_ x
    intro o
    exact hf.teardown o _ _ o.m_parseFutureWatcher o.m_watchedFolders o.deleted
  unfold QmakeProFile.asyncUpdate
  simp only [World.call_heap]
  rw [hsetupReader, hsetupWatcher]
  exact cleanupFutureWatcher_field field hf.teardown w this x

theorem foldl_field {α β : Type} (field : QmakePriFile → β) (step : World → α → World)
    (hstep : ∀ w a x, field ((step w a).heap.objs x) = field (w.heap.objs x)) (l : List α)
    (w : World) (x : NodeId) : field ((l.foldl step w).heap.objs x) = field (w.heap.objs x) := by
  induction l generalizing w with
  | nil => rfl
  | cons a l ih => rw [List.foldl_cons, ih, hstep]

/-- The statements of `applyEvaluate` that link the new children and bring the
file sets to the nodes write only the members named in `IgnoresLinking`. -/
theorem applyEvaluateChildren_field {β : Type} (field : QmakePriFile → β)
    (hf : IgnoresLinking field) (w : World) (this : NodeId) (result : QmakeEvalResult)
    (x : NodeId) :
    field ((applyEvaluateChildren w this result).heap.objs x) = field (w.heap.objs x) := by
  unfold applyEvaluateChildren
  simp only
  rw [updateAt_field field hf]
  rw [foldl_field field (fun w proFile =>
    QmakeProFile.asyncUpdate
      (QmakePriFile.finishInitialization w proFile (w.heap.objs this).m_buildSystem proFile)
      proFile)
    (fun w a x => by rw [asyncUpdate_field field hf, finishInitialization_field field hf])]
  rw [foldl_field field (fun w (priFiles : NodeId × QmakePriFileEvalResult) =>
    QmakePriFile.updateAt
      (QmakePriFile.finishInitialization w priFiles.1 (w.heap.objs this).m_buildSystem this)
      priFiles.1 priFiles.2)
    (fun w a x => by rw [updateAt_field field hf, finishInitialization_field field hf])]
  have hfold : ∀ (l : List NodeId) (h : Heap),
      field ((l.foldl (fun h toAdd => QmakePriFile.addChild h this toAdd) h).objs x) =
        field (h.objs x) := by
    intro l
    induction l with
    | nil => intro h; rfl
    | cons a l ih => intro h; rw [List.foldl_cons, ih, addChild_field field hf]
  exact hfold _ _

/-- The statements under `if (result->projectType != m_projectType)` write, apart
from the teardown of the old children, only `m_validParse`, `m_parseInProgress`,
the child list and `m_projectType`. -/
theorem applyEvaluateProjectType_field {β : Type} (field : QmakePriFile → β)
    (hf : IgnoresLinking field)
    (hvalid : ∀ o b, field { o with m_validParse := b } = field o)
    (hprogress : ∀ o b, field { o with m_parseInProgress := b } = field o)
    (htype : ∀ o t, field { o with m_projectType := t } = field o)
    {fuel : Nat} {w w1 : World} {this : NodeId} {result : QmakeEvalResult}
    (h : applyEvaluateProjectType fuel w this result = some w1) (x : NodeId) :
    field (w1.heap.objs x) = field (w.heap.objs x) := by
  unfold applyEvaluateProjectType at h
  split at h
  · simp only [Option.bind_eq_some, Option.map_eq_some'] at h
    obtain ⟨h2, hfold, w3, hempty, hw1⟩ := h
    subst hw1
    have hloop : ∀ (cs : List NodeId) (h1 h2 : Heap),
        cs.foldlM
          (fun (h : Heap) c =>
            if (h.objs c).isProFile then
              (QmakeProFile.setValidParseRecursive false fuel h c).bind fun h =>
                QmakeProFile.setParseInProgressRecursive false fuel h c
            else some h) h1 = some h2 →
        field (h2.objs x) = field (h1.objs x) := by
      intro cs
      induction cs with
      | nil =>
        intro h1 h2 hh
        simp only [List.foldlM_nil, pure, Option.some.injEq] at hh
        rw [hh]
      | cons c cs ihc =>
        intro h1 h2 hh
        simp only [List.foldlM_cons, bind, Option.bind_eq_some] at hh
        obtain ⟨h3, hstep, hrest⟩ := hh
        rw [ihc _ _ hrest]
        split at hstep
        · simp only [Option.bind_eq_some] at hstep
          obtain ⟨h4, hv, hp⟩ := hstep
          rw [setParseInProgressRecursive_eq] at hp
          rw [setValidParseRecursive_eq] at hv
          rw [setRecursive_field_of hp field (fun o => hprogress o false),
            setRecursive_field_of hv field (fun o => hvalid o false)]
        · simp only [Option.some.injEq] at hstep
          rw [hstep]
    rw [World.modify_heap]
    refine (Heap.modify_field _ this _ field ?_ x).trans ?_
    · intro o
      exact htype o _
    · exact (makeEmpty_field field hf.teardown (fun o cs => hf.children o cs) hempty x).trans
        (hloop _ _ _ hfold)
  · simp only [Option.some.injEq] at h
    rw [h]

/-- The recursive setter stays inside a set of addresses that is closed under
the child lists: the nodes from `bound` on are as before. -/
theorem setRecursive_of_ge (f : QmakePriFile → QmakePriFile)
    (hchildren : ∀ o, (f o).m_children = o.m_children) (bound : NodeId) (fuel : Nat) :
    ∀ (h h' : Heap) (this : NodeId),
      (∀ x, x < bound → ∀ c ∈ (h.objs x).m_children, c < bound) → this < bound →
      setRecursive f fuel h this = some h' → ∀ x, bound ≤ x → h'.objs x = h.objs x := by
  induction fuel with
  | zero => intro h h' this _ _ hs; cases hs
  | succ fuel ih =>
    intro h h' this hclosed hthis hs x hx
    unfold setRecursive at hs
    simp only at hs
    have hfold : ∀ (cs : List NodeId) (h1 h2 : Heap),
        (∀ y, (h1.objs y).m_children = (h.objs y).m_children) →
        (∀ c ∈ cs, c < bound) →
        cs.foldlM (fun h c => if (h.objs c).isProFile then setRecursive f fuel h c else some h)
          h1 = some h2 → h2.objs x = h1.objs x := by
      intro cs
      induction cs with
      | nil =>
        intro h1 h2 _ _ hh
        simp only [List.foldlM_nil, pure, Option.some.injEq] at hh
        rw [hh]
      | cons c cs ihc =>
        intro h1 h2 hc1 hcs hh
        simp only [List.foldlM_cons, bind, Option.bind_eq_some] at hh
        obtain ⟨h3, hstep, hrest⟩ := hh
        have hc3 : ∀ y, (h3.objs y).m_children = (h.objs y).m_children := by
          intro y
          split at hstep
          · rw [setRecursive_field f (fun o => o.m_children) hchildren fuel _ _ _ hstep y, hc1]
          · simp only [Option.some.injEq] at hstep
            rw [← hstep, hc1]
        rw [ihc h3 h2 hc3 (fun c' hc' => hcs c' (List.mem_cons_of_mem _ hc')) hrest]
        split at hstep
        · exact ih h1 h3 c (fun y hy c' hc' => hclosed y hy c' (by rw [← hc1]; exact hc'))
            (hcs c (List.mem_cons_self _ _)) hstep x hx
        · simp only [Option.some.injEq] at hstep
          rw [hstep]
    have hc1 : ∀ y, ((h.modify this f).objs y).m_children = (h.objs y).m_children :=
      Heap.modify_field h this f (fun o => o.m_children) hchildren
    rw [hfold _ _ _ hc1 (by rw [hc1]; exact hclosed this hthis) hs]
    exact Heap.modify_objs_of_ne _ _ (Nat.ne_of_gt (Nat.lt_of_lt_of_le hthis hx))

theorem setRecursive_of_ge_of {f : QmakePriFile → QmakePriFile} {fuel : Nat} {h h' : Heap}
    {this : NodeId} (hs : setRecursive f fuel h this = some h')
    (hchildren : ∀ o, (f o).m_children = o.m_children) (bound : NodeId)
    (hclosed : ∀ x, x < bound → ∀ c ∈ (h.objs x).m_children, c < bound) (hthis : this < bound)
    (x : NodeId) (hx : bound ≤ x) : h'.objs x = h.objs x :=
  setRecursive_of_ge f hchildren bound fuel h h' this hclosed hthis hs x hx

/-- On the nodes outside a closed set of addresses that holds `this`, the
statements under `if (result->projectType != m_projectType)` write at most the
members named in `IgnoresTeardown`. -/
theorem applyEvaluateProjectType_field_of_ge {β : Type} (field : QmakePriFile → β)
    (hf : IgnoresLinking field) (bound : NodeId)
    {fuel : Nat} {w w1 : World} {this : NodeId} {result : QmakeEvalResult}
    (hclosed : ∀ x, x < bound → ∀ c ∈ (w.heap.objs x).m_children, c < bound)
    (hthis : this < bound)
    (h : applyEvaluateProjectType fuel w this result = some w1) (x : NodeId) (hx : bound ≤ x) :
    field (w1.heap.objs x) = field (w.heap.objs x) := by
  unfold applyEvaluateProjectType at h
  split at h
  · simp only [Option.bind_eq_some, Option.map_eq_some'] at h
    obtain ⟨h2, hfold, w3, hempty, hw1⟩ := h
    subst hw1
    have hloop : ∀ (cs : List NodeId) (h1 h2 : Heap),
        (∀ y, (h1.objs y).m_children = (w.heap.objs y).m_children) →
        (∀ c ∈ cs, c < bound) →
        cs.foldlM
          (fun (h : Heap) c =>
            if (h.objs c).isProFile then
              (QmakeProFile.setValidParseRecursive false fuel h c).bind fun h =>
                QmakeProFile.setParseInProgressRecursive false fuel h c
            else some h) h1 = some h2 →
        h2.objs x = h1.objs x := by
      intro cs
      induction cs with
      | nil =>
        intro h1 h2 _ _ hh
        simp only [List.foldlM_nil, pure, Option.some.injEq] at hh
        rw [hh]
      | cons c cs ihc =>
        intro h1 h2 hc1 hcs hh
        simp only [List.foldlM_cons, bind, Option.bind_eq_some] at hh
        obtain ⟨h3, hstep, hrest⟩ := hh
        have hclosed1 : ∀ y, y < bound → ∀ c' ∈ (h1.objs y).m_children, c' < bound :=
          fun y hy c' hc' => hclosed y hy c' (by rw [← hc1]; exact hc')
        have h31 : h3.objs x = h1.objs x ∧
            ∀ y, (h3.objs y).m_children = (w.heap.objs y).m_children := by
          split at hstep
          · simp only [Option.bind_eq_some] at hstep
            obtain ⟨h4, hv, hp⟩ := hstep
            rw [setParseInProgressRecursive_eq] at hp
            rw [setValidParseRecursive_eq] at hv
            have hc4 : ∀ y, (h4.objs y).m_children = (h1.objs y).m_children :=
              setRecursive_field_of hv (fun o => o.m_children) (fun _ => rfl)
            constructor
            · rw [setRecursive_of_ge_of hp (fun _ => rfl) bound
                  (fun y hy c' hc' => hclosed1 y hy c' (by rw [← hc4]; exact hc'))
                  (hcs c (List.mem_cons_self _ _)) x hx,
                setRecursive_of_ge_of hv (fun _ => rfl) bound hclosed1
                  (hcs c (List.mem_cons_self _ _)) x hx]
            · intro y
              have := setRecursive_field_of hp (fun o => o.m_children) (fun _ => rfl) y
              beta_reduce at this
              rw [this, hc4, hc1]
          · simp only [Option.some.injEq] at hstep
            rw [← hstep]
            exact ⟨rfl, hc1⟩
        rw [ihc h3 h2 h31.2 (fun c' hc' => hcs c' (List.mem_cons_of_mem _ hc')) hrest]
        exact h31.1
    rw [World.modify_heap, Heap.modify_objs_of_ne _ _ (Nat.ne_of_gt (Nat.lt_of_lt_of_le hthis hx))]
    rw [makeEmpty_field field hf.teardown (fun o cs => hf.children o cs) hempty x]
    exact congrArg field (hloop _ _ _ (fun _ => rfl) (hclosed this hthis) hfold)
  · simp only [Option.some.injEq] at h
    rw [h]


/-- The last statements of `applyEvaluate`, at the node itself: `m_validParse`
tells whether the state is `EvalOk`, and the evaluated values are those of the
result in that case and as before otherwise. -/
theorem applyEvaluateValues_this (featureRoots : List String) (w : World) (this : NodeId)
    (result : QmakeEvalResult) :
    ((applyEvaluateValues featureRoots w this result).heap.objs this).m_validParse =
      (result.state == .EvalOk) ∧
    ((applyEvaluateValues featureRoots w this result).heap.objs this).evaluatedValues =
      (if result.state = .EvalOk then
        (result.newVarValues, result.targetInformation, result.installsList,
          result.subProjectsNotToDeploy,
          QmakeProFile.singleVariableValue { m_varValues := result.newVarValues }
            .QmakeProjectName)
      else (w.heap.objs this).evaluatedValues) := by
  have hfield : ∀ {β : Type} (field : QmakePriFile → β), IgnoresTeardown field →
      (∀ o b, field { o with m_parseInProgress := b } = field o) →
      ∀ w1 : World,
        field ((QmakeProFile.cleanupProFileReaders
          { w1 with heap := QmakeProFile.setParseInProgress w1.heap this false } this).heap.objs
            this) = field (w1.heap.objs this) := by
    intro β field hf hp w1
    rw [cleanupProFileReaders_field field hf]
    unfold QmakeProFile.setParseInProgress
    dsimp only
    refine Heap.modify_field _ this _ field ?_ this
    intro o
    exact hp o false
  unfold applyEvaluateValues
  simp only
  rw [hfield (fun o => o.m_validParse) (fun _ _ _ _ _ _ => rfl) (fun _ _ => rfl),
    hfield QmakePriFile.evaluatedValues (fun _ _ _ _ _ _ => rfl) (fun _ _ => rfl)]
  by_cases hs : result.state = .EvalOk
  · simp [hs, World.modify_heap, World.modify, Heap.modify, QmakePriFile.evaluatedValues,
      QmakeProFile.singleVariableValue]
    split <;> simp_all
  · have hb : (result.state == EvalResultState.EvalOk) = false := by
      simpa using hs
    simp [hs, hb, World.modify_heap, World.modify, Heap.modify, QmakePriFile.evaluatedValues]

theorem subtreeWithin_exampleWorldEvaluated : SubtreeWithin exampleWorldEvaluated.heap 2 0 := by
  intro c hc
  have hc1 := (children_exampleWorldEvaluated _ _ hc).2
  subst hc1
  intro c hc
  exact absurd (children_exampleWorldEvaluated _ _ hc).1 (by decide)

/-- C11: applying an `EvalPartial` result with `applyEvaluate` (readers set up,
not shutting down, not cancelled) sets `validParse = false` and leaves the
variable values, the target information, the install list, the list of
sub-projects not to deploy and the display name of the node exactly as they
were before the call; applying an `EvalOk` result sets `validParse = true` and
overwrites the five from the result, the display name being the value of
`QMAKE_PROJECT_NAME` among the new variable values. -/
theorem applyEvaluate_partial_keeps_values (fuel : Nat) (featureRoots : List String)
    (w : World) (this : NodeId) (result : QmakeEvalResult)
    (hreader : (w.heap.objs this).m_readerExact.isSome = true)
    (hbuildSystem : (w.heap.objs this).m_buildSystem = true)
    (hrunning : w.buildSystem.shuttingDown = false)
    (hnotCanceled : w.buildSystem.wasEvaluateCanceled = false)
    (hstate : result.state = .EvalOk ∨ result.state = .EvalPartial)
    (hdepth : SubtreeWithin w.heap fuel this) :
    ∃ w' result', QmakeProFile.applyEvaluate fuel featureRoots w this result =
        some (w', result') ∧
      (result.state = .EvalPartial →
        (w'.heap.objs this).m_validParse = false ∧
        (w'.heap.objs this).m_varValues = (w.heap.objs this).m_varValues ∧
        (w'.heap.objs this).m_qmakeTargetInformation =
          (w.heap.objs this).m_qmakeTargetInformation ∧
        (w'.heap.objs this).m_installsList = (w.heap.objs this).m_installsList ∧
        (w'.heap.objs this).m_subProjectsNotToDeploy =
          (w.heap.objs this).m_subProjectsNotToDeploy ∧
        (w'.heap.objs this).m_displayName = (w.heap.objs this).m_displayName) ∧
      (result.state = .EvalOk →
        (w'.heap.objs this).m_validParse = true ∧
        (w'.heap.objs this).m_varValues = result.newVarValues ∧
        (w'.heap.objs this).m_qmakeTargetInformation = result.targetInformation ∧
        (w'.heap.objs this).m_installsList = result.installsList ∧
        (w'.heap.objs this).m_subProjectsNotToDeploy = result.subProjectsNotToDeploy ∧
        (w'.heap.objs this).m_displayName =
          QmakeProFile.singleVariableValue { m_varValues := result.newVarValues }
            .QmakeProjectName) := by
  have herr := parseErrors_heap this result.errors w
  obtain ⟨w1, hw1, _, hdepth1⟩ := applyEvaluateProjectType_spec fuel
    (result.errors.foldl
      (fun w error => w.call (.proFileParseError error (w.heap.objs this).m_filePath)) w)
    this result (by rw [herr.1]; exact hdepth)
  obtain ⟨w2, hw2⟩ := makeEmpty_isSome fuel w1 this hdepth1
  have hlinking : IgnoresLinking QmakePriFile.evaluatedValues :=
    fun _ _ _ _ _ _ _ _ _ _ _ _ => rfl
  have hvalues : ((applyEvaluateChildren w2 this result).heap.objs this).evaluatedValues =
      (w.heap.objs this).evaluatedValues := by
    rw [applyEvaluateChildren_field _ hlinking,
      makeEmpty_field _ hlinking.teardown (fun o cs => hlinking.children o cs) hw2,
      applyEvaluateProjectType_field _ hlinking (fun _ _ => rfl) (fun _ _ => rfl)
        (fun _ _ => rfl) hw1, herr.1]
  obtain ⟨hvalid, hnew⟩ := applyEvaluateValues_this featureRoots
    (applyEvaluateChildren w2 this result) this result
  refine ⟨applyEvaluateValues featureRoots (applyEvaluateChildren w2 this result) this result,
    { result with directChildren := [] }, ?_, ?_, ?_⟩
  · unfold QmakeProFile.applyEvaluate
    have h1 : (w.heap.objs this).m_readerExact.isNone = false := by
      cases hr : (w.heap.objs this).m_readerExact with
      | none => rw [hr] at hreader; cases hreader
      | some _ => rfl
    have h2 : ¬(result.state = .EvalFail ∨
        (result.errors.foldl
          (fun w error => w.call (.proFileParseError error (w.heap.objs this).m_filePath))
          w).buildSystem.wasEvaluateCanceled = true) := by
      rw [herr.2, hnotCanceled]
      rintro (h | h)
      · rcases hstate with hs | hs <;> rw [hs] at h <;> cases h
      · cases h
    simp only [h1, hbuildSystem, hrunning, Bool.false_eq_true, if_false, Bool.not_true, h2, hw1,
      Option.some_bind, hw2, Option.map_some']
  · intro hs
    rw [hs] at hvalid hnew
    rw [if_neg (by decide), hvalues] at hnew
    simp only [QmakePriFile.evaluatedValues, Prod.mk.injEq] at hnew
    exact ⟨hvalid, hnew⟩
  · intro hs
    rw [hs] at hvalid hnew
    rw [if_pos rfl] at hnew
    simp only [QmakePriFile.evaluatedValues, Prod.mk.injEq] at hnew
    exact ⟨hvalid, hnew⟩

/-- Witness for C11: an `EvalPartial` result applied to `a.pro`. -/
theorem applyEvaluate_partial_keeps_values_witness :
    ∃ w' result', QmakeProFile.applyEvaluate 2 [] exampleWorldEvaluated 0
        { exampleResult with state := .EvalPartial } = some (w', result') ∧
      (w'.heap.objs 0).m_validParse = false ∧
      (w'.heap.objs 0).m_varValues = (exampleWorldEvaluated.heap.objs 0).m_varValues ∧
      (w'.heap.objs 0).m_displayName = (exampleWorldEvaluated.heap.objs 0).m_displayName := by
  obtain ⟨w', result', h, hp, _⟩ := applyEvaluate_partial_keeps_values 2 []
    exampleWorldEvaluated 0 { exampleResult with state := .EvalPartial } rfl rfl rfl rfl
    (Or.inr rfl) subtreeWithin_exampleWorldEvaluated
  exact ⟨w', result', h, (hp rfl).1, (hp rfl).2.1, (hp rfl).2.2.2.2.2⟩

/-! ## `QmakeProFile::applyEvaluate`: the parse-in-progress flags -/

theorem cleanupProFileReaders_objs_of_ne (w : World) {this x : NodeId} (hx : x ≠ this) :
    (QmakeProFile.cleanupProFileReaders w this).heap.objs x = w.heap.objs x := by
  unfold QmakeProFile.cleanupProFileReaders
  simp only [World.modify_heap]
  rw [Heap.modify_objs_of_ne _ _ hx]
  split <;> split <;> rfl

/-- The last statements of `applyEvaluate` clear `m_parseInProgress` of the node
and write to no other node. -/
theorem applyEvaluateValues_parseInProgress (featureRoots : List String) (w : World)
    (this : NodeId) (result : QmakeEvalResult) :
    ((applyEvaluateValues featureRoots w this result).heap.objs this).m_parseInProgress = false ∧
    ∀ x, x ≠ this → (applyEvaluateValues featureRoots w this result).heap.objs x =
      w.heap.objs x := by
  unfold applyEvaluateValues
  simp only
  constructor
  · rw [cleanupProFileReaders_field (fun o => o.m_parseInProgress) (fun _ _ _ _ _ _ => rfl)]
    unfold QmakeProFile.setParseInProgress
    dsimp only
    rw [Heap.modify_objs_self]
  · intro x hx
    rw [cleanupProFileReaders_objs_of_ne _ hx]
    unfold QmakeProFile.setParseInProgress
    dsimp only
    rw [Heap.modify_objs_of_ne _ _ hx]
    split
    · simp only [World.modify_heap]
      rw [Heap.modify_objs_of_ne _ _ hx, Heap.modify_objs_of_ne _ _ hx,
        Heap.modify_objs_of_ne _ _ hx]
    · rw [World.modify_heap, Heap.modify_objs_of_ne _ _ hx]

/-- After `applyEvaluate` has applied a result whose state is `EvalOk` or
`EvalPartial`, `m_parseInProgress` of the node is `false`; on the nodes
outside a set of addresses that holds the node and is closed under the child
lists, `m_parseInProgress` and the dynamic type are as before. -/
theorem applyEvaluate_parseInProgress (fuel : Nat) (featureRoots : List String) (w : World)
    (this : NodeId) (result : QmakeEvalResult) (bound : NodeId)
    (hreader : (w.heap.objs this).m_readerExact.isSome = true)
    (hbuildSystem : (w.heap.objs this).m_buildSystem = true)
    (hrunning : w.buildSystem.shuttingDown = false)
    (hnotCanceled : w.buildSystem.wasEvaluateCanceled = false)
    (hstate : result.state = .EvalOk ∨ result.state = .EvalPartial)
    (hdepth : SubtreeWithin w.heap fuel this)
    (hclosed : ∀ x, x < bound → ∀ c ∈ (w.heap.objs x).m_children, c < bound)
    (hthis : this < bound) :
    ∃ w' result', QmakeProFile.applyEvaluate fuel featureRoots w this result =
        some (w', result') ∧
      (w'.heap.objs this).m_parseInProgress = false ∧
      ∀ x, bound ≤ x →
        (w'.heap.objs x).m_parseInProgress = (w.heap.objs x).m_parseInProgress ∧
        (w'.heap.objs x).isProFile = (w.heap.objs x).isProFile := by
  have herr := parseErrors_heap this result.errors w
  obtain ⟨w1, hw1, _, hdepth1⟩ := applyEvaluateProjectType_spec fuel
    (result.errors.foldl
      (fun w error => w.call (.proFileParseError error (w.heap.objs this).m_filePath)) w)
    this result (by rw [herr.1]; exact hdepth)
  obtain ⟨w2, hw2⟩ := makeEmpty_isSome fuel w1 this hdepth1
  have hlinking : IgnoresLinking QmakePriFile.progressOfKind :=
    fun _ _ _ _ _ _ _ _ _ _ _ _ => rfl
  obtain ⟨hthis', hother⟩ := applyEvaluateValues_parseInProgress featureRoots
    (applyEvaluateChildren w2 this result) this result
  refine ⟨applyEvaluateValues featureRoots (applyEvaluateChildren w2 this result) this result,
    { result with directChildren := [] }, ?_, hthis', ?_⟩
  · unfold QmakeProFile.applyEvaluate
    have h1 : (w.heap.objs this).m_readerExact.isNone = false := by
      cases hr : (w.heap.objs this).m_readerExact with
      | none => rw [hr] at hreader; cases hreader
      | some _ => rfl
    have h2 : ¬(result.state = .EvalFail ∨
        (result.errors.foldl
          (fun w error => w.call (.proFileParseError error (w.heap.objs this).m_filePath))
          w).buildSystem.wasEvaluateCanceled = true) := by
      rw [herr.2, hnotCanceled]
      rintro (h | h)
      · rcases hstate with hs | hs <;> rw [hs] at h <;> cases h
      · cases h
    simp only [h1, hbuildSystem, hrunning, Bool.false_eq_true, if_false, Bool.not_true, h2, hw1,
      Option.some_bind, hw2, Option.map_some']
  · intro x hx
    have hne : x ≠ this := Nat.ne_of_gt (Nat.lt_of_lt_of_le hthis hx)
    have hfield : ((applyEvaluateChildren w2 this result).heap.objs x).progressOfKind =
        (w.heap.objs x).progressOfKind := by
      rw [applyEvaluateChildren_field _ hlinking,
        makeEmpty_field _ hlinking.teardown (fun o cs => hlinking.children o cs) hw2,
        applyEvaluateProjectType_field_of_ge _ hlinking bound (by rw [herr.1]; exact hclosed)
          hthis hw1 x hx, herr.1]
    rw [hother x hne]
    simp only [QmakePriFile.progressOfKind, Prod.mk.injEq] at hfield
    exact hfield

/-- The sub-project nodes of a result of `evaluate` are nodes created by this
evaluation, of dynamic type `QmakeProFile`, with `m_parseInProgress` set. -/
theorem evaluate_proFiles {fuel : Nat} {fs : FileSystem} {heap heap' : Heap}
    {input : QmakeEvalInput} {result : QmakeEvalResult}
    (h : QmakeProFile.evaluate fuel fs heap input = some (heap', result)) :
    ∀ p ∈ result.proFiles, heap.next ≤ p ∧ p < heap'.next ∧
      (heap'.objs p).isProFile = true ∧ (heap'.objs p).m_parseInProgress = true := by
  obtain ⟨cs, origin, inv, hheap, _, hpro, _⟩ := evaluate_inv h
  subst hheap
  intro p hp
  rw [← hpro] at hp
  obtain ⟨h1, h2, h3⟩ := (inv.proFiles p).1 hp
  refine ⟨h1, h2, h3, ?_⟩
  have hnode := inv.node p h1 h2
  have hkind : (cs.heap.objs p).isProFile =
      (newChildNode input result.state result.exactSubdirs
        (treeNode result.includedFiles (origin p))).isProFile := by
    rw [← hnode]; rfl
  have hprogress : (cs.heap.objs p).m_parseInProgress =
      (newChildNode input result.state result.exactSubdirs
        (treeNode result.includedFiles (origin p))).m_parseInProgress := by
    rw [← hnode]; rfl
  rw [hprogress]
  rw [h3] at hkind
  unfold newChildNode at hkind ⊢
  split at hkind
  · cases hkind
  · rename_i hnone
    simp only [hnone]

/-- C12: after `applyEvaluate` has applied the `EvalOk` or `EvalPartial` result
of an evaluation (readers set up, not shutting down, not cancelled),
`parseInProgress` is `false` on the applied node, while every sub-project node
(`QmakeProFile`) that the evaluation created still has `parseInProgress = true`.
Here `heap` is the heap in which the evaluation started, whose child lists
point to allocated nodes only and which holds the applied node, and `w` is the
state in which the result is applied, with the heap as the evaluation left it. -/
theorem applyEvaluate_clears_parseInProgress_of_node_only (fuelEvaluate fuel : Nat)
    (fs : FileSystem) (featureRoots : List String) (heap : Heap) (input : QmakeEvalInput)
    (w : World) (this : NodeId) (result : QmakeEvalResult)
    (hevaluate : QmakeProFile.evaluate fuelEvaluate fs heap input = some (w.heap, result))
    (hclosed : ∀ x, x < heap.next → ∀ c ∈ (heap.objs x).m_children, c < heap.next)
    (hthis : this < heap.next)
    (hreader : (w.heap.objs this).m_readerExact.isSome = true)
    (hbuildSystem : (w.heap.objs this).m_buildSystem = true)
    (hrunning : w.buildSystem.shuttingDown = false)
    (hnotCanceled : w.buildSystem.wasEvaluateCanceled = false)
    (hstate : result.state = .EvalOk ∨ result.state = .EvalPartial)
    (hdepth : SubtreeWithin w.heap fuel this) :
    ∃ w' result', QmakeProFile.applyEvaluate fuel featureRoots w this result =
        some (w', result') ∧
      (w'.heap.objs this).m_parseInProgress = false ∧
      ∀ p ∈ result.proFiles, p ≠ this ∧
        (w'.heap.objs p).isProFile = true ∧ (w'.heap.objs p).m_parseInProgress = true := by
  have hold := (evaluate_directChildren_fresh hevaluate).2.2
  obtain ⟨w', result', happly, hnode, hrest⟩ := applyEvaluate_parseInProgress fuel featureRoots
    w this result heap.next hreader hbuildSystem hrunning hnotCanceled hstate hdepth
    (fun x hx c hc => hclosed x hx c (by rw [← hold x hx]; exact hc)) hthis
  refine ⟨w', result', happly, hnode, ?_⟩
  intro p hp
  obtain ⟨h1, _, h3, h4⟩ := evaluate_proFiles hevaluate p hp
  obtain ⟨h5, h6⟩ := hrest p h1
  exact ⟨Nat.ne_of_gt (Nat.lt_of_lt_of_le hthis h1), h6.trans h3, h5.trans h4⟩

/-- Witness for C12: `a.pro` of the example world is evaluated with
`SUBDIRS = sub`; the evaluation creates the sub-project node at address 2. -/
theorem applyEvaluate_clears_parseInProgress_of_node_only_witness :
    ∃ heap' result w' result',
      QmakeProFile.evaluate 10 subdirsFileSystem exampleWorld.heap subdirsInput =
        some (heap', result) ∧
      result.proFiles = [2] ∧
      QmakeProFile.applyEvaluate 2 [] { exampleWorld with heap := heap' } 0 result =
        some (w', result') ∧
      (w'.heap.objs 0).m_parseInProgress = false ∧
      ∀ p ∈ result.proFiles, p ≠ 0 ∧
        (w'.heap.objs p).isProFile = true ∧ (w'.heap.objs p).m_parseInProgress = true := by
  have hsome : ((QmakeProFile.evaluate 10 subdirsFileSystem exampleWorld.heap subdirsInput).map
      fun hr => (hr.2.proFiles, hr.2.state)) = some ([2], .EvalOk) := by decide
  obtain ⟨⟨heap', result⟩, h, hv⟩ := Option.map_eq_some'.1 hsome
  simp only [Prod.mk.injEq] at hv
  have hold := (evaluate_directChildren_fresh h).2.2
  have h0 : heap'.objs 0 = exampleWorld.heap.objs 0 := hold 0 (by decide)
  have h1 : heap'.objs 1 = exampleWorld.heap.objs 1 := hold 1 (by decide)
  obtain ⟨w', result', happly, hrest⟩ := applyEvaluate_clears_parseInProgress_of_node_only 10 2
    subdirsFileSystem [] exampleWorld.heap subdirsInput { exampleWorld with heap := heap' } 0
    result h
    (fun x _ c hc => by
      have := children_exampleWorld x c hc
      rw [this.2]
      decide)
    (by decide)
    (by show (heap'.objs 0).m_readerExact.isSome = true; rw [h0]; rfl)
    (by show (heap'.objs 0).m_buildSystem = true; rw [h0]; rfl)
    rfl rfl (Or.inl hv.2)
    (by
      intro c hc
      change c ∈ (heap'.objs 0).m_children at hc
      rw [h0] at hc
      have hc1 := (children_exampleWorld _ _ hc).2
      subst hc1
      intro c hc
      change c ∈ (heap'.objs 1).m_children at hc
      rw [h1] at hc
      exact absurd (children_exampleWorld _ _ hc).1 (by decide))
  exact ⟨heap', result, w', result', h, hv.1, happly, hrest⟩

/-! ## The two filters -/

theorem mem_filterFilesProVariables (type : FileType) (files : QSet FilePath) (p : FilePath) :
    p ∈ filterFilesProVariables type files ↔
      p ∈ files ∧ ((type ≠ .QML ∧ type ≠ .Unknown) ∨ (type = .QML ∧ p.endsWith ".qml" = true) ∨
        (type = .Unknown ∧ p.endsWith ".qml" = false)) := by
  by_cases h : type ≠ .QML ∧ type ≠ .Unknown
  · have : filterFilesProVariables type files = files := by
      unfold filterFilesProVariables
      rw [if_pos h]
    rw [this]
    constructor
    · exact fun hp => ⟨hp, Or.inl h⟩
    · exact fun hp => hp.1
  · have heq : filterFilesProVariables type files = filterFilesRecursiveEnumerata type files := by
      unfold filterFilesProVariables filterFilesRecursiveEnumerata
      rw [if_neg h, if_neg h]
    rw [heq, mem_filterFilesRecursiveEnumerata]
    constructor
    · rintro ⟨hp, hc⟩
      exact ⟨hp, Or.inr hc⟩
    · rintro ⟨hp, hc | hc⟩
      · exact absurd hc h
      · exact ⟨hp, hc⟩

/-- C21: the two filters implement one inclusion predicate on the path suffix.
For every set `S` of paths, `filterFilesRecursiveEnumerata(QML, S)` holds exactly
the members of `S` that end in `.qml`, `filterFilesRecursiveEnumerata(Unknown, S)`
exactly the members that do not, so that the two results are disjoint and
every member of `S` is in one of them, and for every other file type the
result is empty. `filterFilesProVariables` gives the same result as
`filterFilesRecursiveEnumerata` for `QML` and `Unknown`, and returns `S` itself
for every other type. -/
theorem filters_implement_one_predicate (S : QSet FilePath) :
    (∀ p, p ∈ filterFilesRecursiveEnumerata .QML S ↔ p ∈ S ∧ p.endsWith ".qml" = true) ∧
    (∀ p, p ∈ filterFilesRecursiveEnumerata .Unknown S ↔ p ∈ S ∧ p.endsWith ".qml" = false) ∧
    (∀ p, ¬(p ∈ filterFilesRecursiveEnumerata .QML S ∧
      p ∈ filterFilesRecursiveEnumerata .Unknown S)) ∧
    (∀ p, p ∈ S ↔ p ∈ filterFilesRecursiveEnumerata .QML S ∨
      p ∈ filterFilesRecursiveEnumerata .Unknown S) ∧
    (∀ type, type ≠ .QML → type ≠ .Unknown → filterFilesRecursiveEnumerata type S = []) ∧
    filterFilesProVariables .QML S = filterFilesRecursiveEnumerata .QML S ∧
    filterFilesProVariables .Unknown S = filterFilesRecursiveEnumerata .Unknown S ∧
    (∀ p, p ∈ filterFilesProVariables .QML S ↔ p ∈ S ∧ p.endsWith ".qml" = true) ∧
    (∀ p, p ∈ filterFilesProVariables .Unknown S ↔ p ∈ S ∧ p.endsWith ".qml" = false) ∧
    (∀ type, type ≠ .QML → type ≠ .Unknown → filterFilesProVariables type S = S) := by
  have hq : ∀ p, p ∈ filterFilesRecursiveEnumerata .QML S ↔ p ∈ S ∧ p.endsWith ".qml" = true := by
    intro p
    rw [mem_filterFilesRecursiveEnumerata]
    simp
  have hu : ∀ p, p ∈ filterFilesRecursiveEnumerata .Unknown S ↔
      p ∈ S ∧ p.endsWith ".qml" = false := by
    intro p
    rw [mem_filterFilesRecursiveEnumerata]
    simp
  refine ⟨hq, hu, ?_, ?_, ?_, rfl, rfl, ?_, ?_, ?_⟩
  · intro p h
    rw [hq, hu] at h
    rw [h.1.2] at h
    exact Bool.noConfusion h.2.2
  · intro p
    rw [hq, hu]
    constructor
    · intro hp
      cases hs : p.endsWith ".qml"
      · exact Or.inr ⟨hp, rfl⟩
      · exact Or.inl ⟨hp, rfl⟩
    · rintro (h | h) <;> exact h.1
  · intro type h1 h2
    unfold filterFilesRecursiveEnumerata
    rw [if_pos ⟨h1, h2⟩]
  · intro p
    rw [mem_filterFilesProVariables]
    simp
  · intro p
    rw [mem_filterFilesProVariables]
    simp
  · intro type h1 h2
    unfold filterFilesProVariables
    rw [if_pos ⟨h1, h2⟩]

/-! ## `QmakePriFile::varNamesForRemoving` -/

/-- C27, evaluated: `TRANSLATIONS`, which `varNames` returns for the file type
`Unknown`, is not among the names that `varNamesForRemoving` returns. Every
other statically known name that `varNames` returns for a file type is, and so
is every name that `varNameForAdding` returns. -/
theorem varNamesForRemoving_lacks_translations (reader : ProFileReader)
    (constants : MimeTypeConstants) (mimeType : String) :
    ("TRANSLATIONS" ∈ varNames .Unknown reader ∧ "TRANSLATIONS" ∉ varNamesForRemoving) ∧
    (∀ name ∈ ["HEADERS", "OBJECTIVE_HEADERS", "PRECOMPILED_HEADER", "SOURCES", "RESOURCES",
        "FORMS", "STATECHARTS", "SUBDIRS", "OTHER_FILES", "DISTFILES", "ICON",
        "QMAKE_INFO_PLIST"], name ∈ varNamesForRemoving) ∧
    (∀ type, type ≠ .Source → ∀ name ∈ varNames type reader,
      name ∈ varNamesForRemoving ∨ name = "TRANSLATIONS") ∧
    varNameForAdding constants mimeType ∈ varNamesForRemoving := by
  refine ⟨⟨by simp [varNames], by decide⟩, by decide, ?_, ?_⟩
  · intro type hs name hn
    cases type <;> simp [varNames] at hn <;> first
      | exact absurd rfl hs
      | (rcases hn with h | h | h | h | h <;> subst h <;> simp [varNamesForRemoving])
      | (rcases hn with h | h | h <;> subst h <;> simp [varNamesForRemoving])
      | (rcases hn with h | h <;> subst h <;> simp [varNamesForRemoving])
      | (subst hn; simp [varNamesForRemoving])
  · unfold varNameForAdding
    repeat' split
    all_goals decide

/-! ## Buckets without duplicate paths -/

theorem uniquePaths_updateFiles (exactFps cumulativeFps : QSet FilePath) :
    UniquePaths (updateFiles exactFps cumulativeFps) := by
  unfold UniquePaths
  refine List.Nodup.map_on ?_ (nodup_updateFiles exactFps cumulativeFps)
  rintro ⟨p, o⟩ h1 ⟨q, o'⟩ h2 hpq
  simp only at hpq
  subst hpq
  rw [mem_updateFiles] at h1 h2
  simp only at h1 h2
  rcases h1 with ⟨ho, he⟩ | ⟨ho, _, hne⟩ <;> rcases h2 with ⟨ho', he'⟩ | ⟨ho', _, hne'⟩
  · rw [ho, ho']
  · exact absurd he hne'
  · exact absurd he' hne
  · rw [ho, ho']

/-- C26: no duplicate entries accumulate in a bucket. After every
`QmakePriFile::update`, each path occurs at most once in every bucket of the
node, so never with two origins; every `QmakePriFile::folderChanged` keeps it
so, whether it returns `true` or `false`; and `update` applied twice with the
same result gives the same buckets as `update` applied once. -/
theorem update_folderChanged_keep_paths_unique (this : NodeId) (self : QmakePriFile)
    (result : QmakePriFileEvalResult) (isChildOf : FilePath → String → Bool)
    (changedFolder : String) (newFiles : QSet FilePath) :
    (∀ type, UniquePaths ((self.update this result).1.m_files type)) ∧
    ((∀ type, UniquePaths (self.m_files type)) →
      ∀ type, UniquePaths ((self.folderChanged isChildOf changedFolder newFiles).2.m_files type)) ∧
    (∀ type, ((self.update this result).1.update this result).1.m_files type =
      (self.update this result).1.m_files type) := by
  refine ⟨?_, ?_, ?_⟩
  · intro type
    rw [update_m_files]
    exact uniquePaths_updateFiles _ _
  · intro h type
    by_cases hc : (self.folderChanged isChildOf changedFolder newFiles).1 = true
    · rw [folderChanged_m_files isChildOf self changedFolder newFiles type hc]
      exact uniquePaths_folderChangedFiles _ _ (h type)
    · have : (self.folderChanged isChildOf changedFolder newFiles).2 = self := by
        unfold QmakePriFile.folderChanged at hc ⊢
        simp only at hc ⊢
        split
        · rfl
        · rename_i hne
          rw [if_neg hne] at hc
          exact absurd rfl hc
      rw [this]
      exact h type
  · intro type
    rw [update_m_files, update_m_files]

/-! ## `QmakePriFile::processValues`: the found files of one type -/

theorem mem_processValuesType_exact (result : QmakePriFileEvalResult) (type : FileType)
    (x : FilePath) :
    x ∈ (processValuesType result type).foundFilesExact type ↔
      x ∈ filterFilesProVariables type (result.foundFilesExact type) ∨
      x ∈ filterFilesRecursiveEnumerata type
        (QSet.subtract result.recursiveEnumerateFiles (result.foundFilesExact type)) := by
  simp [processValuesType, Function.update, QSet.mem_unite]

theorem mem_processValuesType_cumulative (result : QmakePriFileEvalResult) (type : FileType)
    (x : FilePath) :
    x ∈ (processValuesType result type).foundFilesCumulative type ↔
      x ∈ filterFilesProVariables type (result.foundFilesCumulative type) ∨
      x ∈ filterFilesRecursiveEnumerata type
        (QSet.subtract (QSet.subtract result.recursiveEnumerateFiles (result.foundFilesExact type))
          (result.foundFilesCumulative type)) := by
  simp [processValuesType, Function.update, QSet.mem_unite]

/-- The found files of a type after the loop over distinct types are those that
the round of that type computed, from a state that still had the original
found files of the type; the enumerated files only shrink afterwards. -/
theorem processValuesTypes_round (types : List FileType) (hn : types.Nodup) (t : FileType) :
    ∀ result : QmakePriFileEvalResult, t ∈ types →
      ∃ r0 : QmakePriFileEvalResult,
        r0.foundFilesExact t = result.foundFilesExact t ∧
        r0.foundFilesCumulative t = result.foundFilesCumulative t ∧
        (processValuesTypes types result).foundFilesExact t =
          (processValuesType r0 t).foundFilesExact t ∧
        (processValuesTypes types result).foundFilesCumulative t =
          (processValuesType r0 t).foundFilesCumulative t ∧
        ∀ x, x ∈ (processValuesTypes types result).recursiveEnumerateFiles →
          x ∈ (processValuesType r0 t).recursiveEnumerateFiles := by
  induction types with
  | nil => intro _ ht; cases ht
  | cons type rest ih =>
    intro result ht
    rw [List.nodup_cons] at hn
    have hunfold : processValuesTypes (type :: rest) result =
        processValuesTypes rest (processValuesType result type) := rfl
    rw [hunfold]
    by_cases he : t = type
    · subst he
      obtain ⟨_, h2, h3⟩ := processValuesTypes_frame rest hn.2 (processValuesType result t)
      exact ⟨result, rfl, rfl, (h2 t hn.1).1, (h2 t hn.1).2, fun x hx => ((h3 x).1 hx).1⟩
    · have htr : t ∈ rest := (List.mem_cons.1 ht).resolve_left he
      obtain ⟨r0, h1, h2, h3, h4, h5⟩ := ih hn.2 (processValuesType result type) htr
      obtain ⟨_, f2, _⟩ := processValuesType_frame result type
      exact ⟨r0, h1.trans (f2 t he).1, h2.trans (f2 t he).2, h3, h4, h5⟩

/-- C22: `QmakePriFile::processValues` keeps the cumulative found files a
superset of the exact ones. For every file system (so every enumeration
result), every result (so every set of declared folders) and every file type:
if `foundFilesExact[type]` is a subset of `foundFilesCumulative[type]` before
the call, it is one afterwards. -/
theorem processValues_keeps_exact_within_cumulative (fs : FileSystem)
    (result : QmakePriFileEvalResult) (type : FileType)
    (h : ∀ x ∈ result.foundFilesExact type, x ∈ result.foundFilesCumulative type) :
    ∀ x ∈ (processValues fs result).foundFilesExact type,
      x ∈ (processValues fs result).foundFilesCumulative type := by
  intro x hx
  rw [processValues_eq] at hx ⊢
  obtain ⟨r0, h1, h2, h3, h4, _⟩ := processValuesTypes_round FileType.all FileType.nodup_all type
    (result.folders.foldl (processValuesFolder fs) result) (FileType.mem_all type)
  obtain ⟨_, g1, g2, _⟩ := foldl_processValuesFolder fs result.folders [] result rfl
    (fun _ hm => absurd hm (List.not_mem_nil _))
  rw [g1] at h1
  rw [g2] at h2
  rw [h3, mem_processValuesType_exact] at hx
  rw [h4, mem_processValuesType_cumulative]
  rw [h1] at hx
  rw [h1, h2]
  rcases hx with hx | hx
  · rw [mem_filterFilesProVariables] at hx
    exact Or.inl ((mem_filterFilesProVariables _ _ _).2 ⟨h x hx.1, hx.2⟩)
  · rw [mem_filterFilesRecursiveEnumerata, QSet.mem_subtract] at hx
    by_cases hc : x ∈ result.foundFilesCumulative type
    · exact Or.inl ((mem_filterFilesProVariables _ _ _).2 ⟨hc, Or.inr hx.2⟩)
    · exact Or.inr ((mem_filterFilesRecursiveEnumerata _ _ _).2
        ⟨(QSet.mem_subtract _ _ _).2 ⟨(QSet.mem_subtract _ _ _).2 hx.1, hc⟩, hx.2⟩)

theorem processValues_keeps_exact_within_cumulative_witness :
    (∀ x ∈ sourcesResult.foundFilesExact .Unknown, x ∈ sourcesResult.foundFilesCumulative .Unknown) ∧
    (∀ x ∈ (processValues sourcesFileSystem sourcesResult).foundFilesExact .Unknown,
      x ∈ (processValues sourcesFileSystem sourcesResult).foundFilesCumulative .Unknown) ∧
    (processValues sourcesFileSystem sourcesResult).foundFilesExact .Unknown = ["src/main.cpp"] :=
  ⟨fun _ hx => hx,
    processValues_keeps_exact_within_cumulative sourcesFileSystem sourcesResult .Unknown
      (fun _ hx => hx),
    by decide⟩

/-! ## The cached enumeration and the buckets -/

theorem update_m_recursiveEnumerateFiles (this : NodeId) (self : QmakePriFile)
    (result : QmakePriFileEvalResult) :
    (self.update this result).1.m_recursiveEnumerateFiles = result.recursiveEnumerateFiles := by
  simp [QmakePriFile.update, FileType.all, QmakePriFile.watchFolders]

theorem folderChanged_m_recursiveEnumerateFiles (isChildOf : FilePath → String → Bool)
    (self : QmakePriFile) (changedFolder : String) (newFiles : QSet FilePath)
    (h : (self.folderChanged isChildOf changedFolder newFiles).1 = true) :
    (self.folderChanged isChildOf changedFolder newFiles).2.m_recursiveEnumerateFiles =
      newFiles := by
  by_cases hc : ((QSet.subtract newFiles self.m_recursiveEnumerateFiles).isEmpty &&
      ((QSet.subtract self.m_recursiveEnumerateFiles newFiles).filter
        fun file => isChildOf file changedFolder).isEmpty) = true
  · simp [QmakePriFile.folderChanged, hc] at h
  · simp [QmakePriFile.folderChanged, hc, FileType.all]

theorem folderChanged_snd_of_false (isChildOf : FilePath → String → Bool)
    (self : QmakePriFile) (changedFolder : String) (newFiles : QSet FilePath)
    (h : ¬ (self.folderChanged isChildOf changedFolder newFiles).1 = true) :
    (self.folderChanged isChildOf changedFolder newFiles).2 = self := by
  unfold QmakePriFile.folderChanged at h ⊢
  simp only at h ⊢
  split
  · rfl
  · rename_i hne
    rw [if_neg hne] at h
    exact absurd rfl h

theorem endsWith_bucket (x : FilePath) :
    ((if x.endsWith ".qml" then FileType.QML else FileType.Unknown) = .QML ∧
        x.endsWith ".qml" = true) ∨
    ((if x.endsWith ".qml" then FileType.QML else FileType.Unknown) = .Unknown ∧
        x.endsWith ".qml" = false) := by
  cases h : x.endsWith ".qml"
  · exact Or.inr ⟨by simp, rfl⟩
  · exact Or.inl ⟨by simp, rfl⟩

/-- C30: consistency of the cached recursive-enumeration set with the buckets.
For a node whose state comes from `processValues` followed by `update`, every
path in the cached set (the paths that `knowsFile` accepts) has an entry in the
QML bucket if it ends in `.qml` and in the Unknown bucket otherwise; and every
`folderChanged` call on a node with that property, whether it returns `true` or
`false`, gives a node with that property. -/
theorem update_folderChanged_keep_cache_in_buckets (fs : FileSystem) (this : NodeId)
    (self : QmakePriFile) (result : QmakePriFileEvalResult)
    (isChildOf : FilePath → String → Bool) :
    CacheConsistent (self.update this (processValues fs result)).1 ∧
    (∀ x, (self.update this (processValues fs result)).1.knowsFile x = true ↔
      x ∈ (processValues fs result).recursiveEnumerateFiles) ∧
    (∀ (node : QmakePriFile) (changedFolder : String) (newFiles : QSet FilePath),
      CacheConsistent node →
        CacheConsistent (node.folderChanged isChildOf changedFolder newFiles).2) := by
  refine ⟨?_, ?_, ?_⟩
  · intro x hx
    rw [update_m_recursiveEnumerateFiles] at hx
    refine ⟨.ExactParse, ?_⟩
    rw [update_m_files, mem_updateFiles]
    refine Or.inl ⟨rfl, ?_⟩
    show x ∈ (processValues fs result).foundFilesExact _
    rw [processValues_eq] at hx ⊢
    obtain ⟨r0, _, _, h3, _, h5⟩ := processValuesTypes_round FileType.all FileType.nodup_all
      (if x.endsWith ".qml" then FileType.QML else FileType.Unknown)
      (result.folders.foldl (processValuesFolder fs) result) (FileType.mem_all _)
    rw [h3, mem_processValuesType_exact]
    have hx' := ((processValuesType_frame r0 _).2.2 x).1 (h5 x hx)
    exact Or.inr ((mem_filterFilesRecursiveEnumerata _ _ _).2
      ⟨(QSet.mem_subtract _ _ _).2 ⟨hx'.1, hx'.2.1⟩, endsWith_bucket x⟩)
  · intro x
    simp [QmakePriFile.knowsFile, update_m_recursiveEnumerateFiles]
  · intro node changedFolder newFiles hinv
    by_cases hc : (node.folderChanged isChildOf changedFolder newFiles).1 = true
    · intro x hx
      rw [folderChanged_m_recursiveEnumerateFiles isChildOf node changedFolder newFiles hc] at hx
      rw [folderChanged_m_files isChildOf node changedFolder newFiles _ hc]
      have hrem : x ∉ filterFilesRecursiveEnumerata
          (if x.endsWith ".qml" then FileType.QML else FileType.Unknown)
          ((QSet.subtract node.m_recursiveEnumerateFiles newFiles).filter
            fun file => isChildOf file changedFolder) := by
        intro hm
        rw [mem_filterFilesRecursiveEnumerata, List.mem_filter, QSet.mem_subtract] at hm
        exact hm.1.1.2 hx
      by_cases hold : x ∈ node.m_recursiveEnumerateFiles
      · obtain ⟨o, ho⟩ := hinv x hold
        exact ⟨o, mem_folderChangedFiles_of_mem ho hrem⟩
      · by_cases hex : ∃ sf ∈ node.m_files
            (if x.endsWith ".qml" then FileType.QML else FileType.Unknown), sf.1 = x
        · obtain ⟨⟨p, o⟩, hm, hp⟩ := hex
          simp only at hp
          subst hp
          exact ⟨o, mem_folderChangedFiles_of_mem hm hrem⟩
        · refine ⟨.ExactParse, ?_⟩
          have hadd : x ∈ filterFilesRecursiveEnumerata
              (if x.endsWith ".qml" then FileType.QML else FileType.Unknown)
              (QSet.subtract newFiles node.m_recursiveEnumerateFiles) :=
            (mem_filterFilesRecursiveEnumerata _ _ _).2
              ⟨(QSet.mem_subtract _ _ _).2 ⟨hx, hold⟩, endsWith_bucket x⟩
          unfold folderChangedFiles
          rw [if_pos (by
            rw [Bool.or_eq_true]
            exact Or.inl (by rw [List.isEmpty_eq_false_of_mem hadd]; rfl))]
          refine mem_foldl_folderChangedRemove_of_not_mem _ ?_ hrem
          exact (mem_foldl_folderChangedAdd _ _ _).2
            (Or.inr ⟨rfl, hadd, fun sf' hm he => hex ⟨sf', hm, he⟩⟩)
    · rw [folderChanged_snd_of_false isChildOf node changedFolder newFiles hc]
      exact hinv

/-! ## `QmakeProFile::applyEvaluate`: what it does to the result -/

/-- The evaluation result as `applyEvaluate` leaves it: with `directChildren`
cleared when the result has been applied, untouched when the call returned
early or took the branch for a failed or cancelled evaluation. -/
theorem applyEvaluate_snd {fuel : Nat} {featureRoots : List String} {w w' : World}
    {this : NodeId} {result result' : QmakeEvalResult}
    (h : QmakeProFile.applyEvaluate fuel featureRoots w this result = some (w', result')) :
    result' =
      (if (w.heap.objs this).m_readerExact.isSome = true ∧ w.buildSystem.shuttingDown = false ∧
          result.state ≠ .EvalFail ∧ w.buildSystem.wasEvaluateCanceled = false then
        { result with directChildren := [] }
      else result) := by
  have herr := parseErrors_heap this result.errors w
  unfold QmakeProFile.applyEvaluate at h
  split at h
  · rename_i hr
    simp only [Option.some.injEq, Prod.mk.injEq] at h
    rw [if_neg]
    · exact h.2.symm
    · intro hc
      rw [Option.isNone_iff_eq_none] at hr
      rw [hr] at hc
      exact Bool.noConfusion hc.1
  · split at h
    · cases h
    · split at h
      · rename_i hs
        simp only [Option.some.injEq, Prod.mk.injEq] at h
        rw [if_neg]
        · exact h.2.symm
        · intro hc
          rw [hs] at hc
          exact Bool.noConfusion hc.2.1
      · rename_i hr _ hs
        simp only at h
        split at h
        · rename_i hf
          simp only [Option.map_eq_some'] at h
          obtain ⟨_, _, h⟩ := h
          simp only [Prod.mk.injEq] at h
          rw [if_neg]
          · exact h.2.symm
          · intro hc
            rw [herr.2] at hf
            rcases hf with hf | hf
            · exact hc.2.2.1 hf
            · rw [hf] at hc
              exact Bool.noConfusion hc.2.2.2
        · rename_i hf
          simp only [Option.bind_eq_some, Option.map_eq_some'] at h
          obtain ⟨_, _, _, _, h⟩ := h
          simp only [Prod.mk.injEq] at h
          rw [herr.2] at hf
          rw [if_pos]
          · exact h.2.symm
          · refine ⟨?_, ?_, fun hc => hf (Or.inl hc), ?_⟩
            · cases hro : (w.heap.objs this).m_readerExact with
              | none => rw [hro] at hr; exact absurd rfl hr
              | some _ => rfl
            · simpa using hs
            · cases hcan : w.buildSystem.wasEvaluateCanceled with
              | false => rfl
              | true => exact absurd (Or.inr hcan) hf

/-- C25 (amended): what `QmakeProFile::applyEvaluate` does to the evaluation
result. Every field other than `directChildren` keeps its value. The field
`directChildren` is emptied (`result->directChildren.clear()`, after the nodes
have been linked below the node) when the result is applied, that is when the
node has an exact reader, the build system is not shutting down, the state is
not `EvalFail` and the evaluation has not been cancelled; on every other path
the result is left as it was. -/
theorem applyEvaluate_clears_directChildren (fuel : Nat) (featureRoots : List String)
    (w w' : World) (this : NodeId) (result result' : QmakeEvalResult)
    (h : QmakeProFile.applyEvaluate fuel featureRoots w this result = some (w', result')) :
    { result' with directChildren := result.directChildren } = result ∧
    result'.directChildren =
      (if (w.heap.objs this).m_readerExact.isSome = true ∧ w.buildSystem.shuttingDown = false ∧
          result.state ≠ .EvalFail ∧ w.buildSystem.wasEvaluateCanceled = false then []
      else result.directChildren) := by
  rw [applyEvaluate_snd h]
  split
  · exact ⟨rfl, rfl⟩
  · exact ⟨rfl, rfl⟩

theorem applyEvaluate_clears_directChildren_witness :
    ∃ w' result',
      QmakeProFile.applyEvaluate 2 [] exampleWorldEvaluated 0 exampleResult = some (w', result') ∧
      { result' with directChildren := exampleResult.directChildren } = exampleResult ∧
      result'.directChildren =
        (if (exampleWorldEvaluated.heap.objs 0).m_readerExact.isSome = true ∧
            exampleWorldEvaluated.buildSystem.shuttingDown = false ∧
            exampleResult.state ≠ .EvalFail ∧
            exampleWorldEvaluated.buildSystem.wasEvaluateCanceled = false then []
        else exampleResult.directChildren) := by
  have hsome : (QmakeProFile.applyEvaluate 2 [] exampleWorldEvaluated 0 exampleResult).isSome =
      true := by decide
  obtain ⟨⟨w', result'⟩, h⟩ := Option.isSome_iff_exists.1 hsome
  exact ⟨w', result', h,
    applyEvaluate_clears_directChildren 2 [] exampleWorldEvaluated w' 0 exampleResult result' h⟩

/-- Counterexample to the claim that `applyEvaluate` leaves `directChildren` as it
was: applying `exampleResult`, whose `directChildren` is `[2]`, to the node of
`a.pro` leaves the result with an empty `directChildren`. -/
theorem applyEvaluate_mutates_result :
    ∃ w' result',
      QmakeProFile.applyEvaluate 2 [] exampleWorldEvaluated 0 exampleResult = some (w', result') ∧
      exampleResult.directChildren = [2] ∧ result'.directChildren = [] ∧
      result'.directChildren ≠ exampleResult.directChildren := by
  have hsome : ((QmakeProFile.applyEvaluate 2 [] exampleWorldEvaluated 0 exampleResult).map
      fun r => decide (r.2.directChildren = [])) = some true := by decide
  obtain ⟨⟨w', result'⟩, h, hv⟩ := Option.map_eq_some'.1 hsome
  have hv := of_decide_eq_true hv
  refine ⟨w', result', h, rfl, hv, ?_⟩
  rw [hv]
  exact fun hc => List.noConfusion hc

/-! ## `QmakeProFile::evaluate`: install list, target information, errors -/

theorem evaluateIncludedFiles_fields {fuel : Nat} {fs : FileSystem} {input : QmakeEvalInput}
    {result result' : QmakeEvalResult} {st : IncludeTreeState}
    (h : evaluateIncludedFiles fuel fs input result = some (result', st)) :
    result'.targetInformation = result.targetInformation ∧
    result'.installsList = result.installsList ∧
    result'.newVarValues = result.newVarValues ∧
    result'.directoriesWithWildcards = result.directoriesWithWildcards ∧
    (result'.errors = result.errors ∨
      result'.errors = result.errors ++
        (subDirsPaths fs input.readerExact input.projectDir
          (some result.subProjectsNotToDeploy) (some [])).2.2.getD []) := by
  unfold evaluateIncludedFiles at h
  simp only [Option.bind_eq_some, Option.map_eq_some', Prod.exists, Prod.mk.injEq] at h
  obtain ⟨r1, st1, h1, st2, _, hr, _⟩ := h
  subst hr
  split at h1
  · simp only [Option.map_eq_some', Prod.mk.injEq] at h1
    obtain ⟨_, _, h2, _⟩ := h1
    rw [← h2]
    split
    · exact ⟨rfl, rfl, rfl, rfl, Or.inr rfl⟩
    · exact ⟨rfl, rfl, rfl, rfl, Or.inl rfl⟩
  · simp only [Option.some.injEq, Prod.mk.injEq] at h1
    rw [← h1.1]
    exact ⟨rfl, rfl, rfl, rfl, Or.inl rfl⟩

theorem evaluateValues_fields (fs : FileSystem) (input : QmakeEvalInput)
    (exactBuildPassReader cumulativeBuildPassReader : Option ProFileReader)
    (result : QmakeEvalResult) (st : IncludeTreeState) :
    (evaluateValues fs input exactBuildPassReader cumulativeBuildPassReader result st).1.errors =
      result.errors ∧
    (evaluateValues fs input exactBuildPassReader cumulativeBuildPassReader
        result st).1.installsList =
      installsList exactBuildPassReader input.projectDir input.buildDirectory ∧
    (evaluateValues fs input exactBuildPassReader cumulativeBuildPassReader
        result st).1.targetInformation =
      (if result.state = .EvalOk then
        targetInformation fs (some input.readerExact) exactBuildPassReader input.buildDirectory
          input.projectFilePath
      else result.targetInformation) := by
  unfold evaluateValues
  simp only
  split <;> exact ⟨rfl, rfl, rfl⟩

theorem evaluateChildNodes_fields {fuel : Nat} {fs : FileSystem} {heap heap' : Heap}
    {input : QmakeEvalInput} {result result' : QmakeEvalResult}
    {tree : List QmakeIncludedPriFile}
    (h : evaluateChildNodes fuel fs heap input result tree = some (heap', result')) :
    result'.errors = result.errors ∧ result'.installsList = result.installsList ∧
    result'.targetInformation = result.targetInformation ∧
    result'.newVarValues = result.newVarValues ∧
    result'.directoriesWithWildcards = result.directoriesWithWildcards := by
  unfold evaluateChildNodes at h
  simp only [Option.bind_eq_some, Option.map_eq_some', Prod.mk.injEq] at h
  obtain ⟨_, _, _, _, _, hr⟩ := h
  rw [← hr]
  exact ⟨rfl, rfl, rfl, rfl, rfl⟩

/-- The install list, the target information and the errors of a result of
`evaluate` whose state is not `EvalFail`. -/
theorem evaluate_fields {fuel : Nat} {fs : FileSystem} {heap heap' : Heap}
    {input : QmakeEvalInput} {result : QmakeEvalResult}
    (h : QmakeProFile.evaluate fuel fs heap input = some (heap', result))
    (hf : (evaluateState input).1 ≠ .EvalFail) :
    result.installsList =
      installsList (evaluateState input).2.1 input.projectDir input.buildDirectory ∧
    result.targetInformation =
      (if (evaluateState input).1 = .EvalOk then
        targetInformation fs (some input.readerExact) (evaluateState input).2.1
          input.buildDirectory input.projectFilePath
      else {}) ∧
    (result.errors = [] ∨
      result.errors =
        (subDirsPaths fs input.readerExact input.projectDir (some []) (some [])).2.2.getD []) := by
  unfold QmakeProFile.evaluate at h
  simp only [hf, if_false, Option.bind_eq_some, Prod.exists] at h
  obtain ⟨r1, st, h1, h2⟩ := h
  obtain ⟨c1, c2, c3, _, _⟩ := evaluateChildNodes_fields h2
  obtain ⟨v1, v2, v3⟩ := evaluateValues_fields fs input (evaluateState input).2.1
    (evaluateState input).2.2 r1 st
  obtain ⟨i1, _, _, _, i5⟩ := evaluateIncludedFiles_fields h1
  refine ⟨c2.trans v2, ?_, ?_⟩
  · rw [c3, v3, evaluateIncludedFiles_state h1, i1]
  · rw [c1, v1]
    rcases i5 with i5 | i5
    · exact Or.inl i5
    · exact Or.inr (by rw [i5]; rfl)

theorem evaluateState_exactBuildPassReader (input : QmakeEvalInput) :
    (evaluateState input).2.1 =
      match input.readerExact.parsedProFile with
      | some _ => (evaluateOne input input.readerExact false none).2
      | none => none := by
  unfold evaluateState
  cases input.readerExact.parsedProFile with
  | none => rfl
  | some _ => rfl

theorem installsListItem_items (reader : ProFileReader) (projectDir buildDir : String)
    (valuesOfVars : List (String × String)) (result : InstallsList) (item : String) :
    (installsListItem reader projectDir buildDir valuesOfVars result item).items =
      result.items ++ (installsListEntry reader projectDir buildDir valuesOfVars item).toList := by
  unfold installsListItem installsListEntry installsItemPath
  simp only
  cases hp : (reader.values (item ++ ".path")).getLast? with
  | none => simp
  | some itemPath =>
    simp only [Option.map_some']
    by_cases ht : item = "target"
    · rw [if_pos ht, if_pos ht]
      split <;> simp
    · rw [if_neg ht, if_neg ht]
      rfl

theorem foldl_installsListItem_items (reader : ProFileReader) (projectDir buildDir : String)
    (valuesOfVars : List (String × String)) (itemList : List String) :
    ∀ result : InstallsList,
      (itemList.foldl (installsListItem reader projectDir buildDir valuesOfVars) result).items =
        result.items ++
          itemList.filterMap (installsListEntry reader projectDir buildDir valuesOfVars) := by
  induction itemList with
  | nil => intro result; simp
  | cons item rest ih =>
    intro result
    rw [List.foldl_cons, ih, installsListItem_items, List.filterMap_cons]
    cases installsListEntry reader projectDir buildDir valuesOfVars item with
    | none => simp
    | some e => simp

/-- Counterexample to the claim that an `INSTALLS` item without exactly one
`.path` value adds an entry to the error list: the evaluation of `a.pro` with
`INSTALLS = docs extra data`, where `docs` has no path and `extra` has two,
returns a result without errors; its install list holds `extra` under its last
path and `data`. -/
theorem evaluate_reports_no_installs_error :
    ∃ heap' result,
      QmakeProFile.evaluate 5 {} {} installsInput = some (heap', result) ∧
      installsReader.values "docs.path" = [] ∧
      installsReader.values "extra.path" = ["/a", "/b"] ∧
      result.errors = [] ∧
      result.installsList.items = [⟨"/b", [], true, false⟩, ⟨"/opt/data", [], true, false⟩] := by
  have hsome : ((QmakeProFile.evaluate 5 {} {} installsInput).map fun hr =>
      decide (hr.2.errors = [] ∧
        hr.2.installsList.items =
          [⟨"/b", [], true, false⟩, ⟨"/opt/data", [], true, false⟩])) = some true := by
    decide
  obtain ⟨⟨heap', result⟩, h, hv⟩ := Option.map_eq_some'.1 hsome
  have hv := of_decide_eq_true hv
  exact ⟨heap', result, h, rfl, rfl, hv.1, hv.2⟩

/-! ## The included-file tree: what the extraction leaves alone -/

theorem treeModify_of_length_le (tree : List QmakeIncludedPriFile) {i : Nat}
    (f : QmakeIncludedPriFile → QmakeIncludedPriFile) (h : tree.length ≤ i) :
    treeModify tree i f = tree := by
  unfold treeModify
  rw [List.getElem?_eq_none h]

theorem treeNode_treeModify_proj {β : Type} (P : QmakeIncludedPriFile → β)
    (tree : List QmakeIncludedPriFile) (i : Nat) (f : QmakeIncludedPriFile → QmakeIncludedPriFile)
    (hf : ∀ node, P (f node) = P node) (j : Nat) :
    P (treeNode (treeModify tree i f) j) = P (treeNode tree j) := by
  by_cases hij : i = j
  · subst hij
    by_cases hi : i < tree.length
    · rw [treeNode_treeModify_self tree f hi, hf]
    · rw [treeModify_of_length_le tree f (Nat.le_of_not_lt hi)]
  · rw [treeNode_treeModify_of_ne tree f hij]

theorem extractSources_proj {β : Type} (P : QmakeIncludedPriFile → β)
    (hP : ∀ node r, P { node with result := r } = P node)
    (fromUserInput : String → FilePath) (device : String) (proToResult : List (Int × Nat))
    (sourceFiles : List EvaluatorSourceFile) (type : FileType) (cumulative : Bool) :
    ∀ (tree : List QmakeIncludedPriFile),
      (extractSources fromUserInput device proToResult tree sourceFiles type cumulative).length =
        tree.length ∧
      ∀ j, P (treeNode
        (extractSources fromUserInput device proToResult tree sourceFiles type cumulative) j) =
        P (treeNode tree j) := by
  unfold extractSources
  induction sourceFiles with
  | nil => intro tree; exact ⟨rfl, fun _ => rfl⟩
  | cons source rest ih =>
    intro tree
    rw [List.foldl_cons]
    obtain ⟨h1, h2⟩ := ih (treeModify tree ((proToResult.lookup source.proFileId).getD 0) _)
    refine ⟨h1.trans (length_treeModify _ _ _), fun j => (h2 j).trans ?_⟩
    apply treeNode_treeModify_proj
    intro node
    split <;> exact hP _ _

theorem extractInstalls_proj {β : Type} (P : QmakeIncludedPriFile → β)
    (hP : ∀ (node : QmakeIncludedPriFile) folders,
      P { node with result := { node.result with folders := folders } } = P node)
    (fromUserInput : String → FilePath) (device : String) (proToResult : List (Int × Nat))
    (installList : InstallsList) (tree : List QmakeIncludedPriFile) :
    (extractInstalls fromUserInput device proToResult tree installList).length = tree.length ∧
    ∀ j, P (treeNode (extractInstalls fromUserInput device proToResult tree installList) j) =
      P (treeNode tree j) := by
  unfold extractInstalls
  have hfiles : ∀ (files : List EvaluatorSourceFile) (tree : List QmakeIncludedPriFile),
      (files.foldl
        (fun tree source =>
          treeModify tree ((proToResult.lookup source.proFileId).getD 0) fun node =>
            { node with result := { node.result with
                folders := QSet.insert node.result.folders
                  (fromUserInput (device ++ source.fileName)) } })
        tree).length = tree.length ∧
      ∀ j, P (treeNode (files.foldl
        (fun tree source =>
          treeModify tree ((proToResult.lookup source.proFileId).getD 0) fun node =>
            { node with result := { node.result with
                folders := QSet.insert node.result.folders
                  (fromUserInput (device ++ source.fileName)) } })
        tree) j) = P (treeNode tree j) := by
    intro files
    induction files with
    | nil => intro tree; exact ⟨rfl, fun _ => rfl⟩
    | cons source rest ih =>
      intro tree
      rw [List.foldl_cons]
      obtain ⟨h1, h2⟩ := ih (treeModify tree ((proToResult.lookup source.proFileId).getD 0) _)
      refine ⟨h1.trans (length_treeModify _ _ _), fun j => (h2 j).trans ?_⟩
      apply treeNode_treeModify_proj
      intro node
      exact hP _ _
  generalize installList.items = items
  induction items generalizing tree with
  | nil => exact ⟨rfl, fun _ => rfl⟩
  | cons item rest ih =>
    rw [List.foldl_cons]
    obtain ⟨h1, h2⟩ := ih (item.files.foldl _ tree)
    obtain ⟨g1, g2⟩ := hfiles item.files tree
    exact ⟨h1.trans g1, fun j => (h2 j).trans (g2 j)⟩

/-! ## A build pass that is not accepted -/

theorem evaluateOne_of_rejected_build_pass (input : QmakeEvalInput) (reader : ProFileReader)
    (cumulative : Bool) (build : String) (rest : List String)
    (haccept : reader.accept = true) (hbuilds : reader.values "BUILDS" = build :: rest)
    (hreject : (input.qmakeGlobals.newReader input.buildDirectory cumulative
      [("BUILD_PASS", [build]),
        ("BUILD_NAME",
          if (reader.values (build ++ ".name")).isEmpty then [build]
          else reader.values (build ++ ".name"))]
      (reader.values (build ++ ".CONFIG") ++ [build] ++ ["build_pass"] ++ ["qtc_run"])).accept =
        false) :
    evaluateOne input reader cumulative none = (true, none) := by
  unfold evaluateOne
  simp only [haccept, hbuilds, Bool.not_true, Bool.false_eq_true, if_false, hreject]

theorem evaluateOne_of_not_accept (input : QmakeEvalInput) (reader : ProFileReader)
    (cumulative : Bool) (haccept : reader.accept = false) :
    evaluateOne input reader cumulative none = (false, none) := by
  unfold evaluateOne
  simp [haccept]

/-- Counterexample to the claim that the target information falls back to the
outer reader: `a.pro` with `TARGET = app` and `BUILDS = debug`, where the reader
of the build pass does not accept the file, evaluates to state `EvalOk` with a
target information that is not valid and has no target; the same file without
`BUILDS` evaluates to a valid target information with target `app`. -/
theorem evaluate_rejected_build_pass_leaves_target_invalid :
    ∃ heap1 result1 heap2 result2,
      QmakeProFile.evaluate 5 {} {} (buildsInput ["debug"]) = some (heap1, result1) ∧
      QmakeProFile.evaluate 5 {} {} (buildsInput []) = some (heap2, result2) ∧
      result1.state = .EvalOk ∧
      result1.targetInformation.valid = false ∧ result1.targetInformation.target = "" ∧
      result2.targetInformation.valid = true ∧ result2.targetInformation.target = "app" := by
  have hsome1 : ((QmakeProFile.evaluate 5 {} {} (buildsInput ["debug"])).map fun hr =>
      decide (hr.2.state = .EvalOk ∧ hr.2.targetInformation.valid = false ∧
        hr.2.targetInformation.target = "")) = some true := by decide
  have hsome2 : ((QmakeProFile.evaluate 5 {} {} (buildsInput [])).map fun hr =>
      decide (hr.2.targetInformation.valid = true ∧
        hr.2.targetInformation.target = "app")) = some true := by decide
  obtain ⟨⟨heap1, result1⟩, h1, hv1⟩ := Option.map_eq_some'.1 hsome1
  obtain ⟨⟨heap2, result2⟩, h2, hv2⟩ := Option.map_eq_some'.1 hsome2
  have hv1 := of_decide_eq_true hv1
  have hv2 := of_decide_eq_true hv2
  exact ⟨heap1, result1, heap2, result2, h1, h2, hv1.1, hv1.2.1, hv1.2.2, hv2.1, hv2.2⟩

/-! ## The install list of a partial evaluation -/

/-- C28, on the code: whenever the state of a result of `evaluate` is
`EvalPartial`, the exact reader has not accepted the file, `evaluateOne` has
returned before it set the build-pass reader, and the install list of the
result is the default one, without target path and without items, whatever
`INSTALLS` holds. -/
theorem evaluate_partial_has_empty_installsList (fuel : Nat) (fs : FileSystem)
    (heap heap' : Heap) (input : QmakeEvalInput) (result : QmakeEvalResult)
    (h : QmakeProFile.evaluate fuel fs heap input = some (heap', result))
    (hpart : result.state = .EvalPartial) :
    input.readerExact.accept = false ∧ (evaluateState input).2.1 = none ∧
    result.installsList = {} := by
  have hs := evaluate_state h
  rw [hpart] at hs
  have hacc : input.readerExact.accept = false := by
    rw [evaluateState_fst] at hs
    cases hp : input.readerExact.parsedProFile with
    | none => rw [hp] at hs; cases hs
    | some _ =>
      rw [hp] at hs
      simp only at hs
      cases ha : input.readerExact.accept with
      | false => rfl
      | true => rw [ha] at hs; cases hs
  have hreader : (evaluateState input).2.1 = none := by
    rw [evaluateState_exactBuildPassReader]
    cases hp : input.readerExact.parsedProFile with
    | none => rfl
    | some _ =>
      simp only
      rw [evaluateOne_of_not_accept input input.readerExact false hacc]
  have hf : (evaluateState input).1 ≠ .EvalFail := by rw [← hs]; exact fun hc => by cases hc
  refine ⟨hacc, hreader, ?_⟩
  rw [(evaluate_fields h hf).1, hreader]
  rfl

theorem evaluate_partial_has_empty_installsList_witness :
    ∃ heap' result,
      QmakeProFile.evaluate 5 docsFileSystem {} partialInput = some (heap', result) ∧
      result.state = .EvalPartial ∧
      partialInput.readerExact.accept = false ∧ (evaluateState partialInput).2.1 = none ∧
      result.installsList = {} ∧
      (treeNode result.includedFiles 0).result.folders = [] ∧
      (installsList (some partialInput.readerExact) partialInput.projectDir
        partialInput.buildDirectory).items = [⟨"/opt/docs", [⟨"/src/doc", 1⟩], true, false⟩] := by
  have hsome : ((QmakeProFile.evaluate 5 docsFileSystem {} partialInput).map fun hr =>
      decide (hr.2.state = .EvalPartial ∧
        (treeNode hr.2.includedFiles 0).result.folders = [])) = some true := by decide
  obtain ⟨⟨heap', result⟩, h, hv⟩ := Option.map_eq_some'.1 hsome
  have hv := of_decide_eq_true hv
  have hc := evaluate_partial_has_empty_installsList 5 docsFileSystem {} heap' partialInput
    result h hv.1
  exact ⟨heap', result, h, hv.1, hc.1, hc.2.1, hc.2.2, hv.2, by decide⟩

/-! ## Sub-directory entries are children of the root only -/

theorem QMap.mem_values_insert {V : Type} (m : QMap V) (key : FilePath) (v x : V)
    (h : x ∈ (QMap.insert m key v).values) : x ∈ m.values ∨ x = v := by
  induction m with
  | nil =>
    simp only [QMap.insert, QMap.values, List.map_cons, List.map_nil, List.mem_singleton] at h
    exact Or.inr h
  | cons kw rest ih =>
    obtain ⟨k, w⟩ := kw
    unfold QMap.insert at h
    split at h
    · simp only [QMap.values, List.map_cons, List.mem_cons] at h ⊢
      rcases h with h | h
      · exact Or.inr h
      · exact Or.inl (Or.inr h)
    · split at h
      · simp only [QMap.values, List.map_cons, List.mem_cons] at h ⊢
        rcases h with h | h | h
        · exact Or.inr h
        · exact Or.inl (Or.inl h)
        · exact Or.inl (Or.inr h)
      · simp only [QMap.values, List.map_cons, List.mem_cons] at h ⊢
        rcases h with h | h
        · exact Or.inl (Or.inl h)
        · rcases ih h with h' | h'
          · exact Or.inl (Or.inr h')
          · exact Or.inr h'

theorem treeNode_of_length_le (tree : List QmakeIncludedPriFile) {i : Nat}
    (h : tree.length ≤ i) : treeNode tree i = {} := by
  simp [treeNode, List.getD, List.getElem?_eq_none h]

theorem IncludeTreeInv.of_shape {tree tree' : List QmakeIncludedPriFile}
    (inv : IncludeTreeInv tree) (hlen : tree'.length = tree.length)
    (hshape : ∀ j, (treeNode tree' j).shape = (treeNode tree j).shape) :
    IncludeTreeInv tree' := by
  have hc : ∀ j, (treeNode tree' j).children = (treeNode tree j).children :=
    fun j => congrArg Prod.snd (hshape j)
  have hp : ∀ j, (treeNode tree' j).proFile = (treeNode tree j).proFile :=
    fun j => congrArg Prod.fst (hshape j)
  refine ⟨by rw [hlen]; exact inv.nonempty, ?_, ?_, ?_⟩
  · intro i j hj
    rw [hc] at hj
    exact inv.child_pos i j hj
  · intro i j hj
    rw [hc] at hj
    rw [hlen]
    exact inv.child_lt i j hj
  · intro i j hj hnone
    rw [hc] at hj
    rw [hp] at hnone
    exact inv.subdir_top i j hj hnone

theorem IncludeTreeInv.single : IncludeTreeInv [{}] := by
  have hc : ∀ i, (treeNode [({} : QmakeIncludedPriFile)] i).children = [] := by
    intro i
    cases i with
    | zero => rfl
    | succ i => rfl
  refine ⟨Nat.one_pos, ?_, ?_, ?_⟩ <;>
  · intro i j hj
    rw [hc] at hj
    cases hj

/-- The assignments `result->includedFiles.proFile = pro` and `.name = ...` keep
the shape: they touch the root, which is no child. -/
theorem IncludeTreeInv.setRoot {tree : List QmakeIncludedPriFile} (inv : IncludeTreeInv tree)
    (proFile : Option ProFile) (name : FilePath) :
    IncludeTreeInv
      (treeModify tree 0 fun root => { root with proFile := proFile, name := name }) := by
  have hc : ∀ j, (treeNode (treeModify tree 0 fun root =>
      { root with proFile := proFile, name := name }) j).children = (treeNode tree j).children :=
    fun j => by
      refine treeNode_treeModify_proj (fun n : QmakeIncludedPriFile => n.children) tree 0 _ ?_ j
      intro _
      rfl
  refine ⟨by rw [length_treeModify]; exact inv.nonempty, ?_, ?_, ?_⟩
  · intro i j hj
    rw [hc] at hj
    exact inv.child_pos i j hj
  · intro i j hj
    rw [hc] at hj
    rw [length_treeModify]
    exact inv.child_lt i j hj
  · intro i j hj hnone
    rw [hc] at hj
    have hpos := inv.child_pos i j hj
    rw [treeNode_treeModify_of_ne tree _ (Nat.ne_of_lt hpos)] at hnone
    exact inv.subdir_top i j hj hnone

/-- Appending an entry and recording it among the children of `current` keeps
the shape when the new entry has a file handle or `current` is the root. -/
theorem IncludeTreeInv.append {tree : List QmakeIncludedPriFile} (inv : IncludeTreeInv tree)
    (current : Nat) (proFile : Option ProFile) (name key : FilePath)
    (h : proFile = none → current = 0) :
    IncludeTreeInv
      (treeModify (tree ++ [{ proFile := proFile, name := name }]) current fun node =>
        { node with children := node.children.insert key tree.length }) := by
  have hlen : (treeModify (tree ++ [{ proFile := proFile, name := name }]) current fun node =>
      { node with children := node.children.insert key tree.length }).length =
      tree.length + 1 := by
    rw [length_treeModify, List.length_append, List.length_singleton]
  have hpro : ∀ j, (treeNode (treeModify (tree ++ [{ proFile := proFile, name := name }])
      current fun node => { node with children := node.children.insert key tree.length })
      j).proFile = (treeNode (tree ++ [{ proFile := proFile, name := name }]) j).proFile :=
    fun j => by
      refine treeNode_treeModify_proj (fun n : QmakeIncludedPriFile => n.proFile) _ current _ ?_ j
      intro _
      rfl
  have hold : ∀ j, j < tree.length →
      treeNode (tree ++ [{ proFile := proFile, name := name }]) j = treeNode tree j :=
    fun j hj => treeNode_append_of_lt tree _ hj
  have hnew : treeNode (tree ++ [({ proFile := proFile, name := name } : QmakeIncludedPriFile)])
      tree.length = { proFile := proFile, name := name } := treeNode_append_length tree _
  have hbig : ∀ j, tree.length < j →
      treeNode (tree ++ [({ proFile := proFile, name := name } : QmakeIncludedPriFile)]) j =
        {} := by
    intro j hj
    apply treeNode_of_length_le
    rw [List.length_append, List.length_singleton]
    exact hj
  have hchildrenAppend : ∀ i,
      (treeNode (tree ++ [({ proFile := proFile, name := name } : QmakeIncludedPriFile)])
        i).children = (treeNode tree i).children := by
    intro i
    rcases Nat.lt_trichotomy i tree.length with hi | hi | hi
    · rw [hold i hi]
    · rw [hi, hnew, treeNode_of_length_le tree (Nat.le_refl _)]
    · rw [hbig i hi, treeNode_of_length_le tree (Nat.le_of_lt hi)]
  have hchildren : ∀ i j, j ∈ (treeNode (treeModify
      (tree ++ [{ proFile := proFile, name := name }]) current fun node =>
        { node with children := node.children.insert key tree.length }) i).children.values →
      j ∈ (treeNode tree i).children.values ∨ (i = current ∧ j = tree.length) := by
    intro i j hj
    by_cases hic : current = i
    · subst hic
      by_cases hlt : current < (tree ++ [({ proFile := proFile, name := name } :
          QmakeIncludedPriFile)]).length
      · rw [treeNode_treeModify_self _ _ hlt] at hj
        simp only at hj
        rcases QMap.mem_values_insert _ _ _ _ hj with h1 | h1
        · rw [hchildrenAppend] at h1
          exact Or.inl h1
        · exact Or.inr ⟨rfl, h1⟩
      · rw [treeModify_of_length_le _ _ (Nat.le_of_not_lt hlt), hchildrenAppend] at hj
        exact Or.inl hj
    · rw [treeNode_treeModify_of_ne _ _ hic, hchildrenAppend] at hj
      exact Or.inl hj
  refine ⟨by rw [hlen]; exact Nat.succ_pos _, ?_, ?_, ?_⟩
  · intro i j hj
    rcases hchildren i j hj with h1 | ⟨_, h1⟩
    · exact inv.child_pos i j h1
    · rw [h1]; exact inv.nonempty
  · intro i j hj
    rw [hlen]
    rcases hchildren i j hj with h1 | ⟨_, h1⟩
    · exact Nat.lt_succ_of_lt (inv.child_lt i j h1)
    · rw [h1]; exact Nat.lt_succ_self _
  · intro i j hj hnone
    rw [hpro] at hnone
    rcases hchildren i j hj with h1 | ⟨h1, h2⟩
    · rw [hold j (inv.child_lt i j h1)] at hnone
      exact inv.subdir_top i j h1 hnone
    · rw [h2, hnew] at hnone
      rw [h1]
      exact h hnone

theorem addSubDir_inv (onlyIfAbsent : Bool) {tree : List QmakeIncludedPriFile}
    (inv : IncludeTreeInv tree) (subDirName : FilePath) :
    IncludeTreeInv (addSubDir onlyIfAbsent tree subDirName) := by
  unfold addSubDir
  split
  · exact inv
  · exact inv.append 0 none subDirName subDirName (fun _ => rfl)

theorem addIncludedChild_inv (current : Nat) {st : IncludeTreeState}
    (inv : IncludeTreeInv st.tree) (child : ProFile) :
    IncludeTreeInv (addIncludedChild current st child).tree := by
  unfold addIncludedChild
  simp only
  split
  · exact inv
  · exact inv.append current (some child) child.fileName child.fileName
      (fun hc => Option.noConfusion hc)

theorem buildIncludedFiles_inv (includeFiles : List (ProFile × List ProFile)) :
    ∀ (fuel : Nat) (toBuild : List Nat) (st st' : IncludeTreeState),
      IncludeTreeInv st.tree → buildIncludedFiles includeFiles fuel toBuild st = some st' →
      IncludeTreeInv st'.tree := by
  intro fuel
  induction fuel with
  | zero =>
    intro toBuild st st' inv h
    cases toBuild with
    | nil =>
      simp only [buildIncludedFiles, Option.some.injEq] at h
      rw [← h]; exact inv
    | cons _ _ => simp [buildIncludedFiles] at h
  | succ fuel ih =>
    intro toBuild st st' inv h
    cases toBuild with
    | nil =>
      simp only [buildIncludedFiles, Option.some.injEq] at h
      rw [← h]; exact inv
    | cons current rest =>
      unfold buildIncludedFiles at h
      split at h
      · exact ih _ _ _ inv h
      · refine ih _ _ _ ?_ h
        have hfold : ∀ (children : List ProFile) (st : IncludeTreeState),
            IncludeTreeInv st.tree →
            IncludeTreeInv (children.foldl (addIncludedChild current) st).tree := by
          intro children
          induction children with
          | nil => intro st inv; exact inv
          | cons c cs ihc =>
            intro st inv
            rw [List.foldl_cons]
            exact ihc _ (addIncludedChild_inv current inv c)
        exact hfold _ _ inv

theorem foldl_addSubDir_inv (onlyIfAbsent : Bool) (subDirs : List FilePath) :
    ∀ tree : List QmakeIncludedPriFile, IncludeTreeInv tree →
      IncludeTreeInv (subDirs.foldl (addSubDir onlyIfAbsent) tree) := by
  induction subDirs with
  | nil => intro tree inv; exact inv
  | cons s rest ih =>
    intro tree inv
    rw [List.foldl_cons]
    exact ih _ (addSubDir_inv onlyIfAbsent inv s)

theorem evaluateIncludedFiles_inv {fuel : Nat} {fs : FileSystem} {input : QmakeEvalInput}
    {result result' : QmakeEvalResult} {st : IncludeTreeState}
    (inv : IncludeTreeInv result.includedFiles)
    (h : evaluateIncludedFiles fuel fs input result = some (result', st)) :
    IncludeTreeInv st.tree := by
  unfold evaluateIncludedFiles at h
  simp only [Option.bind_eq_some, Option.map_eq_some', Prod.exists, Prod.mk.injEq] at h
  obtain ⟨r1, st1, h1, st2, h2, _, hst⟩ := h
  subst hst
  have inv0 := inv.setRoot input.readerExact.parsedProFile input.projectFilePath
  have inv1 : IncludeTreeInv st1.tree := by
    split at h1
    · simp only [Option.map_eq_some', Prod.mk.injEq] at h1
      obtain ⟨st0, hb, _, hst0⟩ := h1
      subst hst0
      refine buildIncludedFiles_inv _ _ _ _ _ ?_ hb
      split
      · exact foldl_addSubDir_inv false _ _ inv0
      · exact inv0
    · simp only [Option.some.injEq, Prod.mk.injEq] at h1
      rw [← h1.2]
      exact inv0
  refine buildIncludedFiles_inv _ _ _ _ _ ?_ h2
  simp only
  split
  · exact foldl_addSubDir_inv true _ _ inv1
  · exact inv1

theorem extractVariable_shape (fs : FileSystem) (input : QmakeEvalInput) (state : EvalResultState)
    (exactReader cumulativeReader : ProFileReader)
    (baseVPathsExact baseVPathsCumulative : List String) (proToResult : List (Int × Nat))
    (type : FileType) (st : ExtractState) (qmakeVariable : String) :
    (extractVariable fs input state exactReader cumulativeReader baseVPathsExact
      baseVPathsCumulative proToResult type st qmakeVariable).tree.length = st.tree.length ∧
    ∀ j, (treeNode (extractVariable fs input state exactReader cumulativeReader baseVPathsExact
      baseVPathsCumulative proToResult type st qmakeVariable).tree j).shape =
      (treeNode st.tree j).shape := by
  unfold extractVariable
  simp only
  split
  · obtain ⟨h1, h2⟩ := extractSources_proj QmakeIncludedPriFile.shape (fun _ _ => rfl)
      fs.fromUserInput input.qmakeGlobals.device_root proToResult
      (exactReader.absoluteFileValues qmakeVariable input.projectDir
        (fullVPaths baseVPathsExact (some exactReader) qmakeVariable input.projectDir) []).1
      type false st.tree
    refine ⟨Eq.trans (extractSources_proj QmakeIncludedPriFile.shape (fun _ _ => rfl)
      _ _ _ _ _ _ _).1 h1, fun j => Eq.trans ((extractSources_proj QmakeIncludedPriFile.shape
        (fun _ _ => rfl) _ _ _ _ _ _ _).2 j) (h2 j)⟩
  · exact extractSources_proj QmakeIncludedPriFile.shape (fun _ _ => rfl) _ _ _ _ _ _ _

theorem evaluateValues_shape (fs : FileSystem) (input : QmakeEvalInput)
    (exactBuildPassReader cumulativeBuildPassReader : Option ProFileReader)
    (result : QmakeEvalResult) (st : IncludeTreeState) :
    (evaluateValues fs input exactBuildPassReader cumulativeBuildPassReader result st).2.length =
      st.tree.length ∧
    ∀ j, (treeNode (evaluateValues fs input exactBuildPassReader cumulativeBuildPassReader
      result st).2 j).shape = (treeNode st.tree j).shape := by
  have hvars : ∀ (exactReader cumulativeReader : ProFileReader)
      (baseVPathsExact baseVPathsCumulative : List String) (type : FileType)
      (vars : List String) (ex : ExtractState),
      (vars.foldl (extractVariable fs input result.state exactReader cumulativeReader
        baseVPathsExact baseVPathsCumulative st.proToResult type) ex).tree.length =
        ex.tree.length ∧
      ∀ j, (treeNode (vars.foldl (extractVariable fs input result.state exactReader
        cumulativeReader baseVPathsExact baseVPathsCumulative st.proToResult type) ex).tree
        j).shape = (treeNode ex.tree j).shape := by
    intro exactReader cumulativeReader b1 b2 type vars
    induction vars with
    | nil => intro ex; exact ⟨rfl, fun _ => rfl⟩
    | cons v rest ih =>
      intro ex
      rw [List.foldl_cons]
      obtain ⟨h1, h2⟩ := ih (extractVariable fs input result.state exactReader cumulativeReader
        b1 b2 st.proToResult type ex v)
      obtain ⟨g1, g2⟩ := extractVariable_shape fs input result.state exactReader
        cumulativeReader b1 b2 st.proToResult type ex v
      exact ⟨h1.trans g1, fun j => (h2 j).trans (g2 j)⟩
  have htypes : ∀ (exactReader cumulativeReader : ProFileReader)
      (baseVPathsExact baseVPathsCumulative : List String)
      (types : List FileType) (ex : ExtractState),
      (types.foldl
        (fun (ex : ExtractState) type =>
          (varNames type exactReader).foldl
            (extractVariable fs input result.state exactReader cumulativeReader
              baseVPathsExact baseVPathsCumulative st.proToResult type)
            ex)
        ex).tree.length = ex.tree.length ∧
      ∀ j, (treeNode (types.foldl
        (fun (ex : ExtractState) type =>
          (varNames type exactReader).foldl
            (extractVariable fs input result.state exactReader cumulativeReader
              baseVPathsExact baseVPathsCumulative st.proToResult type)
            ex)
        ex).tree j).shape = (treeNode ex.tree j).shape := by
    intro exactReader cumulativeReader b1 b2 types
    induction types with
    | nil => intro ex; exact ⟨rfl, fun _ => rfl⟩
    | cons t rest ih =>
      intro ex
      rw [List.foldl_cons]
      obtain ⟨h1, h2⟩ := ih ((varNames t exactReader).foldl
        (extractVariable fs input result.state exactReader cumulativeReader b1 b2
          st.proToResult t) ex)
      obtain ⟨g1, g2⟩ := hvars exactReader cumulativeReader b1 b2 t (varNames t exactReader) ex
      exact ⟨h1.trans g1, fun j => (h2 j).trans (g2 j)⟩
  unfold evaluateValues
  simp only
  obtain ⟨i1, i2⟩ := extractInstalls_proj QmakeIncludedPriFile.shape (fun _ _ => rfl)
    fs.fromUserInput input.qmakeGlobals.device_root st.proToResult
    (installsList exactBuildPassReader input.projectDir input.buildDirectory)
    (FileType.all.foldl
      (fun (ex : ExtractState) type =>
        (varNames type (exactBuildPassReader.getD input.readerExact)).foldl
          (extractVariable fs input result.state (exactBuildPassReader.getD input.readerExact)
            (cumulativeBuildPassReader.getD input.readerCumulative)
            (baseVPaths (some (exactBuildPassReader.getD input.readerExact)) input.projectDir
              input.buildDirectory)
            (baseVPaths (some (cumulativeBuildPassReader.getD input.readerCumulative))
              input.projectDir input.buildDirectory)
            st.proToResult type)
          ex)
      { tree := st.tree, directoriesWithWildcards := result.directoriesWithWildcards }).tree
  obtain ⟨t1, t2⟩ := htypes (exactBuildPassReader.getD input.readerExact)
    (cumulativeBuildPassReader.getD input.readerCumulative)
    (baseVPaths (some (exactBuildPassReader.getD input.readerExact)) input.projectDir
      input.buildDirectory)
    (baseVPaths (some (cumulativeBuildPassReader.getD input.readerCumulative))
      input.projectDir input.buildDirectory)
    FileType.all
    { tree := st.tree, directoriesWithWildcards := result.directoriesWithWildcards }
  exact ⟨i1.trans t1, fun j => (i2 j).trans (t2 j)⟩

theorem processIncludedFiles_shape (fs : FileSystem) :
    ∀ (fuel : Nat) (toExtract : List Nat) (tree tree' : List QmakeIncludedPriFile),
      processIncludedFiles fs fuel toExtract tree = some tree' →
      tree'.length = tree.length ∧ ∀ j, (treeNode tree' j).shape = (treeNode tree j).shape := by
  intro fuel
  induction fuel with
  | zero =>
    intro toExtract tree tree' h
    cases toExtract with
    | nil =>
      simp only [processIncludedFiles, Option.some.injEq] at h
      rw [← h]; exact ⟨rfl, fun _ => rfl⟩
    | cons _ _ => simp [processIncludedFiles] at h
  | succ fuel ih =>
    intro toExtract tree tree' h
    cases toExtract with
    | nil =>
      simp only [processIncludedFiles, Option.some.injEq] at h
      rw [← h]; exact ⟨rfl, fun _ => rfl⟩
    | cons current rest =>
      unfold processIncludedFiles at h
      obtain ⟨h1, h2⟩ := ih _ _ _ h
      refine ⟨h1.trans (length_treeModify _ _ _), fun j => (h2 j).trans ?_⟩
      apply treeNode_treeModify_proj
      intro node
      rfl

/-- The included-file tree of every result of `evaluate` has the shape
`IncludeTreeInv`. -/
theorem evaluate_includeTreeInv {fuel : Nat} {fs : FileSystem} {heap heap' : Heap}
    {input : QmakeEvalInput} {result : QmakeEvalResult}
    (h : QmakeProFile.evaluate fuel fs heap input = some (heap', result)) :
    IncludeTreeInv result.includedFiles := by
  by_cases hf : (evaluateState input).1 = .EvalFail
  · rw [evaluate_of_evalFail fuel fs heap input hf] at h
    simp only [Option.some.injEq, Prod.mk.injEq] at h
    rw [← h.2]
    exact IncludeTreeInv.single
  · unfold QmakeProFile.evaluate at h
    simp only [hf, if_false, Option.bind_eq_some, Prod.exists] at h
    obtain ⟨r1, st, h1, h2⟩ := h
    have inv0 : IncludeTreeInv
        ({ state := (evaluateState input).1 } : QmakeEvalResult).includedFiles :=
      IncludeTreeInv.single
    have inv1 := evaluateIncludedFiles_inv inv0 h1
    obtain ⟨v1, v2⟩ := evaluateValues_shape fs input (evaluateState input).2.1
      (evaluateState input).2.2 r1 st
    have inv2 := inv1.of_shape v1 v2
    unfold evaluateChildNodes at h2
    simp only [Option.bind_eq_some, Option.map_eq_some', Prod.mk.injEq] at h2
    obtain ⟨tree, htree, cs, _, _, hres⟩ := h2
    rw [← hres]
    simp only
    split at htree
    · obtain ⟨p1, p2⟩ := processIncludedFiles_shape fs _ _ _ _ htree
      exact inv2.of_shape p1 p2
    · simp only [Option.some.injEq] at htree
      rw [← htree]
      exact inv2

/-! ## Sub-project nodes are made at the top level only -/

/-- Among the nodes that `evaluate` creates, a `QmakeProFile` has no parent, and
so no created node has a `QmakeProFile` child; the children of a created node
are created nodes. -/
theorem evaluate_proFile_parentless {fuel : Nat} {fs : FileSystem} {heap heap' : Heap}
    {input : QmakeEvalInput} {result : QmakeEvalResult}
    (h : QmakeProFile.evaluate fuel fs heap input = some (heap', result)) :
    (∀ p, heap.next ≤ p → p < heap'.next → (heap'.objs p).isProFile = true →
      (heap'.objs p).m_parent = none) ∧
    (∀ n c, heap.next ≤ n → n < heap'.next → c ∈ (heap'.objs n).m_children →
      heap.next ≤ c ∧ c < heap'.next ∧ (heap'.objs c).isProFile = false) := by
  obtain ⟨cs, origin, inv, hheap, _, _, _⟩ := evaluate_inv h
  have tinv := evaluate_includeTreeInv h
  subst hheap
  have hparentless : ∀ p, heap.next ≤ p → p < cs.heap.next →
      (cs.heap.objs p).isProFile = true → (cs.heap.objs p).m_parent = none := by
    intro p h1 h2 hpro
    have hnode := inv.node p h1 h2
    have hkind : (cs.heap.objs p).isProFile =
        (newChildNode input result.state result.exactSubdirs
          (treeNode result.includedFiles (origin p))).isProFile := by
      rw [← hnode]; rfl
    rw [hpro] at hkind
    have hnone : (treeNode result.includedFiles (origin p)).proFile = none := by
      unfold newChildNode at hkind
      split at hkind
      · cases hkind
      · rename_i hn; exact hn
    have hpar := inv.parent p h1 h2
    cases hp : (cs.heap.objs p).m_parent with
    | none => rfl
    | some q =>
      rw [hp] at hpar
      simp only at hpar
      obtain ⟨q1, q2, q3⟩ := hpar
      have hzero := tinv.subdir_top _ _ q3 hnone
      have hq := inv.parent q q1 (Nat.lt_trans q2 h2)
      have hpos : 0 < origin q := by
        cases hqp : (cs.heap.objs q).m_parent with
        | none =>
          rw [hqp] at hq
          exact tinv.child_pos _ _ hq
        | some r =>
          rw [hqp] at hq
          exact tinv.child_pos _ _ hq.2.2
      rw [hzero] at hpos
      exact absurd hpos (Nat.lt_irrefl 0)
  refine ⟨hparentless, ?_⟩
  intro n c h1 h2 hc
  obtain ⟨c1, c2, c3⟩ := (inv.links n h1 h2 c).1 hc
  refine ⟨c1, c2, ?_⟩
  cases hpro : (cs.heap.objs c).isProFile with
  | false => rfl
  | true =>
    rw [hparentless c c1 c2 hpro] at c3
    cases c3

theorem addChild_children_of_ne (h : Heap) (this pf : NodeId) {x : NodeId} (hx : x ≠ this) :
    ((QmakePriFile.addChild h this pf).objs x).m_children = (h.objs x).m_children := by
  unfold QmakePriFile.addChild QmakePriFile.setParent
  split
  · rfl
  · split
    · rfl
    · simp only
      split
      · rw [Heap.modify_objs_of_ne _ _ hx]
      · refine (Heap.modify_field _ pf _ (fun o => o.m_children) ?_ x).trans ?_
        · intro o; rfl
        · rw [Heap.modify_objs_of_ne _ _ hx]

theorem foldl_addChild_children_of_ne (this : NodeId) {x : NodeId} (hx : x ≠ this) :
    ∀ (l : List NodeId) (h : Heap),
      ((l.foldl (fun h toAdd => QmakePriFile.addChild h this toAdd) h).objs x).m_children =
        (h.objs x).m_children := by
  intro l
  induction l with
  | nil => intro h; rfl
  | cons c l ih =>
    intro h
    rw [List.foldl_cons, ih, addChild_children_of_ne h this c hx]

theorem applyEvaluateProjectType_children_of_ne {fuel : Nat} {w w1 : World} {this : NodeId}
    {result : QmakeEvalResult} (h : applyEvaluateProjectType fuel w this result = some w1)
    {x : NodeId} (hx : x ≠ this) :
    (w1.heap.objs x).m_children = (w.heap.objs x).m_children := by
  unfold applyEvaluateProjectType at h
  split at h
  · simp only [Option.bind_eq_some, Option.map_eq_some'] at h
    obtain ⟨h2, hfold, w3, hempty, hw1⟩ := h
    subst hw1
    have hloop : ∀ (cs : List NodeId) (h1 h2 : Heap),
        cs.foldlM
          (fun (h : Heap) c =>
            if (h.objs c).isProFile then
              (QmakeProFile.setValidParseRecursive false fuel h c).bind fun h =>
                QmakeProFile.setParseInProgressRecursive false fuel h c
            else some h) h1 = some h2 →
        (h2.objs x).m_children = (h1.objs x).m_children := by
      intro cs
      induction cs with
      | nil =>
        intro h1 h2 hh
        simp only [List.foldlM_nil, pure, Option.some.injEq] at hh
        rw [hh]
      | cons c cs ihc =>
        intro h1 h2 hh
        simp only [List.foldlM_cons, bind, Option.bind_eq_some] at hh
        obtain ⟨h3, hstep, hrest⟩ := hh
        rw [ihc _ _ hrest]
        split at hstep
        · simp only [Option.bind_eq_some] at hstep
          obtain ⟨h4, hv, hp⟩ := hstep
          rw [setParseInProgressRecursive_eq] at hp
          rw [setValidParseRecursive_eq] at hv
          rw [setRecursive_field_of hp (fun o => o.m_children) (fun o => rfl),
            setRecursive_field_of hv (fun o => o.m_children) (fun o => rfl)]
        · simp only [Option.some.injEq] at hstep
          rw [hstep]
    rw [World.modify_heap, Heap.modify_objs_of_ne _ _ hx, (makeEmpty_children hempty).2 x hx]
    exact hloop _ _ _ hfold
  · simp only [Option.some.injEq] at h
    rw [h]

theorem applyEvaluateValues_isProFile (featureRoots : List String) (w : World) (this : NodeId)
    (result : QmakeEvalResult) (x : NodeId) :
    ((applyEvaluateValues featureRoots w this result).heap.objs x).isProFile =
      (w.heap.objs x).isProFile := by
  unfold applyEvaluateValues
  simp only
  rw [cleanupProFileReaders_field (fun o => o.isProFile) (fun _ _ _ _ _ _ => rfl)]
  simp only [QmakeProFile.setParseInProgress]
  refine (Heap.modify_field _ this _ (fun o => o.isProFile) ?_ x).trans ?_
  · intro o; rfl
  split
  · simp only [World.modify_heap]
    refine (Heap.modify_field _ this _ (fun o => o.isProFile) ?_ x).trans ?_
    · intro o; rfl
    refine (Heap.modify_field _ this _ (fun o => o.isProFile) ?_ x).trans ?_
    · intro o; rfl
    apply Heap.modify_field _ this _ (fun o => o.isProFile)
    intro o; rfl
  · rw [World.modify_heap]
    apply Heap.modify_field _ this _ (fun o => o.isProFile)
    intro o; rfl

/-- What `applyEvaluate` does to the tree when it applies a result whose state
is `EvalOk` or `EvalPartial`: the children of the node become the direct
children of the result, the child lists of the other nodes and the dynamic
type of every node stay. -/
theorem applyEvaluate_tree (fuel : Nat) (featureRoots : List String) (w : World)
    (this : NodeId) (result : QmakeEvalResult)
    (hreader : (w.heap.objs this).m_readerExact.isSome = true)
    (hbuildSystem : (w.heap.objs this).m_buildSystem = true)
    (hrunning : w.buildSystem.shuttingDown = false)
    (hnotCanceled : w.buildSystem.wasEvaluateCanceled = false)
    (hstate : result.state = .EvalOk ∨ result.state = .EvalPartial)
    (hdepth : SubtreeWithin w.heap fuel this)
    (hdistinct : result.directChildren.Nodup)
    (hparentless : ∀ c ∈ result.directChildren, (w.heap.objs c).m_parent = none)
    (hother : this ∉ result.directChildren) :
    ∃ w' result', QmakeProFile.applyEvaluate fuel featureRoots w this result =
        some (w', result') ∧
      (w'.heap.objs this).m_children = result.directChildren ∧
      (∀ x, x ≠ this → (w'.heap.objs x).m_children = (w.heap.objs x).m_children) ∧
      (∀ x, (w'.heap.objs x).isProFile = (w.heap.objs x).isProFile) := by
  have herr := parseErrors_heap this result.errors w
  obtain ⟨w1, hw1, hparent1, hdepth1⟩ := applyEvaluateProjectType_spec fuel
    (result.errors.foldl
      (fun w error => w.call (.proFileParseError error (w.heap.objs this).m_filePath)) w)
    this result (by rw [herr.1]; exact hdepth)
  obtain ⟨w2, hw2⟩ := makeEmpty_isSome fuel w1 this hdepth1
  have hparent2 : ∀ x, (w2.heap.objs x).m_parent = (w.heap.objs x).m_parent := fun x => by
    rw [makeEmpty_field (fun o => o.m_parent) (fun _ _ _ _ _ _ => rfl) (fun _ _ => rfl) hw2 x,
      hparent1, herr.1]
  have hchildren2 := (makeEmpty_children hw2).1
  obtain ⟨hadd1, _, _⟩ := foldl_addChild this result.directChildren w2.heap hdistinct hother
    (by intro c _; rw [hchildren2]; exact List.not_mem_nil c)
    (by intro c hc; rw [hparent2]; exact hparentless c hc)
  have hlinks : ∀ x,
      ((applyEvaluateValues featureRoots (applyEvaluateChildren w2 this result) this
        result).heap.objs x).links =
      ((result.directChildren.foldl (fun h toAdd => QmakePriFile.addChild h this toAdd)
        w2.heap).objs x).links := fun x => by
    rw [applyEvaluateValues_links, applyEvaluateChildren_links]
  have hlinking : IgnoresLinking (fun o : QmakePriFile => o.isProFile) :=
    fun _ _ _ _ _ _ _ _ _ _ _ _ => rfl
  refine ⟨applyEvaluateValues featureRoots (applyEvaluateChildren w2 this result) this result,
    { result with directChildren := [] }, ?_, ?_, ?_, ?_⟩
  · unfold QmakeProFile.applyEvaluate
    have h1 : (w.heap.objs this).m_readerExact.isNone = false := by
      cases hr : (w.heap.objs this).m_readerExact with
      | none => rw [hr] at hreader; cases hreader
      | some _ => rfl
    have h2 : ¬(result.state = .EvalFail ∨
        (result.errors.foldl
          (fun w error => w.call (.proFileParseError error (w.heap.objs this).m_filePath))
          w).buildSystem.wasEvaluateCanceled = true) := by
      rw [herr.2, hnotCanceled]
      rintro (h | h)
      · rcases hstate with hs | hs <;> rw [hs] at h <;> cases h
      · cases h
    simp only [h1, hbuildSystem, hrunning, Bool.false_eq_true, if_false, Bool.not_true, h2, hw1,
      Option.some_bind, hw2, Option.map_some']
  · have hl := congrArg Prod.snd (hlinks this)
    simp only [QmakePriFile.links] at hl
    rw [hl, hadd1, hchildren2, List.nil_append]
  · intro x hx
    have hl := congrArg Prod.snd (hlinks x)
    simp only [QmakePriFile.links] at hl
    rw [hl, foldl_addChild_children_of_ne this hx, (makeEmpty_children hw2).2 x hx,
      applyEvaluateProjectType_children_of_ne hw1 hx, herr.1]
  · intro x
    rw [applyEvaluateValues_isProFile]
    have h3 := applyEvaluateChildren_field (fun o : QmakePriFile => o.isProFile) hlinking w2 this
      result x
    have h4 := makeEmpty_field (fun o : QmakePriFile => o.isProFile) hlinking.teardown
      (fun o cs => hlinking.children o cs) hw2 x
    have h5 := applyEvaluateProjectType_field (fun o : QmakePriFile => o.isProFile) hlinking
      (fun _ _ => rfl) (fun _ _ => rfl) (fun _ _ => rfl) hw1 x
    simp only at h3 h4 h5
    rw [h3, h4, h5, herr.1]

/-- C29: sub-project nodes occur only at the top level of the result of
`QmakeProFile::evaluate`. In every result, every node of `proFiles` is in
`directChildren` and has no parent, and no `QmakeProFile` is a descendant of a
node that the evaluation created, so of none of the included `QmakePriFile`
nodes. Consequently the shape "a `QmakeProFile` hangs only under a
`QmakeProFile`" of the tree below any node `root` is kept when `applyEvaluate`
applies the result (state `EvalOk` or `EvalPartial`, readers set up, not
shutting down, not cancelled) to a `QmakeProFile` node `this`; afterwards every
`QmakeProFile` below `root` is reached through `QmakeProFile` children, and
`setValidParseRecursive` and `setParseInProgressRecursive`, called on `root`
with fuel for its subtree, return and have assigned to every one of them.
Here `heap` is the heap in which the evaluation started, whose child lists
point to allocated nodes only, and `heap'` the heap as the evaluation left
it. -/
theorem evaluate_proFiles_only_at_top_level (fuelEvaluate : Nat) (fs : FileSystem)
    (heap heap' : Heap) (input : QmakeEvalInput) (result : QmakeEvalResult)
    (hevaluate : QmakeProFile.evaluate fuelEvaluate fs heap input = some (heap', result)) :
    (∀ p ∈ result.proFiles, p ∈ result.directChildren ∧ (heap'.objs p).m_parent = none) ∧
    (∀ n, heap.next ≤ n → n < heap'.next →
      ∀ d, IsDescendant heap' n d → (heap'.objs d).isProFile = false) ∧
    (∀ (fuel : Nat) (featureRoots : List String) (buildSystem : QmakeBuildSystem)
      (this root : NodeId),
      (∀ x, x < heap.next → ∀ c ∈ (heap.objs x).m_children, c < heap.next) →
      this < heap.next → root < heap.next →
      (heap.objs this).isProFile = true →
      NoProFileBelowPriFile heap root →
      (heap'.objs this).m_readerExact.isSome = true →
      (heap'.objs this).m_buildSystem = true →
      buildSystem.shuttingDown = false → buildSystem.wasEvaluateCanceled = false →
      (result.state = .EvalOk ∨ result.state = .EvalPartial) →
      SubtreeWithin heap' fuel this →
      ∃ w' result',
        QmakeProFile.applyEvaluate fuel featureRoots { heap := heap', buildSystem := buildSystem }
          this result = some (w', result') ∧
        (w'.heap.objs this).m_children = result.directChildren ∧
        (∀ x, (w'.heap.objs x).isProFile = (heap'.objs x).isProFile) ∧
        NoProFileBelowPriFile w'.heap root ∧
        (∀ d, IsDescendant w'.heap root d → (w'.heap.objs d).isProFile = true →
          ProReach w'.heap root d) ∧
        (∀ b fuel2, SubtreeWithin w'.heap fuel2 root →
          ∃ h2 h3,
            QmakeProFile.setValidParseRecursive b fuel2 w'.heap root = some h2 ∧
            QmakeProFile.setParseInProgressRecursive b fuel2 w'.heap root = some h3 ∧
            ∀ d, IsDescendant w'.heap root d → (w'.heap.objs d).isProFile = true →
              (h2.objs d).m_validParse = b ∧ (h3.objs d).m_parseInProgress = b)) := by
  obtain ⟨hparentless, hcreated⟩ := evaluate_proFile_parentless hevaluate
  obtain ⟨hnodup, hdirect, hold⟩ := evaluate_directChildren_fresh hevaluate
  have hbase : heap.next ≤ heap'.next := by
    obtain ⟨cs, origin, inv, hheap, _, _, _⟩ := evaluate_inv hevaluate
    rw [← hheap]
    exact inv.base_le
  refine ⟨?_, ?_, ?_⟩
  · intro p hp
    obtain ⟨p1, p2, p3, _⟩ := evaluate_proFiles hevaluate p hp
    have hnone := hparentless p p1 p2 p3
    obtain ⟨cs, origin, inv, hheap, hdc, _, _⟩ := evaluate_inv hevaluate
    subst hheap
    rw [← hdc]
    exact ⟨(inv.direct p).2 ⟨p1, p2, hnone⟩, hnone⟩
  · intro n h1 h2 d hdesc
    have hboth : (heap.next ≤ d ∧ d < heap'.next) ∧ (heap'.objs d).isProFile = false := by
      induction hdesc with
      | child hmem =>
        obtain ⟨c1, c2, c3⟩ := hcreated _ _ h1 h2 hmem
        exact ⟨⟨c1, c2⟩, c3⟩
      | step hmem _ ih =>
        obtain ⟨c1, c2, _⟩ := hcreated _ _ h1 h2 hmem
        exact ih c1 c2
    exact hboth.2
  · intro fuel featureRoots buildSystem this root hclosed hthis hroot hpro htree hreader
      hbuildSystem hrunning hnotCanceled hstate hdepth
    obtain ⟨w', result', happly, hch, hchne, hkind⟩ := applyEvaluate_tree fuel featureRoots
      { heap := heap', buildSystem := buildSystem } this result hreader hbuildSystem hrunning
      hnotCanceled hstate hdepth hnodup (fun c hc => (hdirect c hc).2.2)
      (fun hc => absurd (hdirect this hc).1 (Nat.not_le_of_lt hthis))
    have hchne' : ∀ x, x ≠ this → (w'.heap.objs x).m_children = (heap'.objs x).m_children :=
      hchne
    have hkind' : ∀ x, (w'.heap.objs x).isProFile = (heap'.objs x).isProFile := hkind
    -- the children of an allocated node are allocated, those of this and of a
    -- created node are created nodes
    have hstep : ∀ x c, x < heap'.next → c ∈ (w'.heap.objs x).m_children →
        c < heap'.next ∧
        ((x = this ∨ heap.next ≤ x) → heap.next ≤ c) ∧
        (heap.next ≤ x → (heap'.objs c).isProFile = false) ∧
        (x ≠ this → x < heap.next → c < heap.next ∧ c ∈ (heap.objs x).m_children) := by
      intro x c hx hc
      by_cases hxt : x = this
      · subst hxt
        rw [hch] at hc
        obtain ⟨d1, d2, _⟩ := hdirect c hc
        exact ⟨d2, fun _ => d1, fun hge => absurd hge (Nat.not_le_of_lt hthis),
          fun hne => absurd rfl hne⟩
      · rw [hchne' x hxt] at hc
        by_cases hxo : x < heap.next
        · rw [hold x hxo] at hc
          have hlt := hclosed x hxo c hc
          exact ⟨Nat.lt_of_lt_of_le hlt hbase,
            fun hor => hor.elim (fun e => absurd e hxt)
              (fun hge => absurd hge (Nat.not_le_of_lt hxo)),
            fun hge => absurd hge (Nat.not_le_of_lt hxo), fun _ _ => ⟨hlt, hc⟩⟩
        · obtain ⟨c1, c2, c3⟩ := hcreated x c (Nat.le_of_not_lt hxo) hx hc
          exact ⟨c2, fun _ => c1, fun _ => c3, fun _ hlt => absurd hlt hxo⟩
    have hbelow : ∀ x d, IsDescendant w'.heap x d → x < heap'.next →
        d < heap'.next ∧ ((x = this ∨ heap.next ≤ x) → heap.next ≤ d) := by
      intro x d hdesc
      induction hdesc with
      | child hmem =>
        intro hx
        obtain ⟨s1, s2, _, _⟩ := hstep _ _ hx hmem
        exact ⟨s1, s2⟩
      | step hmem _ ih =>
        intro hx
        obtain ⟨s1, s2, _, _⟩ := hstep _ _ hx hmem
        obtain ⟨i1, i2⟩ := ih s1
        exact ⟨i1, fun hor => i2 (Or.inr (s2 hor))⟩
    have hbefore : ∀ x d, IsDescendant w'.heap x d → x < heap.next → d < heap.next →
        IsDescendant heap x d := by
      intro x d hdesc
      induction hdesc with
      | @child n e hmem =>
        intro hx hd
        obtain ⟨_, s2, _, s4⟩ := hstep n e (Nat.lt_of_lt_of_le hx hbase) hmem
        by_cases hxt : n = this
        · exact absurd (s2 (Or.inl hxt)) (Nat.not_le_of_lt hd)
        · exact IsDescendant.child (s4 hxt hx).2
      | @step n c e hmem hrest ih =>
        intro hx hd
        obtain ⟨s1, s2, _, s4⟩ := hstep n c (Nat.lt_of_lt_of_le hx hbase) hmem
        by_cases hxt : n = this
        · exact absurd ((hbelow c e hrest s1).2 (Or.inr (s2 (Or.inl hxt))))
            (Nat.not_le_of_lt hd)
        · exact IsDescendant.step (s4 hxt hx).2 (ih (s4 hxt hx).1 hd)
    have hinv : NoProFileBelowPriFile w'.heap root := by
      intro n c hdesc hc hcpro
      have hn := (hbelow _ _ hdesc (Nat.lt_of_lt_of_le hroot hbase)).1
      obtain ⟨_, _, s3, s4⟩ := hstep n c hn hc
      rw [hkind'] at hcpro ⊢
      by_cases hnt : n = this
      · rw [hnt, hold this hthis]
        exact hpro
      · by_cases hno : n < heap.next
        · obtain ⟨c1, c2⟩ := s4 hnt hno
          rw [hold n hno]
          rw [hold c c1] at hcpro
          exact htree n c (hbefore _ _ hdesc hroot hno) c2 hcpro
        · rw [s3 (Nat.le_of_not_lt hno)] at hcpro
          cases hcpro
    have hreach : ∀ d, IsDescendant w'.heap root d → (w'.heap.objs d).isProFile = true →
        ProReach w'.heap root d := fun d hdesc hd => proReach_of_descendant hdesc hd hinv
    refine ⟨w', result', happly, hch, hkind', hinv, hreach, ?_⟩
    intro b fuel2 hdepth2
    obtain ⟨h2, hs2⟩ := setRecursive_isSome (fun o => { o with m_validParse := b })
      (fun _ => rfl) fuel2 w'.heap root hdepth2
    obtain ⟨h3, hs3⟩ := setRecursive_isSome (fun o => { o with m_parseInProgress := b })
      (fun _ => rfl) fuel2 w'.heap root hdepth2
    refine ⟨h2, h3, ?_, ?_, ?_⟩
    · rw [setValidParseRecursive_eq]; exact hs2
    · rw [setParseInProgressRecursive_eq]; exact hs3
    · intro d hdesc hd
      exact ⟨setRecursive_reach_of hs2 (fun o => o.m_validParse = b) (fun _ => rfl)
          (fun _ => rfl) (fun _ => rfl) d (hreach d hdesc hd),
        setRecursive_reach_of hs3 (fun o => o.m_parseInProgress = b) (fun _ => rfl)
          (fun _ => rfl) (fun _ => rfl) d (hreach d hdesc hd)⟩

/-- Witness for C29: `a.pro` of the example world is evaluated with
`SUBDIRS = sub`; the sub-project node made at address 2 is a direct child
without parent, and after `applyEvaluate` it is reached from the node of
`a.pro` through `QmakeProFile` children. -/
theorem evaluate_proFiles_only_at_top_level_witness :
    ∃ heap' result w' result',
      QmakeProFile.evaluate 10 subdirsFileSystem exampleWorld.heap subdirsInput =
        some (heap', result) ∧
      result.proFiles = [2] ∧ result.directChildren = [2] ∧ (heap'.objs 2).m_parent = none ∧
      QmakeProFile.applyEvaluate 2 []
        { heap := heap', buildSystem := exampleWorld.buildSystem } 0 result =
        some (w', result') ∧
      (w'.heap.objs 0).m_children = [2] ∧ (w'.heap.objs 2).isProFile = true ∧
      NoProFileBelowPriFile w'.heap 0 ∧ ProReach w'.heap 0 2 := by
  have hsome : ((QmakeProFile.evaluate 10 subdirsFileSystem exampleWorld.heap subdirsInput).map
      fun hr => (hr.2.proFiles, hr.2.directChildren, hr.2.state)) =
      some ([2], [2], .EvalOk) := by decide
  obtain ⟨⟨heap', result⟩, h, hv⟩ := Option.map_eq_some'.1 hsome
  simp only [Prod.mk.injEq] at hv
  obtain ⟨hv1, hv2, hv3⟩ := hv
  have hold := (evaluate_directChildren_fresh h).2.2
  have h0 : heap'.objs 0 = exampleWorld.heap.objs 0 := hold 0 (by decide)
  have h1 : heap'.objs 1 = exampleWorld.heap.objs 1 := hold 1 (by decide)
  have hpro2 := (evaluate_proFiles h 2 (by rw [hv1]; exact List.mem_singleton_self 2)).2.2.1
  obtain ⟨htop, _, happlied⟩ := evaluate_proFiles_only_at_top_level 10 subdirsFileSystem
    exampleWorld.heap heap' subdirsInput result h
  obtain ⟨w', result', happly, hch, hkind, hinv, hreach, _⟩ := happlied 2 []
    exampleWorld.buildSystem 0 0
    (fun x _ c hc => by
      have := children_exampleWorld x c hc
      rw [this.2]
      decide)
    (by decide) (by decide) rfl noProFileBelowPriFile_exampleWorld
    (by rw [h0]; rfl) (by rw [h0]; rfl) rfl rfl (Or.inl hv3)
    (by
      intro c hc
      rw [h0] at hc
      have hc1 := (children_exampleWorld _ _ hc).2
      subst hc1
      intro c hc
      rw [h1] at hc
      exact absurd (children_exampleWorld _ _ hc).1 (by decide))
  have hkind2 : (w'.heap.objs 2).isProFile = true := by rw [hkind]; exact hpro2
  have hmem : 2 ∈ (w'.heap.objs 0).m_children := by
    rw [hch, hv2]; exact List.mem_singleton_self 2
  refine ⟨heap', result, w', result', h, hv1, hv2,
    (htop 2 (by rw [hv1]; exact List.mem_singleton_self 2)).2, happly, ?_, hkind2, hinv,
    hreach 2 (IsDescendant.child hmem) hkind2⟩
  rw [hch, hv2]

/-! ## The loops of `evaluate` come to an end -/

theorem mem_children_append {tree : List QmakeIncludedPriFile} (current : Nat)
    (node : QmakeIncludedPriFile) (hnode : node.children = []) (key : FilePath) (i j : Nat)
    (hj : j ∈ (treeNode (treeModify (tree ++ [node]) current fun n =>
      { n with children := n.children.insert key tree.length }) i).children.values) :
    j ∈ (treeNode tree i).children.values ∨ (i = current ∧ j = tree.length) := by
  have hchildrenAppend : ∀ i, (treeNode (tree ++ [node]) i).children =
      (treeNode tree i).children := by
    intro i
    rcases Nat.lt_trichotomy i tree.length with hi | hi | hi
    · rw [treeNode_append_of_lt tree _ hi]
    · rw [hi, treeNode_append_length, treeNode_of_length_le tree (Nat.le_refl _)]
      exact hnode
    · rw [treeNode_of_length_le tree (Nat.le_of_lt hi), treeNode_of_length_le]
      rw [List.length_append, List.length_singleton]
      exact hi
  by_cases hic : current = i
  · subst hic
    by_cases hlt : current < (tree ++ [node]).length
    · rw [treeNode_treeModify_self _ _ hlt] at hj
      simp only at hj
      rcases QMap.mem_values_insert _ _ _ _ hj with h1 | h1
      · rw [hchildrenAppend] at h1
        exact Or.inl h1
      · exact Or.inr ⟨rfl, h1⟩
    · rw [treeModify_of_length_le _ _ (Nat.le_of_not_lt hlt), hchildrenAppend] at hj
      exact Or.inl hj
  · rw [treeNode_treeModify_of_ne _ _ hic, hchildrenAppend] at hj
    exact Or.inl hj

theorem IncludeTreeOrdered.ordered_of_children {tree tree' : List QmakeIncludedPriFile}
    (inv : IncludeTreeOrdered tree) (hlen : tree'.length = tree.length)
    (hc : ∀ j, (treeNode tree' j).children = (treeNode tree j).children) :
    IncludeTreeOrdered tree' := by
  refine ⟨by rw [hlen]; exact inv.nonempty, ?_⟩
  intro i j hj
  rw [hc] at hj
  rw [hlen]
  exact inv.child i j hj

theorem IncludeTreeOrdered.ordered_of_shape {tree tree' : List QmakeIncludedPriFile}
    (inv : IncludeTreeOrdered tree) (hlen : tree'.length = tree.length)
    (hshape : ∀ j, (treeNode tree' j).shape = (treeNode tree j).shape) :
    IncludeTreeOrdered tree' :=
  inv.ordered_of_children hlen (fun j => congrArg Prod.snd (hshape j))

theorem IncludeTreeOrdered.ordered_single : IncludeTreeOrdered [{}] := by
  refine ⟨Nat.one_pos, ?_⟩
  intro i j hj
  have hc : (treeNode [({} : QmakeIncludedPriFile)] i).children = [] := by
    cases i with
    | zero => rfl
    | succ i => rfl
  rw [hc] at hj
  cases hj

theorem IncludeTreeOrdered.ordered_setRoot {tree : List QmakeIncludedPriFile}
    (inv : IncludeTreeOrdered tree) (proFile : Option ProFile) (name : FilePath) :
    IncludeTreeOrdered
      (treeModify tree 0 fun root => { root with proFile := proFile, name := name }) := by
  refine inv.ordered_of_children (length_treeModify _ _ _) ?_
  intro j
  refine treeNode_treeModify_proj (fun n : QmakeIncludedPriFile => n.children) tree 0 _ ?_ j
  intro _
  rfl

theorem IncludeTreeOrdered.ordered_append {tree : List QmakeIncludedPriFile}
    (inv : IncludeTreeOrdered tree) (current : Nat) (hcurrent : current < tree.length)
    (proFile : Option ProFile) (name key : FilePath) :
    IncludeTreeOrdered
      (treeModify (tree ++ [{ proFile := proFile, name := name }]) current fun node =>
        { node with children := node.children.insert key tree.length }) := by
  have hlen : (treeModify (tree ++ [{ proFile := proFile, name := name }]) current fun node =>
      { node with children := node.children.insert key tree.length }).length =
      tree.length + 1 := by
    rw [length_treeModify, List.length_append, List.length_singleton]
  refine ⟨by rw [hlen]; exact Nat.succ_pos _, ?_⟩
  intro i j hj
  rw [hlen]
  rcases mem_children_append current _ rfl key i j hj with h1 | ⟨h1, h2⟩
  · exact ⟨(inv.child i j h1).1, Nat.lt_succ_of_lt (inv.child i j h1).2⟩
  · rw [h1, h2]
    exact ⟨hcurrent, Nat.lt_succ_self _⟩

theorem addSubDir_ordered (onlyIfAbsent : Bool) {tree : List QmakeIncludedPriFile}
    (inv : IncludeTreeOrdered tree) (subDirName : FilePath) :
    IncludeTreeOrdered (addSubDir onlyIfAbsent tree subDirName) ∧
    tree.length ≤ (addSubDir onlyIfAbsent tree subDirName).length := by
  unfold addSubDir
  split
  · exact ⟨inv, Nat.le_refl _⟩
  · refine ⟨inv.ordered_append 0 inv.nonempty none subDirName subDirName, ?_⟩
    rw [length_treeModify, List.length_append]
    exact Nat.le_add_right _ _

theorem foldl_addSubDir_ordered (onlyIfAbsent : Bool) (subDirs : List FilePath) :
    ∀ tree : List QmakeIncludedPriFile, IncludeTreeOrdered tree →
      IncludeTreeOrdered (subDirs.foldl (addSubDir onlyIfAbsent) tree) := by
  induction subDirs with
  | nil => intro tree inv; exact inv
  | cons s rest ih =>
    intro tree inv
    rw [List.foldl_cons]
    exact ih _ (addSubDir_ordered onlyIfAbsent inv s).1

theorem addIncludedChild_ordered (current : Nat) {st : IncludeTreeState}
    (inv : IncludeTreeOrdered st.tree) (hcurrent : current < st.tree.length) (child : ProFile) :
    IncludeTreeOrdered (addIncludedChild current st child).tree ∧
    st.tree.length ≤ (addIncludedChild current st child).tree.length := by
  unfold addIncludedChild
  simp only
  split
  · exact ⟨inv, Nat.le_refl _⟩
  · refine ⟨inv.ordered_append current hcurrent (some child) child.fileName child.fileName, ?_⟩
    rw [length_treeModify, List.length_append]
    exact Nat.le_add_right _ _

theorem foldl_addIncludedChild_ordered (current : Nat) (children : List ProFile) :
    ∀ st : IncludeTreeState, IncludeTreeOrdered st.tree → current < st.tree.length →
      IncludeTreeOrdered (children.foldl (addIncludedChild current) st).tree ∧
      st.tree.length ≤ (children.foldl (addIncludedChild current) st).tree.length := by
  induction children with
  | nil => intro st inv _; exact ⟨inv, Nat.le_refl _⟩
  | cons c cs ih =>
    intro st inv hcurrent
    rw [List.foldl_cons]
    obtain ⟨h1, h2⟩ := addIncludedChild_ordered current inv hcurrent c
    obtain ⟨h3, h4⟩ := ih _ h1 (Nat.lt_of_lt_of_le hcurrent h2)
    exact ⟨h3, Nat.le_trans h2 h4⟩

theorem buildIncludedFiles_ordered (includeFiles : List (ProFile × List ProFile)) :
    ∀ (fuel : Nat) (toBuild : List Nat) (st st' : IncludeTreeState),
      IncludeTreeOrdered st.tree → (∀ c ∈ toBuild, c < st.tree.length) →
      buildIncludedFiles includeFiles fuel toBuild st = some st' →
      IncludeTreeOrdered st'.tree := by
  intro fuel
  induction fuel with
  | zero =>
    intro toBuild st st' inv _ h
    cases toBuild with
    | nil =>
      simp only [buildIncludedFiles, Option.some.injEq] at h
      rw [← h]; exact inv
    | cons _ _ => simp [buildIncludedFiles] at h
  | succ fuel ih =>
    intro toBuild st st' inv hq h
    cases toBuild with
    | nil =>
      simp only [buildIncludedFiles, Option.some.injEq] at h
      rw [← h]; exact inv
    | cons current rest =>
      have hcurrent := hq current (List.mem_cons_self _ _)
      have hrest : ∀ c ∈ rest, c < st.tree.length :=
        fun c hc => hq c (List.mem_cons_of_mem _ hc)
      unfold buildIncludedFiles at h
      split at h
      · exact ih _ _ _ inv hrest h
      · rename_i proFile _
        obtain ⟨h1, h2⟩ := foldl_addIncludedChild_ordered current
          ((includeFiles.lookup proFile).getD []) st inv hcurrent
        refine ih _ _ _ h1 ?_ h
        intro c hc
        rcases List.mem_append.1 hc with hc | hc
        · exact Nat.lt_of_lt_of_le (hrest c hc) h2
        · exact (h1.child _ _ hc).2

theorem evaluateIncludedFiles_ordered {fuel : Nat} {fs : FileSystem} {input : QmakeEvalInput}
    {result result' : QmakeEvalResult} {st : IncludeTreeState}
    (inv : IncludeTreeOrdered result.includedFiles)
    (h : evaluateIncludedFiles fuel fs input result = some (result', st)) :
    IncludeTreeOrdered st.tree := by
  unfold evaluateIncludedFiles at h
  simp only [Option.bind_eq_some, Option.map_eq_some', Prod.exists, Prod.mk.injEq] at h
  obtain ⟨r1, st1, h1, st2, h2, _, hst⟩ := h
  subst hst
  have inv0 := inv.ordered_setRoot input.readerExact.parsedProFile input.projectFilePath
  have hzero : ∀ {tree : List QmakeIncludedPriFile}, IncludeTreeOrdered tree →
      ∀ c ∈ [0], c < tree.length := by
    intro tree inv c hc
    rw [List.mem_singleton.1 hc]
    exact inv.nonempty
  have inv1 : IncludeTreeOrdered st1.tree := by
    split at h1
    · simp only [Option.map_eq_some', Prod.mk.injEq] at h1
      obtain ⟨st0, hb, _, hst0⟩ := h1
      subst hst0
      refine buildIncludedFiles_ordered _ _ _ _ _ ?_ ?_ hb
      · split
        · exact foldl_addSubDir_ordered false _ _ inv0
        · exact inv0
      · split
        · exact hzero (foldl_addSubDir_ordered false _ _ inv0)
        · exact hzero inv0
    · simp only [Option.some.injEq, Prod.mk.injEq] at h1
      rw [← h1.2]
      exact inv0
  refine buildIncludedFiles_ordered _ _ _ _ _ ?_ ?_ h2
  · simp only
    split
    · exact foldl_addSubDir_ordered true _ _ inv1
    · exact inv1
  · simp only
    split
    · exact hzero (foldl_addSubDir_ordered true _ _ inv1)
    · exact hzero inv1

theorem bfsSteps_pos (children : Nat → List Nat) (depth i : Nat) :
    0 < bfsSteps children depth i := by
  cases depth with
  | zero => exact Nat.one_pos
  | succ d =>
    unfold bfsSteps
    exact Nat.lt_of_lt_of_le Nat.one_pos (Nat.le_add_right _ _)

/-- Below the depth of the tree the count no longer grows. -/
theorem bfsSteps_stable (children : Nat → List Nat) (length : Nat)
    (hchild : ∀ i j, j ∈ children i → i < j ∧ j < length) :
    ∀ depth i, length ≤ depth + i →
      bfsSteps children (depth + 1) i = bfsSteps children depth i := by
  intro depth
  induction depth with
  | zero =>
    intro i hi
    have hnil : children i = [] := by
      cases hc : children i with
      | nil => rfl
      | cons j _ =>
        have := hchild i j (by rw [hc]; exact List.mem_cons_self _ _)
        omega
    simp [bfsSteps, hnil]
  | succ d ih =>
    intro i hi
    have hmap : (children i).map (bfsSteps children (d + 1)) =
        (children i).map (bfsSteps children d) := by
      apply List.map_congr_left
      intro j hj
      have := hchild i j hj
      exact ih j (by omega)
    show 1 + ((children i).map (bfsSteps children (d + 1))).sum =
      1 + ((children i).map (bfsSteps children d)).sum
    rw [hmap]

theorem bfsSteps_eq (children : Nat → List Nat) (length : Nat)
    (hchild : ∀ i j, j ∈ children i → i < j ∧ j < length) (i : Nat) :
    bfsSteps children length i =
      1 + ((children i).map (bfsSteps children length)).sum := by
  rw [← bfsSteps_stable children length hchild length i (Nat.le_add_right _ _)]
  show 1 + ((children i).map (bfsSteps children length)).sum = _
  rfl

/-- The loop that applies `processValues` to every tree entry comes to its end
when the fuel covers the entries below the ones to extract. -/
theorem processIncludedFiles_isSome (fs : FileSystem) (children : Nat → List Nat)
    (length : Nat) (hchild : ∀ i j, j ∈ children i → i < j ∧ j < length) :
    ∀ (fuel : Nat) (toExtract : List Nat) (tree : List QmakeIncludedPriFile),
      (∀ i, (treeNode tree i).children.values = children i) →
      (toExtract.map (bfsSteps children length)).sum ≤ fuel →
      ∃ tree', processIncludedFiles fs fuel toExtract tree = some tree' := by
  intro fuel
  induction fuel with
  | zero =>
    intro toExtract tree _ hsum
    cases toExtract with
    | nil => exact ⟨tree, rfl⟩
    | cons q rest =>
      simp only [List.map_cons, List.sum_cons] at hsum
      have := bfsSteps_pos children length q
      omega
  | succ fuel ih =>
    intro toExtract tree hc hsum
    cases toExtract with
    | nil => exact ⟨tree, rfl⟩
    | cons q rest =>
      unfold processIncludedFiles
      have hc' : ∀ i, (treeNode (treeModify tree q fun node =>
          { node with result := processValues fs node.result }) i).children.values =
          children i := by
        intro i
        rw [← hc i]
        refine congrArg QMap.values ?_
        refine treeNode_treeModify_proj (fun n : QmakeIncludedPriFile => n.children) tree q _ ?_ i
        intro _
        rfl
      apply ih _ _ hc'
      rw [hc' q, List.map_append, List.sum_append]
      simp only [List.map_cons, List.sum_cons] at hsum
      rw [bfsSteps_eq children length hchild q] at hsum
      omega

theorem parentChainLoop_isSome {before : Heap} {base : NodeId} {input : QmakeEvalInput}
    {state : EvalResultState} {exactSubdirs : QSet FilePath}
    {tree : List QmakeIncludedPriFile} {origin : NodeId → Nat} {st : ChildNodesState}
    (inv : ChildNodesInv before base input state exactSubdirs tree origin st)
    (ord : IncludeTreeOrdered tree) (name : FilePath) :
    ∀ (fuel : Nat) (pn : Option NodeId) (loop : Bool),
      (∀ n, pn = some n → base ≤ n ∧ n < st.heap.next ∧ origin n < fuel) →
      ∃ b, parentChainLoop st.heap name fuel pn loop = some b := by
  intro fuel
  induction fuel with
  | zero =>
    intro pn loop hpn
    cases pn with
    | none => exact ⟨loop, by simp [parentChainLoop]⟩
    | some n => exact absurd (hpn n rfl).2.2 (Nat.not_lt_zero _)
  | succ f ih =>
    intro pn loop hpn
    cases pn with
    | none => exact ⟨loop, by simp [parentChainLoop]⟩
    | some n =>
      cases loop with
      | true => exact ⟨true, by simp [parentChainLoop]⟩
      | false =>
        obtain ⟨n1, n2, n3⟩ := hpn n rfl
        have hrec := ih (st.heap.objs n).m_parent ((st.heap.objs n).m_filePath == name) (by
          intro p hp
          have hpar := inv.parent n n1 n2
          rw [hp] at hpar
          simp only at hpar
          obtain ⟨p1, p2, p3⟩ := hpar
          have := (ord.child _ _ p3).1
          exact ⟨p1, Nat.lt_trans p2 n2, by omega⟩)
        obtain ⟨b, hb⟩ := hrec
        exact ⟨b, by simp only [parentChainLoop]; exact hb⟩

theorem createChildNode_isSome (chainFuel : Nat) (input : QmakeEvalInput)
    (state : EvalResultState) (exactSubdirs : QSet FilePath)
    (tree : List QmakeIncludedPriFile) (pn : Option NodeId) (st : ChildNodesState)
    (priFile : Nat)
    (hwalk : ∃ b, parentChainLoop st.heap (treeNode tree priFile).name chainFuel pn
      (input.parentFilePaths.contains (treeNode tree priFile).name) = some b) :
    ∃ st', createChildNode chainFuel input state exactSubdirs tree pn st priFile = some st' := by
  obtain ⟨b, hb⟩ := hwalk
  unfold createChildNode
  simp only [hb]
  cases b with
  | true => exact ⟨st, rfl⟩
  | false =>
    simp only
    split <;> exact ⟨_, rfl⟩

/-- The loop over the children of one tree entry comes to its end, keeps the
invariant, and queues at most the children it went through. -/
theorem foldlM_createChildNode_isSome {chainFuel : Nat} {input : QmakeEvalInput}
    {state : EvalResultState} {exactSubdirs : QSet FilePath}
    {tree : List QmakeIncludedPriFile} {before : Heap} {base : NodeId} {pn : Option NodeId}
    {treeIdx : Nat} (ord : IncludeTreeOrdered tree) (hfuel : tree.length ≤ chainFuel)
    (weight : Nat → Nat)
    (l : List Nat) (hl : ∀ t ∈ l, t ∈ (treeNode tree treeIdx).children.values) :
    ∀ (st : ChildNodesState) (origin : NodeId → Nat),
      ChildNodesInv before base input state exactSubdirs tree origin st →
      (match pn with
        | none => treeIdx = 0
        | some n => base ≤ n ∧ n < st.heap.next ∧ origin n = treeIdx) →
      ∃ st' origin',
        l.foldlM (createChildNode chainFuel input state exactSubdirs tree pn) st = some st' ∧
        ChildNodesInv before base input state exactSubdirs tree origin' st' ∧
        (st'.toCompare.map fun e => weight e.2).sum ≤
          (st.toCompare.map fun e => weight e.2).sum + (l.map weight).sum := by
  induction l with
  | nil =>
    intro st origin inv _
    exact ⟨st, origin, rfl, inv, Nat.le_add_right _ _⟩
  | cons t rest ih =>
    intro st origin inv hpn
    have hl' : ∀ t ∈ rest, t ∈ (treeNode tree treeIdx).children.values :=
      fun t ht => hl t (List.mem_cons_of_mem _ ht)
    have ht := hl t (List.mem_cons_self _ _)
    have hidx := ord.child _ _ ht
    obtain ⟨st1, h1⟩ := createChildNode_isSome chainFuel input state exactSubdirs tree pn st t
      (parentChainLoop_isSome inv ord _ chainFuel pn _ (by
        intro n hn
        subst hn
        simp only at hpn
        exact ⟨hpn.1, hpn.2.1, by rw [hpn.2.2]; omega⟩))
    have hpn' : ∀ n, pn = some n →
        n < st.heap.next ∧ ∀ x ∈ (st.heap.objs n).m_children, x < st.heap.next := by
      intro n hn
      subst hn
      simp only at hpn
      exact ⟨hpn.2.1, inv.children n hpn.1 hpn.2.1⟩
    simp only [List.foldlM_cons, bind, Option.bind_eq_some, List.map_cons, List.sum_cons]
    rcases createChildNode_spec hpn' h1 with heq | ⟨hnot, hchain, cn, hq, hdirect, hpro⟩
    · subst heq
      obtain ⟨st2, origin2, h2, inv2, hw⟩ := ih hl' _ origin inv hpn
      exact ⟨st2, origin2, ⟨_, h1, h2⟩, inv2, by omega⟩
    · have inv1 := inv.createdNode cn hnot hchain
        (by
          cases pn with
          | none => simp only at hpn ⊢; rw [← hpn]; exact ht
          | some n => simp only at hpn ⊢; rw [hpn.2.2]; exact ⟨hpn.1, hpn.2.1, ht⟩)
        hq hdirect hpro
      obtain ⟨st2, origin2, h2, inv2, hw⟩ := ih hl' _ _ inv1 (by
        cases pn with
        | none => exact hpn
        | some n =>
          simp only at hpn ⊢
          rw [cn.next, Function.update_noteq (Nat.ne_of_lt hpn.2.1)]
          exact ⟨hpn.1, Nat.lt_succ_of_lt hpn.2.1, hpn.2.2⟩)
      refine ⟨st2, origin2, ⟨_, h1, h2⟩, inv2, ?_⟩
      have hw1 : (st1.toCompare.map fun e => weight e.2).sum ≤
          (st.toCompare.map fun e => weight e.2).sum + weight t := by
        rcases hq with hq | hq
        · rw [hq]; exact Nat.le_add_right _ _
        · rw [hq, List.map_append, List.sum_append]
          simp
      omega

/-- The loop `while (!toCompare.isEmpty())` comes to its end when the fuel covers
the tree entries below the queued ones and the walks up the parent chains. -/
theorem createChildNodes_isSome {chainFuel : Nat} {input : QmakeEvalInput}
    {state : EvalResultState} {exactSubdirs : QSet FilePath}
    {tree : List QmakeIncludedPriFile} {before : Heap} {base : NodeId}
    (ord : IncludeTreeOrdered tree) (hfuel : tree.length ≤ chainFuel) :
    ∀ (fuel : Nat) (st : ChildNodesState) (origin : NodeId → Nat),
      ChildNodesInv before base input state exactSubdirs tree origin st →
      (st.toCompare.map fun e =>
        bfsSteps (fun i => (treeNode tree i).children.values) tree.length e.2).sum ≤ fuel →
      ∃ st', createChildNodes chainFuel input state exactSubdirs tree fuel st = some st' := by
  intro fuel
  induction fuel with
  | zero =>
    intro st origin inv hw
    cases hq : st.toCompare with
    | nil =>
      refine ⟨st, ?_⟩
      unfold createChildNodes
      simp only [hq]
    | cons e rest =>
      rw [hq] at hw
      simp only [List.map_cons, List.sum_cons] at hw
      have := bfsSteps_pos (fun i => (treeNode tree i).children.values) tree.length e.2
      omega
  | succ fuel ih =>
    intro st origin inv hw
    cases hq : st.toCompare with
    | nil =>
      refine ⟨st, ?_⟩
      unfold createChildNodes
      simp only [hq]
    | cons e rest =>
      obtain ⟨pn, treeIdx⟩ := e
      have hentry := inv.queue pn treeIdx (by rw [hq]; exact List.mem_cons_self _ _)
      have inv0 := inv.of_toCompare rest
        (by intro e he; rw [hq]; exact List.mem_cons_of_mem _ he)
      obtain ⟨st1, origin1, hfold, inv1, hw1⟩ := foldlM_createChildNode_isSome ord hfuel
        (bfsSteps (fun i => (treeNode tree i).children.values) tree.length)
        (treeNode tree treeIdx).children.values (fun _ ht => ht) _ origin inv0 hentry
      rw [hq] at hw
      simp only [List.map_cons, List.sum_cons] at hw
      rw [bfsSteps_eq (fun i => (treeNode tree i).children.values) tree.length
        (fun i j hj => ord.child i j hj) treeIdx] at hw
      obtain ⟨st2, h2⟩ := ih st1 origin1 inv1 (by simp only at hw1 ⊢; omega)
      refine ⟨st2, ?_⟩
      unfold createChildNodes
      simp only [hq, hfold]
      exact h2

theorem buildIncludedFiles_cons_none (includeFiles : List (ProFile × List ProFile)) (fuel : Nat)
    (current : Nat) (toBuild : List Nat) (st : IncludeTreeState)
    (h : (treeNode st.tree current).proFile = none) :
    buildIncludedFiles includeFiles (fuel + 1) (current :: toBuild) st =
      buildIncludedFiles includeFiles fuel toBuild st := by
  rw [buildIncludedFiles]
  simp only [h]

theorem buildIncludedFiles_cons_some (includeFiles : List (ProFile × List ProFile)) (fuel : Nat)
    (current : Nat) (toBuild : List Nat) (st : IncludeTreeState) (proFile : ProFile)
    (h : (treeNode st.tree current).proFile = some proFile) :
    buildIncludedFiles includeFiles (fuel + 1) (current :: toBuild) st =
      buildIncludedFiles includeFiles fuel
        (toBuild ++ (treeNode (((includeFiles.lookup proFile).getD []).foldl
          (addIncludedChild current) st).tree current).children.values)
        (((includeFiles.lookup proFile).getD []).foldl (addIncludedChild current) st) := by
  rw [buildIncludedFiles]
  simp only [h]

theorem buildIncludedFiles_nil (includeFiles : List (ProFile × List ProFile)) (fuel : Nat)
    (st : IncludeTreeState) : buildIncludedFiles includeFiles fuel [] st = some st := by
  cases fuel <;> simp [buildIncludedFiles]

/-- More fuel does not change what the tree-building loop returns. -/
theorem buildIncludedFiles_mono (includeFiles : List (ProFile × List ProFile)) :
    ∀ (fuel : Nat) (toBuild : List Nat) (st st' : IncludeTreeState),
      buildIncludedFiles includeFiles fuel toBuild st = some st' →
      ∀ k, buildIncludedFiles includeFiles (fuel + k) toBuild st = some st' := by
  intro fuel
  induction fuel with
  | zero =>
    intro toBuild st st' h k
    cases toBuild with
    | nil =>
      rw [buildIncludedFiles_nil] at h ⊢
      exact h
    | cons _ _ => simp [buildIncludedFiles] at h
  | succ fuel ih =>
    intro toBuild st st' h k
    cases toBuild with
    | nil =>
      rw [buildIncludedFiles_nil] at h ⊢
      exact h
    | cons current rest =>
      rw [Nat.add_right_comm]
      cases hp : (treeNode st.tree current).proFile with
      | none =>
        rw [buildIncludedFiles_cons_none _ _ _ _ _ hp] at h ⊢
        exact ih _ _ _ h k
      | some proFile =>
        rw [buildIncludedFiles_cons_some _ _ _ _ _ _ hp] at h ⊢
        exact ih _ _ _ h k

theorem evaluateIncludedFiles_mono {fuel : Nat} {fs : FileSystem} {input : QmakeEvalInput}
    {result : QmakeEvalResult} {out : QmakeEvalResult × IncludeTreeState}
    (h : evaluateIncludedFiles fuel fs input result = some out) (k : Nat) :
    evaluateIncludedFiles (fuel + k) fs input result = some out := by
  unfold evaluateIncludedFiles at h ⊢
  simp only at h ⊢
  rw [Option.bind_eq_some] at h ⊢
  obtain ⟨x, h1, h2⟩ := h
  refine ⟨x, ?_, ?_⟩
  · by_cases hok : result.state = .EvalOk
    · simp only [if_pos hok] at h1 ⊢
      rw [Option.map_eq_some'] at h1 ⊢
      obtain ⟨st', e1, e2⟩ := h1
      exact ⟨st', buildIncludedFiles_mono _ _ _ _ _ e1 k, e2⟩
    · simp only [if_neg hok] at h1 ⊢
      exact h1
  · rw [Option.map_eq_some'] at h2 ⊢
    obtain ⟨st', e1, e2⟩ := h2
    exact ⟨st', buildIncludedFiles_mono _ _ _ _ _ e1 k, e2⟩

/-- Whenever the construction of the included-file tree comes to an end, so does
`evaluate`: from some fuel on it returns a result. -/
theorem evaluate_returns (fs : FileSystem) (heap : Heap) (input : QmakeEvalInput) (fuel0 : Nat)
    (h0 : (evaluateIncludedFiles fuel0 fs input { state := (evaluateState input).1 }).isSome =
      true) :
    ∃ fuel1, ∀ fuel, fuel1 ≤ fuel →
      ∃ heap' result, QmakeProFile.evaluate fuel fs heap input = some (heap', result) := by
  by_cases hf : (evaluateState input).1 = .EvalFail
  · exact ⟨0, fun fuel _ => ⟨heap, _, evaluate_of_evalFail fuel fs heap input hf⟩⟩
  · obtain ⟨⟨r1, st⟩, h1⟩ := Option.isSome_iff_exists.1 h0
    have ord0 : IncludeTreeOrdered
        ({ state := (evaluateState input).1 } : QmakeEvalResult).includedFiles :=
      IncludeTreeOrdered.ordered_single
    have ord1 : IncludeTreeOrdered st.tree := evaluateIncludedFiles_ordered ord0 h1
    obtain ⟨v1, v2⟩ := evaluateValues_shape fs input (evaluateState input).2.1
      (evaluateState input).2.2 r1 st
    have ord2 := ord1.ordered_of_shape v1 v2
    refine ⟨fuel0 + ((evaluateValues fs input (evaluateState input).2.1
      (evaluateState input).2.2 r1 st).2.length +
      bfsSteps (fun i => (treeNode (evaluateValues fs input (evaluateState input).2.1
        (evaluateState input).2.2 r1 st).2 i).children.values)
        (evaluateValues fs input (evaluateState input).2.1
          (evaluateState input).2.2 r1 st).2.length 0), ?_⟩
    intro fuel hfuel
    obtain ⟨k, hk⟩ := Nat.exists_eq_add_of_le (Nat.le_trans (Nat.le_add_right _ _) hfuel)
    have h1' := evaluateIncludedFiles_mono h1 k
    rw [← hk] at h1'
    generalize htree : (evaluateValues fs input (evaluateState input).2.1
      (evaluateState input).2.2 r1 st).2 = tree1 at ord2 hfuel
    generalize hres : (evaluateValues fs input (evaluateState input).2.1
      (evaluateState input).2.2 r1 st).1 = result1
    -- the loop over the tree entries
    have hprocess : ∃ tree2,
        (if result1.state = .EvalOk ∨ result1.state = .EvalPartial then
          processIncludedFiles fs fuel [0] tree1
        else some tree1) = some tree2 ∧
        tree2.length = tree1.length ∧
        ∀ j, (treeNode tree2 j).shape = (treeNode tree1 j).shape := by
      split
      · obtain ⟨tree2, h2⟩ := processIncludedFiles_isSome fs
          (fun i => (treeNode tree1 i).children.values) tree1.length
          (fun i j hj => ord2.child i j hj) fuel [0] tree1 (fun _ => rfl)
          (by simp only [List.map_cons, List.map_nil, List.sum_cons, List.sum_nil]; omega)
        obtain ⟨p1, p2⟩ := processIncludedFiles_shape fs _ _ _ _ h2
        exact ⟨tree2, h2, p1, p2⟩
      · exact ⟨tree1, rfl, rfl, fun _ => rfl⟩
    obtain ⟨tree2, h2, p1, p2⟩ := hprocess
    have ord3 := ord2.ordered_of_shape p1 p2
    have hchildren : ∀ i, (treeNode tree2 i).children.values =
        (treeNode tree1 i).children.values :=
      fun i => congrArg QMap.values (congrArg Prod.snd (p2 i))
    have hsteps : bfsSteps (fun i => (treeNode tree2 i).children.values) tree2.length 0 =
        bfsSteps (fun i => (treeNode tree1 i).children.values) tree1.length 0 := by
      rw [p1]
      congr 1
      funext i
      exact hchildren i
    obtain ⟨cs, hcs⟩ := @createChildNodes_isSome fuel input result1.state result1.exactSubdirs
      tree2 heap heap.next ord3 (by rw [p1]; omega) fuel { heap := heap, toCompare := [(none, 0)] } (fun _ => 0)
      (ChildNodesInv.init heap input _ _ tree2)
      (by
        simp only [List.map_cons, List.map_nil, List.sum_cons, List.sum_nil]
        rw [hsteps]
        omega)
    have hret : QmakeProFile.evaluate fuel fs heap input =
        some (cs.heap,
          { result1 with
            includedFiles := tree2
            directChildren := cs.directChildren
            priFiles := cs.priFiles
            proFiles := cs.proFiles }) := by
      unfold QmakeProFile.evaluate
      simp only [hf, if_false, h1', Option.some_bind, htree, hres]
      unfold evaluateChildNodes
      rw [h2]
      simp only [Option.some_bind, hcs, Option.map_some']
    exact ⟨_, _, hret⟩

/-! ## The construction of the included-file tree ends on loop-free include maps -/

theorem treeNode_append_modify_proFile (tree : List QmakeIncludedPriFile)
    (node : QmakeIncludedPriFile) (current : Nat)
    (f : QmakeIncludedPriFile → QmakeIncludedPriFile) (hf : ∀ n, (f n).proFile = n.proFile) :
    (∀ j, j < tree.length →
      (treeNode (treeModify (tree ++ [node]) current f) j).proFile = (treeNode tree j).proFile) ∧
    (treeNode (treeModify (tree ++ [node]) current f) tree.length).proFile = node.proFile := by
  have hp : ∀ j, (treeNode (treeModify (tree ++ [node]) current f) j).proFile =
      (treeNode (tree ++ [node]) j).proFile :=
    fun j => treeNode_treeModify_proj (fun n : QmakeIncludedPriFile => n.proFile) _ current f hf j
  refine ⟨fun j hj => ?_, ?_⟩
  · rw [hp, treeNode_append_of_lt tree _ hj]
  · rw [hp, treeNode_append_length]

theorem IncludeTreeLeveled.leveled_append {rank : ProFile → Nat} {tree : List QmakeIncludedPriFile}
    (inv : IncludeTreeLeveled rank tree) (current : Nat) (hcurrent : current < tree.length)
    (proFile : Option ProFile) (name key : FilePath)
    (hlevel : ∀ p, (treeNode tree current).proFile = some p →
      QmakeIncludedPriFile.level rank { proFile := proFile, name := name } ≤ rank p) :
    IncludeTreeLeveled rank
      (treeModify (tree ++ [{ proFile := proFile, name := name }]) current fun node =>
        { node with children := node.children.insert key tree.length }) := by
  obtain ⟨hold, hnew⟩ := treeNode_append_modify_proFile tree
    { proFile := proFile, name := name } current
    (fun node => { node with children := node.children.insert key tree.length }) (fun _ => rfl)
  refine ⟨inv.ordered.ordered_append current hcurrent proFile name key, ?_⟩
  intro i p hp j hj
  rcases mem_children_append current _ rfl key i j hj with h1 | ⟨h1, h2⟩
  · obtain ⟨o1, o2⟩ := inv.ordered.child i j h1
    rw [hold i (Nat.lt_trans o1 o2)] at hp
    have hlev : (treeNode (treeModify (tree ++ [{ proFile := proFile, name := name }]) current
        fun node => { node with children := node.children.insert key tree.length }) j).level
        rank = (treeNode tree j).level rank := by
      unfold QmakeIncludedPriFile.level
      rw [hold j o2]
    rw [hlev]
    exact inv.child i p hp j h1
  · subst h1
    rw [hold i hcurrent] at hp
    have hlev : (treeNode (treeModify (tree ++ [{ proFile := proFile, name := name }]) i
        fun node => { node with children := node.children.insert key tree.length }) j).level
        rank = QmakeIncludedPriFile.level rank { proFile := proFile, name := name } := by
      unfold QmakeIncludedPriFile.level
      rw [h2, hnew]
    rw [hlev]
    exact hlevel p hp

theorem addSubDir_leveled {rank : ProFile → Nat} (onlyIfAbsent : Bool)
    {tree : List QmakeIncludedPriFile} (inv : IncludeTreeLeveled rank tree)
    (subDirName : FilePath) :
    IncludeTreeLeveled rank (addSubDir onlyIfAbsent tree subDirName) ∧
    (treeNode (addSubDir onlyIfAbsent tree subDirName) 0).proFile = (treeNode tree 0).proFile := by
  unfold addSubDir
  split
  · exact ⟨inv, rfl⟩
  · refine ⟨inv.leveled_append 0 inv.ordered.nonempty none subDirName subDirName
      (fun p _ => Nat.zero_le _), ?_⟩
    refine (treeNode_append_modify_proFile tree _ 0 _ ?_).1 0 inv.ordered.nonempty
    intro _
    rfl

theorem foldl_addSubDir_leveled {rank : ProFile → Nat} (onlyIfAbsent : Bool)
    (subDirs : List FilePath) :
    ∀ tree : List QmakeIncludedPriFile, IncludeTreeLeveled rank tree →
      IncludeTreeLeveled rank (subDirs.foldl (addSubDir onlyIfAbsent) tree) ∧
      (treeNode (subDirs.foldl (addSubDir onlyIfAbsent) tree) 0).proFile =
        (treeNode tree 0).proFile := by
  induction subDirs with
  | nil => intro tree inv; exact ⟨inv, rfl⟩
  | cons s rest ih =>
    intro tree inv
    rw [List.foldl_cons]
    obtain ⟨h1, h2⟩ := addSubDir_leveled onlyIfAbsent inv s
    obtain ⟨h3, h4⟩ := ih _ h1
    exact ⟨h3, h4.trans h2⟩

theorem addIncludedChild_leveled {rank : ProFile → Nat} (current : Nat) {st : IncludeTreeState}
    (inv : IncludeTreeLeveled rank st.tree) (hcurrent : current < st.tree.length)
    (child : ProFile)
    (hrank : ∀ p, (treeNode st.tree current).proFile = some p → rank child < rank p) :
    IncludeTreeLeveled rank (addIncludedChild current st child).tree ∧
    st.tree.length ≤ (addIncludedChild current st child).tree.length ∧
    ∀ j, j < st.tree.length →
      (treeNode (addIncludedChild current st child).tree j).proFile =
        (treeNode st.tree j).proFile := by
  unfold addIncludedChild
  simp only
  split
  · exact ⟨inv, Nat.le_refl _, fun _ _ => rfl⟩
  · refine ⟨inv.leveled_append current hcurrent (some child) child.fileName child.fileName
      (fun p hp => hrank p hp), ?_, ?_⟩
    · rw [length_treeModify, List.length_append]
      exact Nat.le_add_right _ _
    · refine (treeNode_append_modify_proFile st.tree _ current _ ?_).1
      intro _
      rfl

theorem foldl_addIncludedChild_leveled {rank : ProFile → Nat} (current : Nat)
    (children : List ProFile) :
    ∀ st : IncludeTreeState, IncludeTreeLeveled rank st.tree → current < st.tree.length →
      (∀ p, (treeNode st.tree current).proFile = some p → ∀ c ∈ children, rank c < rank p) →
      IncludeTreeLeveled rank (children.foldl (addIncludedChild current) st).tree ∧
      st.tree.length ≤ (children.foldl (addIncludedChild current) st).tree.length ∧
      ∀ j, j < st.tree.length →
        (treeNode (children.foldl (addIncludedChild current) st).tree j).proFile =
          (treeNode st.tree j).proFile := by
  induction children with
  | nil => intro st inv _ _; exact ⟨inv, Nat.le_refl _, fun _ _ => rfl⟩
  | cons c cs ih =>
    intro st inv hcurrent hrank
    rw [List.foldl_cons]
    obtain ⟨h1, h2, h3⟩ := addIncludedChild_leveled current inv hcurrent c
      (fun p hp => hrank p hp c (List.mem_cons_self _ _))
    obtain ⟨h4, h5, h6⟩ := ih _ h1 (Nat.lt_of_lt_of_le hcurrent h2) (by
      intro p hp c' hc'
      rw [h3 current hcurrent] at hp
      exact hrank p hp c' (List.mem_cons_of_mem _ hc'))
    exact ⟨h4, Nat.le_trans h2 h5,
      fun j hj => (h6 j (Nat.lt_of_lt_of_le hj h2)).trans (h3 j hj)⟩

/-- The tree-building loop comes to its end on a loop-free include map: by
induction on the highest level in the queue, the entries of that level being
worked off before the entries of the lower levels that they queue. -/
theorem buildIncludedFiles_isSome {rank : ProFile → Nat}
    (includeFiles : List (ProFile × List ProFile)) (hranked : IncludesRanked rank includeFiles) :
    ∀ (r : Nat) (toBuild : List Nat) (st : IncludeTreeState),
      IncludeTreeLeveled rank st.tree →
      (∀ q ∈ toBuild, q < st.tree.length ∧ (treeNode st.tree q).level rank ≤ r) →
      ∃ fuel st', buildIncludedFiles includeFiles fuel toBuild st = some st' ∧
        IncludeTreeLeveled rank st'.tree ∧
        (treeNode st'.tree 0).proFile = (treeNode st.tree 0).proFile := by
  have hstep : ∀ (r : Nat),
      (∀ (toBuild : List Nat) (st : IncludeTreeState),
        IncludeTreeLeveled rank st.tree →
        (∀ q ∈ toBuild, q < st.tree.length ∧ (treeNode st.tree q).level rank < r) →
        ∃ fuel st', buildIncludedFiles includeFiles fuel toBuild st = some st' ∧
          IncludeTreeLeveled rank st'.tree ∧
          (treeNode st'.tree 0).proFile = (treeNode st.tree 0).proFile) →
      ∀ (front tail : List Nat) (st : IncludeTreeState),
        IncludeTreeLeveled rank st.tree →
        (∀ q ∈ front, q < st.tree.length ∧ (treeNode st.tree q).level rank ≤ r) →
        (∀ q ∈ tail, q < st.tree.length ∧ (treeNode st.tree q).level rank < r) →
        ∃ fuel st', buildIncludedFiles includeFiles fuel (front ++ tail) st = some st' ∧
          IncludeTreeLeveled rank st'.tree ∧
          (treeNode st'.tree 0).proFile = (treeNode st.tree 0).proFile := by
    intro r hlower front
    induction front with
    | nil =>
      intro tail st inv _ htail
      exact hlower tail st inv htail
    | cons q front ih =>
      intro tail st inv hfront htail
      obtain ⟨hq1, hq2⟩ := hfront q (List.mem_cons_self _ _)
      have hfront' : ∀ x ∈ front, x < st.tree.length ∧ (treeNode st.tree x).level rank ≤ r :=
        fun x hx => hfront x (List.mem_cons_of_mem _ hx)
      cases hp : (treeNode st.tree q).proFile with
      | none =>
        obtain ⟨fuel, st', h1, h2, h3⟩ := ih tail st inv hfront' htail
        refine ⟨fuel + 1, st', ?_, h2, h3⟩
        rw [List.cons_append, buildIncludedFiles_cons_none _ _ _ _ _ hp]
        exact h1
      | some p =>
        obtain ⟨l1, l2, l3⟩ := @foldl_addIncludedChild_leveled rank q
          ((includeFiles.lookup p).getD []) st inv hq1 (by
            intro p' hp' c hc
            rw [hp] at hp'
            cases hp'
            cases hl : includeFiles.lookup p with
            | none => rw [hl] at hc; cases hc
            | some cs =>
              rw [hl] at hc
              exact hranked p cs hl c hc)
        have hlevel : ∀ x, x < st.tree.length →
            (treeNode (((includeFiles.lookup p).getD []).foldl (addIncludedChild q) st).tree
              x).level rank = (treeNode st.tree x).level rank := by
          intro x hx
          unfold QmakeIncludedPriFile.level
          rw [l3 x hx]
        have hqlevel : rank p + 1 ≤ r := by
          unfold QmakeIncludedPriFile.level at hq2
          rw [hp] at hq2
          exact hq2
        obtain ⟨fuel, st', h1, h2, h3⟩ := ih
          (tail ++ (treeNode (((includeFiles.lookup p).getD []).foldl
            (addIncludedChild q) st).tree q).children.values)
          (((includeFiles.lookup p).getD []).foldl (addIncludedChild q) st) l1
          (fun x hx => ⟨Nat.lt_of_lt_of_le (hfront' x hx).1 l2, by
            rw [hlevel x (hfront' x hx).1]; exact (hfront' x hx).2⟩)
          (by
            intro x hx
            rcases List.mem_append.1 hx with hx | hx
            · exact ⟨Nat.lt_of_lt_of_le (htail x hx).1 l2, by
                rw [hlevel x (htail x hx).1]; exact (htail x hx).2⟩
            · refine ⟨(l1.ordered.child _ _ hx).2, ?_⟩
              have := l1.child q p (by rw [l3 q hq1]; exact hp) x hx
              omega)
        refine ⟨fuel + 1, st', ?_, h2, h3.trans (l3 0 inv.ordered.nonempty)⟩
        rw [List.cons_append, buildIncludedFiles_cons_some _ _ _ _ _ _ hp, List.append_assoc]
        exact h1
  intro r
  induction r with
  | zero =>
    intro toBuild st inv hq
    have h := hstep 0
      (by
        intro toBuild st inv hq
        cases toBuild with
        | nil => exact ⟨0, st, buildIncludedFiles_nil _ _ _, inv, rfl⟩
        | cons q _ => exact absurd (hq q (List.mem_cons_self _ _)).2 (Nat.not_lt_zero _))
      toBuild [] st inv hq (fun q hq => absurd hq (List.not_mem_nil q))
    rw [List.append_nil] at h
    exact h
  | succ r ih =>
    intro toBuild st inv hq
    have h := hstep (r + 1)
      (fun toBuild st inv hq => ih toBuild st inv
        (fun q hm => ⟨(hq q hm).1, Nat.le_of_lt_succ (hq q hm).2⟩))
      toBuild [] st inv hq (fun q hq => absurd hq (List.not_mem_nil q))
    rw [List.append_nil] at h
    exact h

theorem IncludeTreeLeveled.setRoot_single (rank : ProFile → Nat) (proFile : Option ProFile)
    (name : FilePath) :
    IncludeTreeLeveled rank
      (treeModify [{}] 0 fun root => { root with proFile := proFile, name := name }) := by
  refine ⟨IncludeTreeOrdered.ordered_single.ordered_setRoot proFile name, ?_⟩
  intro i p _ j hj
  have hc : (treeNode (treeModify [({} : QmakeIncludedPriFile)] 0 fun root =>
      { root with proFile := proFile, name := name }) i).children = [] := by
    have h1 : (treeNode (treeModify [({} : QmakeIncludedPriFile)] 0 fun root =>
        { root with proFile := proFile, name := name }) i).children =
        (treeNode [({} : QmakeIncludedPriFile)] i).children := by
      refine treeNode_treeModify_proj (fun n : QmakeIncludedPriFile => n.children) _ 0 _ ?_ i
      intro _
      rfl
    rw [h1]
    cases i with
    | zero => rfl
    | succ i => rfl
  rw [hc] at hj
  cases hj

/-- On include-file maps without a loop the construction of the included-file
tree comes to its end. -/
theorem evaluateIncludedFiles_isSome (rank : ProFile → Nat) (fs : FileSystem)
    (input : QmakeEvalInput) (result : QmakeEvalResult)
    (hresult : result.includedFiles = [{}])
    (hexact : IncludesRanked rank input.readerExact.includeFiles)
    (hcumulative : IncludesRanked rank input.readerCumulative.includeFiles) :
    ∃ fuel, (evaluateIncludedFiles fuel fs input result).isSome = true := by
  have inv0 := IncludeTreeLeveled.setRoot_single rank input.readerExact.parsedProFile
    input.projectFilePath
  have hqueue : ∀ (tree : List QmakeIncludedPriFile), IncludeTreeLeveled rank tree →
      ∀ q ∈ [0], q < tree.length ∧
        (treeNode tree q).level rank ≤ (treeNode tree 0).level rank := by
    intro tree inv q hq
    rw [List.mem_singleton.1 hq]
    exact ⟨inv.ordered.nonempty, Nat.le_refl _⟩
  -- the loop of the cumulative pass
  have hpass2 : ∀ {β : Type} (f : IncludeTreeState → β) (tree : List QmakeIncludedPriFile)
      (c : Prop) [Decidable c] (subDirs : List FilePath) (proToResult : List (Int × Nat)),
      IncludeTreeLeveled rank tree →
      ∃ fuel, ∀ k, (Option.map f
        (buildIncludedFiles input.readerCumulative.includeFiles (fuel + k) [0]
          { tree := if c then subDirs.foldl (addSubDir true) tree else tree
            proToResult := proToResult })).isSome = true := by
    intro β f tree c _ subDirs proToResult inv
    have inv2 : IncludeTreeLeveled rank
        (if c then subDirs.foldl (addSubDir true) tree else tree) := by
      split
      · exact (foldl_addSubDir_leveled true subDirs _ inv).1
      · exact inv
    obtain ⟨fuel, st2, h1, _, _⟩ := buildIncludedFiles_isSome input.readerCumulative.includeFiles
      hcumulative _ [0]
      { tree := if c then subDirs.foldl (addSubDir true) tree else tree
        proToResult := proToResult } inv2 (hqueue _ inv2)
    refine ⟨fuel, fun k => ?_⟩
    rw [buildIncludedFiles_mono _ _ _ _ _ h1 k]
    rfl
  -- the loop of the exact pass, followed by the cumulative pass
  have hpass1 : ∀ (tree : List QmakeIncludedPriFile) (r : QmakeEvalResult),
      IncludeTreeLeveled rank tree →
      ∃ fuel, ((Option.map (fun st => (r, st))
        (buildIncludedFiles input.readerExact.includeFiles fuel [0] { tree := tree })).bind
        fun a => Option.map (fun st => (a.1, st))
          (buildIncludedFiles input.readerCumulative.includeFiles fuel [0]
            { tree := if a.1.projectType = .SubDirsTemplate then
                (subDirsPaths fs input.readerCumulative input.projectDir none none).1.foldl
                  (addSubDir true) a.2.tree
              else a.2.tree
              proToResult := a.2.proToResult })).isSome = true := by
    intro tree r inv
    obtain ⟨fuel1, st1, h1, inv1, _⟩ := buildIncludedFiles_isSome
      input.readerExact.includeFiles hexact _ [0] { tree := tree } inv (hqueue _ inv)
    obtain ⟨fuel2, h2⟩ := hpass2 (fun st => (r, st)) st1.tree
      (r.projectType = .SubDirsTemplate)
      (subDirsPaths fs input.readerCumulative input.projectDir none none).1 st1.proToResult inv1
    refine ⟨fuel1 + fuel2, ?_⟩
    rw [buildIncludedFiles_mono _ _ _ _ _ h1 fuel2]
    simp only [Option.map_some', Option.some_bind]
    have := h2 fuel1
    rw [Nat.add_comm] at this
    exact this
  unfold evaluateIncludedFiles
  simp only [hresult]
  by_cases hok : result.state = .EvalOk
  · simp only [if_pos hok]
    by_cases hsub : proFileTemplateTypeToProjectType input.readerExact.templateType =
        .SubDirsTemplate
    · simp only [if_pos hsub]
      exact hpass1 _ _ (foldl_addSubDir_leveled false _ _ inv0).1
    · simp only [if_neg hsub]
      exact hpass1 _ _ inv0
  · simp only [if_neg hok, Option.some_bind]
    have hpass2' : ∀ {β : Type} (f : IncludeTreeState → β) (tree : List QmakeIncludedPriFile)
        (c : Prop) [Decidable c] (subDirs : List FilePath) (proToResult : List (Int × Nat)),
        IncludeTreeLeveled rank tree →
        ∃ fuel, (Option.map f
          (buildIncludedFiles input.readerCumulative.includeFiles fuel [0]
            { tree := if c then subDirs.foldl (addSubDir true) tree else tree
              proToResult := proToResult })).isSome = true := by
      intro β f tree c _ subDirs proToResult inv
      obtain ⟨fuel, h⟩ := hpass2 f tree c subDirs proToResult inv
      exact ⟨fuel, h 0⟩
    exact hpass2' _ _ _ _ _ inv0

/-! ## `QmakeProFile::evaluate`: the state of the result -/

/-- The include-file map of the example input has no loop. -/
theorem includesRanked_exampleInput :
    IncludesRanked
      (fun p => if p = exampleRoot then 3 else if p = ⟨2, 2, "b.pri"⟩ then 2
        else if p = ⟨3, 3, "c.pri"⟩ then 1 else 0)
      exampleInput.readerExact.includeFiles := by
  intro p cs hl c hc
  have hmap : exampleInput.readerExact.includeFiles =
      [(exampleRoot, [⟨2, 2, "b.pri"⟩, ⟨3, 3, "c.pri"⟩]),
        (⟨2, 2, "b.pri"⟩, [⟨3, 3, "c.pri"⟩]), (⟨3, 3, "c.pri"⟩, [⟨4, 2, "b.pri"⟩])] := rfl
  rw [hmap] at hl
  simp only [List.lookup] at hl
  split at hl
  · rename_i heq
    have hp : p = exampleRoot := by simpa using heq
    cases hl
    subst hp
    simp only [List.mem_cons, List.mem_singleton, List.not_mem_nil, or_false] at hc
    rcases hc with rfl | rfl <;> decide
  · split at hl
    · rename_i heq
      have hp : p = ⟨2, 2, "b.pri"⟩ := by simpa using heq
      cases hl
      subst hp
      simp only [List.mem_singleton] at hc
      subst hc
      decide
    · split at hl
      · rename_i heq
        have hp : p = ⟨3, 3, "c.pri"⟩ := by simpa using heq
        cases hl
        subst hp
        simp only [List.mem_singleton] at hc
        subst hc
        decide
      · cases hl

/-- C1: `QmakeProFile::evaluate` sets the result state from the two reader
passes, for every input. Every result has the state `EvalOk` when the root file
parses and the exact reader accepts it (whatever the cumulative reader does),
`EvalPartial` when the root file parses, the exact reader rejects it and the
cumulative reader accepts it, and `EvalFail` when the root file cannot be
parsed or both readers reject it; it is never `EvalAbort`. And a result is
produced: in the `EvalFail` case `evaluate` returns at once, whatever the fuel;
in the other cases it returns, from some fuel on, whenever the construction of
the included-file tree comes to its end, which it does for all include-file maps
of the two readers without a loop, that is maps for which some `rank` puts
every file above the files it includes. -/
theorem evaluate_state_from_reader_passes (fs : FileSystem) (heap : Heap)
    (input : QmakeEvalInput) :
    (∀ fuel heap' result, QmakeProFile.evaluate fuel fs heap input = some (heap', result) →
      (input.readerExact.parsedProFile.isSome = true → input.readerExact.accept = true →
        result.state = .EvalOk) ∧
      (input.readerExact.parsedProFile.isSome = true → input.readerExact.accept = false →
        input.readerCumulative.accept = true → result.state = .EvalPartial) ∧
      (input.readerExact.parsedProFile = none ∨
        (input.readerExact.accept = false ∧ input.readerCumulative.accept = false) →
        result.state = .EvalFail) ∧
      result.state ≠ .EvalAbort) ∧
    (input.readerExact.parsedProFile = none ∨
      (input.readerExact.accept = false ∧ input.readerCumulative.accept = false) →
      ∀ fuel, QmakeProFile.evaluate fuel fs heap input = some (heap, { state := .EvalFail })) ∧
    (∀ fuel0,
      (evaluateIncludedFiles fuel0 fs input { state := (evaluateState input).1 }).isSome = true →
      ∃ fuel1, ∀ fuel, fuel1 ≤ fuel →
        ∃ heap' result, QmakeProFile.evaluate fuel fs heap input = some (heap', result)) ∧
    (∀ rank : ProFile → Nat, IncludesRanked rank input.readerExact.includeFiles →
      IncludesRanked rank input.readerCumulative.includeFiles →
      ∃ fuel1, ∀ fuel, fuel1 ≤ fuel →
        ∃ heap' result, QmakeProFile.evaluate fuel fs heap input = some (heap', result)) := by
  refine ⟨?_, ?_, ?_, ?_⟩
  · intro fuel heap' result h
    rw [evaluate_state h, evaluateState_fst]
    cases hp : input.readerExact.parsedProFile <;> cases he : input.readerExact.accept <;>
      cases hc : input.readerCumulative.accept <;> simp
  · intro hfail fuel
    apply evaluate_of_evalFail
    rw [evaluateState_fst]
    rcases hfail with hp | ⟨he, hc⟩
    · rw [hp]
    · cases hp : input.readerExact.parsedProFile <;> simp [he, hc]
  · intro fuel0 h0
    exact evaluate_returns fs heap input fuel0 h0
  · intro rank hexact hcumulative
    obtain ⟨fuel0, h0⟩ := evaluateIncludedFiles_isSome rank fs input
      { state := (evaluateState input).1 } rfl hexact hcumulative
    exact evaluate_returns fs heap input fuel0 h0

/-- Witness for C1: `a.pro` of the example parses and is accepted by the exact
reader, and its include-file map has no loop; `evaluate` returns from some fuel
on, with state `EvalOk`. -/
theorem evaluate_state_from_reader_passes_witness :
    ∃ fuel1, ∀ fuel, fuel1 ≤ fuel →
      ∃ heap' result, QmakeProFile.evaluate fuel {} {} exampleInput = some (heap', result) ∧
        result.state = .EvalOk := by
  obtain ⟨hstate, _, _, hreturns⟩ := evaluate_state_from_reader_passes {} {} exampleInput
  obtain ⟨fuel1, h1⟩ := hreturns _ includesRanked_exampleInput includesRanked_exampleInput
  refine ⟨fuel1, fun fuel hfuel => ?_⟩
  obtain ⟨heap', result, h⟩ := h1 fuel hfuel
  exact ⟨heap', result, h, (hstate fuel heap' result h).1 rfl rfl⟩

/-! ## `QmakeProFile::evaluate`: the result, part by part -/

/-- A result of `evaluate` whose state is not `EvalFail`, taken apart: the
included-file tree has been built, the variable values, the wildcard
directories, the install list and the target information are those of
`evaluateValues`, and the tree of the result comes out of the loop that runs
`processValues` on the tree of `evaluateValues`. -/
theorem evaluate_decompose {fuel : Nat} {fs : FileSystem} {heap heap' : Heap}
    {input : QmakeEvalInput} {result : QmakeEvalResult}
    (h : QmakeProFile.evaluate fuel fs heap input = some (heap', result))
    (hf : (evaluateState input).1 ≠ .EvalFail) :
    ∃ r1 st,
      evaluateIncludedFiles fuel fs input { state := (evaluateState input).1 } = some (r1, st) ∧
      result.newVarValues =
        (evaluateValues fs input (evaluateState input).2.1 (evaluateState input).2.2
          r1 st).1.newVarValues ∧
      result.directoriesWithWildcards =
        (evaluateValues fs input (evaluateState input).2.1 (evaluateState input).2.2
          r1 st).1.directoriesWithWildcards ∧
      processIncludedFiles fs fuel [0]
        (evaluateValues fs input (evaluateState input).2.1 (evaluateState input).2.2 r1 st).2 =
        some result.includedFiles := by
  have hstate := evaluate_state h
  unfold QmakeProFile.evaluate at h
  simp only [hf, if_false, Option.bind_eq_some, Prod.exists] at h
  obtain ⟨r1, st, h1, h2⟩ := h
  obtain ⟨_, _, _, c4, c5⟩ := evaluateChildNodes_fields h2
  refine ⟨r1, st, h1, c4, c5, ?_⟩
  have hvs := evaluateValues_state fs input (evaluateState input).2.1 (evaluateState input).2.2
    r1 st
  have his := evaluateIncludedFiles_state h1
  have hor : (evaluateValues fs input (evaluateState input).2.1 (evaluateState input).2.2
      r1 st).1.state = .EvalOk ∨
      (evaluateValues fs input (evaluateState input).2.1 (evaluateState input).2.2
        r1 st).1.state = .EvalPartial := by
    rw [hvs, his]
    simp only
    have hne : (evaluateState input).1 ≠ .EvalAbort := by
      rw [evaluateState_fst]
      cases input.readerExact.parsedProFile <;> cases input.readerExact.accept <;>
        cases input.readerCumulative.accept <;> simp
    cases hs : (evaluateState input).1 with
    | EvalAbort => exact absurd hs hne
    | EvalFail => exact absurd hs hf
    | EvalPartial => exact Or.inr rfl
    | EvalOk => exact Or.inl rfl
  unfold evaluateChildNodes at h2
  rw [if_pos hor] at h2
  simp only [Option.bind_eq_some, Option.map_eq_some', Prod.mk.injEq] at h2
  obtain ⟨tree, htree, cs, _, _, hres⟩ := h2
  rw [htree, ← hres]

theorem evaluateOne_of_no_builds (input : QmakeEvalInput) (reader : ProFileReader)
    (cumulative : Bool) (buildPassReader : Option ProFileReader)
    (haccept : reader.accept = true) (hbuilds : reader.values "BUILDS" = []) :
    evaluateOne input reader cumulative buildPassReader = (true, some reader) := by
  unfold evaluateOne
  simp only [haccept, hbuilds, Bool.not_true, Bool.false_eq_true, if_false]

/-- C24 (amended): an `INSTALLS` item without exactly one `.path` value is no
error of the evaluation. No entry is added to the error list for it: the errors
of a result of `evaluate` are empty or those that `subDirsPaths` reports for the
`SUBDIRS` entries. Whenever the exact pass has left a build-pass reader, which
is the exact reader itself when it accepts the parsed file and `BUILDS` is
empty, the install list of the result is computed from that reader: an item
without a `.path` value is skipped, an item with several values is recorded
under the last of them, and every other item is still evaluated, so the items
of the result's install list are the entries of all the `INSTALLS` values other
than `target` that have a path, in their order. Such a result is produced
whenever the construction of the included-file tree comes to its end, which it
does for all include-file maps of the two readers without a loop. -/
theorem installsList_skips_item_without_path (fs : FileSystem) (input : QmakeEvalInput) :
    (∀ (reader : ProFileReader) projectDir buildDir valuesOfVars result item,
      reader.values (item ++ ".path") = [] →
      installsListItem reader projectDir buildDir valuesOfVars result item = result) ∧
    (∀ fuel heap heap' result reader,
      QmakeProFile.evaluate fuel fs heap input = some (heap', result) →
      (evaluateState input).2.1 = some reader →
      result.installsList.items =
        (reader.values "INSTALLS").filterMap
          (installsListEntry reader input.projectDir input.buildDirectory
            (["QT_INSTALL_PREFIX", "QT_INSTALL_EXAMPLES"].map fun name =>
              (reader.propertyValue name, reader.propertyValue (name ++ "/dev"))))) ∧
    (input.readerExact.parsedProFile.isSome = true → input.readerExact.accept = true →
      input.readerExact.values "BUILDS" = [] →
      (evaluateState input).2.1 = some input.readerExact) ∧
    (∀ fuel heap heap' result,
      QmakeProFile.evaluate fuel fs heap input = some (heap', result) →
        result.errors = [] ∨
        result.errors =
          (subDirsPaths fs input.readerExact input.projectDir (some []) (some [])).2.2.getD []) ∧
    (∀ heap fuel0,
      (evaluateIncludedFiles fuel0 fs input { state := (evaluateState input).1 }).isSome = true →
      ∃ fuel1, ∀ fuel, fuel1 ≤ fuel →
        ∃ heap' result, QmakeProFile.evaluate fuel fs heap input = some (heap', result)) ∧
    (∀ heap (rank : ProFile → Nat), IncludesRanked rank input.readerExact.includeFiles →
      IncludesRanked rank input.readerCumulative.includeFiles →
      ∃ fuel1, ∀ fuel, fuel1 ≤ fuel →
        ∃ heap' result, QmakeProFile.evaluate fuel fs heap input = some (heap', result)) := by
  refine ⟨?_, ?_, ?_, ?_, ?_, ?_⟩
  · intro reader projectDir buildDir valuesOfVars result item hp
    unfold installsListItem
    simp [hp]
  · intro fuel heap heap' result reader h hreader
    have hf : (evaluateState input).1 ≠ .EvalFail := by
      intro hfail
      rw [evaluateState_exactBuildPassReader] at hreader
      rw [evaluateState_fst] at hfail
      cases hp : input.readerExact.parsedProFile with
      | none => rw [hp] at hreader; cases hreader
      | some _ =>
        rw [hp] at hreader hfail
        simp only at hreader hfail
        cases ha : input.readerExact.accept with
        | false =>
          rw [evaluateOne_of_not_accept input input.readerExact false ha] at hreader
          cases hreader
        | true => rw [ha] at hfail; cases hfail
    rw [(evaluate_fields h hf).1, hreader]
    unfold installsList
    simp only
    split
    · rename_i he
      rw [List.isEmpty_iff] at he
      rw [he]
      rfl
    · rw [foldl_installsListItem_items]
      rfl
  · intro hpro haccept hbuilds
    rw [evaluateState_exactBuildPassReader]
    cases hp : input.readerExact.parsedProFile with
    | none => rw [hp] at hpro; cases hpro
    | some _ =>
      simp only
      rw [evaluateOne_of_no_builds input input.readerExact false none haccept hbuilds]
  · intro fuel heap heap' result h
    by_cases hf : (evaluateState input).1 = .EvalFail
    · rw [evaluate_of_evalFail fuel fs heap input hf] at h
      simp only [Option.some.injEq, Prod.mk.injEq] at h
      rw [← h.2]
      exact Or.inl rfl
    · exact (evaluate_fields h hf).2.2
  · intro heap fuel0 h0
    exact evaluate_returns fs heap input fuel0 h0
  · intro heap rank hexact hcumulative
    obtain ⟨fuel0, h0⟩ := evaluateIncludedFiles_isSome rank fs input
      { state := (evaluateState input).1 } rfl hexact hcumulative
    exact evaluate_returns fs heap input fuel0 h0

/-- Witness for C24 (amended): `a.pro` with `INSTALLS = docs extra data`, where
`docs` has no path and `extra` has two. -/
theorem installsList_skips_item_without_path_witness :
    ∃ heap' result,
      QmakeProFile.evaluate 5 {} {} installsInput = some (heap', result) ∧
      (evaluateState installsInput).2.1 = some installsInput.readerExact ∧
      result.installsList.items =
        (installsInput.readerExact.values "INSTALLS").filterMap
          (installsListEntry installsInput.readerExact installsInput.projectDir
            installsInput.buildDirectory
            (["QT_INSTALL_PREFIX", "QT_INSTALL_EXAMPLES"].map fun name =>
              (installsInput.readerExact.propertyValue name,
                installsInput.readerExact.propertyValue (name ++ "/dev")))) ∧
      result.installsList.items.length = 2 := by
  have hsome : ((QmakeProFile.evaluate 5 {} {} installsInput).map fun hr =>
      decide (hr.2.installsList.items.length = 2)) = some true := by decide
  obtain ⟨⟨heap', result⟩, h, hv⟩ := Option.map_eq_some'.1 hsome
  have hc := installsList_skips_item_without_path {} installsInput
  have hreader := hc.2.2.1 rfl rfl rfl
  exact ⟨heap', result, h, hreader, hc.2.1 5 {} heap' result _ h hreader, of_decide_eq_true hv⟩

/-! ## A build pass that is not accepted: what falls back -/

theorem evaluateValues_of_null_build_pass (fs : FileSystem) (input : QmakeEvalInput)
    (cumulativeBuildPassReader : Option ProFileReader) (result : QmakeEvalResult)
    (st : IncludeTreeState) :
    (evaluateValues fs input none cumulativeBuildPassReader result st).1.newVarValues =
      (evaluateValues fs input (some input.readerExact) cumulativeBuildPassReader
        result st).1.newVarValues ∧
    (evaluateValues fs input none cumulativeBuildPassReader
        result st).1.directoriesWithWildcards =
      (evaluateValues fs input (some input.readerExact) cumulativeBuildPassReader
        result st).1.directoriesWithWildcards ∧
    ∀ i type,
      (treeNode (evaluateValues fs input none cumulativeBuildPassReader result st).2
          i).result.foundFilesExact type =
        (treeNode (evaluateValues fs input (some input.readerExact) cumulativeBuildPassReader
          result st).2 i).result.foundFilesExact type ∧
      (treeNode (evaluateValues fs input none cumulativeBuildPassReader result st).2
          i).result.foundFilesCumulative type =
        (treeNode (evaluateValues fs input (some input.readerExact) cumulativeBuildPassReader
          result st).2 i).result.foundFilesCumulative type := by
  refine ⟨?_, ?_, ?_⟩
  · unfold evaluateValues
    simp only [Option.getD_none, Option.getD_some]
    split <;> rfl
  · unfold evaluateValues
    simp only [Option.getD_none, Option.getD_some]
    split <;> rfl
  · intro i type
    unfold evaluateValues
    simp only [Option.getD_none, Option.getD_some]
    have h1 := (extractInstalls_proj
      (fun n : QmakeIncludedPriFile => (n.result.foundFilesExact, n.result.foundFilesCumulative))
      (fun _ _ => rfl) fs.fromUserInput input.qmakeGlobals.device_root
      st.proToResult (installsList none input.projectDir input.buildDirectory)
      (FileType.all.foldl
        (fun (ex : ExtractState) type =>
          (varNames type input.readerExact).foldl
            (extractVariable fs input result.state input.readerExact
              (cumulativeBuildPassReader.getD input.readerCumulative)
              (baseVPaths (some input.readerExact) input.projectDir input.buildDirectory)
              (baseVPaths (some (cumulativeBuildPassReader.getD input.readerCumulative))
                input.projectDir input.buildDirectory)
              st.proToResult type)
            ex)
        { tree := st.tree, directoriesWithWildcards := result.directoriesWithWildcards }).tree).2 i
    have h2 := (extractInstalls_proj
      (fun n : QmakeIncludedPriFile => (n.result.foundFilesExact, n.result.foundFilesCumulative))
      (fun _ _ => rfl) fs.fromUserInput input.qmakeGlobals.device_root
      st.proToResult (installsList (some input.readerExact) input.projectDir
        input.buildDirectory)
      (FileType.all.foldl
        (fun (ex : ExtractState) type =>
          (varNames type input.readerExact).foldl
            (extractVariable fs input result.state input.readerExact
              (cumulativeBuildPassReader.getD input.readerCumulative)
              (baseVPaths (some input.readerExact) input.projectDir input.buildDirectory)
              (baseVPaths (some (cumulativeBuildPassReader.getD input.readerCumulative))
                input.projectDir input.buildDirectory)
              st.proToResult type)
            ex)
        { tree := st.tree, directoriesWithWildcards := result.directoriesWithWildcards }).tree).2 i
    simp only [Prod.mk.injEq] at h1 h2
    exact ⟨(congrFun h1.1 type).trans (congrFun h2.1 type).symm,
      (congrFun h1.2 type).trans (congrFun h2.2 type).symm⟩

/-- C23 (amended): a build pass that is not accepted. When the exact reader
accepts the parsed file, declares `BUILDS`, and the reader made for the build
pass does not accept the file, `evaluateOne` leaves the build-pass reader null
and the state is `EvalOk`. In every result of `evaluate` on such an input, the
variable values and the wildcard directories are those computed from the outer
exact reader, and so are the source files found for the qmake variables of each
file type: the tree of the result comes out of the loop that runs
`processValues` on a tree whose found-file sets are, for every entry and type,
the ones computed from the outer exact reader. Computed from the outer exact
reader means: as they are computed when that reader itself is the build-pass
reader, which is the case when `BUILDS` is empty. The target information is not
computed: `targetInformation` returns its default, which is not valid, when the
build-pass reader is null. Such a result is produced whenever the construction
of the included-file tree comes to its end, which it does for all include-file
maps of the two readers without a loop. -/
theorem evaluate_rejected_build_pass (fs : FileSystem) (input : QmakeEvalInput)
    (build : String) (rest : List String)
    (hpro : input.readerExact.parsedProFile.isSome = true)
    (haccept : input.readerExact.accept = true)
    (hbuilds : input.readerExact.values "BUILDS" = build :: rest)
    (hreject : (input.qmakeGlobals.newReader input.buildDirectory false
      [("BUILD_PASS", [build]),
        ("BUILD_NAME",
          if (input.readerExact.values (build ++ ".name")).isEmpty then [build]
          else input.readerExact.values (build ++ ".name"))]
      (input.readerExact.values (build ++ ".CONFIG") ++ [build] ++ ["build_pass"] ++
        ["qtc_run"])).accept = false) :
    (evaluateState input).1 = .EvalOk ∧ (evaluateState input).2.1 = none ∧
    (∀ fuel heap heap' result,
      QmakeProFile.evaluate fuel fs heap input = some (heap', result) →
        result.state = .EvalOk ∧ result.targetInformation = {} ∧
        result.targetInformation.valid = false ∧
        ∃ r1 st,
          evaluateIncludedFiles fuel fs input { state := .EvalOk } = some (r1, st) ∧
          result.newVarValues =
            (evaluateValues fs input (some input.readerExact) (evaluateState input).2.2
              r1 st).1.newVarValues ∧
          result.directoriesWithWildcards =
            (evaluateValues fs input (some input.readerExact) (evaluateState input).2.2
              r1 st).1.directoriesWithWildcards ∧
          processIncludedFiles fs fuel [0]
            (evaluateValues fs input none (evaluateState input).2.2 r1 st).2 =
            some result.includedFiles ∧
          ∀ i type,
            (treeNode (evaluateValues fs input none (evaluateState input).2.2 r1 st).2
                i).result.foundFilesExact type =
              (treeNode (evaluateValues fs input (some input.readerExact)
                (evaluateState input).2.2 r1 st).2 i).result.foundFilesExact type ∧
            (treeNode (evaluateValues fs input none (evaluateState input).2.2 r1 st).2
                i).result.foundFilesCumulative type =
              (treeNode (evaluateValues fs input (some input.readerExact)
                (evaluateState input).2.2 r1 st).2 i).result.foundFilesCumulative type) ∧
    (∀ heap fuel0,
      (evaluateIncludedFiles fuel0 fs input { state := .EvalOk }).isSome = true →
      ∃ fuel1, ∀ fuel, fuel1 ≤ fuel →
        ∃ heap' result, QmakeProFile.evaluate fuel fs heap input = some (heap', result)) ∧
    (∀ heap (rank : ProFile → Nat), IncludesRanked rank input.readerExact.includeFiles →
      IncludesRanked rank input.readerCumulative.includeFiles →
      ∃ fuel1, ∀ fuel, fuel1 ≤ fuel →
        ∃ heap' result, QmakeProFile.evaluate fuel fs heap input = some (heap', result)) := by
  have hstate : (evaluateState input).1 = .EvalOk := by
    rw [evaluateState_fst]
    cases hp : input.readerExact.parsedProFile with
    | none => rw [hp] at hpro; cases hpro
    | some _ => simp [haccept]
  have hreader : (evaluateState input).2.1 = none := by
    rw [evaluateState_exactBuildPassReader]
    cases hp : input.readerExact.parsedProFile with
    | none => rfl
    | some _ =>
      simp only
      rw [evaluateOne_of_rejected_build_pass input input.readerExact false build rest haccept
        hbuilds hreject]
  have hf : (evaluateState input).1 ≠ .EvalFail := by rw [hstate]; exact fun hc => by cases hc
  refine ⟨hstate, hreader, ?_, ?_, ?_⟩
  · intro fuel heap heap' result h
    have hti := (evaluate_fields h hf).2.1
    rw [hstate, if_pos rfl, hreader] at hti
    have hstate' := evaluate_state h
    rw [hstate] at hstate'
    obtain ⟨r1, st, d1, d2, d3, d4⟩ := evaluate_decompose h hf
    rw [hstate] at d1
    rw [hreader] at d2 d3 d4
    obtain ⟨v1, v2, v3⟩ := evaluateValues_of_null_build_pass fs input (evaluateState input).2.2
      r1 st
    refine ⟨hstate', ?_, ?_, r1, st, d1, d2.trans v1, d3.trans v2, d4, v3⟩
    · rw [hti]; rfl
    · rw [hti]; rfl
  · intro heap fuel0 h0
    rw [← hstate] at h0
    exact evaluate_returns fs heap input fuel0 h0
  · intro heap rank hexact hcumulative
    obtain ⟨fuel0, h0⟩ := evaluateIncludedFiles_isSome rank fs input
      { state := (evaluateState input).1 } rfl hexact hcumulative
    exact evaluate_returns fs heap input fuel0 h0

/-- Witness for C23 (amended): `a.pro` with `TARGET = app` and `BUILDS = debug`,
where the reader of the build pass accepts no file. -/
theorem evaluate_rejected_build_pass_witness :
    ∃ heap' result,
      QmakeProFile.evaluate 5 {} {} (buildsInput ["debug"]) = some (heap', result) ∧
      (buildsInput ["debug"]).readerExact.values "BUILDS" = ["debug"] ∧
      (evaluateState (buildsInput ["debug"])).2.1 = none ∧
      result.state = .EvalOk ∧ result.targetInformation = {} := by
  have hsome : (QmakeProFile.evaluate 5 {} {} (buildsInput ["debug"])).isSome = true := by
    decide
  obtain ⟨⟨heap', result⟩, h⟩ := Option.isSome_iff_exists.1 hsome
  have hc := evaluate_rejected_build_pass {} (buildsInput ["debug"]) "debug" [] rfl rfl rfl rfl
  have hr := hc.2.2.1 5 {} heap' result h
  exact ⟨heap', result, h, rfl, hc.2.1, hr.1, hr.2.1⟩

end Qmake
